import Mathlib

/-!
# vue-ast-editor: a shallow embedding

A verification development for the single-file-component editor of
`src/src/VueAstEditor.js` and its helpers:

* `htmlrender.js`    : the markup serializer (`render`, `html`, `attrs`, ...);
* `RenameAttrInHtml.js`: the markup side of a rename;
* `RenameThisAttr.js`: the script side of a rename;
* `VueAstEditor.js`, `node-utils.js`, `utils.js`: the option registry.

Text is `String`; every function on text is structurally recursive over the
list of characters, so that all definitions evaluate in the kernel.
Operations that can throw in the source return `Option` (`none` = thrown).
-/

namespace VueAstEditor

/-! ## Text helpers -/

/-- The text `' '.repeat(n)`. -/
def spaces (n : Nat) : String := String.mk (List.replicate n ' ')

/-- The characters of `s.replace(/"/g, '&quot;')`. -/
def escapeQuotesChars : List Char → List Char
  | [] => []
  | c :: cs => if c = '"' then '&' :: 'q' :: 'u' :: 'o' :: 't' :: ';' :: escapeQuotesChars cs
               else c :: escapeQuotesChars cs

/-- The text `s.replace(/"/g, '&quot;')` of `attrs` in `htmlrender.js`. -/
def escapeQuotes (s : String) : String := String.mk (escapeQuotesChars s.data)

/-- The value of `result.split('\n').slice(-1)[0].length`: the length of the
text after the last line break of `result` (of all of it if there is none). -/
def lastLineLength (result : String) : Nat :=
  (result.data.reverse.takeWhile (fun c => c != '\n')).length

/-! ## The markup tree (posthtml tree format) -/

/-- The value of one markup attribute, as `attrs` in `htmlrender.js`
distinguishes it: a string, the boolean `true`, a number, or anything else
(`undefined`, `false`, `null`, an object). -/
inductive AttrVal where
  | str (s : String)
  | yes
  | num (n : Nat)
  | other
  deriving Repr, DecidableEq

/-- The `tag` field of a markup node: a string, the sentinel `false`
("serialize children only"), or no tag at all (`undefined`). -/
inductive Tag where
  | name (s : String)
  | skip
  | missing
  deriving Repr, DecidableEq

/-- An attribute map `node.attrs`, in key order. -/
abbrev Attrs := List (String × AttrVal)

/-- An item of a markup tree: literal text, a number, an empty item
(`undefined`, `null`, `false`, `NaN`), a nested array of items, or an element
node `{ tag, attrs, content }` whose `attrs` and `content` may be absent. -/
inductive HNode where
  | text (s : String)
  | number (n : Nat)
  | empty
  | list (items : List HNode)
  | element (tag : Tag) (attrs : Option Attrs) (content : Option (List HNode))
  deriving Repr

/-! ## `htmlrender.js` -/

/-- The function `isVueTag`: `tag.includes('-') || tag.match(/[A-Z]/)`. -/
def isVueTag (tag : String) : Bool :=
  tag.data.contains '-' || tag.data.any Char.isUpper

/-- The function `hasNoContent`:
`!(Array.isArray(content) && content.length > 0)`. -/
def hasNoContent : Option (List HNode) → Bool
  | none => true
  | some items => !(decide (items.length > 0))

/-- The function `shouldSelfClose(node)`; it reads `node.tag`, and throws when
the node has no tag. -/
def shouldSelfClose (tag : Tag) (content : Option (List HNode)) : Option Bool :=
  match tag with
  | .name s => some (isVueTag s && hasNoContent content)
  | .skip => none
  | .missing => none

/-- The catalog `SINGLE_TAGS` of void elements. -/
def SINGLE_TAGS : List String :=
  ["area", "base", "br", "col", "command", "embed", "hr", "img", "input",
   "keygen", "link", "menuitem", "meta", "param", "source", "track", "wbr",
   "import", "include", "extend"]

/-- An entry of `options.singleTags`: a tag name or a regular expression,
given by its `test` function. -/
inductive SingleTag where
  | name (s : String)
  | regExp (test : String → Bool)

/-- The values of `options.closingSingleTag` that `html` distinguishes. -/
inductive ClosingSingleTag where
  | tag
  | slash
  | default
  deriving Repr, DecidableEq

/-- The `options` of `render`. -/
structure Options where
  singleTags : List SingleTag
  closingSingleTag : ClosingSingleTag

/-- The options with which `VueAstEditor.js` has posthtml call `render`:
`{ recognizeSelfClosing: true, closingSingleTag: 'slash', render }`. -/
def editorOptions : Options := { singleTags := [], closingSingleTag := .slash }

/-- The list `singleRegExp`: the regular expressions among the single tags. -/
def singleRegExp : List SingleTag → List (String → Bool)
  | [] => []
  | .name _ :: rest => singleRegExp rest
  | .regExp test :: rest => test :: singleRegExp rest

/-- The names among a list of single tags. -/
def singleNames : List SingleTag → List String
  | [] => []
  | .name s :: rest => s :: singleNames rest
  | .regExp _ :: rest => singleNames rest

/-- The function `isSingleTag` of `render`: with any regular expression among
the single tags the loop returns in its first iteration; otherwise the tag is
looked up in `SINGLE_TAGS.concat(options.singleTags)`. -/
def isSingleTag (opts : Options) (tag : String) : Bool :=
  match singleRegExp opts.singleTags with
  | test :: _ => test tag
  | [] => (SINGLE_TAGS ++ singleNames opts.singleTags).contains tag

/-- What the loop body of `attrs` adds for one key. -/
def attrText (spacing : String) : String × AttrVal → String
  | (key, .str v) => spacing ++ key ++ "=\"" ++ escapeQuotes v ++ "\""
  | (key, .yes) => spacing ++ key
  | (key, .num n) => spacing ++ key ++ "=\"" ++ toString n ++ "\""
  | (_, .other) => ""

/-- The loop `for (var key in obj)` of `attrs`, from the accumulator `attr`. -/
def attrsLoop (spacing : String) (attr : String) : Attrs → String
  | [] => attr
  | kv :: rest => attrsLoop spacing (attr ++ attrText spacing kv) rest

/-- The function `attrs(obj, padding)` of `render`. -/
def attrs (obj : Attrs) (padding : Nat) : String :=
  let hasMultipleKeys := decide (obj.length > 1)
  let spacing := if hasMultipleKeys then "\n" ++ spaces (padding + 4) else " "
  let attr := attrsLoop spacing "" obj
  if hasMultipleKeys then attr ++ "\n" ++ spaces padding else attr

/-- The text that closes the opening tag of a self-closing node. -/
def closingText (opts : Options) (tag : String) : String :=
  match opts.closingSingleTag with
  | .tag => "></" ++ tag ++ ">"
  | .slash => " />"
  | .default => ">"

/-- The name `node.tag || 'div'`. -/
def tagOrDiv : Tag → String
  | .name s => if s = "" then "div" else s
  | .skip => "div"
  | .missing => "div"

mutual
/-- The callback of `traverse` in `html`: `htmlNode opts result node` is the
value of `result` after the callback has run on `node`. -/
def htmlNode (opts : Options) (result : String) : HNode → Option String
  | .empty => some result
  | .text s => if s.length = 0 then some result else some (result ++ s)
  | .number n => some (result ++ toString n)
  | .list items =>
      if items.length = 0 then some result
      else (htmlList opts "" items).map (fun inner => result ++ inner)
  | .element .skip _ content =>
      (htmlContent opts content).map (fun inner => result ++ inner)
  | .element tag attrs? content =>
      let name := tagOrDiv tag
      let width := lastLineLength result
      let opened := result ++ "<" ++ name
      let withAttrs := match attrs? with
        | some obj => opened ++ attrs obj width
        | none => opened
      let single : Option Bool :=
        if isSingleTag opts name then some true else shouldSelfClose tag content
      match single with
      | none => none
      | some true =>
          (htmlContent opts content).map
            (fun inner => withAttrs ++ closingText opts name ++ inner)
      | some false =>
          (htmlContent opts content).map
            (fun inner => withAttrs ++ ">" ++ inner ++ "</" ++ name ++ ">")
/-- The call `html(node.content)`: an absent content is the one-item tree
`[undefined]`, which renders as the empty text. -/
def htmlContent (opts : Options) : Option (List HNode) → Option String
  | none => some ""
  | some items => htmlList opts "" items
/-- The loop of `traverse` over an array of items. -/
def htmlList (opts : Options) (result : String) : List HNode → Option String
  | [] => some result
  | node :: rest =>
      match htmlNode opts result node with
      | none => none
      | some r => htmlList opts r rest
end

/-- The function `html(tree)`: a tree that is not an array is wrapped in one. -/
def html (opts : Options) : HNode → Option String
  | .list items => htmlList opts "" items
  | node => htmlList opts "" [node]

/-- The exported function `render(tree, options)`. -/
def render (tree : HNode) (opts : Options) : Option String := html opts tree


/-! ## The script tree (ESTree, as jscodeshift and ast-types present it) -/

/-- A primitive field of a script node. -/
inductive Prim where
  | str (s : String)
  | num (n : Nat)
  | bool (b : Bool)
  | null
  deriving Repr, DecidableEq

/-- A node of the script tree: its `type`, its primitive fields (`attrs`) and
its child fields (`kids`), each in field order. An array-valued field is a
child of type `"[]"` whose own children are the array's elements; this is how
ast-types gives an array a path of its own. -/
inductive Node where
  | mk (type : String) (attrs : List (String × Prim)) (kids : List (String × Node))
  deriving Repr

mutual
/-- Decidable equality of script nodes. -/
def Node.decEq : (a b : Node) → Decidable (a = b)
  | .mk t a kids, .mk t' a' kids' =>
      if ht : t = t' then
        if ha : a = a' then
          match Node.decEqKids kids kids' with
          | isTrue hk => isTrue (by subst ht; subst ha; subst hk; rfl)
          | isFalse hk => isFalse (by intro h; injection h with _ _ h3; exact hk h3)
        else isFalse (by intro h; injection h with _ h2 _; exact ha h2)
      else isFalse (by intro h; injection h with h1 _ _; exact ht h1)
/-- Decidable equality of child lists. -/
def Node.decEqKids : (a b : List (String × Node)) → Decidable (a = b)
  | [], [] => isTrue rfl
  | [], _ :: _ => isFalse (by intro h; cases h)
  | _ :: _, [] => isFalse (by intro h; cases h)
  | (l, k) :: rest, (l', k') :: rest' =>
      if hl : l = l' then
        match Node.decEq k k' with
        | isTrue hk =>
            match Node.decEqKids rest rest' with
            | isTrue hr => isTrue (by subst hl; subst hk; subst hr; rfl)
            | isFalse hr => isFalse (by intro h; injection h with _ h2; exact hr h2)
        | isFalse hk =>
            isFalse (by intro h; injection h with h1 _; injection h1 with _ h3; exact hk h3)
      else isFalse (by intro h; injection h with h1 _; injection h1 with h3 _; exact hl h3)
end

instance : DecidableEq Node := Node.decEq

namespace Node

/-- The field `node.type`. -/
def type : Node → String
  | .mk t _ _ => t

/-- The primitive fields of a node. -/
def attrs : Node → List (String × Prim)
  | .mk _ a _ => a

/-- The child fields of a node. -/
def kids : Node → List (String × Node)
  | .mk _ _ k => k

/-- The primitive field `node[field]`; `none` when it is undefined. -/
def attr (n : Node) (field : String) : Option Prim := n.attrs.lookup field

/-- The child field `node[field]`; `none` when it is undefined. -/
def kid (n : Node) (field : String) : Option Node := n.kids.lookup field

end Node

/-- The assignment `fields[field] = value` on an ordered field list: an
existing field keeps its place, a new one goes last. -/
def setField {α : Type} (field : String) (value : α) : List (String × α) → List (String × α)
  | [] => [(field, value)]
  | (l, v) :: rest =>
      if l == field then (l, value) :: rest else (l, v) :: setField field value rest

namespace Node

/-- The assignment `node[field] = value` of a primitive field. -/
def setAttr (n : Node) (field : String) (value : Prim) : Node :=
  .mk n.type (setField field value n.attrs) n.kids

/-- The replacement of the child field `node[field]`. -/
def setKid (n : Node) (field : String) (value : Node) : Node :=
  .mk n.type n.attrs (setField field value n.kids)

end Node

/-- An array of nodes, as the value of an array-valued field. -/
def array (elems : List Node) : Node := .mk "[]" [] (elems.map (fun e => ("", e)))

/-- The builder `j.identifier(name)`. -/
def identifier (name : String) : Node := .mk "Identifier" [("name", .str name)] []

/-- The builder `j.literal(value)`. -/
def literal (value : Prim) : Node := .mk "Literal" [("value", value)] []

/-- The node of the expression `this`. -/
def thisExpression : Node := .mk "ThisExpression" [] []

/-- The builder `j.property(kind, key, value)`. -/
def property (kind : String) (key value : Node) : Node :=
  .mk "Property"
    [("kind", .str kind), ("method", .bool false), ("shorthand", .bool false),
     ("computed", .bool false)]
    [("key", key), ("value", value)]

/-- The builder `j.objectExpression(properties)`. -/
def objectExpression (properties : List Node) : Node :=
  .mk "ObjectExpression" [] [("properties", array properties)]

/-- The builder `j.arrayExpression(elements)`. -/
def arrayExpression (elements : List Node) : Node :=
  .mk "ArrayExpression" [] [("elements", array elements)]

/-- The builder `j.blockStatement(body)`. -/
def blockStatement (body : List Node) : Node :=
  .mk "BlockStatement" [] [("body", array body)]

/-- The builder `j.returnStatement(argument)`. -/
def returnStatement (argument : Node) : Node :=
  .mk "ReturnStatement" [] [("argument", argument)]

/-- The builder `j.functionExpression(null, params, body)`. -/
def functionExpression (params : List Node) (body : Node) : Node :=
  .mk "FunctionExpression" [("id", .null)] [("params", array params), ("body", body)]

/-- The function `assocIn(modified, toAdd)` of `utils.js` on a node. -/
def assocIn (modified : Node) (toAdd : List (String × Prim)) : Node :=
  toAdd.foldl (fun node kv => node.setAttr kv.1 kv.2) modified

/-- The function `objProp(key, value, overrides)` of `node-utils.js`, for a
value that is a node already (`parseJSValue` returns it as it is). -/
def objProp (key : String) (value : Node) (overrides : List (String × Prim)) : Node :=
  assocIn (property "init" (identifier key) value) overrides

/-- The function `object()` of `node-utils.js` without an argument. -/
def object : Node := objectExpression []

/-- The comparison `v == name` of a field with a string. Two strings are equal
when they are the same; `undefined` and `null` equal no string; a number or
boolean is compared as a number, modelled here on decimal numerals. -/
def looseEqString : Option Prim → String → Bool
  | some (.str s), name => s == name
  | some (.num n), name => toString n == name
  | some (.bool b), name => (if b then "1" else "0") == name
  | some .null, _ => false
  | none, _ => false

/-! ### Traversals: `find(...).map(callback)` -/

mutual
/-- One pass of `collection.find(type, filter).map(callback)` over a subtree:
`f` is the callback guarded by the type and the filter, run at every node.
Every callback of this program replaces only children of the node it visits,
so the pass is taken bottom-up; a callback that throws (`none`) ends it. -/
def visitNode (f : Node → Option Node) : Node → Option Node
  | .mk t a kids =>
      match visitKids f kids with
      | none => none
      | some kids' => f (.mk t a kids')
/-- The pass `visitNode` over the children of a node. -/
def visitKids (f : Node → Option Node) : List (String × Node) → Option (List (String × Node))
  | [] => some []
  | (l, k) :: rest =>
      match visitNode f k with
      | none => none
      | some k' =>
          match visitKids f rest with
          | none => none
          | some rest' => some ((l, k') :: rest')
end

/-- The pass from the root of a collection: `find` looks at the descendants of
the root, never at the root itself. -/
def visitBelow (f : Node → Option Node) : Node → Option Node
  | .mk t a kids => (visitKids f kids).map (fun kids' => .mk t a kids')

/-! ### `RenameThisAttr.js` -/

/-- The filter `{ object: { type: 'ThisExpression' } }` on member expressions. -/
def isThisMember (node : Node) : Bool :=
  node.type == "MemberExpression" &&
    (match node.kid "object" with
     | some obj => obj.type == "ThisExpression"
     | none => false)

/-- The callback of `renameMemberExpressions`. -/
def renameMemberCallback (name newName : String) (node : Node) : Option Node :=
  if isThisMember node then
    match node.kid "property" with
    | none => none
    | some prop =>
        let node1 := if looseEqString (prop.attr "value") name
          then node.setKid "property" (literal (.str newName)) else node
        let node2 := if looseEqString (prop.attr "name") name
          then node1.setKid "property" (identifier newName) else node1
        some node2
  else some node

/-- The function `renameMemberExpressions(jSrc, name, newName)`. -/
def renameMemberExpressions (jSrc : Node) (name newName : String) : Option Node :=
  visitBelow (renameMemberCallback name newName) jSrc

/-- The filter `{ init: { type: 'ThisExpression' } }` on variable declarators. -/
def isThisDeclarator (node : Node) : Bool :=
  node.type == "VariableDeclarator" &&
    (match node.kid "init" with
     | some init => init.type == "ThisExpression"
     | none => false)

/-- One step of the `forEach` of `renameVariableDestructurings`: reading
`prop.key.name` throws when `prop` has no key. -/
def renameDestructuredProp (name newName : String) (prop : Node) : Option Node :=
  match prop.kid "key" with
  | none => none
  | some key =>
      if looseEqString (key.attr "name") name then
        match prop.kid "value" with
        | none => none
        | some value => some (property "init" (identifier newName) value)
      else some prop

/-- The `forEach` of `renameVariableDestructurings` over the pattern's
properties. -/
def renameDestructuredProps (name newName : String) :
    List (String × Node) → Option (List (String × Node))
  | [] => some []
  | (l, prop) :: rest =>
      match renameDestructuredProp name newName prop with
      | none => none
      | some prop' =>
          match renameDestructuredProps name newName rest with
          | none => none
          | some rest' => some ((l, prop') :: rest')

/-- The callback of `renameVariableDestructurings`: `path.get('id',
'properties').value.forEach(...)` throws unless the declared `id` has an array
of properties. -/
def renameDeclaratorCallback (name newName : String) (node : Node) : Option Node :=
  if isThisDeclarator node then
    match node.kid "id" with
    | none => none
    | some id =>
        match id.kid "properties" with
        | none => none
        | some props =>
            if props.type == "[]" then
              match renameDestructuredProps name newName props.kids with
              | none => none
              | some kids' =>
                  some (node.setKid "id" (id.setKid "properties" (.mk "[]" props.attrs kids')))
            else none
  else some node

/-- The function `renameVariableDestructurings(jSrc, name, newName)`. -/
def renameVariableDestructurings (jSrc : Node) (name newName : String) : Option Node :=
  visitBelow (renameDeclaratorCallback name newName) jSrc

/-- The exported function `renameThisAttr(jSrc, name, newName)`. -/
def renameThisAttr (jSrc : Node) (name newName : String) : Option Node :=
  match renameMemberExpressions jSrc name newName with
  | none => none
  | some jSrc1 => renameVariableDestructurings jSrc1 name newName

/-! ### `RenameAttrInHtml.js` -/

/-- The filter `{ name }` on identifiers. -/
def isIdentifierNamed (name : String) (node : Node) : Bool :=
  node.type == "Identifier" && node.attr "name" == some (.str name)

mutual
/-- The replacement that `replaceIdentifiers` makes in a subtree: a matching
identifier becomes `j.identifier(newName)`, any other node keeps its fields
and has its children rewritten. -/
def replaceIdentifiersNode (name newName : String) : Node → Node
  | .mk t a kids =>
      if isIdentifierNamed name (.mk t a kids) then identifier newName
      else .mk t a (replaceIdentifiersKids name newName kids)
/-- The replacement `replaceIdentifiersNode` in the children of a node. -/
def replaceIdentifiersKids (name newName : String) : List (String × Node) → List (String × Node)
  | [] => []
  | (l, k) :: rest =>
      (l, replaceIdentifiersNode name newName k) :: replaceIdentifiersKids name newName rest
end

/-- The function `replaceIdentifiers(jsrc, name, newName)`:
`jsrc.find(j.Identifier, { name })` looks below the root of `jsrc`. -/
def replaceIdentifiers (jsrc : Node) (name newName : String) : Node :=
  match jsrc with
  | .mk t a kids => .mk t a (replaceIdentifiersKids name newName kids)

/-! ### Paths and collections (jscodeshift `Collection`) -/

/-- The place of a node in a tree: the positions of the children to follow
from the root. A collection is a list of paths. -/
abbrev Path := List Nat

/-- The node at a path. -/
def getAt : Node → Path → Option Node
  | node, [] => some node
  | .mk _ _ kids, i :: rest =>
      match kids[i]? with
      | some (_, k) => getAt k rest
      | none => none

/-- The position of the child field `field` among the children of a node. -/
def kidIndex (node : Node) (field : String) : Option Nat :=
  let i := node.kids.findIdx (fun lk => lk.1 == field)
  if i < node.kids.length then some i else none

/-- The path `path.get(field)` of a child field. -/
def getField (root : Node) (path : Path) (field : String) : Option Path :=
  match getAt root path with
  | none => none
  | some node => (kidIndex node field).map (fun i => path ++ [i])

mutual
/-- The paths below and at `here` whose node has the given type and passes the
filter, in the order of a pre-order traversal. -/
def findFrom (type : String) (filter : Node → Bool) (here : Path) : Node → List Path
  | .mk t a kids =>
      (if t == type && filter (.mk t a kids) then [here] else [])
        ++ findKids type filter here 0 kids
/-- The matching paths in the children of the node at `here`, from child `i`. -/
def findKids (type : String) (filter : Node → Bool) (here : Path) (i : Nat) :
    List (String × Node) → List Path
  | [] => []
  | (_, k) :: rest =>
      findFrom type filter (here ++ [i]) k ++ findKids type filter here (i + 1) rest
end

/-- The paths that `find(type, filter)` yields from one path of a collection:
the matching descendants, the node of the path itself left out. -/
def findBelow (root : Node) (type : String) (filter : Node → Bool) (path : Path) : List Path :=
  match getAt root path with
  | none => []
  | some node => findKids type filter path 0 node.kids

/-- The method `collection.find(type, filter)`. -/
def find (root : Node) (coll : List Path) (type : String) (filter : Node → Bool) : List Path :=
  match coll with
  | [] => []
  | path :: rest => findBelow root type filter path ++ find root rest type filter

/-- The search of `closest`: the nearest proper ancestor of `path` of the
given type, looked for among the `fuel` nearest ones. -/
def closestAux (root : Node) (type : String) : Nat → Path → Option Path
  | 0, _ => none
  | fuel + 1, path =>
      match path with
      | [] => none
      | _ :: _ =>
          let parent := path.dropLast
          match getAt root parent with
          | none => none
          | some node =>
              if node.type == type then some parent
              else closestAux root type fuel parent

/-- The list without its repeated entries, first occurrences kept. -/
def dedupPaths : List Path → List Path
  | [] => []
  | p :: rest => p :: (dedupPaths rest).filter (fun q => q != p)

/-- The method `collection.closest(type)`: each path is mapped to its nearest
proper ancestor of that type; paths without one are dropped, and a path
occurs once in the result. -/
def closest (root : Node) (coll : List Path) (type : String) : List Path :=
  dedupPaths (coll.filterMap (fun path => closestAux root type path.length path))

mutual
/-- The tree without the nodes at the given paths (`path.prune()` for each
path of a collection); `here` is the path of the node. -/
def pruneNode (doomed : List Path) (here : Path) : Node → Node
  | .mk t a kids => .mk t a (pruneKids doomed here 0 kids)
/-- The children of the node at `here`, from child `i`, without the pruned
ones. -/
def pruneKids (doomed : List Path) (here : Path) (i : Nat) :
    List (String × Node) → List (String × Node)
  | [] => []
  | (l, k) :: rest =>
      if doomed.contains (here ++ [i]) then pruneKids doomed here (i + 1) rest
      else (l, pruneNode doomed (here ++ [i]) k) :: pruneKids doomed here (i + 1) rest
end

/-- The method `collection.remove()`: every path of the collection is pruned.
A path that occurs twice in the collection is pruned once here; the theorems
on `remove` are about collections in which no path occurs twice. -/
def remove (root : Node) (coll : List Path) : Node := pruneNode coll [] root

/-- Where a path is after the nodes at `doomed` have been removed: each
position drops by the number of removed earlier siblings; `none` when the
node or one of its ancestors was removed itself. -/
def relocate (doomed : List Path) (done : Path) : Path → Option Path
  | [] => some []
  | i :: rest =>
      if doomed.contains (done ++ [i]) then none
      else
        let shift := ((List.range i).filter (fun k => doomed.contains (done ++ [k]))).length
        (relocate doomed (done ++ [i]) rest).map (fun rest' => (i - shift) :: rest')

/-- The paths of a collection after `remove` of the paths `doomed`. -/
def relocateAll (doomed : List Path) (coll : List Path) : List Path :=
  coll.filterMap (relocate doomed [])

/-- The tree in which the array at `path` has one more element at its end
(`array.push(node)`); `none` when there is no array at the path. -/
def pushAt (root : Node) (path : Path) (node : Node) : Option Node :=
  match path with
  | [] =>
      match root with
      | .mk t a kids => if t == "[]" then some (.mk t a (kids ++ [("", node)])) else none
  | i :: rest =>
      match root with
      | .mk t a kids =>
          match kids[i]? with
          | none => none
          | some (l, k) => (pushAt k rest node).map (fun k' => .mk t a (kids.set i (l, k')))

/-! ### `node-utils.js` and the option registry of `VueAstEditor.js` -/

/-- The function `getDefaultExport(coll)`: the path of the `declaration` of the
first default export below the root; `get()` throws on an empty collection. -/
def getDefaultExport (script : Node) : Option Path :=
  match find script [[]] "ExportDefaultDeclaration" (fun _ => true) with
  | [] => none
  | path :: _ => getField script path "declaration"

/-- The function `findObjProp(objColl, name)`:
`objColl.find(j.Identifier, { name }).closest(j.Property)`. -/
def findObjProp (script : Node) (objColl : List Path) (name : String) : List Path :=
  closest script (find script objColl "Identifier" (isIdentifierNamed name)) "Property"

/-- The method `findOption(name)`. -/
def findOption (script : Node) (name : String) : Option (List Path) :=
  (getDefaultExport script).map (fun obj => findObjProp script [obj] name)

/-- The method `makeOptionProp(name)`. -/
def makeOptionProp (name : String) : Node :=
  if name == "data" then
    objProp name (functionExpression [] (blockStatement [returnStatement (objectExpression [])]))
      [("method", .bool true)]
  else if name == "props" then objProp name (arrayExpression []) []
  else objProp name object []

/-- What a call of `option(name)` leaves: the script after the call, the paths
at which the nodes of the returned collection stand in it, and whether the
collection is the one of its own that `j(prop)` makes around a new property: the
path of such a collection has no parent, whatever the place of the node. -/
structure OptionResult where
  script : Node
  node : List Path
  detached : Bool
  deriving DecidableEq

/-- The method `option(name)`. A missing option is pushed onto the `properties`
of the default export, and `j(prop)` is returned. -/
def option (script : Node) (name : String) : Option OptionResult :=
  match findOption script name with
  | none => none
  | some node =>
      if node.length == 0 then
        match getDefaultExport script with
        | none => none
        | some obj =>
            match getField script obj "properties" with
            | none => none
            | some props =>
                match getAt script props with
                | none => none
                | some arr =>
                    (pushAt script props (makeOptionProp name)).map
                      (fun script' =>
                        { script := script', node := [props ++ [arr.kids.length]],
                          detached := true })
      else some { script := script, node := node, detached := false }

/-- The filter `{ key: { name } }` on properties. -/
def hasKeyNamed (name : String) (node : Node) : Bool :=
  match node.kid "key" with
  | some key => key.attr "name" == some (.str name)
  | none => false

/-- The method `removeFromOption(optionName, name)`. The final `option.remove()`
prunes the paths of the collection; on the collection `j(prop)` of a new
option, whose path has no parent, it throws. -/
def removeFromOption (script : Node) (optionName name : String) : Option Node :=
  match option script optionName with
  | none => none
  | some opt =>
      let found := find opt.script opt.node "Property" (hasKeyNamed name)
      let script2 := remove opt.script found
      let node2 := relocateAll found opt.node
      if (find script2 node2 "Property" (fun _ => true)).length == 0 then
        if opt.detached then none else some (remove script2 node2)
      else some script2

/-! ### `RenameAttrInHtml.js`: the markup side -/

/-- The script-grammar capability the renamer consumes: `parse` is
`j(source)`, the tree of a source text (`none` when jscodeshift rejects the
text), and `toSource` is `.toSource({ quote: 'single' })`. -/
structure ScriptGrammar where
  parse : String → Option Node
  toSource : Node → String

/-- Whether the characters `pat` occur in a row somewhere in the list. -/
def includesChars (pat : List Char) : List Char → Bool
  | [] => pat.isEmpty
  | c :: cs => pat.isPrefixOf (c :: cs) || includesChars pat cs

/-- The method `s.includes(pat)`. -/
def includes (s pat : String) : Bool := includesChars pat.data s.data

/-- The filter of `renameInHtmlAttributes`:
`key.includes(':') || key.includes('@') || key.includes('v-')`. -/
def isVueAttr (key : String) : Bool :=
  includes key ":" || includes key "@" || includes key "v-"

/-- The step `vueAttrs.map(([key, val]) => [key, j(val)])`: `j` throws on a
value that is not a string and on a text it cannot parse. -/
def parseAttrs (g : ScriptGrammar) : Attrs → Option (List (String × Node))
  | [] => some []
  | (key, .str val) :: rest =>
      match g.parse val with
      | none => none
      | some jsrc =>
          match parseAttrs g rest with
          | none => none
          | some rest' => some ((key, jsrc) :: rest')
  | (_, _) :: _ => none

/-- The callback of `renameInHtmlAttributes` on the attribute map of a node. -/
def renameInAttrs (g : ScriptGrammar) (name newName : String) (attrs : Attrs) : Option Attrs :=
  let vueAttrs := attrs.filter (fun kv => isVueAttr kv.1)
  match parseAttrs g vueAttrs with
  | none => none
  | some parsedAttrs =>
      let renamedAttrs :=
        parsedAttrs.map (fun kj => (kj.1, replaceIdentifiers kj.2 name newName))
      some (renamedAttrs.foldl
        (fun attrs kj => setField kj.1 (AttrVal.str (g.toSource kj.2)) attrs) attrs)

/-- The method `s.split(dd)` for a separator made of the character `d` twice,
on the characters of `s`. -/
def splitOnPair (d : Char) : List Char → List (List Char)
  | [] => [[]]
  | [c] => [[c]]
  | c :: c' :: rest =>
      if c = d ∧ c' = d then [] :: splitOnPair d rest
      else
        match splitOnPair d (c' :: rest) with
        | [] => [[c]]
        | piece :: pieces => (c :: piece) :: pieces

/-- After the opening `{{` of the pattern `{{([^}]+)}}`: a run of characters
other than `}`, not empty (`seen`), and then `}}`. -/
def matchTail : Bool → List Char → Bool
  | _, [] => false
  | seen, c :: cs =>
      if c = '}' then seen && (match cs with | c' :: _ => c' == '}' | [] => false)
      else matchTail true cs

/-- The test `child.match('{{([^}]+)}}')`. -/
def matchesInterpolation : List Char → Bool
  | [] => false
  | c :: cs =>
      (c == '{' && (match cs with | c' :: rest => c' == '{' && matchTail false rest | [] => false))
        || matchesInterpolation cs

/-- The callback of `statements.slice(1).map(...)`: the piece after an opening
delimiter is split on `}}`, its first part is reparsed, renamed and printed,
and the second part follows it; a missing second part is `undefined`. -/
def renameStatement (g : ScriptGrammar) (name newName : String) (statement : List Char) :
    Option (List Char) :=
  let pieces := splitOnPair '}' statement
  let expression := pieces.headD []
  let trailing := match pieces with
    | _ :: t :: _ => t
    | _ => "undefined".data
  match g.parse (String.mk expression) with
  | none => none
  | some jsrc =>
      some ('{' :: '{' :: ((g.toSource (replaceIdentifiers jsrc name newName)).data
        ++ '}' :: '}' :: trailing))

/-- The map of `renameStatement` over the pieces. -/
def renameStatements (g : ScriptGrammar) (name newName : String) :
    List (List Char) → Option (List (List Char))
  | [] => some []
  | statement :: rest =>
      match renameStatement g name newName statement with
      | none => none
      | some updated =>
          match renameStatements g name newName rest with
          | none => none
          | some rest' => some (updated :: rest')

/-- The callback of `node.content.map(...)` of `renameInTextTemplates` on a
child that is a string. -/
def renameInText (g : ScriptGrammar) (name newName : String) (child : String) : Option String :=
  if matchesInterpolation child.data then
    match splitOnPair '{' child.data with
    | [] => some child
    | first :: statements =>
        match renameStatements g name newName statements with
        | none => none
        | some updated => some (String.mk (first ++ updated.flatten))
  else some child

/-- The callback of `node.content.map(...)` of `renameInTextTemplates`: a child
that is not a string is returned as it is. -/
def renameInChild (g : ScriptGrammar) (name newName : String) : HNode → Option HNode
  | .text child => (renameInText g name newName child).map HNode.text
  | child => some child

/-- The callback of `renameInHtmlAttributes` on a node: a node without
attributes is returned as it is. -/
def renameInHtmlAttributesNode (g : ScriptGrammar) (name newName : String) :
    HNode → Option HNode
  | .element tag (some attrs) content =>
      (renameInAttrs g name newName attrs).map (fun attrs' => .element tag (some attrs') content)
  | node => some node

/-- The map of `renameInChild` over the content of a node. -/
def renameInContent (g : ScriptGrammar) (name newName : String) :
    List HNode → Option (List HNode)
  | [] => some []
  | child :: rest =>
      match renameInChild g name newName child with
      | none => none
      | some child' =>
          match renameInContent g name newName rest with
          | none => none
          | some rest' => some (child' :: rest')

/-- The callback of `renameInTextTemplates` on a node: a node without content
is returned as it is. -/
def renameInTextTemplatesNode (g : ScriptGrammar) (name newName : String) :
    HNode → Option HNode
  | .element tag attrs (some (child :: rest)) =>
      (renameInContent g name newName (child :: rest)).map
        (fun content' => .element tag attrs (some content'))
  | node => some node

mutual
/-- The traversal `tree.match({ tag: /.*/ }, cb)` of posthtml: the callback
runs on every node whose tag is a string. The callbacks of this program keep
the child nodes of the node they run on, so the traversal is taken
bottom-up. -/
def matchTagged (cb : HNode → Option HNode) : HNode → Option HNode
  | .element tag attrs content =>
      match matchTaggedContent cb content with
      | none => none
      | some content' =>
          match tag with
          | .name _ => cb (.element tag attrs content')
          | _ => some (.element tag attrs content')
  | .list items => (matchTaggedList cb items).map HNode.list
  | node => some node
/-- The traversal `matchTagged` of the content of a node. -/
def matchTaggedContent (cb : HNode → Option HNode) :
    Option (List HNode) → Option (Option (List HNode))
  | none => some none
  | some items => (matchTaggedList cb items).map some
/-- The traversal `matchTagged` of an array of items. -/
def matchTaggedList (cb : HNode → Option HNode) : List HNode → Option (List HNode)
  | [] => some []
  | node :: rest =>
      match matchTagged cb node with
      | none => none
      | some node' =>
          match matchTaggedList cb rest with
          | none => none
          | some rest' => some (node' :: rest')
end

/-- The exported function `renameAttrInHtml(hast, name, newName)`. -/
def renameAttrInHtml (g : ScriptGrammar) (hast : HNode) (name newName : String) :
    Option HNode :=
  match matchTagged (renameInHtmlAttributesNode g name newName) hast with
  | none => none
  | some hast1 => matchTagged (renameInTextTemplatesNode g name newName) hast1

/-- The method `renameAttribute(name, newName)` of `VueAstEditor.js`, on the
script tree and the markup tree of a component. -/
def renameAttribute (g : ScriptGrammar) (script : Node) (tree : HNode) (name newName : String) :
    Option (Node × HNode) :=
  match renameThisAttr script name newName with
  | none => none
  | some script' => (renameAttrInHtml g tree name newName).map (fun tree' => (script', tree'))

/-! ### The typed operations of `VueAstEditor.js` -/

/-- The tree in which the node at `path` is what `f` makes of the node that
stood there; `none` when there is no node at the path or `f` throws. -/
def modifyAt (f : Node → Option Node) : Node → Path → Option Node
  | node, [] => f node
  | .mk t a kids, i :: rest =>
      match kids[i]? with
      | none => none
      | some (l, k) => (modifyAt f k rest).map (fun k' => .mk t a (kids.set i (l, k')))

/-- The tree in which `node` stands at `path` (`path.replace(node)`, and the
assignment of a child field). -/
def replaceAt (root : Node) (path : Path) (node : Node) : Option Node :=
  modifyAt (fun _ => some node) root path

/-- The assignment `node[field] = value` of a child field whose new value may
be `undefined` (`none`): the node then has no such child. -/
def assignKid (n : Node) (field : String) : Option Node → Node
  | some value => n.setKid field value
  | none => .mk n.type n.attrs (n.kids.filter (fun lk => lk.1 != field))

/-- The function `parse(str)` of `node-utils.js`:
`j(str).find(j.Program).get().value.body[0]`. The result is `undefined` for a
text without a statement; every caller in `VueAstEditor.js` reads a field of
the result or hands it to a builder that rejects `undefined`, so that case
is `none` like the thrown ones (`importComponent` parses a text that begins
with a statement). -/
def parse (g : ScriptGrammar) (str : String) : Option Node :=
  match g.parse str with
  | none => none
  | some file =>
      match find file [[]] "Program" (fun _ => true) with
      | [] => none
      | program :: _ =>
          match getField file program "body" with
          | none => none
          | some body => getAt file (body ++ [0])

/-- The test `prop.key.name == name` on a property; `none` when the property
has no `key` (reading `name` of `undefined` throws). -/
def keyNameEq (name : String) (prop : Node) : Option Bool :=
  (prop.kid "key").map (fun key => looseEqString (key.attr "name") name)

/-- The method `array.find(test)` on the elements from position `i`: the
position of the first element that passes; the test runs on the elements in
turn and may throw (`none`). -/
def findIndexFrom (test : Node → Option Bool) : List (String × Node) → Nat → Option (Option Nat)
  | [], _ => some none
  | (_, el) :: rest, i =>
      match test el with
      | none => none
      | some true => some (some i)
      | some false => findIndexFrom test rest (i + 1)

/-- The values of a list of results when none of them is a throw. -/
def collect {α : Type} : List (Option α) → Option (List α)
  | [] => some []
  | none :: _ => none
  | some a :: rest => (collect rest).map (fun rest' => a :: rest')

/-- The position of `array.filter(test)[0]` in the array: the test runs on
every element, and may throw (`none`). -/
def filterFirst (test : Node → Option Bool) (elems : List (String × Node)) : Option (Option Nat) :=
  (collect (elems.map (fun lk => test lk.2))).map
    (fun passed =>
      let i := passed.findIdx (fun b => b)
      if i < passed.length then some i else none)

/-- The option names that `sortOptions` puts first, in its order. -/
def nonHookOptions : List String :=
  ["mixins", "components", "props", "data", "computed", "watch", "mounted", "methods"]

/-- One round of the loop of `sortOptions` on the property list and
`currSlot`: the first property whose key has the name of the option is taken
out (`remove` of `utils.js`) and put in at `currSlot` (`splice`). -/
def sortStep (state : List (String × Node) × Nat) (option : String) :
    Option (List (String × Node) × Nat) :=
  match findIndexFrom (keyNameEq option) state.1 0 with
  | none => none
  | some none => some state
  | some (some i) =>
      match state.1[i]? with
      | none => none
      | some prop =>
          let rest := state.1.eraseIdx i
          some (rest.take state.2 ++ prop :: rest.drop state.2, state.2 + 1)

/-- The loop of `sortOptions` over the option names. -/
def sortLoop : List String → List (String × Node) × Nat → Option (List (String × Node) × Nat)
  | [], state => some state
  | option :: rest, state =>
      match sortStep state option with
      | none => none
      | some state' => sortLoop rest state'

/-- The method `sortOptions()`. -/
def sortOptions (script : Node) : Option Node :=
  match getDefaultExport script with
  | none => none
  | some obj =>
      match getField script obj "properties" with
      | none => none
      | some props =>
          modifyAt
            (fun arr =>
              match arr with
              | .mk t a kids => (sortLoop nonHookOptions (kids, 0)).map (fun s => .mk t a s.1))
            script props

/-- The method `addProp(name)`. -/
def addProp (script : Node) (name : String) : Option Node :=
  match option script "props" with
  | none => none
  | some opt =>
      match opt.node.head? with
      | none => none
      | some props =>
          match getField opt.script props "value" with
          | none => none
          | some value =>
              match getAt opt.script value with
              | none => none
              | some valueNode =>
                  if valueNode.type == "ArrayExpression" then
                    match getField opt.script value "elements" with
                    | none => none
                    | some elements => pushAt opt.script elements (literal (.str name))
                  else
                    match getField opt.script value "properties" with
                    | none => none
                    | some properties => pushAt opt.script properties (objProp name object [])

/-- The first statement of `renameProp(name, newName)`, the one before
`renameAttribute`: the first element of the list with the value `name`, or
the first property of the map whose key has the name `name`, is renamed. -/
def renamePropEntry (script : Node) (name newName : String) : Option Node :=
  match option script "props" with
  | none => none
  | some opt =>
      match opt.node.head? with
      | none => none
      | some props =>
          match getField opt.script props "value" with
          | none => none
          | some value =>
              match getAt opt.script value with
              | none => none
              | some valueNode =>
                  if valueNode.type == "ArrayExpression" then
                    match getField opt.script value "elements" with
                    | none => none
                    | some elements =>
                        match getAt opt.script elements with
                        | none => none
                        | some arr =>
                            match filterFirst
                                (fun el => some (looseEqString (el.attr "value") name))
                                arr.kids with
                            | some (some i) =>
                                modifyAt (fun el => some (el.setAttr "value" (.str newName)))
                                  opt.script (elements ++ [i])
                            | _ => none
                  else
                    match getField opt.script value "properties" with
                    | none => none
                    | some properties =>
                        match getAt opt.script properties with
                        | none => none
                        | some arr =>
                            match filterFirst (keyNameEq name) arr.kids with
                            | some (some i) =>
                                match getField opt.script (properties ++ [i]) "key" with
                                | none => none
                                | some key =>
                                    modifyAt (fun k => some (k.setAttr "name" (.str newName)))
                                      opt.script key
                            | _ => none

/-- The method `renameProp(name, newName)`. -/
def renameProp (g : ScriptGrammar) (script : Node) (tree : HNode) (name newName : String) :
    Option (Node × HNode) :=
  match renamePropEntry script name newName with
  | none => none
  | some script' => renameAttribute g script' tree name newName

/-- The method `removeProp(name)`. The literals are removed below every path
of the option collection; `props.remove()` throws on the collection `j(prop)`
of a new option. -/
def removeProp (script : Node) (name : String) : Option Node :=
  match option script "props" with
  | none => none
  | some opt =>
      match opt.node.head? with
      | none => none
      | some props =>
          match getField opt.script props "value" with
          | none => none
          | some value =>
              match getAt opt.script value with
              | none => none
              | some valueNode =>
                  if valueNode.type == "ArrayExpression" then
                    let found :=
                      find opt.script opt.node "Literal"
                        (fun n => n.attr "value" == some (.str name))
                    let script2 := remove opt.script found
                    let node2 := relocateAll found opt.node
                    match node2.head? with
                    | none => none
                    | some props2 =>
                        match getField script2 props2 "value" with
                        | none => none
                        | some value2 =>
                            match getField script2 value2 "elements" with
                            | none => none
                            | some elements2 =>
                                match getAt script2 elements2 with
                                | none => none
                                | some arr =>
                                    if arr.kids.length == 0 then
                                      if opt.detached then none else some (remove script2 node2)
                                    else some script2
                  else removeFromOption opt.script "props" name

/-- The characters are the decimal numeral of an array index: digits without
a leading zero, below `2^32 - 1`. -/
def arrayIndex (key : String) : Option Nat :=
  let cs := key.data
  let n := cs.foldl (fun n c => 10 * n + (c.toNat - 48)) 0
  if cs.all Char.isDigit && !cs.isEmpty && (cs.length == 1 || cs.head? != some '0')
      && Nat.blt n 4294967295 then some n
  else none

/-- Where a new key goes among the keys of an object: an array index stands
before the first key that is no array index or a greater one, any other key
goes last. -/
def insertKey {α : Type} (key : String) (val : α) : List (String × α) → List (String × α)
  | [] => [(key, val)]
  | (k, v) :: rest =>
      match arrayIndex key with
      | none => (k, v) :: insertKey key val rest
      | some n =>
          match arrayIndex k with
          | none => (key, val) :: (k, v) :: rest
          | some m => if n < m then (key, val) :: (k, v) :: rest else (k, v) :: insertKey key val rest

/-- The object `{ ...acc, [key]: val }`, as the list of its entries in key
order: a key that is there keeps its place and gets the new value. -/
def assignKey {α : Type} (acc : List (String × α)) (key : String) (val : α) : List (String × α) :=
  if acc.any (fun kv => kv.1 == key) then
    acc.map (fun kv => if kv.1 == key then (kv.1, val) else kv)
  else insertKey key val acc

/-- The function `mapWithKeys(arr, cb)` of `utils.js`; the object it returns
is the list of its entries in key order. -/
def mapWithKeys {α β : Type} (arr : List α) (cb : α → String × β) : List (String × β) :=
  arr.foldl (fun acc value => assignKey acc (cb value).1 (cb value).2) []

/-- The string that a value is as a property key. -/
def propertyKey : Option Prim → String
  | some (.str s) => s
  | some (.num n) => toString n
  | some (.bool b) => if b then "true" else "false"
  | some .null => "null"
  | none => "undefined"

/-- The map `object(propsObj)` that `updateProp` puts in the place of the list
`elements`: one entry with empty metadata for each key of
`mapWithKeys(propNames, name => [name, {}])`. -/
def propsObject (elements : List (String × Node)) : Node :=
  objectExpression
    ((mapWithKeys (elements.map (fun el => el.2.attr "value"))
        (fun value => (propertyKey value, ()))).map
      (fun kv => objProp kv.1 object []))

/-- The state of the loop of `updateProp`: the script, and where the paths of
the collections `props` and `prop` stand in it. -/
structure UpdateState where
  script : Node
  props : List Path
  prop : List Path

/-- The node `nodeVal` of `updateProp`: `parse(val)`, unpacked when it is an
expression statement; the builder of `objProp` rejects `undefined`. -/
def parseAttrValue (g : ScriptGrammar) (val : String) : Option Node :=
  match parse g val with
  | none => none
  | some stmt => if stmt.type == "ExpressionStatement" then stmt.kid "expression" else some stmt

/-- One round of the loop of `updateProp` for the pair `[propAttr, val]`; the
value `null` is `none`. -/
def updatePropStep (g : ScriptGrammar) (state : UpdateState) (attr : String × Option String) :
    Option UpdateState :=
  match attr.2 with
  | none =>
      let found := find state.script state.prop "Property" (hasKeyNamed attr.1)
      some
        { script := remove state.script found,
          props := relocateAll found state.props,
          prop := relocateAll found state.prop }
  | some val =>
      match parseAttrValue g val with
      | none => none
      | some nodeVal =>
          match state.prop.head? with
          | none => none
          | some first =>
              match getField state.script first "value" with
              | none => none
              | some value =>
                  match getField state.script value "properties" with
                  | none => none
                  | some properties =>
                      (pushAt state.script properties (objProp attr.1 nodeVal [])).map
                        (fun script' => { state with script := script' })

/-- The loop of `updateProp` over `pairs(attrs)`. -/
def updatePropLoop (g : ScriptGrammar) :
    List (String × Option String) → UpdateState → Option UpdateState
  | [], state => some state
  | attr :: rest, state =>
      match updatePropStep g state attr with
      | none => none
      | some state' => updatePropLoop g rest state'

/-- The test of `emptyProps` in `updateProp`:
`value.type == 'ObjectExpression' && value.properties.length == 0` on the
value of a property; `none` when the property has no value. -/
def hasEmptyObject (prop : Node) : Option Bool :=
  (prop.kid "value").map
    (fun value =>
      value.type == "ObjectExpression" &&
        (match value.kid "properties" with
         | some arr => arr.kids.length == 0
         | none => false))

/-- The literal `j.literal(prop.key.name)` of a property; the builder rejects
a name that is `undefined`. -/
def keyLiteral (prop : Node) : Option Node :=
  match prop.kid "key" with
  | none => none
  | some key =>
      match key.attr "name" with
      | some value => some (literal value)
      | none => none

/-- The method `updateProp(name, attrs)`; `attrs` is the list `pairs(attrs)`,
with `none` for a value that is `null`. A path of the collection `props` that
stood in the replaced list stands in no tree any more and is left out. -/
def updateProp (g : ScriptGrammar) (script : Node) (name : String)
    (attrs : List (String × Option String)) : Option Node :=
  match option script "props" with
  | none => none
  | some opt =>
      match opt.node.head? with
      | none => none
      | some first =>
          match getField opt.script first "value" with
          | none => none
          | some value =>
              match getAt opt.script value with
              | none => none
              | some valueNode =>
                  match (if valueNode.type == "ArrayExpression" then
                           match valueNode.kid "elements" with
                           | none => none
                           | some elements =>
                               (replaceAt opt.script value (propsObject elements.kids)).map
                                 (fun script1 =>
                                   (script1,
                                    opt.node.filter
                                      (fun p => !(value.isPrefixOf p && p != value))))
                         else some (opt.script, opt.node)) with
                  | none => none
                  | some (script1, props) =>
                      match updatePropLoop g attrs
                          { script := script1, props := props,
                            prop := find script1 props "Property" (hasKeyNamed name) } with
                      | none => none
                      | some state =>
                          let propsList :=
                            find state.script state.props "Property" (fun _ => true)
                          match collect (propsList.map (fun p =>
                              (getAt state.script p).bind hasEmptyObject)) with
                          | none => none
                          | some empty =>
                              if propsList.length == (empty.filter (fun b => b)).length then
                                match collect (propsList.map (fun p =>
                                    (getAt state.script p).bind keyLiteral)) with
                                | none => none
                                | some newProps =>
                                    match state.props.head? with
                                    | none => none
                                    | some first' =>
                                        match getField state.script first' "value" with
                                        | none => none
                                        | some value' =>
                                            replaceAt state.script value'
                                              (arrayExpression newProps)
                              else some state.script

/-- The expression `parse(val).expression`: `none` when `parse` throws, and
`some none` when the statement has no `expression`. -/
def parseExpression (g : ScriptGrammar) (val : String) : Option (Option Node) :=
  (parse g val).map (fun stmt => stmt.kid "expression")

/-- The method `addData(name, val)`. The builder of `objProp` rejects a value
that is `undefined`. -/
def addData (g : ScriptGrammar) (script : Node) (name val : String) : Option Node :=
  match option script "data" with
  | none => none
  | some opt =>
      let returns := find opt.script opt.node "ReturnStatement" (fun _ => true)
      match (find opt.script returns "ObjectExpression" (fun _ => true)).head? with
      | none => none
      | some obj =>
          match getField opt.script obj "properties" with
          | none => none
          | some properties =>
              match parseExpression g val with
              | some (some expression) =>
                  pushAt opt.script properties (objProp name expression [])
              | _ => none

/-- The assignment `coll.get().value.key.name = newName` on the first path of
a collection. -/
def renameKey (script : Node) (coll : List Path) (newName : String) : Option Node :=
  match coll.head? with
  | none => none
  | some first =>
      match getField script first "key" with
      | none => none
      | some key => modifyAt (fun k => some (k.setAttr "name" (.str newName))) script key

/-- The first statement of `renameData(name, newName)`, the one before
`renameAttribute`. -/
def renameDataEntry (script : Node) (name newName : String) : Option Node :=
  match option script "data" with
  | none => none
  | some opt =>
      let returns := find opt.script opt.node "ReturnStatement" (fun _ => true)
      renameKey opt.script (find opt.script returns "Property" (hasKeyNamed name)) newName

/-- The method `renameData(name, newName)`. -/
def renameData (g : ScriptGrammar) (script : Node) (tree : HNode) (name newName : String) :
    Option (Node × HNode) :=
  match renameDataEntry script name newName with
  | none => none
  | some script' => renameAttribute g script' tree name newName

/-- The method `setData(name, newVal)`. The path is looked up before the new
value is parsed; a replacement that is `undefined` leaves the property
without a value. -/
def setData (g : ScriptGrammar) (script : Node) (name newVal : String) : Option Node :=
  match option script "data" with
  | none => none
  | some opt =>
      match (find opt.script opt.node "Property" (hasKeyNamed name)).head? with
      | none => none
      | some first =>
          match parseExpression g newVal with
          | none => none
          | some expression =>
              modifyAt (fun prop => some (assignKid prop "value" expression)) opt.script first

/-- The statement `this.option(name).get().value.value.properties.push(entry)`
of `addWatcher`, `addComputed` and `addMethod`. -/
def pushEntry (script : Node) (optionName : String) (entry : Node) : Option Node :=
  match option script optionName with
  | none => none
  | some opt =>
      match opt.node.head? with
      | none => none
      | some first =>
          match getField opt.script first "value" with
          | none => none
          | some value =>
              match getField opt.script value "properties" with
              | none => none
              | some properties => pushAt opt.script properties entry

/-- The function `emptyFunc()`. -/
def emptyFunc : Node := functionExpression [] (blockStatement [])

/-- The method `addWatcher(name, node)`; `none` is the default `null`. -/
def addWatcher (script : Node) (name : String) (node : Option Node) : Option Node :=
  pushEntry script "watch"
    (objProp name
      (node.getD (functionExpression [identifier "newVal", identifier "oldVal"]
        (blockStatement [])))
      [("method", .bool true)])

/-- The method `renameWatcher(name, newName)`. -/
def renameWatcher (script : Node) (name newName : String) : Option Node :=
  match option script "watch" with
  | none => none
  | some opt =>
      renameKey opt.script (find opt.script opt.node "Property" (hasKeyNamed name)) newName

/-- The path `p` after the subtree that stood at `old` has been moved to
`new`. -/
def rebase (old new : Path) (p : Path) : Path :=
  if old.isPrefixOf p then new ++ p.drop old.length else p

/-- The state of the loop of `updateWatcher`: the script, and where the paths
of the collection `watcher` stand in it. -/
structure WatcherState where
  script : Node
  watcher : List Path

/-- One round of the loop of `updateWatcher` for the pair `[attr, val]`; the
first path of `watcher` is the one of `watcherNode`. -/
def updateWatcherStep (state : WatcherState) (attr : String × Prim) : Option WatcherState :=
  let found := find state.script state.watcher "Property" (hasKeyNamed attr.1)
  if attr.2 = .null then
    some { script := remove state.script found, watcher := relocateAll found state.watcher }
  else if found.length != 0 then some state
  else
    match state.watcher.head? with
    | none => none
    | some first =>
        match getField state.script first "value" with
        | none => none
        | some value =>
            match getField state.script value "properties" with
            | none => none
            | some properties =>
                (pushAt state.script properties (objProp attr.1 (literal attr.2) [])).map
                  (fun script' => { state with script := script' })

/-- The loop of `updateWatcher` over `pairs(attrs)`. -/
def updateWatcherLoop : List (String × Prim) → WatcherState → Option WatcherState
  | [], state => some state
  | attr :: rest, state =>
      match updateWatcherStep state attr with
      | none => none
      | some state' => updateWatcherLoop rest state'

/-- The method `updateWatcher(name, attrs)`; `attrs` is the list
`pairs(attrs)`. The paths of `watcher` inside the handler follow it into the
object that the conversion makes. -/
def updateWatcher (script : Node) (name : String) (attrs : List (String × Prim)) :
    Option Node :=
  match option script "watch" with
  | none => none
  | some opt =>
      let watcher := find opt.script opt.node "Property" (hasKeyNamed name)
      match watcher.head? with
      | none => none
      | some first =>
          match getAt opt.script first with
          | none => none
          | some watcherNode =>
              match watcherNode.kid "value", getField opt.script first "value" with
              | some value, some valuePath =>
                  match (if value.type == "FunctionExpression" then
                           (replaceAt opt.script first
                             ((watcherNode.setKid "value"
                               (objectExpression
                                 [objProp "handler" value [("method", .bool true)]])).setAttr
                               "method" (.bool false))).map
                             (fun script1 =>
                               ({ script := script1,
                                  watcher :=
                                    watcher.map
                                      (rebase valuePath (valuePath ++ [0, 0, 1])) } :
                                 WatcherState))
                         else some { script := opt.script, watcher := watcher }) with
                  | none => none
                  | some state1 =>
                      match updateWatcherLoop attrs state1 with
                      | none => none
                      | some state =>
                          match state.watcher.head? with
                          | none => none
                          | some first' =>
                              match getAt state.script first' with
                              | none => none
                              | some node =>
                                  match (node.kid "value").bind
                                      (fun v => v.kid "properties") with
                                  | none => none
                                  | some arr =>
                                      if arr.kids.length == 1 then
                                        match (find state.script state.watcher "Property"
                                            (hasKeyNamed "handler")).head? with
                                        | none => none
                                        | some handlerPath =>
                                            match getAt state.script handlerPath with
                                            | none => none
                                            | some handler =>
                                                replaceAt state.script first'
                                                  ((assignKid node "value"
                                                    (handler.kid "value")).setAttr
                                                    "method" (.bool true))
                                      else some state.script
              | _, _ => none

/-- The method `addComputed(name, node)`; `none` is the default `null`. -/
def addComputed (script : Node) (name : String) (node : Option Node) : Option Node :=
  pushEntry script "computed" (objProp name (node.getD emptyFunc) [("method", .bool true)])

/-- The first statement of `renameComputed(name, newName)`. -/
def renameComputedEntry (script : Node) (name newName : String) : Option Node :=
  match option script "computed" with
  | none => none
  | some opt =>
      renameKey opt.script (find opt.script opt.node "Property" (hasKeyNamed name)) newName

/-- The method `renameComputed(name, newName)`. -/
def renameComputed (g : ScriptGrammar) (script : Node) (tree : HNode) (name newName : String) :
    Option (Node × HNode) :=
  match renameComputedEntry script name newName with
  | none => none
  | some script' => renameAttribute g script' tree name newName

/-- The method `addComputedSetter(name)`. The builders reject a getter value
and a parsed statement that are `undefined`. -/
def addComputedSetter (g : ScriptGrammar) (script : Node) (name : String) : Option Node :=
  match option script "computed" with
  | none => none
  | some opt =>
      match (find opt.script opt.node "Property" (hasKeyNamed name)).head? with
      | none => none
      | some first =>
          match getAt opt.script first with
          | none => none
          | some node =>
              match node.kid "value" with
              | none => none
              | some value =>
                  match parse g ("this." ++ name ++ " = newValue;") with
                  | none => none
                  | some stmt =>
                      replaceAt opt.script first
                        ((node.setKid "value"
                          (objectExpression
                            [objProp "get" value [("method", .bool true)],
                             objProp "set"
                               (functionExpression [identifier "newValue"]
                                 (blockStatement [stmt]))
                               [("method", .bool true)]])).setAttr "method" (.bool false))

/-- The method `removeComputedSetter(name)`. -/
def removeComputedSetter (script : Node) (name : String) : Option Node :=
  match option script "computed" with
  | none => none
  | some opt =>
      let prop := find opt.script opt.node "Property" (hasKeyNamed name)
      match (find opt.script prop "Property" (hasKeyNamed "get")).head? with
      | none => none
      | some getterPath =>
          match getAt opt.script getterPath, prop.head? with
          | some getter, some first =>
              match getAt opt.script first with
              | none => none
              | some node =>
                  replaceAt opt.script first
                    ((assignKid node "value" (getter.kid "value")).setAttr "method" (.bool true))
          | _, _ => none

/-- The method `addMethod(name, node)`; `none` is the default `null`. -/
def addMethod (script : Node) (name : String) (node : Option Node) : Option Node :=
  pushEntry script "methods" (objProp name (node.getD emptyFunc) [("method", .bool true)])

/-- The first statement of `renameMethod(name, newName)`. -/
def renameMethodEntry (script : Node) (name newName : String) : Option Node :=
  match option script "methods" with
  | none => none
  | some opt =>
      renameKey opt.script (find opt.script opt.node "Property" (hasKeyNamed name)) newName

/-- The method `renameMethod(name, newName)`. -/
def renameMethod (g : ScriptGrammar) (script : Node) (tree : HNode) (name newName : String) :
    Option (Node × HNode) :=
  match renameMethodEntry script name newName with
  | none => none
  | some script' => renameAttribute g script' tree name newName

/-- The callback of `toString` on a node of the markup: the content of a
`script` node becomes the printed script. -/
def setScriptContent (source : String) : HNode → Option HNode
  | .element (.name tag) attrs content =>
      if tag == "script" then some (.element (.name tag) attrs (some [.text source]))
      else some (.element (.name tag) attrs content)
  | node => some node

/-- The method `toString()`: `sortOptions`, then the script is printed into
the `script` nodes (the printer is the one of the grammar), then the markup is
rendered. -/
def editorToString (g : ScriptGrammar) (script : Node) (tree : HNode) : Option String :=
  match sortOptions script with
  | none => none
  | some script' =>
      match matchTagged (setScriptContent (g.toSource script')) tree with
      | none => none
      | some tree' => render tree' editorOptions

mutual
/-- The `script` nodes of a markup tree, in the order in which `tree.match`
on the tag `script` meets them. -/
def scriptNodes : HNode → List HNode
  | .element tag attrs content =>
      (match tag with
       | .name t => if t == "script" then [.element tag attrs content] else []
       | _ => [])
        ++ (match content with
            | none => []
            | some items => scriptNodesList items)
  | .list items => scriptNodesList items
  | _ => []
/-- The `script` nodes of the items of an array. -/
def scriptNodesList : List HNode → List HNode
  | [] => []
  | node :: rest => scriptNodes node ++ scriptNodesList rest
end

/-- The text `node.content.join('')` with every backslash doubled, for a
content made of texts; `none` when the node has no content. -/
def scriptText : HNode → Option String
  | .element _ _ (some items) =>
      (collect (items.map (fun item =>
        match item with
        | .text s => some s
        | _ => none))).map
        (fun texts =>
          String.mk ((String.join texts).data.flatMap
            (fun c => if c = Char.ofNat 92 then [c, c] else [c])))
  | _ => none

/-- The script of a new component (the constructor): every `script` node of
the markup sets it to the tree of its text, and without one it is `j('')`. -/
def constructScript (g : ScriptGrammar) (tree : HNode) : Option Node :=
  match (scriptNodes tree).reverse with
  | [] => g.parse ""
  | last :: earlier =>
      if (earlier.all (fun node => ((scriptText node).bind g.parse).isSome)) then
        (scriptText last).bind g.parse
      else none

/-! ## `VueAstEditor.js`: the structural refactoring

The markup tree of a component is `results.tree`, the array of its top-level
items: the item `.list items`. A node of it is given by its place, the
indices that lead from the tree to the node through the content of elements
(and through nested arrays). The parent link that `addParentsToHtmlTree` puts
on a node is then the place without its last index, when the item there is an
element: the top-level items and the items of a nested array get no link.
Each operation is taken on the tree as the constructor leaves it. -/

namespace HNode

/-- The items below an item: the content of an element, the items of an
array. -/
def items : HNode → Option (List HNode)
  | .list xs => some xs
  | .element _ _ content => content
  | _ => none

/-- An item with other items below it. -/
def setItems : HNode → List HNode → HNode
  | .list _, xs => .list xs
  | .element tag attrs _, xs => .element tag attrs (some xs)
  | node, _ => node

end HNode

/-- The item of a tree at a place. -/
def nodeAt : HNode → List Nat → Option HNode
  | node, [] => some node
  | node, i :: rest =>
      match node.items with
      | none => none
      | some xs =>
          match xs[i]? with
          | none => none
          | some child => nodeAt child rest

/-- The tree in which `f` has changed the item at a place; `none` when there
is no such item or when `f` throws. -/
def updateAt (f : HNode → Option HNode) : HNode → List Nat → Option HNode
  | node, [] => f node
  | node, i :: rest =>
      match node.items with
      | none => none
      | some xs =>
          match xs[i]? with
          | none => none
          | some child =>
              (updateAt f child rest).map (fun child' => node.setItems (xs.set i child'))

/-- The place of `node.parent` for the node at a place; `none` is
`undefined`. -/
def parentOf (tree : HNode) (p : List Nat) : Option (List Nat) :=
  match p with
  | [] => none
  | _ :: _ =>
      match nodeAt tree p.dropLast with
      | some (.element _ _ _) => some p.dropLast
      | _ => none

/-- The call `node.parent.content.splice(idx + shift, count, ...added)` with
`idx = node.parent.content.indexOf(node)`, for the node at a place; it throws
for a node without parent. -/
def spliceAtParent (tree : HNode) (p : List Nat) (shift count : Nat) (added : List HNode) :
    Option HNode :=
  match parentOf tree p, p.getLast? with
  | some parent, some idx =>
      updateAt
        (fun node =>
          match node with
          | .element tag attrs (some content) =>
              some (.element tag attrs
                (some (content.take (idx + shift) ++ added ++ content.drop (idx + shift + count))))
          | _ => none)
        tree parent
  | _, _ => none

/-- The test `tag.match(/[A-Z]/)`. -/
def hasUpper (tag : String) : Bool := tag.data.any Char.isUpper

/-- Whether an attribute value is truthy; a value of the kind `other` is read
as `undefined`, which is what the editor writes. -/
def truthy : AttrVal → Bool
  | .str s => !s.data.isEmpty
  | .yes => true
  | .num n => n != 0
  | .other => false

/-- The value of `node.attrs && node.attrs.slot` when it is truthy. -/
def slotOf (attrs : Option Attrs) : Option AttrVal :=
  match attrs with
  | none => none
  | some obj =>
      match obj.lookup "slot" with
      | some v => if truthy v then some v else none
      | none => none

/-- The test `node.attrs && node.attrs.slot`. -/
def carriesSlot (attrs : Option Attrs) : Bool := (slotOf attrs).isSome

/-- The loop of `findContainingSlot`, from the node at the place whose indices
are given innermost first. The outer `none` is a thrown error (`node.tag` is
no string), the inner one the result `undefined`. -/
def containerFrom (tree : HNode) : List Nat → Option (Option (List Nat))
  | [] => some none
  | i :: up =>
      match nodeAt tree (i :: up).reverse with
      | some (.element (.name tag) attrs _) =>
          if hasUpper tag || carriesSlot attrs then some (some (i :: up).reverse)
          else
            match nodeAt tree up.reverse with
            | some (.element _ _ _) => containerFrom tree up
            | _ => some none
      | some .empty => some none
      | _ => none

/-- The method `findContainingSlot(htmlNode)`, for the node at a place. -/
def findContainingSlot (tree : HNode) (p : List Nat) : Option (Option (List Nat)) :=
  containerFrom tree p.reverse

mutual
/-- The traversal `tree.match(filter, cb)` of posthtml with a callback that
collects: the places of the nodes that the filter matches, a node before the
nodes of its content. -/
def matchNode (filter : HNode → Bool) (here : List Nat) : HNode → List (List Nat)
  | .element tag attrs content =>
      (if filter (.element tag attrs content) then [here] else [])
        ++ (match content with
            | none => []
            | some xs => matchItems filter here 0 xs)
  | .list xs => matchItems filter here 0 xs
  | _ => []
/-- The traversal `matchNode` of the items of an array, the first of which has
the index `i`. -/
def matchItems (filter : HNode → Bool) (here : List Nat) (i : Nat) :
    List HNode → List (List Nat)
  | [] => []
  | node :: rest => matchNode filter (here ++ [i]) node ++ matchItems filter here (i + 1) rest
end

/-- The method `filterHAST(filter)`. -/
def filterHAST (tree : HNode) (filter : HNode → Bool) : List (List Nat) :=
  matchNode filter [] tree

/-- The comparison of posthtml of an expected attribute value with the actual
one: the expected value `true` asks for an attribute that is there, any other
value for the same value. -/
def compareValue (expected : AttrVal) (actual : Option AttrVal) : Bool :=
  match expected with
  | .yes =>
      (match actual with
       | none => false
       | some .other => false
       | some _ => true)
  | _ => actual == some expected

/-- The filter `{ tag }`, or `{ tag, attrs: { name } }` when a name is given,
as posthtml compares it with a node. -/
def matchesFilter (tag : String) (name : Option AttrVal) : HNode → Bool
  | .element (.name t) attrs _ =>
      t == tag &&
        (match name with
         | none => true
         | some expected =>
             match attrs with
             | none => false
             | some obj => compareValue expected (obj.lookup "name"))
  | _ => false

/-- The method `findHostSlot(htmlNode, hostCmp)`: the place of the slot in the
tree of the host; the inner `none` is `undefined`. -/
def findHostSlot (src : HNode) (p : List Nat) (host : HNode) : Option (Option (List Nat)) :=
  match findContainingSlot src p with
  | some (some container) =>
      match nodeAt src container with
      | some (.element _ attrs _) =>
          some (filterHAST host (matchesFilter "slot" (slotOf attrs))).head?
      | _ => none
  | _ => none

/-- The whitespace characters of `\s` and of `trimRight`. -/
def isSpace (c : Char) : Bool :=
  [9, 10, 11, 12, 13, 32, 160, 5760, 8232, 8233, 8239, 8287, 12288, 65279].contains c.toNat
    || (Nat.ble 8192 c.toNat && Nat.ble c.toNat 8202)

/-- The test `typeof str == 'string' && str.match(/^\s+$/)`. -/
def isWhitespace : HNode → Bool
  | .text s => !s.data.isEmpty && s.data.all isSpace
  | _ => false

/-- The method `findWhitespace(node)`, on the content of the node; it throws
for a node without content. -/
def findWhitespace (content : Option (List HNode)) : Option String :=
  match content with
  | none => none
  | some xs =>
      match xs.filter isWhitespace with
      | .text s :: _ => some s
      | _ => some "\n    "

/-- The text `str.trimRight()`. -/
def trimRight (s : String) : String :=
  String.mk (s.data.reverse.dropWhile isSpace).reverse

/-- The attribute map after `copy.attrs.slot = undefined` of `copyNode`, which
runs when the node carries a slot. -/
def clearSlot (attrs : Option Attrs) : Option Attrs :=
  if carriesSlot attrs then attrs.map (setField "slot" AttrVal.other) else attrs

/-- The method `copyNode(node)` on an element. -/
def copyNode : HNode → HNode
  | .element tag attrs content => .element tag (clearSlot attrs) content
  | node => node

/-- The tree after `copyNode(node)` has run on the node at a place: the copy
is shallow and shares the attribute map with the node, which therefore loses
the slot as well. -/
def afterCopy (tree : HNode) (p : List Nat) : Option HNode :=
  updateAt (fun node => some (copyNode node)) tree p

/-- The method `removeNode(node)` for the node at a place: the text before the
node is trimmed, the node loses tag and content. It throws for a node without
parent and for a node that stands behind an item that is no text. -/
def removeNode (tree : HNode) (p : List Nat) : Option HNode :=
  match parentOf tree p, p.getLast? with
  | some parent, some idx =>
      updateAt
        (fun node =>
          match node with
          | .element tag attrs (some content) =>
              match content[idx]? with
              | some (.element _ nodeAttrs _) =>
                  let cleared := content.set idx (.element .skip nodeAttrs none)
                  if idx = 0 then some (.element tag attrs (some cleared))
                  else
                    match content[idx - 1]? with
                    | some (.text s) =>
                        some (.element tag attrs
                          (some (cleared.set (idx - 1) (.text (trimRight s)))))
                    | _ => none
              | _ => none
          | _ => none)
        tree parent
  | _, _ => none

/-- The content of the parent of the node at a place. -/
def parentContent (tree : HNode) (p : List Nat) : Option (List HNode) :=
  match parentOf tree p with
  | none => none
  | some parent => (nodeAt tree parent).bind HNode.items

/-- The method `insertBefore(insertedNode, targetNode)`. -/
def insertBefore (tree : HNode) (inserted : HNode) (target : List Nat) : Option HNode :=
  match findWhitespace (parentContent tree target) with
  | none => none
  | some whitespace => spliceAtParent tree target 0 0 [inserted, .text whitespace]

/-- The method `insertAfter(insertedNode, targetNode)`. -/
def insertAfter (tree : HNode) (inserted : HNode) (target : List Nat) : Option HNode :=
  match findWhitespace (parentContent tree target) with
  | none => none
  | some whitespace => spliceAtParent tree target 1 0 [.text whitespace, inserted]

/-- The method `replaceNode(targetNode, replacement)`. -/
def replaceNode (tree : HNode) (target : List Nat) (replacement : HNode) : Option HNode :=
  spliceAtParent tree target 0 1 [replacement]

/-- The test `typeof node == 'object'` on an item. -/
def isObject : HNode → Bool
  | .element _ _ _ => true
  | .list _ => true
  | _ => false

/-- The index of the last item of a list that passes a test: the index that
`indexOf` gives for the item `filter(test).slice(-1)[0]`. -/
def lastIndex (test : HNode → Bool) : List HNode → Option Nat
  | [] => none
  | x :: rest =>
      match lastIndex test rest with
      | some k => some (k + 1)
      | none => if test x then some 0 else none

/-- The method `append(node, parent)` for the parent at a place. -/
def append (tree : HNode) (node : HNode) (parent : List Nat) : Option HNode :=
  match nodeAt tree parent with
  | some (.element _ _ (some content)) =>
      match lastIndex isObject content with
      | none => none
      | some k => insertAfter tree node (parent ++ [k])
  | _ => none

/-- The method `pushAboveSlot(htmlNode, hostCmp)`: the trees of the source and
of the host afterwards. -/
def pushAboveSlot (src : HNode) (p : List Nat) (host : HNode) : Option (HNode × HNode) :=
  match findHostSlot src p host, nodeAt src p with
  | some (some hostSlot), some node =>
      match insertBefore host (copyNode node) hostSlot, afterCopy src p with
      | some host', some src1 => (removeNode src1 p).map (fun src' => (src', host'))
      | _, _ => none
  | _, _ => none

/-- The method `pushBelowSlot(htmlNode, hostCmp)`. -/
def pushBelowSlot (src : HNode) (p : List Nat) (host : HNode) : Option (HNode × HNode) :=
  match findHostSlot src p host, nodeAt src p with
  | some (some hostSlot), some node =>
      match insertAfter host (copyNode node) hostSlot, afterCopy src p with
      | some host', some src1 => (removeNode src1 p).map (fun src' => (src', host'))
      | _, _ => none
  | _, _ => none

/-- The method `pushAroundSlot(htmlNode, hostCmp)`. -/
def pushAroundSlot (src : HNode) (p : List Nat) (host : HNode) : Option (HNode × HNode) :=
  match findHostSlot src p host, nodeAt src p with
  | some (some hostSlot), some (.element tag attrs content) =>
      match nodeAt host hostSlot with
      | none => none
      | some slotNode =>
          match replaceNode host hostSlot (.element tag (clearSlot attrs) (some [slotNode])) with
          | none => none
          | some host' =>
              match content with
              | none => none
              | some children => (spliceAtParent src p 0 1 children).map (fun src' => (src', host'))
  | _, _ => none

/-- The method `pushIntoSlot(htmlNode, hostCmp)`. -/
def pushIntoSlot (src : HNode) (p : List Nat) (host : HNode) : Option (HNode × HNode) :=
  match findHostSlot src p host, nodeAt src p with
  | some (some hostSlot), some node =>
      match
        updateAt
          (fun slotNode =>
            match slotNode with
            | .element tag attrs content =>
                let present := match content with
                  | none => []
                  | some xs => xs
                (findWhitespace (some present)).map
                  (fun whitespace =>
                    .element tag attrs
                      (some (present ++
                        [.text (whitespace ++ "    "), copyNode node, .text whitespace])))
            | _ => none)
          host hostSlot
        , afterCopy src p
      with
      | some host', some src1 => (removeNode src1 p).map (fun src' => (src', host'))
      | _, _ => none
  | _, _ => none

/-- The statements `if (!htmlNode.attrs) htmlNode.attrs = {}` and
`htmlNode.attrs.slot = slotName` of `pushIntoNewSlot`. -/
def setSlot (slotName : String) : HNode → Option HNode
  | .element tag attrs content =>
      some (.element tag
        (some (setField "slot" (AttrVal.str slotName)
          (match attrs with
           | none => []
           | some obj => obj)))
        content)
  | _ => none

/-- The method `pushIntoNewSlot(htmlNode, slotName, hostCmp)`. -/
def pushIntoNewSlot (src : HNode) (p : List Nat) (slotName : String) (host : HNode) :
    Option (HNode × HNode) :=
  match findContainingSlot src p with
  | some (some container) =>
      match nodeAt src container, updateAt (setSlot slotName) src p with
      | some (.element (.name tag) _ _), some src1 =>
          let moved :=
            if hasUpper tag then some src1
            else
              match nodeAt src1 p with
              | none => none
              | some node => insertAfter src1 node container
          match moved with
          | none => none
          | some src2 =>
              match (filterHAST host (matchesFilter "template" none)).head? with
              | none => none
              | some template =>
                  (append host
                    (.element (.name "slot") (some [("name", .str slotName)]) none)
                    (template ++ [1])).map
                    (fun host' => (src2, host'))
      | _, _ => none
  | _ => none

/-- The characters behind the last `sep`: `split(sep).slice(-1)[0]`. -/
def afterLast (sep : Char) (cs : List Char) : List Char :=
  (cs.reverse.takeWhile (fun c => c != sep)).reverse

/-- The characters before the first `sep`: `split(sep)[0]`. -/
def beforeFirst (sep : Char) (cs : List Char) : List Char :=
  cs.takeWhile (fun c => c != sep)

/-- The name `cmpPath.split('/').slice(-1)[0].split('.')[0]`. -/
def componentName (cmpPath : String) : String :=
  String.mk (beforeFirst '.' (afterLast '/' cmpPath.data))

/-- The characters of `str.replace(pat, by)` for a text `pat` that is not
empty: the first occurrence is replaced. -/
def replaceFirst (pat replacement : List Char) : List Char → List Char
  | [] => []
  | c :: cs =>
      if pat.isPrefixOf (c :: cs) then replacement ++ (c :: cs).drop pat.length
      else c :: replaceFirst pat replacement cs

/-- The function `addToTop(jSrc, node)` of `node-utils.js`. -/
def addToTop (script : Node) (node : Node) : Option Node :=
  match find script [[]] "Program" (fun _ => true) with
  | [] => none
  | program :: _ =>
      match getField script program "body" with
      | none => none
      | some body =>
          modifyAt (fun arr => some (.mk arr.type arr.attrs (("", node) :: arr.kids))) script body

/-- The text of the import statement of `importComponent`. -/
def importText (path : String) : String :=
  "import " ++ componentName path ++ " from \x27"
    ++ String.mk (replaceFirst "src".data "@".data path.data) ++ "\x27;"

/-- The method `importComponent(path)`. -/
def importComponent (g : ScriptGrammar) (script : Node) (path : String) : Option Node :=
  match parse g (importText path) with
  | none => none
  | some statement =>
      match addToTop script statement with
      | none => none
      | some script1 =>
          pushEntry script1 "components"
            (objProp (componentName path) (identifier (componentName path))
              [("shorthand", .bool true)])

/-- The tree that the markup parser makes of the text of the new component of
`refactorIntoComponent`: a `script` node with the text
`export default {}` on a line of its own, two line breaks, and a `template`
node, which the parser leaves without content; `content` is the content of
that node. -/
def newComponentTree (content : Option (List HNode)) : HNode :=
  .list
    [.element (.name "script") none (some [.text "\nexport default \x7b\x7d\n"]),
     .text "\n\n",
     .element (.name "template") none content]

/-- The node `newTag` of `refactorIntoComponent`. -/
def newTag (tag : Tag) (newAttrs : Attrs) : HNode :=
  .element tag (some newAttrs)
    (some [.text "\n    ", .element (.name "slot") none none, .text "\n"])

/-- A component: its script tree and its markup tree. -/
structure Component where
  script : Node
  tree : HNode

/-- The method `refactorIntoComponent(htmlNode, cmpPath, attrs)` for the node
at a place: the component afterwards, and the new component. Reading a key of
`htmlNode.attrs` throws for a node without attributes. -/
def refactorIntoComponent (g : ScriptGrammar) (cmp : Component) (p : List Nat)
    (cmpPath : String) (attrs : List String) : Option (Component × Component) :=
  match nodeAt cmp.tree p with
  | some (.element tag nodeAttrs content) =>
      match (if attrs.isEmpty then some [] else nodeAttrs) with
      | none => none
      | some obj =>
          let newAttrs := mapWithKeys attrs (fun key => (key, (obj.lookup key).getD AttrVal.other))
          let kept := nodeAttrs.map (fun old => old.filter (fun kv => !attrs.contains kv.1))
          match
            updateAt (fun _ => some (.element (.name (componentName cmpPath)) kept content))
              cmp.tree p,
            importComponent g cmp.script cmpPath,
            constructScript g (newComponentTree none)
          with
          | some tree', some script', some newScript =>
              some
                ({ script := script', tree := tree' },
                 { script := newScript,
                   tree := newComponentTree (some [.text "\n", newTag tag newAttrs, .text "\n"]) })
          | _, _, _ => none
  | _ => none

/-! ### What a call of `updateProp` leaves behind -/

/-- What a call leaves in memory: the script as it is when the call returns or
throws, and whether it threw. -/
structure Outcome where
  script : Node
  threw : Bool
  deriving DecidableEq

/-- The loop of `updateProp` with the state it leaves behind. A round that
throws has not changed the tree (`parse(val)` and `prop.get()` come before the
`push`), so the state at a throw is the state before that round. -/
def updatePropLoopOutcome (g : ScriptGrammar) :
    List (String × Option String) → UpdateState → UpdateState × Bool
  | [], state => (state, false)
  | attr :: rest, state =>
      match updatePropStep g state attr with
      | none => (state, true)
      | some state' => updatePropLoopOutcome g rest state'

/-- The method `updateProp(name, attrs)` with what it leaves behind: the
statements are those of `updateProp`, and a throw leaves the script that the
statements before it have made. A throw inside `option('props')` comes before
its `push`. -/
def updatePropOutcome (g : ScriptGrammar) (script : Node) (name : String)
    (attrs : List (String × Option String)) : Outcome :=
  match option script "props" with
  | none => { script := script, threw := true }
  | some opt =>
      match opt.node.head? with
      | none => { script := opt.script, threw := true }
      | some first =>
          match getField opt.script first "value" with
          | none => { script := opt.script, threw := true }
          | some value =>
              match getAt opt.script value with
              | none => { script := opt.script, threw := true }
              | some valueNode =>
                  match (if valueNode.type == "ArrayExpression" then
                           match valueNode.kid "elements" with
                           | none => none
                           | some elements =>
                               (replaceAt opt.script value (propsObject elements.kids)).map
                                 (fun script1 =>
                                   (script1,
                                    opt.node.filter
                                      (fun p => !(value.isPrefixOf p && p != value))))
                         else some (opt.script, opt.node)) with
                  | none => { script := opt.script, threw := true }
                  | some (script1, props) =>
                      match updatePropLoopOutcome g attrs
                          { script := script1, props := props,
                            prop := find script1 props "Property" (hasKeyNamed name) } with
                      | (state, true) => { script := state.script, threw := true }
                      | (state, false) =>
                          let propsList :=
                            find state.script state.props "Property" (fun _ => true)
                          match collect (propsList.map (fun p =>
                              (getAt state.script p).bind hasEmptyObject)) with
                          | none => { script := state.script, threw := true }
                          | some empty =>
                              if propsList.length == (empty.filter (fun b => b)).length then
                                match collect (propsList.map (fun p =>
                                    (getAt state.script p).bind keyLiteral)) with
                                | none => { script := state.script, threw := true }
                                | some newProps =>
                                    match state.props.head? with
                                    | none => { script := state.script, threw := true }
                                    | some first' =>
                                        match getField state.script first' "value" with
                                        | none => { script := state.script, threw := true }
                                        | some value' =>
                                            match replaceAt state.script value'
                                                (arrayExpression newProps) with
                                            | none => { script := state.script, threw := true }
                                            | some script2 =>
                                                { script := script2, threw := false }
                              else { script := state.script, threw := false }

/-! ### Removal, accessors and the transplant of entries (`VueAstEditor.js`) -/

/-- The filter `{ local: { name } }` on import specifiers. -/
def hasLocalNamed (name : String) (node : Node) : Bool :=
  match node.kid "local" with
  | some l => l.attr "name" == some (.str name)
  | none => false

/-- The method `deportComponent(name)`. -/
def deportComponent (script : Node) (name : String) : Option Node :=
  let specifiers := find script [[]] "ImportDefaultSpecifier" (hasLocalNamed name)
  let declarations := closest script specifiers "ImportDeclaration"
  removeFromOption (remove script declarations) "components" name

/-- The method `removeData(name)`. The test reads
`data.find(j.ReturnStatement).get().value.argument.properties.length`, which
throws without a return statement and for an argument without `properties`;
the final `data.remove()` throws on the collection `j(prop)` of a new
option. -/
def removeData (script : Node) (name : String) : Option Node :=
  match option script "data" with
  | none => none
  | some opt =>
      let found := find opt.script opt.node "Property" (hasKeyNamed name)
      let script2 := remove opt.script found
      let node2 := relocateAll found opt.node
      match (find script2 node2 "ReturnStatement" (fun _ => true)).head? with
      | none => none
      | some ret =>
          match getField script2 ret "argument" with
          | none => none
          | some argument =>
              match getField script2 argument "properties" with
              | none => none
              | some properties =>
                  match getAt script2 properties with
                  | none => none
                  | some arr =>
                      if arr.kids.length == 0 then
                        if opt.detached then none else some (remove script2 node2)
                      else some script2

/-- The method `removeComputed(name)`. -/
def removeComputed (script : Node) (name : String) : Option Node :=
  removeFromOption script "computed" name

/-- The method `removeWatcher(name)`. -/
def removeWatcher (script : Node) (name : String) : Option Node :=
  removeFromOption script "watch" name

/-- The method `removeMethod(name)`. -/
def removeMethod (script : Node) (name : String) : Option Node :=
  removeFromOption script "methods" name

/-- The object `mapWithKeys(properties, prop => [prop.key.name, prop.value])`
for the array of properties at a path; a value is given by its path in the
script (`none` for a property without value). The callback throws on a
property without key. -/
def keyedValues (script : Node) (properties : Path) : Option (List (String × Option Path)) :=
  match getAt script properties with
  | none => none
  | some arr =>
      (collect (((List.range arr.kids.length).zip arr.kids).map (fun e =>
          (e.2.2.kid "key").map (fun key => (propertyKey (key.attr "name"), e.1, e.2.2))))).map
        (fun entries =>
          mapWithKeys entries (fun e =>
            (e.1, (kidIndex e.2.2 "value").map (fun v => properties ++ [e.2.1, v]))))

/-- What the accessors `computed()`, `watchers()` and `methods()` share:
`mapWithKeys(this.option(name).get().value.value.properties, ...)`, together
with what the call of `option` leaves. -/
def optionValues (script : Node) (optionName : String) :
    Option (OptionResult × List (String × Option Path)) :=
  match option script optionName with
  | none => none
  | some opt =>
      match opt.node.head? with
      | none => none
      | some first =>
          match getField opt.script first "value" with
          | none => none
          | some value =>
              match getField opt.script value "properties" with
              | none => none
              | some properties =>
                  (keyedValues opt.script properties).map (fun entries => (opt, entries))

/-- The accessor `computed()`. -/
def computed (script : Node) : Option (OptionResult × List (String × Option Path)) :=
  optionValues script "computed"

/-- The accessor `watchers()`. -/
def watchers (script : Node) : Option (OptionResult × List (String × Option Path)) :=
  optionValues script "watch"

/-- The accessor `methods()`. -/
def methods (script : Node) : Option (OptionResult × List (String × Option Path)) :=
  optionValues script "methods"

/-- The accessor `data()`, together with what its call of `option` leaves. -/
def data (script : Node) : Option (OptionResult × List (String × Option Path)) :=
  match option script "data" with
  | none => none
  | some opt =>
      let returns := find opt.script opt.node "ReturnStatement" (fun _ => true)
      match (find opt.script returns "ObjectExpression" (fun _ => true)).head? with
      | none => none
      | some obj =>
          match getField opt.script obj "properties" with
          | none => none
          | some properties =>
              (keyedValues opt.script properties).map (fun entries => (opt, entries))

/-- One round of the loops of `pushComputed`, `pushWatcher` and `pushMethod`,
for the accessor `values`, the option it reads and the method `add` of the
host: `node = values()[name]; remove(name); hostCmp.add(name, node)`. The node
is the object that stands in the source, so it arrives as the removal has left
it: without the properties below it that the removal has pruned. A name
without entry gives `undefined`, for which `add` takes its default. -/
def pushOption (values : Node → Option (OptionResult × List (String × Option Path)))
    (optionName : String) (add : Node → String → Option Node → Option Node)
    (source host : Node) (name : String) : Option (Node × Node) :=
  match values source with
  | none => none
  | some (opt, entries) =>
      match removeFromOption opt.script optionName name with
      | none => none
      | some source' =>
          let found :=
            match option opt.script optionName with
            | some opt2 => find opt2.script opt2.node "Property" (hasKeyNamed name)
            | none => []
          let node :=
            ((entries.lookup name).bind id).bind (fun p =>
              (getAt opt.script p).map (pruneNode found p))
          (add host name node).map (fun host' => (source', host'))

/-- The loop `names.forEach(...)` of the transplants over a pair of a source
and a host. -/
def pushAll (step : Node → Node → String → Option (Node × Node)) :
    List String → Node × Node → Option (Node × Node)
  | [], pair => some pair
  | name :: rest, pair =>
      match step pair.1 pair.2 name with
      | none => none
      | some pair' => pushAll step rest pair'

/-- The method `pushComputed(computed, hostCmp)` on the scripts of two
components; a name alone is the list of that name. -/
def pushComputed (source host : Node) (names : List String) : Option (Node × Node) :=
  pushAll (pushOption computed "computed" addComputed) names (source, host)

/-- The method `pushWatcher(watcher, hostCmp)`. -/
def pushWatcher (source host : Node) (names : List String) : Option (Node × Node) :=
  pushAll (pushOption watchers "watch" addWatcher) names (source, host)

/-- The method `pushMethod(method, hostCmp)`. -/
def pushMethod (source host : Node) (names : List String) : Option (Node × Node) :=
  pushAll (pushOption methods "methods" addMethod) names (source, host)

/-- One round of the loop of `pushData`: the value is printed before the
removal, and `j(undefined)` throws for a name without entry. -/
def pushDataEntry (g : ScriptGrammar) (source host : Node) (name : String) :
    Option (Node × Node) :=
  match data source with
  | none => none
  | some (opt, entries) =>
      match ((entries.lookup name).bind id).bind (getAt opt.script) with
      | none => none
      | some value =>
          let stringifiedValue := g.toSource value
          match removeData opt.script name with
          | none => none
          | some source' =>
              (addData g host name stringifiedValue).map (fun host' => (source', host'))

/-- The method `pushData(data, hostCmp)`. -/
def pushData (g : ScriptGrammar) (source host : Node) (names : List String) :
    Option (Node × Node) :=
  pushAll (pushDataEntry g) names (source, host)

/-- The method `pushComponent(cmpName, hostCmp)`: the module path is the text
`source.value` of the first import declaration found; `importComponent` splits
it, so a value that is no text throws. -/
def pushComponent (g : ScriptGrammar) (source host : Node) (cmpName : String) :
    Option (Node × Node) :=
  let specifiers := find source [[]] "ImportDefaultSpecifier" (hasLocalNamed cmpName)
  match (closest source specifiers "ImportDeclaration").head? with
  | none => none
  | some declaration =>
      match (getAt source declaration).bind (fun node => node.kid "source") with
      | none => none
      | some moduleName =>
          match moduleName.attr "value" with
          | some (.str path) =>
              match deportComponent source cmpName with
              | none => none
              | some source' =>
                  (importComponent g host path).map (fun host' => (source', host'))
          | _ => none

/-! ### The markup tree as objects with parent references

The operations of the structural refactoring once more, on the node objects
themselves: an object has an address, its content holds texts and addresses,
and `parent` is the reference that `addParentsToHtmlTree` sets. The names end
in `Linked`; a tree is the list of its top-level items. -/

/-- An item of a content array: a text, or the node object at an address. -/
inductive Item where
  | text (s : String)
  | node (address : Nat)
  deriving DecidableEq, Repr

/-- A node object `{ tag, attrs, content, parent }`; `content` and `parent`
may be absent. -/
structure Obj where
  tag : Tag
  attrs : Option Attrs
  content : Option (List Item)
  parent : Option Nat
  deriving DecidableEq, Repr

/-- The node objects, by address. -/
abbrev Heap := List Obj

/-- The heap in which `f` has changed the object at an address. -/
def modifyObj (heap : Heap) (address : Nat) (f : Obj → Obj) : Heap :=
  match heap[address]? with
  | none => heap
  | some obj => heap.set address (f obj)

/-- The value `content.indexOf(node)`: `-1` when the node is not there. -/
def indexOfNode (content : List Item) (address : Nat) : Int :=
  let i := content.indexOf (Item.node address)
  if i < content.length then (i : Int) else -1

/-- The array after `content.splice(start, count, ...added)`; a negative
start counts from the end. -/
def splice (content : List Item) (start : Int) (count : Nat) (added : List Item) : List Item :=
  let s : Nat :=
    if start < 0 then ((content.length : Int) + start).toNat else min start.toNat content.length
  content.take s ++ added ++ content.drop (s + count)

/-- The method `findWhitespace(node)` on the content of the node. -/
def findWhitespaceLinked (content : List Item) : String :=
  match content.filter (fun item =>
      match item with
      | .text s => !s.data.isEmpty && s.data.all isSpace
      | .node _ => false) with
  | .text s :: _ => s
  | _ => "\n    "

/-- The content of `node.parent` with the address of the parent; `none` when
reading it throws. -/
def parentContentLinked (heap : Heap) (node : Nat) : Option (Nat × List Item) :=
  match heap[node]? with
  | none => none
  | some obj =>
      match obj.parent with
      | none => none
      | some p =>
          match heap[p]? with
          | none => none
          | some parent => parent.content.map (fun content => (p, content))

/-- The method `insertBefore(insertedNode, targetNode)`. -/
def insertBeforeLinked (heap : Heap) (inserted target : Nat) : Option Heap :=
  (parentContentLinked heap target).map (fun pc =>
    modifyObj heap pc.1 (fun parent =>
      { parent with
        content := some (splice pc.2 (indexOfNode pc.2 target) 0
          [.node inserted, .text (findWhitespaceLinked pc.2)]) }))

/-- The method `insertAfter(insertedNode, targetNode)`. -/
def insertAfterLinked (heap : Heap) (inserted target : Nat) : Option Heap :=
  (parentContentLinked heap target).map (fun pc =>
    modifyObj heap pc.1 (fun parent =>
      { parent with
        content := some (splice pc.2 (indexOfNode pc.2 target + 1) 0
          [.text (findWhitespaceLinked pc.2), .node inserted]) }))

/-- The method `replaceNode(targetNode, replacement)`: the replacement gets
the parent of the target. -/
def replaceNodeLinked (heap : Heap) (target replacement : Nat) : Option Heap :=
  (parentContentLinked heap target).map (fun pc =>
    modifyObj
      (modifyObj heap pc.1 (fun parent =>
        { parent with
          content := some (splice pc.2 (indexOfNode pc.2 target) 1 [.node replacement]) }))
      replacement (fun obj => { obj with parent := some pc.1 }))

/-- The method `removeNode(node)`; the item before the node has to be a
text. -/
def removeNodeLinked (heap : Heap) (node : Nat) : Option Heap :=
  match parentContentLinked heap node with
  | none => none
  | some (p, content) =>
      let idx := indexOfNode content node
      let trimmed : Option Heap :=
        if idx = 0 then some heap
        else if idx < 0 then none
        else
          match content[(idx - 1).toNat]? with
          | some (.text s) =>
              some (modifyObj heap p (fun parent =>
                { parent with
                  content := some (content.set (idx - 1).toNat (.text (trimRight s))) }))
          | _ => none
      trimmed.map (fun heap1 =>
        modifyObj heap1 node (fun obj => { obj with tag := .skip, content := none }))

/-- The method `copyNode(node)`: the new object has the fields of the node,
the `parent` among them; the attribute map is shared, so both lose the
slot. -/
def copyNodeLinked (heap : Heap) (node : Nat) : Option (Heap × Nat) :=
  match heap[node]? with
  | none => none
  | some obj =>
      let shared := { obj with attrs := clearSlot obj.attrs }
      some (heap.set node shared ++ [shared], heap.length)

/-- The method `append(node, parent)`. -/
def appendLinked (heap : Heap) (node parent : Nat) : Option Heap :=
  match heap[parent]? with
  | none => none
  | some obj =>
      match obj.content with
      | none => none
      | some content =>
          match (content.filterMap (fun item =>
              match item with
              | .node a => some a
              | .text _ => none)).getLast? with
          | none => none
          | some target => insertAfterLinked heap node target

/-- The loop of `findContainingSlot`; the outer `none` is a thrown error (or a
loop without end, when the fuel is used up), the inner one `undefined`. -/
def containerLinked (heap : Heap) : Nat → Option Nat → Option (Option Nat)
  | _, none => some none
  | 0, some _ => none
  | fuel + 1, some a =>
      match heap[a]? with
      | none => none
      | some obj =>
          match obj.tag with
          | .name tag =>
              if hasUpper tag || carriesSlot obj.attrs then some (some a)
              else containerLinked heap fuel obj.parent
          | _ => none

/-- The method `findContainingSlot(htmlNode)`: a chain of parents without a
repetition is no longer than the heap. -/
def findContainingSlotLinked (heap : Heap) (node : Nat) : Option (Option Nat) :=
  containerLinked heap (heap.length + 1) (some node)

/-- The traversal `tree.match(filter, cb)` with a callback that collects: the
addresses of the matching nodes, a node before the nodes of its content, to
the depth of the fuel. -/
def matchLinked (heap : Heap) (filter : Obj → Bool) : Nat → List Item → List Nat
  | 0, _ => []
  | fuel + 1, items =>
      items.flatMap (fun item =>
        match item with
        | .text _ => []
        | .node a =>
            match heap[a]? with
            | none => []
            | some obj =>
                (if filter obj then [a] else [])
                  ++ (match obj.content with
                      | none => []
                      | some content => matchLinked heap filter fuel content))

/-- The method `filterHAST(filter)` on a tree: a tree without a cycle is no
deeper than the heap. -/
def filterHASTLinked (heap : Heap) (tree : List Item) (filter : Obj → Bool) : List Nat :=
  matchLinked heap filter (heap.length + 1) tree

/-- The filter `{ tag }`, or `{ tag, attrs: { name } }` when a name is
given. -/
def matchesFilterLinked (tag : String) (name : Option AttrVal) (obj : Obj) : Bool :=
  match obj.tag with
  | .name t =>
      t == tag &&
        (match name with
         | none => true
         | some expected =>
             match obj.attrs with
             | none => false
             | some attrs => compareValue expected (attrs.lookup "name"))
  | _ => false

/-- The method `findHostSlot(htmlNode, hostCmp)`; the inner `none` is
`undefined`. -/
def findHostSlotLinked (heap : Heap) (node : Nat) (host : List Item) : Option (Option Nat) :=
  match findContainingSlotLinked heap node with
  | some (some container) =>
      match heap[container]? with
      | none => none
      | some obj =>
          some (filterHASTLinked heap host (matchesFilterLinked "slot" (slotOf obj.attrs))).head?
  | _ => none

/-- The method `pushAboveSlot(htmlNode, hostCmp)`: the heap afterwards. -/
def pushAboveSlotLinked (heap : Heap) (node : Nat) (host : List Item) : Option Heap :=
  match findHostSlotLinked heap node host, copyNodeLinked heap node with
  | some (some hostSlot), some (heap1, copy) =>
      (insertBeforeLinked heap1 copy hostSlot).bind (fun heap2 => removeNodeLinked heap2 node)
  | _, _ => none

/-- The method `pushBelowSlot(htmlNode, hostCmp)`. -/
def pushBelowSlotLinked (heap : Heap) (node : Nat) (host : List Item) : Option Heap :=
  match findHostSlotLinked heap node host, copyNodeLinked heap node with
  | some (some hostSlot), some (heap1, copy) =>
      (insertAfterLinked heap1 copy hostSlot).bind (fun heap2 => removeNodeLinked heap2 node)
  | _, _ => none

/-- The method `pushAroundSlot(htmlNode, hostCmp)`. -/
def pushAroundSlotLinked (heap : Heap) (node : Nat) (host : List Item) : Option Heap :=
  match findHostSlotLinked heap node host, copyNodeLinked heap node with
  | some (some hostSlot), some (heap1, copy) =>
      let heap2 := modifyObj heap1 copy (fun obj => { obj with content := some [.node hostSlot] })
      match replaceNodeLinked heap2 hostSlot copy with
      | none => none
      | some heap3 =>
          let heap4 := modifyObj heap3 node (fun obj => { obj with tag := .skip })
          match parentContentLinked heap4 node, (heap4[node]?).bind (fun obj => obj.content) with
          | some (p, content), some children =>
              some (modifyObj heap4 p (fun parent =>
                { parent with
                  content := some (splice content (indexOfNode content node) 1 children) }))
          | _, _ => none
  | _, _ => none

/-- The method `pushIntoSlot(htmlNode, hostCmp)`. -/
def pushIntoSlotLinked (heap : Heap) (node : Nat) (host : List Item) : Option Heap :=
  match findHostSlotLinked heap node host with
  | some (some hostSlot) =>
      match heap[hostSlot]? with
      | none => none
      | some slotObj =>
          let present := slotObj.content.getD []
          let whitespace := findWhitespaceLinked present
          match copyNodeLinked heap node with
          | none => none
          | some (heap1, copy) =>
              removeNodeLinked
                (modifyObj heap1 hostSlot (fun obj =>
                  { obj with
                    content := some (present ++
                      [.text (whitespace ++ "    "), .node copy, .text whitespace]) }))
                node
  | _ => none

/-- The method `pushIntoNewSlot(htmlNode, slotName, hostCmp)`. -/
def pushIntoNewSlotLinked (heap : Heap) (node : Nat) (slotName : String) (host : List Item) :
    Option Heap :=
  match findContainingSlotLinked heap node with
  | some (some container) =>
      match heap[container]? with
      | some { tag := .name tag, .. } =>
          let heap1 := modifyObj heap node (fun obj =>
            { obj with
              attrs := some (setField "slot" (AttrVal.str slotName) (obj.attrs.getD [])) })
          let moved := if hasUpper tag then some heap1 else insertAfterLinked heap1 node container
          match moved with
          | none => none
          | some heap2 =>
              match (filterHASTLinked heap2 host (matchesFilterLinked "template" none)).head? with
              | none => none
              | some template =>
                  match (heap2[template]?).bind (fun obj => obj.content) with
                  | none => none
                  | some content =>
                      match (content[1]? : Option Item) with
                      | some (Item.node parent) =>
                          appendLinked
                            (heap2 ++
                              [{ tag := .name "slot", attrs := some [("name", .str slotName)],
                                 content := none, parent := none }])
                            heap2.length parent
                      | _ => none
      | _ => none
  | _ => none

/-! ## Spec-level notions and example inputs -/

/-- No two characters `d` stand next to each other in the list. -/
def noPair (d : Char) : List Char → Bool
  | [] => true
  | [_] => true
  | c :: c' :: rest => !(c == d && c' == d) && noPair d (c' :: rest)

/-- The text `t0 {{e1}} t1 ... {{en}} tn` with interiors `e` and outside texts
`t`, from `t0` and the list of the pairs `(e, t)`. -/
def assemble (t0 : List Char) (segs : List (List Char × List Char)) : List Char :=
  t0 ++ (segs.map (fun et => '{' :: '{' :: (et.1 ++ '}' :: '}' :: et.2))).flatten

/-- The reparsed, renamed and re-serialized text of one interior. -/
def reprint (g : ScriptGrammar) (name newName : String) (e : List Char) : Option (List Char) :=
  (g.parse (String.mk e)).map (fun jsrc => (g.toSource (replaceIdentifiers jsrc name newName)).data)

/-- The pairs `(e, t)` with every interior reprinted; `none` when one of them
does not parse. -/
def reprintAll (g : ScriptGrammar) (name newName : String) :
    List (List Char × List Char) → Option (List (List Char × List Char))
  | [] => some []
  | (e, t) :: rest =>
      match reprint g name newName e with
      | none => none
      | some e' =>
          match reprintAll g name newName rest with
          | none => none
          | some rest' => some ((e', t) :: rest')

/-- A grammar that prints a parsed text as it was written, as recast does for
a tree in which nothing was replaced: the tree records the source text. -/
def verbatim : ScriptGrammar where
  parse := fun source => some (.mk "File" [("source", .str source)] [])
  toSource := fun node =>
    match node.attr "source" with
    | some (.str s) => s
    | _ => ""

/-- The markup `<div><span a="1" b="2"></span></div>`. -/
def nestedTwoAttrs : HNode :=
  .element (.name "div") none
    (some [.element (.name "span") (some [("a", .str "1"), ("b", .str "2")]) (some [])])

/-- The script `export default { <properties> }`. -/
def exportDefault (properties : List Node) : Node :=
  .mk "File" []
    [("program", .mk "Program" []
      [("body", array
        [.mk "ExportDefaultDeclaration" [] [("declaration", objectExpression properties)]])])]

/-- The script `export default { props: { data: Object } }`. -/
def propNamedData : Node :=
  exportDefault [objProp "props" (objectExpression [objProp "data" (identifier "Object") []]) []]

/-- A method `key() { <body> }` of an object literal. -/
def method (key : String) (body : List Node) : Node :=
  objProp key (functionExpression [] (blockStatement body)) [("method", .bool true)]

/-- The script
`export default { methods: { foo() { return { bar: 1 }; }, bar() {} } }`. -/
def methodsFooBar : Node :=
  exportDefault [objProp "methods" (objectExpression
    [method "foo" [returnStatement (objectExpression [objProp "bar" (literal (.num 1)) []])],
     method "bar" []]) []]

mutual
/-- Whether every node of a tree satisfies `P`. -/
def allNodes (P : Node → Bool) : Node → Bool
  | .mk t a kids => P (.mk t a kids) && allKids P kids
/-- Whether every node of the trees of a child list satisfies `P`. -/
def allKids (P : Node → Bool) : List (String × Node) → Bool
  | [] => true
  | (_, k) :: rest => allNodes P k && allKids P rest
end

/-- The shape that ESTree gives the nodes the renamer looks at: a member
expression has an `object` and a `property`, and a node with a primitive
`name` or `value` field (an identifier, a literal) has no children. -/
def wellShaped (node : Node) : Bool :=
  (node.type != "MemberExpression" ||
    ((node.kid "object").isSome && (node.kid "property").isSome)) &&
  (((node.attr "name").isNone && (node.attr "value").isNone) || node.kids.isEmpty)

/-- Every node of the tree is `wellShaped`. -/
def wellFormed (script : Node) : Bool := allNodes wellShaped script

/-- The member access `this.<property>` or `this[<property>]`, with the
primitive fields `a` of the access and `ta` of the receiver. -/
def thisMember (a ta : List (String × Prim)) (property : Node) : Node :=
  .mk "MemberExpression" a [("object", .mk "ThisExpression" ta []), ("property", property)]

/-- The children that the callback of `renameMemberExpressions` keeps: all of
them when the node is no access on `this`, all but the first child labelled
`property` otherwise, and that one too when it does not carry the old name. -/
def keepsMember (old : String) (m : Node) (i : Nat) : Prop :=
  isThisMember m = false ∨ m.kids.findIdx (fun lk => lk.1 == "property") ≠ i ∨
    (∀ prop, m.kid "property" = some prop →
      looseEqString (prop.attr "name") old = false ∧
        looseEqString (prop.attr "value") old = false)

/-- The property of a destructuring pattern has a key and a value. -/
def hasKeyAndValue (prop : Node) : Bool :=
  (prop.kid "key").isSome && (prop.kid "value").isSome

/-- The node is a pattern with an array of properties, each with a key and a
value: `{ a, b: c }`. -/
def destructuringPattern (id : Node) : Bool :=
  match id.kid "properties" with
  | none => false
  | some props => props.type == "[]" && props.kids.all (fun lk => hasKeyAndValue lk.2)

/-- The declared `id` of the declarator is a destructuring pattern:
`{ a, b: c } = ...`. -/
def destructures (node : Node) : Bool :=
  match node.kid "id" with
  | none => false
  | some id => destructuringPattern id

/-- Every declaration of the tree that is initialised from `this` is a
destructuring one. -/
def receiverDeclarationsDestructure (script : Node) : Bool :=
  allNodes (fun node => !isThisDeclarator node || destructures node) script

/-- The subtree holds no access on `this` and no declaration initialised from
`this`. -/
def receiverFree (node : Node) : Bool :=
  allNodes (fun m => !isThisMember m && !isThisDeclarator m) node

/-- The declarator `<pattern> = this` whose pattern has the properties
`props`; `a`, `pa`, `ra` and `ta` are the primitive fields of the declarator,
the pattern, the array and the receiver, `pt` is the type of the pattern. -/
def receiverDeclarator (a : List (String × Prim)) (pt : String) (pa ra : List (String × Prim))
    (props : List (String × Node)) (ta : List (String × Prim)) : Node :=
  .mk "VariableDeclarator" a
    [("id", .mk pt pa [("properties", .mk "[]" ra props)]), ("init", .mk "ThisExpression" ta [])]

/-- What the rename leaves at the path `p` of the tree `script'`, where the
access `this.<leaf>` or `this[<leaf>]` stood whose property leaf has the type
`pt` and the primitive fields `pa`: an identifier of the old name has become
the identifier of the new name, a string literal of the old name the literal
of the new name, and a leaf that carries another name is as it was. -/
def memberRenamedAt (script' : Node) (p : Path) (a ta pa : List (String × Prim)) (pt : String)
    (old new : String) : Prop :=
  (pa.lookup "name" = some (.str old) →
    getAt script' p = some (thisMember a ta (identifier new))) ∧
  (pa.lookup "name" = none → pa.lookup "value" = some (.str old) →
    getAt script' p = some (thisMember a ta (literal (.str new)))) ∧
  (looseEqString (pa.lookup "name") old = false →
    looseEqString (pa.lookup "value") old = false →
    getAt script' p = some (thisMember a ta (.mk pt pa [])))

/-- The statements `this.foo = 1; this['foo'] = 1; this.baz = 1;` as a script
tree. -/
def threeAssignments : Node :=
  .mk "File" []
    [("program", .mk "Program" []
      [("body", array
        [.mk "ExpressionStatement" []
          [("expression", .mk "AssignmentExpression" [("operator", .str "=")]
            [("left", thisMember [("computed", .bool false)] [] (identifier "foo")),
             ("right", literal (.num 1))])],
         .mk "ExpressionStatement" []
          [("expression", .mk "AssignmentExpression" [("operator", .str "=")]
            [("left", thisMember [("computed", .bool true)] [] (literal (.str "foo"))),
             ("right", literal (.num 1))])],
         .mk "ExpressionStatement" []
          [("expression", .mk "AssignmentExpression" [("operator", .str "=")]
            [("left", thisMember [("computed", .bool false)] [] (identifier "baz")),
             ("right", literal (.num 1))])]])])]

/-- The declaration `const { foo } = this;` as a script tree. -/
def destructuringFoo : Node :=
  .mk "File" []
    [("program", .mk "Program" []
      [("body", array
        [.mk "VariableDeclaration" [("kind", .str "const")]
          [("declarations", array
            [receiverDeclarator [] "ObjectPattern" [] []
              [("", .mk "Property"
                [("kind", .str "init"), ("method", .bool false), ("shorthand", .bool true),
                 ("computed", .bool false)]
                [("key", identifier "foo"), ("value", identifier "foo")])] []])]])])]

/-- Whether every proper ancestor of the node at the path `p` satisfies `P`. -/
def ancestorsAll (P : Node → Bool) : Node → Path → Bool
  | _, [] => true
  | .mk t a kids, i :: rest =>
      P (.mk t a kids) &&
        (match kids[i]? with
         | some (_, k) => ancestorsAll P k rest
         | none => true)

/-- Whether the node at the path `p` is the `property` of a member access on
`this`, the node the first pass of the rename looks at. -/
def isReceiverPropertyAt : Node → Path → Bool
  | _, [] => false
  | .mk t a kids, i :: rest =>
      match rest with
      | [] => isThisMember (.mk t a kids) && kids.findIdx (fun lk => lk.1 == "property") == i
      | _ :: _ =>
          match kids[i]? with
          | some (_, k) => isReceiverPropertyAt k rest
          | none => false

/-- The tree of the one-statement script `<left> in <right>`. -/
def inExpression (left right : String) : Node :=
  .mk "File" []
    [("program", .mk "Program" []
      [("body", array
        [.mk "ExpressionStatement" []
          [("expression", .mk "BinaryExpression" [("operator", .str "in")]
            [("left", identifier left), ("right", identifier right)])]])])]

/-- The name of an identifier node, the empty text for another node. -/
def identifierName (node : Option Node) : String :=
  match node with
  | some n =>
      match n.attr "name" with
      | some (.str s) => s
      | _ => ""
  | none => ""

/-- A grammar for the one text `foo in items`, the value of a `v-for`: the tree
jscodeshift gives it, printed back as `<left> in <right>`. -/
def loopGrammar : ScriptGrammar where
  parse := fun source => if source = "foo in items" then some (inExpression "foo" "items") else none
  toSource := fun node =>
    identifierName (getAt node [0, 0, 0, 0, 0]) ++ " in " ++ identifierName (getAt node [0, 0, 0, 0, 1])

/-- The script `this.foo = 1; function f(foo) { const foo = 'foo'; }`, with
a parameter and a local variable named like the attribute. -/
def localsNamedFoo : Node :=
  .mk "File" []
    [("program", .mk "Program" []
      [("body", array
        [.mk "ExpressionStatement" []
          [("expression", .mk "AssignmentExpression" [("operator", .str "=")]
            [("left", thisMember [("computed", .bool false)] [] (identifier "foo")),
             ("right", literal (.num 1))])],
         .mk "FunctionDeclaration" []
          [("id", identifier "f"),
           ("params", array [identifier "foo"]),
           ("body", blockStatement
            [.mk "VariableDeclaration" [("kind", .str "const")]
              [("declarations", array
                [.mk "VariableDeclarator" []
                  [("id", identifier "foo"), ("init", literal (.str "foo"))]])]])]])])]

/-- The tree of the one-statement script `<name>`. -/
def identifierExpression (name : String) : Node :=
  .mk "File" []
    [("program", .mk "Program" []
      [("body", array [.mk "ExpressionStatement" [] [("expression", identifier name)]])])]

/-- A grammar for a text that is one identifier: the tree jscodeshift gives
it, printed back as the identifier's name. -/
def identifierGrammar : ScriptGrammar where
  parse := fun source => some (identifierExpression source)
  toSource := fun node => identifierName (getAt node [0, 0, 0, 0])

/-! ### Spec-level notions and example inputs for the typed operations -/

/-- The value `node.content` of a markup node as a tree to render: the array
of its items, or `undefined`. -/
def contentTree : Option (List HNode) → HNode
  | some items => .list items
  | none => .empty

/-- The representation invariant of `props` that the specification states:
the option is in list form if and only if every entry has empty metadata. A
list has no metadata, so a list satisfies it, and a map does when one of its
entries has metadata that is not empty. A component without the option
satisfies it. -/
def propsInvariant (script : Node) : Bool :=
  match findOption script "props" with
  | some (path :: _) =>
      match (getAt script path).bind (fun prop => prop.kid "value") with
      | some value =>
          value.type == "ArrayExpression" ||
            (match value.kid "properties" with
             | some arr => !(arr.kids.all (fun lk => hasEmptyObject lk.2 == some true))
             | none => false)
      | none => false
  | _ => true

/-- The script `export default { props: { foo: { default: true }, bar: {} } }`. -/
def propsFooDefaultBar : Node :=
  exportDefault [objProp "props" (objectExpression
    [objProp "foo" (objectExpression [objProp "default" (literal (.bool true)) []]) [],
     objProp "bar" object []]) []]

/-- The tree of the one-statement script `this.<name> = newValue;`. -/
def setterStatement (name : String) : Node :=
  .mk "File" []
    [("program", .mk "Program" []
      [("body", array
        [.mk "ExpressionStatement" []
          [("expression", .mk "AssignmentExpression" [("operator", .str "=")]
            [("left", thisMember [("computed", .bool false)] [] (identifier name)),
             ("right", identifier "newValue")])]])])]

/-- A grammar for the one text `this.active = newValue;`: the tree jscodeshift
gives it. -/
def setterGrammar : ScriptGrammar where
  parse := fun source =>
    if source = "this.active = newValue;" then some (setterStatement "active") else none
  toSource := fun _ => "this.active = newValue;"

/-- The script
`export default { computed: { classes() { return { active: on }; }, active() {} } }`. -/
def computedClassesActive : Node :=
  exportDefault [objProp "computed" (objectExpression
    [method "classes" [returnStatement (objectExpression [objProp "active" (identifier "on") []])],
     method "active" []]) []]

/-- A watcher `name: { handler() { <body> }, deep: true }` in object form. -/
def deepWatcher (name : String) (body : List Node) : Node :=
  objProp name (objectExpression
    [method "handler" body, objProp "deep" (literal (.bool true)) []]) []

/-- The statement `return { deep: true };`. -/
def returnsDeepOption : Node :=
  returnStatement (objectExpression [objProp "deep" (literal (.bool true)) []])

/-- The script
`export default { watch: { foo: { handler() { return { deep: true }; }, deep: true } } }`. -/
def watchFooDeep : Node :=
  exportDefault [objProp "watch" (objectExpression [deepWatcher "foo" [returnsDeepOption]]) []]

/-- The tree `j('')` of the empty script text: a program without statements. -/
def emptyProgram : Node :=
  .mk "File" [] [("program", .mk "Program" [] [("body", array [])])]

/-- A grammar for the empty text only. -/
def emptyTextGrammar : ScriptGrammar where
  parse := fun source => if source = "" then some emptyProgram else none
  toSource := fun _ => ""

/-- The markup `<template><div></div></template>`, without a script section. -/
def templateOnly : HNode :=
  .list [.element (.name "template") none (some [.element (.name "div") none (some [])])]

/-- The first property of each of the option names of `sortOptions` that a
property list has, in the order of the names. -/
def presentOptions (kids : List (String × Node)) : List (String × Node) :=
  nonHookOptions.filterMap (fun o => kids.find? (fun lk => keyNameEq o lk.2 == some true))

/-- A property list without the first property of each of the given option
names. -/
def withoutOptions (options : List String) (kids : List (String × Node)) :
    List (String × Node) :=
  options.foldl
    (fun rest o => rest.eraseIdx (rest.findIdx (fun lk => keyNameEq o lk.2 == some true)))
    kids

/-- The script
`export default { methods: {}, name: {}, data: {}, mixins: {} }`. -/
def unsortedOptions : Node :=
  exportDefault [objProp "methods" object [], objProp "name" object [],
    objProp "data" object [], objProp "mixins" object []]

/-- No node of the subtrees of a child list is a property whose key has the
name. -/
def noPropertyKeyed (name : String) (kids : List (String × Node)) : Bool :=
  allKids (fun m => !(m.type == "Property" && hasKeyNamed name m)) kids

/-- The name is absent from an option: below the paths of the collection
that `option(optionName)` returns, no property at any depth has a key of that
name. -/
def absentFrom (script : Node) (optionName name : String) : Bool :=
  match option script optionName with
  | none => true
  | some opt =>
      opt.node.all (fun p =>
        match getAt opt.script p with
        | some sub => noPropertyKeyed name sub.kids
        | none => true)

/-- The name is absent from `props`: `option('props')` returns one path, no
property below it has a key of that name, and the name is neither the value
of an element of the list nor (as a key of a converted map) the text of one. -/
def absentFromProps (script : Node) (name : String) : Bool :=
  match option script "props" with
  | none => true
  | some opt =>
      match opt.node with
      | [base] =>
          match getAt opt.script base with
          | some sub =>
              noPropertyKeyed name sub.kids &&
                (match sub.kid "value" with
                 | some value =>
                     (match value.kid "elements" with
                      | some arr =>
                          arr.kids.all (fun lk =>
                            !looseEqString (lk.2.attr "value") name &&
                              propertyKey (lk.2.attr "value") != name)
                      | none => true) &&
                     (match value.kid "properties" with
                      | some arr => arr.kids.all (fun lk => keyNameEq name lk.2 != some true)
                      | none => true)
                 | none => true)
          | none => true
      | _ => false

/-- The script `export default { props: ['foo'] }`. -/
def propsFoo : Node :=
  exportDefault [objProp "props" (arrayExpression [literal (.str "foo")]) []]

/-- No node of the subtree has the type. -/
def noneOfType (type : String) (n : Node) : Bool := allNodes (fun m => m.type != type) n

/-- The statement `return { <entries> };` with the attributes of its nodes. -/
def returnsObject (ra oa a : List (String × Prim)) (entries : List (String × Node)) : Node :=
  .mk "ReturnStatement" ra
    [("argument", .mk "ObjectExpression" oa [("properties", .mk "[]" a entries)])]

/-- The option `<k>(<params>) { <stmts> return { <entries> }; <more> }`, the
shape `option('data')` gives the option: a property whose value is a function
with a return statement of an object literal. -/
def dataOption (pa fa ba sa : List (String × Prim)) (k params : Node)
    (stmts : List (String × Node)) (ret : Node) (more : List (String × Node)) : Node :=
  .mk "Property" pa
    [("key", k),
     ("value", .mk "FunctionExpression" fa
       [("params", params),
        ("body", .mk "BlockStatement" ba
          [("body", .mk "[]" sa (stmts ++ ("", ret) :: more))])])]

/-- The script `export default { data: () => ({ a: 1 }) }`. -/
def arrowData : Node :=
  exportDefault [objProp "data"
    (.mk "ArrowFunctionExpression" [("expression", .bool true)]
      [("params", array []),
       ("body", objectExpression [objProp "a" (literal (.num 1)) []])]) []]

/-- An option `<k>: [ <entries> ]` in list form, with the attributes of its
nodes. -/
def listOption (pa va a : List (String × Prim)) (k : Node) (entries : List (String × Node)) :
    Node :=
  .mk "Property" pa
    [("key", k), ("value", .mk "ArrayExpression" va [("elements", .mk "[]" a entries)])]

/-- An option `<k>: { <entries> }` in map form, with the attributes of its
nodes. -/
def mapOption (pa va a : List (String × Prim)) (k : Node) (entries : List (String × Node)) :
    Node :=
  .mk "Property" pa
    [("key", k), ("value", .mk "ObjectExpression" va [("properties", .mk "[]" a entries)])]

/-- The entry `<name>() {}` that `addComputed` and `addMethod` make without a
node, and the entry of the given function otherwise. -/
def functionEntry (name : String) (node : Option Node) : Node :=
  objProp name (node.getD emptyFunc) [("method", .bool true)]

/-- The entry `<name>(newVal, oldVal) {}` that `addWatcher` makes without a
node, and the entry of the given function otherwise. -/
def watcherEntry (name : String) (node : Option Node) : Node :=
  objProp name
    (node.getD (functionExpression [identifier "newVal", identifier "oldVal"]
      (blockStatement [])))
    [("method", .bool true)]

/-- The primitive fields of a property that `objProp` makes without
overrides. -/
def plainAttrs : List (String × Prim) :=
  [("kind", .str "init"), ("method", .bool false), ("shorthand", .bool false),
   ("computed", .bool false)]

/-- The primitive fields of a property that `objProp` makes as a method. -/
def methodAttrs : List (String × Prim) :=
  [("kind", .str "init"), ("method", .bool true), ("shorthand", .bool false),
   ("computed", .bool false)]

/-- The script `export default { methods: { foo() {} } }`. -/
def methodsFoo : Node :=
  exportDefault [objProp "methods" (objectExpression [method "foo" []]) []]

mutual
/-- The subtree without its proper descendants that pass a test: what
`find(...).remove()` leaves of the node of a path when the search yields the
descendants that pass. -/
def pruneWhere (P : Node → Bool) : Node → Node
  | .mk t a kids => .mk t a (pruneWhereKids P kids)
/-- The children without those that pass the test, each pruned in turn. -/
def pruneWhereKids (P : Node → Bool) : List (String × Node) → List (String × Node)
  | [] => []
  | (l, k) :: rest =>
      if P k then pruneWhereKids P rest else (l, pruneWhere P k) :: pruneWhereKids P rest
end

/-- The entries with empty metadata of a map of props, for a list of names. -/
def emptyEntries (names : List String) : List (String × Node) :=
  names.map (fun n => ("", objProp n object []))

/-- The elements of a list of props, for a list of names. -/
def nameLiterals (names : List String) : List (String × Node) :=
  names.map (fun n => ("", literal (.str n)))

/-- The attributes that `updateProp` puts on an entry, for the pairs of an
attribute name and the text of its value: the parsed values that the grammar
gives. -/
def attrEntries (g : ScriptGrammar) (attrs : List (String × String)) : List (String × Node) :=
  attrs.filterMap (fun kv => (parseAttrValue g kv.2).map (fun nodeVal =>
    ("", objProp kv.1 nodeVal [])))

/-- Every property of the subtree has a value. -/
def propertiesHaveValue (n : Node) : Bool :=
  allNodes (fun m => m.type != "Property" || (m.kid "value").isSome) n

/-- An entry `<name>: { <metas> }` of a map of props, as `objProp` makes
it. -/
def metaEntry (name : String) (metas : List (String × Node)) : Node :=
  .mk "Property" plainAttrs
    [("key", identifier name),
     ("value", .mk "ObjectExpression" [] [("properties", .mk "[]" [] metas)])]

/-- The option `props` in map form in which the entry `name` has the metadata
`metas` and the entries before and after it, of the names `pre` and `post`,
have empty metadata. -/
def propsMap (pa : List (String × Prim)) (k : Node) (pre : List String) (name : String)
    (metas : List (String × Node)) (post : List String) : Node :=
  mapOption pa [] [] k (emptyEntries pre ++ ("", metaEntry name metas) :: emptyEntries post)

/-- The metadata `metas` is made of properties whose keys are the identifiers
of the names `keys`, in their order. -/
def keyedBy (keys : List String) (metas : List (String × Node)) : Prop :=
  metas.map (fun lk => (lk.2.type, lk.2.kid "key"))
    = keys.map (fun key => ("Property", some (identifier key)))

/-- The script `export default { props: ['foo', 'foo'] }`, as two calls of
`addProp('foo')` make it. -/
def propsFooFoo : Node :=
  exportDefault [objProp "props" (arrayExpression [literal (.str "foo"), literal (.str "foo")]) []]

/-- The script `export default { props: { foo: { type: String } } }`. -/
def propsFooTyped : Node :=
  exportDefault [objProp "props" (objectExpression
    [objProp "foo" (objectExpression [objProp "type" (identifier "String") []]) []]) []]

/-! ### Spec-level notions and example inputs for the canonical order -/

/-- The key of a property is one of the option names of `sortOptions`. -/
def recognized (lk : String × Node) : Bool :=
  nonHookOptions.any (fun o => keyNameEq o lk.2 == some true)

/-- The first property of a list whose key has the name of the option. -/
def firstKeyed (o : String) (kids : List (String × Node)) : Option (String × Node) :=
  kids.find? (fun lk => keyNameEq o lk.2 == some true)

/-- The script `export default { components: {}, mixins: {} }`. -/
def componentsThenMixins : Node :=
  exportDefault [objProp "components" object [], objProp "mixins" object []]

/-- The script `export default { methods: {}, created() {} }`. -/
def methodsThenCreated : Node :=
  exportDefault [objProp "methods" object [], method "created" []]

/-- The script `export default { name: {}, data: {}, data: {} }`. -/
def dataTwice : Node :=
  exportDefault [objProp "name" object [], objProp "data" object [], objProp "data" object []]

/-! ### Spec-level notions and example inputs for the structural refactoring -/

/-- The tree with another item at a place. -/
def putAt : HNode → List Nat → HNode → HNode
  | _, [], new => new
  | node, i :: rest, new =>
      match node.items with
      | none => node
      | some xs =>
          match xs[i]? with
          | none => node
          | some child => node.setItems (xs.set i (putAt child rest new))

/-- The chain node, parent(node), parent(parent(node)), ... of the node at
the place whose indices are given innermost first. -/
def parentChainFrom (tree : HNode) : List Nat → List (List Nat)
  | [] => []
  | i :: up =>
      (i :: up).reverse ::
        (match nodeAt tree up.reverse with
         | some (.element _ _ _) => parentChainFrom tree up
         | _ => [])

/-- The chain node, parent(node), parent(parent(node)), ... of the node at a
place. -/
def parentChain (tree : HNode) (p : List Nat) : List (List Nat) :=
  parentChainFrom tree p.reverse

/-- The item at a place is an element whose tag is a string. -/
def hasStringTag (tree : HNode) (q : List Nat) : Bool :=
  match nodeAt tree q with
  | some (.element (.name _) _ _) => true
  | _ => false

/-- The node at a place is a boundary for the code: its tag has a capital
letter or it carries a slot. -/
def isBoundary (tree : HNode) (q : List Nat) : Bool :=
  match nodeAt tree q with
  | some (.element (.name tag) attrs _) => hasUpper tag || carriesSlot attrs
  | _ => false

/-- The node at a place is a boundary for the specification: its tag is
capitalized or hyphenated (`isVueTag`), or it has a slot attribute. -/
def isSpecBoundary (tree : HNode) (q : List Nat) : Bool :=
  match nodeAt tree q with
  | some (.element (.name tag) attrs _) =>
      isVueTag tag || (attrs.bind (fun obj => obj.lookup "slot")).isSome
  | _ => false

/-- An element with content and without attributes. -/
def el (tag : String) (content : List HNode) : HNode :=
  .element (.name tag) none (some content)

/-- An element with content and attributes. -/
def elWith (tag : String) (attrs : Attrs) (content : List HNode) : HNode :=
  .element (.name tag) (some attrs) (some content)

/-- The node `<slot></slot>`. -/
def defaultSlot : HNode := .element (.name "slot") none none

/-- The node `<slot name="..."></slot>`. -/
def namedSlot (name : String) : HNode :=
  .element (.name "slot") (some [("name", .str name)]) none

/-- The tree of a component file with the script `export default {}` and a
template whose root element has the given tag and content, each on lines of
its own. -/
def fileTree (tag : String) (content : List HNode) : HNode :=
  .list
    [el "script" [.text "\nexport default \x7b\x7d\n"],
     .text "\n\n",
     el "template" [.text "\n", el tag content, .text "\n"]]

/-- The markup `<my-div><span></span></my-div>`. -/
def hyphenated : HNode := .list [el "my-div" [el "span" []]]

/-- The source `<MyDiv> <span>a</span> <p>b</p> </MyDiv>` of a component
file, with line breaks and four spaces before the two nodes. -/
def spanAndP : HNode :=
  fileTree "MyDiv"
    [.text "\n    ", el "span" [.text "a"], .text "\n    ", el "p" [.text "b"], .text "\n"]

/-- The host `<div> <slot name="header"></slot> <slot></slot> </div>` of a
component file. -/
def headerSlotFirst : HNode :=
  fileTree "div"
    [.text "\n    ", namedSlot "header", .text "\n    ", defaultSlot, .text "\n"]

/-- The node `<span slot="my-slot" class="x"></span>`. -/
def slottedSpan : HNode :=
  .element (.name "span") (some [("slot", .str "my-slot"), ("class", .str "x")]) none

/-- The node `<span slot=""></span>`. -/
def emptySlotSpan : HNode :=
  .element (.name "span") (some [("slot", .str "")]) none

/-- The inferred whitespace of a content list: its first whitespace-only
string, or a line break and four spaces if there is none. -/
def inferredWhitespace (content : List HNode) : String :=
  match content.find? isWhitespace with
  | some (.text s) => s
  | _ => "\n    "

/-- The content list from which the node at the index `k` is excised: the node
loses its tag and its content (it keeps the given attributes), and the text
before it loses its trailing whitespace. -/
def excised (content : List HNode) (k : Nat) (attrs : Option Attrs) : List HNode :=
  match k with
  | 0 => content.set 0 (.element .skip attrs none)
  | j + 1 =>
      match content[j]? with
      | some (.text s) =>
          (content.set (j + 1) (.element .skip attrs none)).set j (.text (trimRight s))
      | _ => content.set (j + 1) (.element .skip attrs none)

/-- The host `<div> <slot></slot> </div>` of a component file. -/
def oneSlot : HNode :=
  fileTree "div" [.text "\n    ", defaultSlot, .text "\n"]

/-- The source `<MyDiv><p>a</p><span>b</span></MyDiv>` of a component file,
with nothing between the nodes. -/
def adjacentNodes : HNode :=
  fileTree "MyDiv" [el "p" [.text "a"], el "span" [.text "b"]]

/-- The source `<MyDiv> <template slot="a"><p>x</p></template> </MyDiv>` of a
component file. -/
def insideSlotTemplate : HNode :=
  fileTree "MyDiv"
    [.text "\n    ", elWith "template" [("slot", .str "a")] [el "p" [.text "x"]], .text "\n"]

/-- The source `<MyDiv> <p slot="old">x</p> </MyDiv>` of a component file. -/
def slottedP : HNode :=
  fileTree "MyDiv" [.text "\n    ", elWith "p" [("slot", .str "old")] [.text "x"], .text "\n"]

/-- The tree of the one-statement script `import MyDiv from '@/MyDiv.vue';`. -/
def importMyDiv : Node :=
  .mk "File" []
    [("program", .mk "Program" []
      [("body", array
        [.mk "ImportDeclaration" []
          [("specifiers", array
            [.mk "ImportDefaultSpecifier" [] [("local", identifier "MyDiv")]]),
           ("source", literal (.str "@/MyDiv.vue"))]])])]

/-- A grammar for the two texts that `refactorIntoComponent` parses when the
path is `src/MyDiv.vue`: the import statement and the script of the new
component. -/
def importGrammar : ScriptGrammar where
  parse := fun source =>
    if source = "import MyDiv from \x27@/MyDiv.vue\x27;" then some importMyDiv
    else if source = "\nexport default \x7b\x7d\n" then some (exportDefault [])
    else none
  toSource := fun _ => ""

/-- The component with the script `export default {}` and the template
`<div class="my-class" v-if="true"> <span>text</span> </div>`. -/
def divWithClass : Component where
  script := exportDefault []
  tree :=
    .list
      [el "script" [.text "\nexport default \x7b\x7d\n"],
       .text "\n\n",
       el "template"
         [.text "\n",
          elWith "div" [("class", .str "my-class"), ("v-if", .str "true")]
            [.text "\n    ", el "span" [.text "text"], .text "\n"],
          .text "\n"]]

/-- The script
`import MyDiv from '@/MyDiv.vue'; export default { components: { MyDiv } }`. -/
def importedMyDiv : Node :=
  .mk "File" []
    [("program", .mk "Program" []
      [("body", array
        [.mk "ImportDeclaration" []
          [("specifiers", array
            [.mk "ImportDefaultSpecifier" [] [("local", identifier "MyDiv")]]),
           ("source", literal (.str "@/MyDiv.vue"))],
         .mk "ExportDefaultDeclaration" []
          [("declaration", objectExpression
            [objProp "components"
              (objectExpression [objProp "MyDiv" (identifier "MyDiv") [("shorthand", .bool true)]])
              []])]])])]

/-! ### Definitions for the transplant, rename and escape claims -/

/-- The text `v` with every double quote replaced by `&quot;`. -/
def quotesReplaced (v : String) : String :=
  String.mk (v.data.flatMap (fun c => if c = '"' then "&quot;".data else [c]))

/-- The script
`export default { <optionName>: { foo() { return { <inner>: 1 }; }, bar() {} } }`. -/
def optionFooBar (optionName inner : String) : Node :=
  exportDefault [objProp optionName (objectExpression
    [method "foo" [returnStatement (objectExpression [objProp inner (literal (.num 1)) []])],
     method "bar" []]) []]

/-- The script
`export default { data() { return { foo: { <inner>: 1 }, bar: 2 }; } }`. -/
def dataFooBar (inner : String) : Node :=
  exportDefault [method "data"
    [returnStatement (objectExpression
      [objProp "foo" (objectExpression [objProp inner (literal (.num 1)) []]) [],
       objProp "bar" (literal (.num 2)) []])]]

/-- The script of the one statement `const <pattern> = this;`. -/
def receiverDeclaration (pattern : Node) : Node :=
  .mk "File" []
    [("program", .mk "Program" []
      [("body", array
        [.mk "VariableDeclaration" [("kind", .str "const")]
          [("declarations", array
            [.mk "VariableDeclarator" [] [("id", pattern), ("init", thisExpression)]])]])])]

/-- The declaration `const self = this;` as a script tree. -/
def selfIsThis : Node := receiverDeclaration (identifier "self")

/-- The declaration `const { foo, ...others } = this;` as a script tree. -/
def restOfThis : Node :=
  receiverDeclaration
    (.mk "ObjectPattern" []
      [("properties", array
        [.mk "Property"
          [("kind", .str "init"), ("method", .bool false), ("shorthand", .bool true),
           ("computed", .bool false)]
          [("key", identifier "foo"), ("value", identifier "foo")],
         .mk "RestElement" [] [("argument", identifier "others")]])])

/-- The text `s` with every backslash written twice. -/
def backslashesDoubled (s : String) : String :=
  String.mk (s.data.flatMap (fun c => if c = '\\' then ['\\', '\\'] else [c]))

/-- The markup of a file that is one `script` node with the text `s`. -/
def scriptFile (s : String) : HNode :=
  .list [.element (.name "script") none (some [.text s])]

/-- The tree of a program `const s = <string literal>; export default \x7b\x7d;`
whose literal denotes the text `value`; the tree records its source text. -/
def literalProgram (source value : String) : Node :=
  .mk "File" [("source", .str source)]
    [("program", .mk "Program" []
      [("body", array
        [.mk "VariableDeclaration" [("kind", .str "const")]
          [("declarations", array
            [.mk "VariableDeclarator" []
              [("id", identifier "s"), ("init", literal (.str value))]])],
         .mk "ExportDefaultDeclaration" [] [("declaration", objectExpression [])]])])]

/-- A grammar for two texts, printed as they were written. In
`const s = \x27a\nb\x27; ...` (one backslash) the literal denotes `a`, a line
break and `b`; in `const s = \x27a\\nb\x27; ...` (two backslashes) it denotes
`a`, a backslash, `n` and `b`. -/
def literalGrammar : ScriptGrammar where
  parse := fun source =>
    if source = "const s = \x27a\\nb\x27;\nexport default \x7b\x7d;" then
      some (literalProgram source "a\nb")
    else if source = "const s = \x27a\\\\nb\x27;\nexport default \x7b\x7d;" then
      some (literalProgram source "a\\nb")
    else none
  toSource := fun node =>
    match node.attr "source" with
    | some (.str s) => s
    | _ => ""

/-- The script `<statements> export default \x7b <properties> \x7d`. -/
def programOf (statements properties : List Node) : Node :=
  .mk "File" []
    [("program", .mk "Program" []
      [("body", array (statements ++
        [.mk "ExportDefaultDeclaration" [] [("declaration", objectExpression properties)]]))])]

/-- The statement `import <name> from '<source>';`. -/
def importDeclaration (name source : String) : Node :=
  .mk "ImportDeclaration" []
    [("specifiers", array [.mk "ImportDefaultSpecifier" [] [("local", identifier name)]]),
     ("source", literal (.str source))]

/-- The shorthand entry `<name>` of an object literal, as `importComponent`
makes it. -/
def shorthandEntry (name : String) : Node :=
  objProp name (identifier name) [("shorthand", .bool true)]

/-- The option `components: \x7b <entries> \x7d`. -/
def componentsOption (entries : List Node) : Node :=
  objProp "components" (objectExpression entries) []

/-- The tree of a script of one statement. -/
def oneStatement (statement : Node) : Node :=
  .mk "File" [] [("program", .mk "Program" [] [("body", array [statement])])]

/-- A grammar for the texts `import <name> from '<path>';`, the name without
blank and the path without apostrophe: the tree of the import declaration. -/
def importStatementGrammar : ScriptGrammar where
  parse := fun source =>
    let rest := source.data.drop 7
    let name := rest.takeWhile (fun c => c != ' ')
    let rest2 := rest.drop name.length
    let path := (rest2.drop 7).takeWhile (fun c => c != Char.ofNat 39)
    if "import ".data.isPrefixOf source.data && " from \x27".data.isPrefixOf rest2
        && (rest2.drop 7).drop path.length == "\x27;".data then
      some (oneStatement (importDeclaration (String.mk name) (String.mk path)))
    else none
  toSource := fun _ => ""

/-- The script
`import Foo from '@/Bar.vue'; export default \x7b components: \x7b Foo \x7d \x7d`. -/
def importedFooFromBar : Node :=
  programOf [importDeclaration "Foo" "@/Bar.vue"] [componentsOption [shorthandEntry "Foo"]]

/-- The script
`import MyDiv from '../src/MyDiv.vue'; export default \x7b components: \x7b MyDiv \x7d \x7d`. -/
def importedFromSrc : Node :=
  programOf [importDeclaration "MyDiv" "../src/MyDiv.vue"]
    [componentsOption [shorthandEntry "MyDiv"]]

/-- The tree of the one-statement script `<expression>`. -/
def expressionStatement (expression : Node) : Node :=
  oneStatement (.mk "ExpressionStatement" [] [("expression", expression)])

/-- A grammar for number literals and the empty object literal. The literal
`<n>` is printed as its digits and the object literal without properties as
`\x7b\x7d`; the text of digits is the statement of that literal, and the text
`\x7b\x7d`, at the start of a statement, is an empty block. -/
def valueGrammar : ScriptGrammar where
  parse := fun source =>
    if source = "\x7b\x7d" then some (oneStatement (blockStatement []))
    else if source.data.all Char.isDigit && !source.data.isEmpty then
      some (expressionStatement
        (literal (.num (source.data.foldl (fun n c => 10 * n + (c.toNat - 48)) 0))))
    else none
  toSource := fun node =>
    match node.type, node.attr "value" with
    | "Literal", some (.num n) => toString n
    | "ObjectExpression", _ => "\x7b\x7d"
    | _, _ => ""

/-- The script `export default \x7b data() \x7b return \x7b foo: \x7b\x7d \x7d; \x7d \x7d`. -/
def dataFooObject : Node :=
  exportDefault [method "data" [returnStatement (objectExpression [objProp "foo" object []])]]

/-- No node of the subtrees of the listed nodes has the type and passes the
filter. -/
def lacks (type : String) (filter : Node → Bool) (nodes : List Node) : Bool :=
  allKids (fun m => !(m.type == type && filter m)) (nodes.map (fun n => ("", n)))

/-- The characters of a path `src<mid>/<name>.<ext>` relative to the project
root; `mid` is empty or a slash and directories. -/
def srcPath (mid name ext : List Char) : String :=
  String.mk ('s' :: 'r' :: 'c' :: (mid ++ '/' :: (name ++ '.' :: ext)))

/-- The path `@<mid>/<name>.<ext>`: the path `src<mid>/<name>.<ext>` with the
root directory replaced by the alias. -/
def aliasedPath (mid name ext : List Char) : String :=
  String.mk ('@' :: (mid ++ '/' :: (name ++ '.' :: ext)))

/-- The parent-link invariant on what can be reached from the given trees:
every node that stands in the content of a node has that node as its
parent. -/
def parentsLinked (heap : Heap) (trees : List Item) : Bool :=
  (filterHASTLinked heap trees (fun _ => true)).all (fun a =>
    match heap[a]? with
    | none => true
    | some obj =>
        (obj.content.getD []).all (fun item =>
          match item with
          | .text _ => true
          | .node c => (heap[c]?).map (fun child => child.parent) == some (some a)))

/-- The item of the markup tree that an item of the heap stands for, to the
depth of the fuel. -/
def reify (heap : Heap) : Nat → Item → HNode
  | _, .text s => .text s
  | 0, .node _ => .empty
  | fuel + 1, .node a =>
      match heap[a]? with
      | none => .empty
      | some obj =>
          .element obj.tag obj.attrs (obj.content.map (fun items => items.map (reify heap fuel)))

/-- The node objects of two files. At the addresses 0 to 3 the source
`<template><MyDiv> <span><b>a</b></span> </MyDiv></template>`, at the addresses
4 to 6 the host `<template><div> <slot></slot> </div></template>`, each node
with the parent that the constructor gives it. -/
def linkedFiles : Heap :=
  [{ tag := .name "template", attrs := none,
     content := some [.text "\n", .node 1, .text "\n"], parent := none },
   { tag := .name "MyDiv", attrs := none,
     content := some [.text "\n    ", .node 2, .text "\n"], parent := some 0 },
   { tag := .name "span", attrs := none, content := some [.node 3], parent := some 1 },
   { tag := .name "b", attrs := none, content := some [.text "a"], parent := some 2 },
   { tag := .name "template", attrs := none,
     content := some [.text "\n", .node 5, .text "\n"], parent := none },
   { tag := .name "div", attrs := none,
     content := some [.text "\n    ", .node 6, .text "\n"], parent := some 4 },
   { tag := .name "slot", attrs := none, content := none, parent := some 5 }]

/-! ## Theorems: the markup serializer -/

theorem tagOrDiv_name {tag : String} (h : tag ≠ "") : tagOrDiv (.name tag) = tag := by
  simp [tagOrDiv, h]

theorem isSingleTag_editorOptions (tag : String) :
    isSingleTag editorOptions tag = SINGLE_TAGS.contains tag := by
  simp [isSingleTag, editorOptions, singleRegExp, singleNames]

theorem hasNoContent_iff (content : Option (List HNode)) :
    hasNoContent content = true ↔ content = none ∨ content = some [] := by
  cases content with
  | none => simp [hasNoContent]
  | some items => cases items <;> simp [hasNoContent]

theorem htmlNode_element_name (opts : Options) (result tag : String) (attrs? : Option Attrs)
    (content : Option (List HNode)) :
    htmlNode opts result (.element (.name tag) attrs? content) =
      (htmlContent opts content).map (fun inner =>
        result ++ "<" ++ tagOrDiv (.name tag) ++
          (match attrs? with
            | some obj => attrs obj (lastLineLength result)
            | none => "") ++
          (if isSingleTag opts (tagOrDiv (.name tag)) || (isVueTag tag && hasNoContent content)
            then closingText opts (tagOrDiv (.name tag)) ++ inner
            else ">" ++ inner ++ "</" ++ tagOrDiv (.name tag) ++ ">")) := by
  unfold htmlNode
  cases hs : isSingleTag opts (tagOrDiv (.name tag)) <;>
    cases hv : isVueTag tag <;> cases hc : hasNoContent content <;>
    cases attrs? <;> cases htmlContent opts content <;>
    simp [shouldSelfClose, hs, hv, hc, String.append_assoc]

/-- C8. With the options the editor passes to `render`, a node with a string
tag (not the empty string, for which `html` substitutes `div`) is rendered in
the self-closing form `<tag attrs />`, followed by its rendered content and no
closing tag, if and only if the tag is in the catalog `SINGLE_TAGS` of void
elements, or the tag denotes a custom component (it contains a hyphen or an
uppercase letter) and the content is absent or an empty list; in every
other case it is rendered as `<tag attrs>`, the rendered content and
`</tag>`. -/
theorem C8_self_closing_iff (result tag : String) (attrs? : Option Attrs)
    (content : Option (List HNode)) (h : tag ≠ "") :
    (hasNoContent content = true ↔ content = none ∨ content = some []) ∧
    htmlNode editorOptions result (.element (.name tag) attrs? content) =
      (htmlContent editorOptions content).map (fun inner =>
        if tag ∈ SINGLE_TAGS ∨ (isVueTag tag = true ∧ hasNoContent content = true) then
          result ++ "<" ++ tag ++
            (match attrs? with
              | some obj => attrs obj (lastLineLength result)
              | none => "") ++ " />" ++ inner
        else
          result ++ "<" ++ tag ++
            (match attrs? with
              | some obj => attrs obj (lastLineLength result)
              | none => "") ++ ">" ++ inner ++ "</" ++ tag ++ ">") := by
  refine ⟨hasNoContent_iff content, ?_⟩
  rw [htmlNode_element_name, tagOrDiv_name h, isSingleTag_editorOptions]
  congr 1
  funext inner
  by_cases h1 : tag ∈ SINGLE_TAGS <;> cases hv : isVueTag tag <;>
    cases hc : hasNoContent content <;>
    simp [h1, closingText, editorOptions, String.append_assoc]


/-- C8 at the component tag `MyCmp` without content. -/
theorem C8_witness :
    "MyCmp" ≠ "" ∧
    htmlNode editorOptions "" (.element (.name "MyCmp") none none) = some "<MyCmp />" :=
  ⟨by decide, ((C8_self_closing_iff "" "MyCmp" none none (by decide)).2).trans (by decide)⟩

theorem escapeQuotesChars_eq_self (cs : List Char) (h : '"' ∉ cs) :
    escapeQuotesChars cs = cs := by
  induction cs with
  | nil => rfl
  | cons c cs ih =>
      have hc : c ≠ '"' := fun e => h (by simp [e])
      have hcs : '"' ∉ cs := fun e => h (by simp [e])
      simp [escapeQuotesChars, hc, ih hcs]

/-- C9 (the code departs from the claim). In
`<div><span a="1" b="2"></span></div>` the opening `<` of the `span` stands at
column 5 of the output, yet its attributes are indented by 4 spaces, not by 9,
and its closing `>` stands at column 0: `html` measures the column in the
`result` of the recursive call for the content of `div`, which starts empty. -/
theorem C9_nested_node_padding :
    render nestedTwoAttrs editorOptions
      = some "<div><span\n    a=\"1\"\n    b=\"2\"\n></span></div>" ∧
    render nestedTwoAttrs editorOptions
      ≠ some "<div><span\n         a=\"1\"\n         b=\"2\"\n     ></span></div>" := by
  decide

/-- C10. A node with a single attribute is rendered with the attribute
inline. For a string value `attrs` returns one space and `key="value"` (the
value with its double quotes escaped, so the value itself when it has none),
and the text of the node is the tag name, directly followed by that and by the
closing `>` (or the closing of a self-closing tag), without any line break
added; a numeric value is emitted in the same way and the value `true` as the
bare key after one space. -/
theorem C10_single_attribute_inline (opts : Options) (result tag key v : String)
    (content : Option (List HNode)) (n padding : Nat) :
    attrs [(key, .str v)] (lastLineLength result)
      = " " ++ key ++ "=\"" ++ escapeQuotes v ++ "\"" ∧
    ('"' ∉ v.data → escapeQuotes v = v) ∧
    htmlNode opts result (.element (.name tag) (some [(key, .str v)]) content) =
      (htmlContent opts content).map (fun inner =>
        result ++ "<" ++ tagOrDiv (.name tag) ++
          (" " ++ key ++ "=\"" ++ escapeQuotes v ++ "\"") ++
          (if isSingleTag opts (tagOrDiv (.name tag)) || (isVueTag tag && hasNoContent content)
            then closingText opts (tagOrDiv (.name tag)) ++ inner
            else ">" ++ inner ++ "</" ++ tagOrDiv (.name tag) ++ ">")) ∧
    attrs [(key, .num n)] padding = " " ++ key ++ "=\"" ++ toString n ++ "\"" ∧
    attrs [(key, .yes)] padding = " " ++ key := by
  have hattrs : attrs [(key, .str v)] (lastLineLength result)
      = " " ++ key ++ "=\"" ++ escapeQuotes v ++ "\"" := by
    simp [attrs, attrsLoop, attrText, String.append_assoc]
  refine ⟨hattrs, ?_, ?_, ?_, ?_⟩
  · intro h
    show String.mk (escapeQuotesChars v.data) = v
    rw [escapeQuotesChars_eq_self _ h]
  · rw [htmlNode_element_name]
    simp only [hattrs]
  · simp [attrs, attrsLoop, attrText, String.append_assoc]
  · simp [attrs, attrsLoop, attrText]

/-! ## Theorems: the option registry -/

/-- C1 (the code departs from the claim). On the component
`export default { props: { data: Object } }`, which has no top-level option
`data`, `option('data')` appends nothing: it leaves the configuration as it is
and returns the property `data: Object` nested inside `props`, because
`findObjProp` looks for the identifier at any depth. -/
theorem C1_option_returns_nested_property :
    option propNamedData "data"
      = some { script := propNamedData, node := [[0, 0, 0, 0, 0, 0, 1, 0, 0]],
               detached := false } ∧
    getAt propNamedData [0, 0, 0, 0, 0, 0, 1, 0, 0]
      = some (objProp "data" (identifier "Object") []) := by
  decide

/-- C2 (the code departs from the claim). On the component
`export default { methods: { foo() { return { bar: 1 }; }, bar() {} } }`,
`removeFromOption('methods', 'bar')` removes the entry `bar` and also the
property `bar: 1` inside the body of the entry `foo`, which does not stay
unchanged: the result is `export default { methods: { foo() { return {}; } } }`. -/
theorem C2_removeFromOption_removes_nested_property :
    removeFromOption methodsFooBar "methods" "bar"
      = some (exportDefault [objProp "methods" (objectExpression
          [method "foo" [returnStatement (objectExpression [])]]) []]) := by
  decide

/-! ## Theorems: the markup side of a rename -/

theorem noPair_of_append_singleton (d : Char) :
    ∀ x : List Char, noPair d (x ++ [d]) = true → noPair d x = true
  | [], _ => rfl
  | [_], _ => rfl
  | c :: c' :: rest, h => by
      have h' : (!(c == d && c' == d) && noPair d (c' :: (rest ++ [d]))) = true := h
      rw [Bool.and_eq_true] at h'
      show (!(c == d && c' == d) && noPair d (c' :: rest)) = true
      rw [Bool.and_eq_true]
      exact ⟨h'.1, noPair_of_append_singleton d (c' :: rest) h'.2⟩

theorem noPair_append_sep (d c : Char) (hc : c ≠ d) (y : List Char) (hy : noPair d y = true) :
    ∀ x : List Char, noPair d x = true → noPair d (x ++ c :: y) = true
  | [], _ => by
      cases y with
      | nil => rfl
      | cons c' rest =>
          show (!(c == d && c' == d) && noPair d (c' :: rest)) = true
          simp [hc, hy]
  | [a], _ => by
      show (!(a == d && c == d) && noPair d (c :: y)) = true
      have := noPair_append_sep d c hc y hy [] rfl
      simp only [List.nil_append] at this
      simp [hc, this]
  | a :: a' :: rest, h => by
      have h' : (!(a == d && a' == d) && noPair d (a' :: rest)) = true := h
      rw [Bool.and_eq_true] at h'
      show (!(a == d && a' == d) && noPair d (a' :: (rest ++ c :: y))) = true
      rw [Bool.and_eq_true]
      exact ⟨h'.1, noPair_append_sep d c hc y hy (a' :: rest) h'.2⟩

theorem splitOnPair_cons_cons (d c c' : Char) (rest : List Char) :
    splitOnPair d (c :: c' :: rest) =
      if c = d ∧ c' = d then [] :: splitOnPair d rest
      else
        match splitOnPair d (c' :: rest) with
        | [] => [[c]]
        | piece :: pieces => (c :: piece) :: pieces := by
  rw [splitOnPair]

theorem splitOnPair_of_noPair (d : Char) :
    ∀ x : List Char, noPair d x = true → splitOnPair d x = [x]
  | [], _ => rfl
  | [_], _ => rfl
  | c :: c' :: rest, h => by
      have h' : (!(c == d && c' == d) && noPair d (c' :: rest)) = true := h
      rw [Bool.and_eq_true] at h'
      have hne : ¬ (c = d ∧ c' = d) := by
        intro hcd
        have := h'.1
        simp [hcd.1, hcd.2] at this
      have ih := splitOnPair_of_noPair d (c' :: rest) h'.2
      rw [splitOnPair_cons_cons, if_neg hne, ih]

theorem splitOnPair_append_pair (d : Char) (y : List Char) :
    ∀ x : List Char, noPair d (x ++ [d]) = true →
      splitOnPair d (x ++ d :: d :: y) = x :: splitOnPair d y
  | [], _ => by
      show splitOnPair d (d :: d :: y) = [] :: splitOnPair d y
      rw [splitOnPair_cons_cons, if_pos ⟨rfl, rfl⟩]
  | [c], h => by
      have h' : (!(c == d && d == d) && noPair d [d]) = true := h
      have hne : c ≠ d := by
        intro hcd
        simp [hcd] at h'
      have hne' : ¬ (c = d ∧ d = d) := fun hcd => hne hcd.1
      have h0 : splitOnPair d (d :: d :: y) = [] :: splitOnPair d y := by
        rw [splitOnPair_cons_cons, if_pos ⟨rfl, rfl⟩]
      show splitOnPair d (c :: d :: d :: y) = [c] :: splitOnPair d y
      rw [splitOnPair_cons_cons, if_neg hne', h0]
  | c :: c' :: rest, h => by
      have h' : (!(c == d && c' == d) && noPair d (c' :: (rest ++ [d]))) = true := h
      rw [Bool.and_eq_true] at h'
      have hne : ¬ (c = d ∧ c' = d) := by
        intro hcd
        have := h'.1
        simp [hcd.1, hcd.2] at this
      have ih := splitOnPair_append_pair d y (c' :: rest) h'.2
      show splitOnPair d (c :: c' :: (rest ++ d :: d :: y)) = (c :: c' :: rest) :: splitOnPair d y
      have ih' : splitOnPair d (c' :: (rest ++ d :: d :: y)) = (c' :: rest) :: splitOnPair d y := ih
      rw [splitOnPair_cons_cons, if_neg hne, ih']

theorem splitOnPair_pieces (d : Char) :
    ∀ (ss : List (List Char)) (s0 : List Char), noPair d (s0 ++ [d]) = true →
      (∀ s ∈ ss, noPair d (s ++ [d]) = true) →
      splitOnPair d (s0 ++ (ss.map (fun s => d :: d :: s)).flatten) = s0 :: ss
  | [], s0, h0, _ => by
      simp only [List.map_nil, List.flatten_nil, List.append_nil]
      exact splitOnPair_of_noPair d s0 (noPair_of_append_singleton d s0 h0)
  | s :: rest, s0, h0, hs => by
      have h1 : noPair d (s ++ [d]) = true := hs s (List.mem_cons_self _ _)
      have h2 : ∀ s' ∈ rest, noPair d (s' ++ [d]) = true :=
        fun s' hs' => hs s' (List.mem_cons_of_mem _ hs')
      have ih := splitOnPair_pieces d rest s h1 h2
      simp only [List.map_cons, List.flatten_cons, List.cons_append]
      rw [splitOnPair_append_pair d _ s0 h0, ih]

theorem renameStatement_segment (g : ScriptGrammar) (name newName : String) (e t : List Char)
    (he : noPair '}' (e ++ ['}']) = true) (ht : noPair '}' t = true) :
    renameStatement g name newName (e ++ '}' :: '}' :: t)
      = (reprint g name newName e).map (fun e' => '{' :: '{' :: (e' ++ '}' :: '}' :: t)) := by
  have hsplit : splitOnPair '}' (e ++ '}' :: '}' :: t) = [e, t] := by
    rw [splitOnPair_append_pair '}' t e he, splitOnPair_of_noPair '}' t ht]
  unfold renameStatement reprint
  rw [hsplit]
  cases hp : g.parse (String.mk e) <;> simp [hp]

theorem renameStatements_segments (g : ScriptGrammar) (name newName : String) :
    ∀ segs : List (List Char × List Char),
      (∀ et ∈ segs, noPair '}' (et.1 ++ ['}']) = true ∧ noPair '}' et.2 = true) →
      renameStatements g name newName (segs.map (fun et => et.1 ++ '}' :: '}' :: et.2))
        = (reprintAll g name newName segs).map
            (fun segs' => segs'.map (fun et => '{' :: '{' :: (et.1 ++ '}' :: '}' :: et.2)))
  | [], _ => rfl
  | (e, t) :: rest, h => by
      have h1 := h (e, t) (List.mem_cons_self _ _)
      have ih := renameStatements_segments g name newName rest
        (fun et het => h et (List.mem_cons_of_mem _ het))
      simp only [List.map_cons, renameStatements, reprintAll]
      rw [renameStatement_segment g name newName e t h1.1 h1.2, ih]
      cases hr : reprint g name newName e <;>
        cases hra : reprintAll g name newName rest <;> simp [hr, hra]

/-- C6 (amended). For a text child `t0 {{e1}} t1 ... {{en}} tn` in which the
pattern `{{([^}]+)}}` matches, no interior `e` contains `{{` or `}}` or ends in
`}`, and no outside text `t` contains `{{` or ends in `{` or, after an
interior, contains `}}`: `renameInTextTemplates` returns
`t0 {{e1'}} t1 ... {{en'}} tn`, every interior reparsed, renamed and
re-serialized, the outside texts and the number of segments as they were (and
throws when an interior does not parse). A string in which the pattern does
not match and a child that is not a string are returned unchanged. -/
theorem C6_renameInText_paired_delimiters (g : ScriptGrammar) (name newName : String)
    (t0 : List Char) (segs : List (List Char × List Char))
    (h0 : noPair '{' (t0 ++ ['{']) = true)
    (hs : ∀ et ∈ segs, noPair '{' et.1 = true ∧ noPair '}' (et.1 ++ ['}']) = true ∧
      noPair '{' (et.2 ++ ['{']) = true ∧ noPair '}' et.2 = true)
    (hm : matchesInterpolation (assemble t0 segs) = true) :
    renameInText g name newName (String.mk (assemble t0 segs))
        = (reprintAll g name newName segs).map (fun segs' => String.mk (assemble t0 segs')) ∧
    (∀ child : String, matchesInterpolation child.data = false →
      renameInText g name newName child = some child) ∧
    (∀ child : HNode, (∀ s, child ≠ .text s) → renameInChild g name newName child = some child) := by
  refine ⟨?_, ?_, ?_⟩
  · have hpieces : splitOnPair '{' (assemble t0 segs)
        = t0 :: segs.map (fun et => et.1 ++ '}' :: '}' :: et.2) := by
      have := splitOnPair_pieces '{' (segs.map (fun et => et.1 ++ '}' :: '}' :: et.2)) t0 h0
        (by
          intro s hs'
          rw [List.mem_map] at hs'
          obtain ⟨et, het, rfl⟩ := hs'
          have h := hs et het
          have h1 : noPair '{' ('}' :: (et.2 ++ ['{'])) = true :=
            noPair_append_sep '{' '}' (by decide) _ h.2.2.1 [] rfl
          have h2 : noPair '{' ('}' :: '}' :: (et.2 ++ ['{'])) = true :=
            noPair_append_sep '{' '}' (by decide) _ h1 [] rfl
          have h3 := noPair_append_sep '{' '}' (by decide) _ h1 et.1 h.1
          simpa using h3)
      simpa [assemble, List.map_map, Function.comp] using this
    unfold renameInText
    simp only [hm, if_true, hpieces]
    rw [renameStatements_segments g name newName segs (fun et het => ⟨(hs et het).2.1, (hs et het).2.2.2⟩)]
    cases hra : reprintAll g name newName segs <;> simp [hra, assemble, List.map_map, Function.comp]
  · intro child hchild
    simp [renameInText, hchild]
  · intro child hchild
    cases child with
    | text s => exact absurd rfl (hchild s)
    | number n => rfl
    | empty => rfl
    | list items => rfl
    | element tag attrs content => rfl

/-- C6 (amended) at the text `a {{ foo }} b`. -/
theorem C6_witness :
    renameInText verbatim "foo" "bar" "a \x7b\x7b foo \x7d\x7d b"
      = some "a \x7b\x7b foo \x7d\x7d b" := by
  have h := (C6_renameInText_paired_delimiters verbatim "foo" "bar" "a ".data
    [(" foo ".data, " b".data)] (by decide) (by decide) (by decide)).1
  exact h.trans (by decide)

/-- C6 (counterexample). The text `x {{ a }} y {{ b` has one interpolation and
an opening delimiter that is ordinary text; with a grammar that prints every
expression as it was written, the claim gives the text back as it is, and the
code returns another text, with `}}undefined` added after the last piece. -/
theorem C6_counterexample :
    renameInText verbatim "foo" "bar" "x \x7b\x7b a \x7d\x7d y \x7b\x7b b"
      = some "x \x7b\x7b a \x7d\x7d y \x7b\x7b b\x7d\x7dundefined" ∧
    renameInText verbatim "foo" "bar" "x \x7b\x7b a \x7d\x7d y \x7b\x7b b"
      ≠ some "x \x7b\x7b a \x7d\x7d y \x7b\x7b b" := by
  decide

/-- C7 (the code departs from the claim). The key `xlink:href` is prefixed by
none of `:`, `@` and `v-`, yet it contains `:`, and `renameInHtmlAttributes`
tests with `includes`: the value of the attribute is reparsed, renamed and
re-serialized (and the call throws when the value does not parse).
`<use xlink:href="foo">` becomes `<use xlink:href="bar">` when `foo` is renamed
to `bar`. -/
theorem C7_rewrites_value_of_unprefixed_key (g : ScriptGrammar) (name newName val : String) :
    (":".data.isPrefixOf "xlink:href".data = false ∧
      "@".data.isPrefixOf "xlink:href".data = false ∧
      "v-".data.isPrefixOf "xlink:href".data = false) ∧
    renameInAttrs g name newName [("xlink:href", .str val)]
      = (g.parse val).map (fun jsrc =>
          [("xlink:href", .str (g.toSource (replaceIdentifiers jsrc name newName)))]) ∧
    renameInAttrs identifierGrammar "foo" "bar" [("xlink:href", .str "foo")]
      = some [("xlink:href", .str "bar")] := by
  refine ⟨by decide, ?_, by decide⟩
  have hv : isVueAttr "xlink:href" = true := by decide
  unfold renameInAttrs
  simp only [List.filter, hv, parseAttrs]
  cases hp : g.parse val <;> simp [setField]

/-! ## Theorems: traversals of the script tree -/

theorem visitNode_eq (f : Node → Option Node) (t : String) (a : List (String × Prim))
    (kids : List (String × Node)) :
    visitNode f (.mk t a kids) = (visitKids f kids).bind (fun kids' => f (.mk t a kids')) := by
  rw [visitNode]
  cases visitKids f kids <;> rfl

theorem visitKids_cons (f : Node → Option Node) (l : String) (k : Node)
    (rest : List (String × Node)) :
    visitKids f ((l, k) :: rest) =
      (visitNode f k).bind (fun k' => (visitKids f rest).map (fun rest' => (l, k') :: rest')) := by
  rw [visitKids]
  cases visitNode f k with
  | none => rfl
  | some k' => cases visitKids f rest <;> rfl

theorem getAt_nil (s : Node) : getAt s [] = some s := by
  cases s; rfl

theorem getAt_cons (t : String) (a : List (String × Prim)) (kids : List (String × Node))
    (i : Nat) (rest : Path) :
    getAt (.mk t a kids) (i :: rest) = (kids[i]?).bind (fun lk => getAt lk.2 rest) := by
  rw [getAt]
  cases kids[i]? <;> rfl

theorem visitKids_get (f : Node → Option Node) :
    ∀ (kids kids' : List (String × Node)), visitKids f kids = some kids' →
      ∀ (i : Nat) (l : String) (k : Node), kids[i]? = some (l, k) →
        ∃ k', visitNode f k = some k' ∧ kids'[i]? = some (l, k')
  | [], _, _, i, l, k, hi => by simp at hi
  | (l0, k0) :: rest, kids', h, i, l, k, hi => by
      rw [visitKids_cons] at h
      cases hk : visitNode f k0 with
      | none => simp [hk] at h
      | some k0' =>
          cases hr : visitKids f rest with
          | none => simp [hk, hr] at h
          | some rest' =>
              simp [hk, hr] at h
              subst h
              cases i with
              | zero =>
                  simp at hi
                  obtain ⟨rfl, rfl⟩ := hi
                  exact ⟨k0', hk, by simp⟩
              | succ j =>
                  have hi' : rest[j]? = some (l, k) := by simpa using hi
                  obtain ⟨k', hk', hget⟩ := visitKids_get f rest rest' hr j l k hi'
                  exact ⟨k', hk', by simpa using hget⟩

theorem visitKids_lookup (f : Node → Option Node) (field : String) :
    ∀ (kids kids' : List (String × Node)), visitKids f kids = some kids' →
      (kids.lookup field = none → kids'.lookup field = none) ∧
      (∀ k, kids.lookup field = some k →
        ∃ k', visitNode f k = some k' ∧ kids'.lookup field = some k')
  | [], kids', h => by
      simp [visitKids] at h
      subst h
      simp
  | (l0, k0) :: rest, kids', h => by
      rw [visitKids_cons] at h
      cases hk : visitNode f k0 with
      | none => simp [hk] at h
      | some k0' =>
          cases hr : visitKids f rest with
          | none => simp [hk, hr] at h
          | some rest' =>
              simp [hk, hr] at h
              subst h
              have ih := visitKids_lookup f field rest rest' hr
              by_cases hl : field = l0
              · subst hl
                simp [List.lookup, hk]
              · have hb : (field == l0) = false := by simpa using hl
                simp only [List.lookup, hb]
                exact ih

/-- The node at a path after a bottom-up pass, when the callback keeps, at
every node on the way, the child through which the path goes. -/
theorem visitNode_getAt (f : Node → Option Node) (keep : Node → Nat → Prop)
    (hstep : ∀ (t : String) (a : List (String × Prim)) (kids kids' : List (String × Node))
      (r : Node) (i : Nat), visitKids f kids = some kids' → f (.mk t a kids') = some r →
      keep (.mk t a kids) i → r.kids[i]? = kids'[i]?) :
    ∀ (p : Path) (s s' n : Node), visitNode f s = some s' → getAt s p = some n →
      (∀ (q : Path) (i : Nat) (m : Node), q ++ [i] <+: p → getAt s q = some m → keep m i) →
      ∃ n', visitNode f n = some n' ∧ getAt s' p = some n'
  | [], s, s', n, hv, hg, _ => by
      rw [getAt_nil] at hg
      cases hg
      exact ⟨s', hv, getAt_nil s'⟩
  | i :: rest, .mk t a kids, s', n, hv, hg, hk => by
      rw [visitNode_eq] at hv
      cases hks : visitKids f kids with
      | none => simp [hks] at hv
      | some kids' =>
          simp [hks] at hv
          rw [getAt_cons] at hg
          cases hget : kids[i]? with
          | none => simp [hget] at hg
          | some lk =>
              obtain ⟨l, k⟩ := lk
              simp only [hget, Option.bind_some] at hg
              obtain ⟨k', hk', hget'⟩ := visitKids_get f kids kids' hks i l k hget
              have hkeep : keep (.mk t a kids) i :=
                hk [] i (.mk t a kids) (by simp) (getAt_nil _)
              have hr := hstep t a kids kids' s' i hks hv hkeep
              have ih := visitNode_getAt f keep hstep rest k k' n hk' hg
                (by
                  intro q j m hq hm
                  apply hk (i :: q) j m
                  · simpa using hq
                  · rw [getAt_cons, hget]
                    exact hm)
              obtain ⟨n', hn', hgn'⟩ := ih
              refine ⟨n', hn', ?_⟩
              cases s' with
              | mk t' a' kids'' =>
                  simp only [Node.kids] at hr
                  rw [getAt_cons, hr, hget']
                  exact hgn'

/-- The node at a path below the root after the pass `visitBelow`. -/
theorem visitBelow_getAt (f : Node → Option Node) (keep : Node → Nat → Prop)
    (hstep : ∀ (t : String) (a : List (String × Prim)) (kids kids' : List (String × Node))
      (r : Node) (i : Nat), visitKids f kids = some kids' → f (.mk t a kids') = some r →
      keep (.mk t a kids) i → r.kids[i]? = kids'[i]?)
    (p : Path) (s s' n : Node) (hp : p ≠ []) (hv : visitBelow f s = some s')
    (hg : getAt s p = some n)
    (hk : ∀ (q : Path) (i : Nat) (m : Node), q ≠ [] → q ++ [i] <+: p → getAt s q = some m →
      keep m i) :
    ∃ n', visitNode f n = some n' ∧ getAt s' p = some n' := by
  cases p with
  | nil => exact absurd rfl hp
  | cons i rest =>
      cases s with
      | mk t a kids =>
          simp only [visitBelow] at hv
          cases hks : visitKids f kids with
          | none => simp [hks] at hv
          | some kids' =>
              simp [hks] at hv
              subst hv
              rw [getAt_cons] at hg
              cases hget : kids[i]? with
              | none => simp [hget] at hg
              | some lk =>
                  obtain ⟨l, k⟩ := lk
                  simp only [hget, Option.bind_some] at hg
                  obtain ⟨k', hk', hget'⟩ := visitKids_get f kids kids' hks i l k hget
                  obtain ⟨n', hn', hgn'⟩ := visitNode_getAt f keep hstep rest k k' n hk' hg
                    (by
                      intro q j m hq hm
                      apply hk (i :: q) j m (by simp)
                      · simpa using hq
                      · rw [getAt_cons, hget]
                        exact hm)
                  refine ⟨n', hn', ?_⟩
                  rw [getAt_cons, hget']
                  exact hgn'

/-! ## Theorems: the script side of a rename -/

mutual
theorem visitNode_total (f : Node → Option Node) (P : Node → Bool)
    (hP : ∀ (t : String) (a : List (String × Prim)) (kids kids' : List (String × Node)),
      P (.mk t a kids) = true → visitKids f kids = some kids' →
      ∃ r, f (.mk t a kids') = some r) :
    ∀ n : Node, allNodes P n = true → ∃ n', visitNode f n = some n'
  | .mk t a kids, h => by
      rw [allNodes, Bool.and_eq_true] at h
      obtain ⟨kids', hk⟩ := visitKids_total f P hP kids h.2
      obtain ⟨r, hr⟩ := hP t a kids kids' h.1 hk
      exact ⟨r, by rw [visitNode_eq, hk]; exact hr⟩
theorem visitKids_total (f : Node → Option Node) (P : Node → Bool)
    (hP : ∀ (t : String) (a : List (String × Prim)) (kids kids' : List (String × Node)),
      P (.mk t a kids) = true → visitKids f kids = some kids' →
      ∃ r, f (.mk t a kids') = some r) :
    ∀ kids : List (String × Node), allKids P kids = true → ∃ kids', visitKids f kids = some kids'
  | [], _ => ⟨[], by rw [visitKids]⟩
  | (l, k) :: rest, h => by
      rw [allKids, Bool.and_eq_true] at h
      obtain ⟨k', hk⟩ := visitNode_total f P hP k h.1
      obtain ⟨rest', hr⟩ := visitKids_total f P hP rest h.2
      exact ⟨(l, k') :: rest', by rw [visitKids_cons, hk, hr]; rfl⟩
end

theorem allKids_get (P : Node → Bool) :
    ∀ (kids : List (String × Node)) (i : Nat) (l : String) (k : Node),
      allKids P kids = true → kids[i]? = some (l, k) → allNodes P k = true
  | [], i, l, k, _, hi => by simp at hi
  | (l0, k0) :: rest, i, l, k, h, hi => by
      rw [allKids, Bool.and_eq_true] at h
      cases i with
      | zero =>
          simp at hi
          obtain ⟨_, rfl⟩ := hi
          exact h.1
      | succ j =>
          have hi' : rest[j]? = some (l, k) := by simpa using hi
          exact allKids_get P rest j l k h.2 hi'

theorem allNodes_getAt (P : Node → Bool) :
    ∀ (p : Path) (s n : Node), allNodes P s = true → getAt s p = some n → allNodes P n = true
  | [], s, n, h, hg => by
      rw [getAt_nil] at hg
      cases hg
      exact h
  | i :: rest, .mk t a kids, n, h, hg => by
      rw [allNodes, Bool.and_eq_true] at h
      rw [getAt_cons] at hg
      cases hget : kids[i]? with
      | none => simp [hget] at hg
      | some lk =>
          obtain ⟨l, k⟩ := lk
          simp only [hget, Option.bind_some] at hg
          exact allNodes_getAt P rest k n (allKids_get P kids i l k h.2 hget) hg

theorem allNodes_self (P : Node → Bool) (n : Node) (h : allNodes P n = true) : P n = true := by
  cases n with
  | mk t a kids =>
      rw [allNodes, Bool.and_eq_true] at h
      exact h.1

/-- A path that goes on below `q ++ [i]` passes through child `i` of the node
at `q`. -/
theorem getAt_prefix :
    ∀ (q : Path) (i : Nat) (p : Path) (s n : Node), q ++ [i] <+: p → getAt s p = some n →
      ∃ (m : Node) (l : String) (k : Node) (rest : Path),
        getAt s q = some m ∧ m.kids[i]? = some (l, k) ∧ getAt k rest = some n ∧
          p = q ++ i :: rest
  | [], i, p, .mk t a kids, n, hq, hg => by
      obtain ⟨rest, rfl⟩ := hq
      simp only [List.nil_append, List.singleton_append] at hg ⊢
      rw [getAt_cons] at hg
      cases hget : kids[i]? with
      | none => simp [hget] at hg
      | some lk =>
          obtain ⟨l, k⟩ := lk
          simp only [hget, Option.bind_some] at hg
          exact ⟨.mk t a kids, l, k, rest, getAt_nil _, hget, hg, rfl⟩
  | j :: q, i, p, .mk t a kids, n, hq, hg => by
      obtain ⟨rest, rfl⟩ := hq
      simp only [List.cons_append] at hg
      rw [getAt_cons] at hg
      cases hget : kids[j]? with
      | none => simp [hget] at hg
      | some lk =>
          obtain ⟨l0, k0⟩ := lk
          simp only [hget, Option.bind_some] at hg
          obtain ⟨m, l, k, rest', hm, hk, hn, hp⟩ :=
            getAt_prefix q i (q ++ [i] ++ rest) k0 n ⟨rest, rfl⟩ hg
          refine ⟨m, l, k, rest', ?_, hk, hn, ?_⟩
          · rw [getAt_cons, hget]
            exact hm
          · simp only [List.cons_append]
            rw [hp]

theorem setField_getElem_ne {α : Type} (field : String) (v : α) :
    ∀ (l : List (String × α)) (i : Nat), l.findIdx (fun lk => lk.1 == field) ≠ i →
      (setField field v l)[i]? = l[i]?
  | [], i, h => by
      simp only [List.findIdx_nil] at h
      cases i with
      | zero => exact absurd rfl h
      | succ j => simp [setField]
  | (l0, v0) :: rest, i, h => by
      by_cases hl : (l0 == field) = true
      · simp only [setField, hl, if_true]
        cases i with
        | zero => simp [List.findIdx_cons, hl] at h
        | succ j => simp
      · have hl' : (l0 == field) = false := by simpa using hl
        simp only [setField, hl', Bool.false_eq_true, if_false]
        cases i with
        | zero => simp
        | succ j =>
            simp only [List.findIdx_cons, hl', cond_false] at h
            have h' : rest.findIdx (fun lk => lk.1 == field) ≠ j := fun e => h (by rw [e])
            simpa using setField_getElem_ne field v rest j h'

theorem lookup_setField_ne {α : Type} (field field' : String) (v : α) (hne : field' ≠ field) :
    ∀ l : List (String × α), (setField field v l).lookup field' = l.lookup field'
  | [] => by
      have hb : (field' == field) = false := by simpa using hne
      simp [setField, List.lookup, hb]
  | (l0, v0) :: rest => by
      by_cases hl : (l0 == field) = true
      · have hl0 : l0 = field := by simpa using hl
        have hb : (field' == l0) = false := by rw [hl0]; simpa using hne
        simp [setField, hl, List.lookup, hb]
      · have hl' : (l0 == field) = false := by simpa using hl
        simp only [setField, hl', Bool.false_eq_true, if_false, List.lookup]
        rw [lookup_setField_ne field field' v hne rest]

theorem lookup_of_findIdx {α : Type} (field : String) :
    ∀ (l : List (String × α)) (i : Nat) (lab : String) (v : α),
      l.findIdx (fun lk => lk.1 == field) = i → l[i]? = some (lab, v) →
      l.lookup field = some v
  | [], i, lab, v, _, hi => by simp at hi
  | (l0, v0) :: rest, i, lab, v, h, hi => by
      by_cases hl : (l0 == field) = true
      · simp only [List.findIdx_cons, hl, cond_true] at h
        subst h
        simp at hi
        have hl0 : l0 = field := by simpa using hl
        simp [List.lookup, hl0, hi.2]
      · have hl' : (l0 == field) = false := by simpa using hl
        simp only [List.findIdx_cons, hl', cond_false] at h
        subst h
        have hi' : rest[rest.findIdx (fun lk => lk.1 == field)]? = some (lab, v) := by
          simpa using hi
        have hb : (field == l0) = false := by
          have : l0 ≠ field := by simpa using hl'
          simpa using fun e => this e.symm
        simp only [List.lookup, hb]
        exact lookup_of_findIdx field rest _ lab v rfl hi'

theorem visitKids_labels (f : Node → Option Node) :
    ∀ (kids kids' : List (String × Node)), visitKids f kids = some kids' →
      kids'.map Prod.fst = kids.map Prod.fst
  | [], kids', h => by
      simp [visitKids] at h
      subst h
      rfl
  | (l0, k0) :: rest, kids', h => by
      rw [visitKids_cons] at h
      cases hk : visitNode f k0 with
      | none => simp [hk] at h
      | some k0' =>
          cases hr : visitKids f rest with
          | none => simp [hk, hr] at h
          | some rest' =>
              simp [hk, hr] at h
              subst h
              simp [visitKids_labels f rest rest' hr]

theorem findIdx_labels {α β : Type} (field : String) :
    ∀ (l : List (String × α)) (l' : List (String × β)), l'.map Prod.fst = l.map Prod.fst →
      l'.findIdx (fun lk => lk.1 == field) = l.findIdx (fun lk => lk.1 == field)
  | [], [], _ => rfl
  | [], _ :: _, h => by simp at h
  | _ :: _, [], h => by simp at h
  | (a, _) :: rest, (a', _) :: rest', h => by
      simp only [List.map_cons, List.cons.injEq] at h
      obtain ⟨h1, h2⟩ := h
      subst h1
      simp only [List.findIdx_cons]
      rw [findIdx_labels field rest rest' h2]

theorem visitNode_type_attrs (f : Node → Option Node)
    (hf : ∀ n r, f n = some r → r.type = n.type ∧ r.attrs = n.attrs) (n n' : Node)
    (h : visitNode f n = some n') : n'.type = n.type ∧ n'.attrs = n.attrs := by
  cases n with
  | mk t a kids =>
      rw [visitNode_eq] at h
      cases hk : visitKids f kids with
      | none => simp [hk] at h
      | some kids' =>
          simp [hk] at h
          exact hf (.mk t a kids') n' h

theorem setKid_type_attrs (n v : Node) (field : String) :
    (n.setKid field v).type = n.type ∧ (n.setKid field v).attrs = n.attrs := ⟨rfl, rfl⟩

theorem renameMemberCallback_type_attrs (old new : String) (n r : Node)
    (h : renameMemberCallback old new n = some r) : r.type = n.type ∧ r.attrs = n.attrs := by
  unfold renameMemberCallback at h
  split at h
  · cases hp : n.kid "property" with
    | none => simp [hp] at h
    | some prop =>
        simp only [hp, Option.some.injEq] at h
        subst h
        split <;> split <;> exact ⟨rfl, rfl⟩
  · simp at h
    subst h
    exact ⟨rfl, rfl⟩

theorem findIdx_setField {α : Type} (field : String) (v : α) :
    ∀ l : List (String × α),
      (setField field v l).findIdx (fun lk => lk.1 == field)
        = l.findIdx (fun lk => lk.1 == field)
  | [] => by simp [setField, List.findIdx_cons]
  | (l0, v0) :: rest => by
      by_cases hl : (l0 == field) = true
      · simp [setField, hl, List.findIdx_cons]
      · have hl' : (l0 == field) = false := by simpa using hl
        simp only [setField, hl', Bool.false_eq_true, if_false, List.findIdx_cons, cond_false]
        rw [findIdx_setField field v rest]

/-- The test `isThisMember` reads the type of a node and of its `object`. -/
theorem isThisMember_visited (f : Node → Option Node)
    (hf : ∀ n r, f n = some r → r.type = n.type ∧ r.attrs = n.attrs) (t : String)
    (a : List (String × Prim)) (kids kids' : List (String × Node))
    (hk : visitKids f kids = some kids') :
    isThisMember (.mk t a kids') = isThisMember (.mk t a kids) := by
  have hl := visitKids_lookup f "object" kids kids' hk
  unfold isThisMember
  simp only [Node.kid, Node.kids]
  cases ho : kids.lookup "object" with
  | none =>
      rw [hl.1 ho]
      rfl
  | some obj =>
      obtain ⟨obj', hv, ho'⟩ := hl.2 obj ho
      rw [ho']
      have := (visitNode_type_attrs f hf obj obj' hv).1
      show ((Node.mk t a kids').type == "MemberExpression" && obj'.type == "ThisExpression")
        = ((Node.mk t a kids).type == "MemberExpression" && obj.type == "ThisExpression")
      rw [this]
      rfl

/-- The callback of `renameMemberExpressions` changes at most the first child
labelled `property`. -/
theorem renameMemberCallback_getElem_ne (old new : String) (n r : Node) (i : Nat)
    (h : renameMemberCallback old new n = some r)
    (hidx : n.kids.findIdx (fun lk => lk.1 == "property") ≠ i) : r.kids[i]? = n.kids[i]? := by
  unfold renameMemberCallback at h
  by_cases hm : isThisMember n = true
  · simp only [hm, if_true] at h
    cases hp : n.kid "property" with
    | none => simp [hp] at h
    | some prop =>
        simp only [hp, Option.some.injEq] at h
        subst h
        by_cases h1 : looseEqString (prop.attr "value") old = true <;>
          by_cases h2 : looseEqString (prop.attr "name") old = true <;>
          simp only [h1, h2, if_true, if_false, Bool.false_eq_true]
        · show (setField "property" (identifier new)
              (setField "property" (literal (.str new)) n.kids))[i]? = n.kids[i]?
          rw [setField_getElem_ne "property" _ _ i (by rw [findIdx_setField]; exact hidx),
            setField_getElem_ne "property" _ _ i hidx]
        · show (setField "property" (literal (.str new)) n.kids)[i]? = n.kids[i]?
          rw [setField_getElem_ne "property" _ _ i hidx]
        · show (setField "property" (identifier new) n.kids)[i]? = n.kids[i]?
          rw [setField_getElem_ne "property" _ _ i hidx]
  · simp only [hm, Bool.false_eq_true, if_false, Option.some.injEq] at h
    subst h
    rfl

theorem renameMemberCallback_keeps (old new : String) (t : String) (a : List (String × Prim))
    (kids kids' : List (String × Node)) (r : Node) (i : Nat)
    (hk : visitKids (renameMemberCallback old new) kids = some kids')
    (hr : renameMemberCallback old new (.mk t a kids') = some r)
    (hkeep : keepsMember old (.mk t a kids) i) : r.kids[i]? = kids'[i]? := by
  have hthis := isThisMember_visited _ (renameMemberCallback_type_attrs old new) t a kids kids' hk
  rcases hkeep with h1 | h2 | h3
  · unfold renameMemberCallback at hr
    rw [hthis] at hr
    simp [h1] at hr
    subst hr
    rfl
  · have hidx : (Node.mk t a kids').kids.findIdx (fun lk => lk.1 == "property") ≠ i := by
      simp only [Node.kids]
      rw [findIdx_labels "property" kids kids' (visitKids_labels _ kids kids' hk)]
      exact h2
    exact renameMemberCallback_getElem_ne old new _ r i hr hidx
  · have hl := visitKids_lookup (renameMemberCallback old new) "property" kids kids' hk
    unfold renameMemberCallback at hr
    by_cases hm : isThisMember (.mk t a kids') = true
    · simp only [hm, if_true] at hr
      cases hp : (Node.mk t a kids').kid "property" with
      | none => simp [hp] at hr
      | some prop' =>
          simp only [hp, Option.some.injEq] at hr
          simp only [Node.kid, Node.kids] at hp
          cases hp0 : kids.lookup "property" with
          | none =>
              rw [hl.1 hp0] at hp
              cases hp
          | some prop =>
              obtain ⟨prop'', hv, hp''⟩ := hl.2 prop hp0
              rw [hp''] at hp
              cases hp
              have hattrs :=
                (visitNode_type_attrs _ (renameMemberCallback_type_attrs old new) prop prop' hv).2
              have hno := h3 prop (by simp only [Node.kid, Node.kids]; exact hp0)
              have e1 : prop'.attr "name" = prop.attr "name" := by
                simp only [Node.attr, hattrs]
              have e2 : prop'.attr "value" = prop.attr "value" := by
                simp only [Node.attr, hattrs]
              rw [e1, e2, hno.1, hno.2] at hr
              simp at hr
              subst hr
              rfl
    · simp only [hm, Bool.false_eq_true, if_false, Option.some.injEq] at hr
      subst hr
      rfl

theorem renameMemberCallback_total (old new : String) (t : String) (a : List (String × Prim))
    (kids kids' : List (String × Node)) (hw : wellShaped (.mk t a kids) = true)
    (hk : visitKids (renameMemberCallback old new) kids = some kids') :
    ∃ r, renameMemberCallback old new (.mk t a kids') = some r := by
  have hthis := isThisMember_visited _ (renameMemberCallback_type_attrs old new) t a kids kids' hk
  unfold renameMemberCallback
  by_cases hm : isThisMember (.mk t a kids) = true
  · rw [hthis, hm]
    simp only [if_true]
    have hl := visitKids_lookup (renameMemberCallback old new) "property" kids kids' hk
    have htype : t = "MemberExpression" := by
      unfold isThisMember at hm
      simp only [Node.type, Bool.and_eq_true, beq_iff_eq] at hm
      exact hm.1
    have hprop : (kids.lookup "property").isSome = true := by
      unfold wellShaped at hw
      simp only [Node.type, Node.kid, Node.kids, htype, bne_self_eq_false, Bool.false_or,
        Bool.and_eq_true] at hw
      exact hw.1.2
    cases hp0 : kids.lookup "property" with
    | none => simp [hp0] at hprop
    | some prop =>
        obtain ⟨prop', _, hp'⟩ := hl.2 prop hp0
        simp only [Node.kid, Node.kids, hp']
        exact ⟨_, rfl⟩
  · have hm' : isThisMember (.mk t a kids) = false := by simpa using hm
    rw [hthis, hm']
    exact ⟨_, rfl⟩

theorem renameMemberExpressions_total (script : Node) (old new : String)
    (hwf : wellFormed script = true) :
    ∃ script', renameMemberExpressions script old new = some script' := by
  obtain ⟨t, a, kids⟩ := script
  unfold wellFormed at hwf
  rw [allNodes, Bool.and_eq_true] at hwf
  obtain ⟨kids', hk⟩ := visitKids_total (renameMemberCallback old new) wellShaped
    (renameMemberCallback_total old new) kids hwf.2
  exact ⟨.mk t a kids', by simp [renameMemberExpressions, visitBelow, hk]⟩

/-- The first pass keeps a child that is well shaped and has children of its
own: it carries no name. -/
theorem keepsMember_of_kid (old : String) (m : Node) (i : Nat) (l : String) (k : Node)
    (hk : m.kids[i]? = some (l, k)) (hkw : wellShaped k = true) (hkk : k.kids ≠ []) :
    keepsMember old m i := by
  by_cases hidx : m.kids.findIdx (fun lk => lk.1 == "property") = i
  · right; right
    intro prop hprop
    have hkid : m.kid "property" = some k := lookup_of_findIdx "property" m.kids i l k hidx hk
    rw [hkid] at hprop
    cases hprop
    unfold wellShaped at hkw
    simp only [Bool.and_eq_true, Bool.or_eq_true] at hkw
    rcases hkw.2 with h1 | h2
    · have e1 : k.attr "name" = none := by simpa using h1.1
      have e2 : k.attr "value" = none := by simpa using h1.2
      rw [e1, e2]
      exact ⟨rfl, rfl⟩
    · exfalso
      apply hkk
      simpa using h2
  · right; left
    exact hidx

theorem wellShaped_kid (script : Node) (q : Path) (i : Nat) (m : Node) (l : String) (k : Node)
    (hwf : wellFormed script = true) (hm : getAt script q = some m)
    (hk : m.kids[i]? = some (l, k)) : wellShaped k = true := by
  have hmw : allNodes wellShaped m = true := allNodes_getAt wellShaped q script m hwf hm
  obtain ⟨mt, ma, mkids⟩ := m
  rw [allNodes, Bool.and_eq_true] at hmw
  exact allNodes_self wellShaped k (allKids_get wellShaped mkids i l k hmw.2 hk)

/-- On a well-formed tree the first pass keeps every child through which a
path goes on to a node further down. -/
theorem keepsMember_strict (script : Node) (old : String) (p q : Path) (i : Nat)
    (m n : Node) (hwf : wellFormed script = true)
    (hg : getAt script p = some n) (hq : q ++ [i] <+: p) (hne : q ++ [i] ≠ p)
    (hm : getAt script q = some m) : keepsMember old m i := by
  obtain ⟨m', l, k, rest, hm', hk, hn', hp⟩ := getAt_prefix q i p script _ hq hg
  rw [hm] at hm'
  cases hm'
  apply keepsMember_of_kid old m i l k hk (wellShaped_kid script q i m l k hwf hm hk)
  intro hkk
  obtain ⟨kt, ka, kkids⟩ := k
  simp only [Node.kids] at hkk
  subst hkk
  cases rest with
  | nil => exact hne (by rw [hp])
  | cons j rest' =>
      rw [getAt_cons] at hn'
      simp at hn'

/-- On a well-formed tree the first pass keeps every child through which a
path to a node with children goes. -/
theorem keepsMember_on_path (script : Node) (old : String) (p q : Path) (i : Nat)
    (m n : Node) (hwf : wellFormed script = true)
    (hg : getAt script p = some n) (hn : n.kids ≠ [])
    (hq : q ++ [i] <+: p) (hm : getAt script q = some m) : keepsMember old m i := by
  by_cases hne : q ++ [i] = p
  · obtain ⟨m', l, k, rest, hm', hk, hn', hp⟩ := getAt_prefix q i p script _ hq hg
    rw [hm] at hm'
    cases hm'
    have hrest : rest = [] := by
      rw [← hne] at hp
      simpa using hp
    subst hrest
    rw [getAt_nil] at hn'
    cases hn'
    exact keepsMember_of_kid old m i l _ hk (wellShaped_kid script q i m l _ hwf hm hk) hn
  · exact keepsMember_strict script old p q i m n hwf hg hq hne hm

theorem visitNode_thisMember_leaf (old new : String) (a ta pa : List (String × Prim))
    (pt : String) :
    visitNode (renameMemberCallback old new) (thisMember a ta (.mk pt pa []))
      = some (if looseEqString (pa.lookup "name") old = true then
                thisMember a ta (identifier new)
              else if looseEqString (pa.lookup "value") old = true then
                thisMember a ta (literal (.str new))
              else thisMember a ta (.mk pt pa [])) := by
  have hthis : visitNode (renameMemberCallback old new) (.mk "ThisExpression" ta [])
      = some (.mk "ThisExpression" ta []) := by
    rw [visitNode_eq]
    simp [visitKids, renameMemberCallback, isThisMember, Node.type]
  have hleaf : visitNode (renameMemberCallback old new) (.mk pt pa [])
      = some (.mk pt pa []) := by
    rw [visitNode_eq]
    simp [visitKids, renameMemberCallback, isThisMember, Node.type, Node.kid, Node.kids,
      List.lookup]
  unfold thisMember
  rw [visitNode_eq, visitKids_cons, hthis]
  simp only [Option.some_bind]
  rw [visitKids_cons, hleaf]
  by_cases h1 : looseEqString (pa.lookup "name") old = true <;>
    by_cases h2 : looseEqString (pa.lookup "value") old = true <;>
    simp [visitKids, renameMemberCallback, isThisMember, Node.type, Node.kid, Node.kids,
      List.lookup, Node.attr, Node.attrs, Node.setKid, setField, h1, h2]

mutual
/-- A pass whose callback returns the nodes of a subtree as they are leaves
the subtree as it is. -/
theorem visitNode_noop (f : Node → Option Node) (P : Node → Bool)
    (hP : ∀ n, P n = true → f n = some n) :
    ∀ n : Node, allNodes P n = true → visitNode f n = some n
  | .mk t a kids, h => by
      rw [allNodes, Bool.and_eq_true] at h
      rw [visitNode_eq, visitKids_noop f P hP kids h.2]
      exact hP _ h.1
theorem visitKids_noop (f : Node → Option Node) (P : Node → Bool)
    (hP : ∀ n, P n = true → f n = some n) :
    ∀ kids : List (String × Node), allKids P kids = true → visitKids f kids = some kids
  | [], _ => by rw [visitKids]
  | (l, k) :: rest, h => by
      rw [allKids, Bool.and_eq_true] at h
      rw [visitKids_cons, visitNode_noop f P hP k h.1, visitKids_noop f P hP rest h.2]
      rfl
end

mutual
/-- A property of all nodes that the callback hands on from a node to its
result holds of the tree after the pass. -/
theorem visitNode_allNodes (f : Node → Option Node) (P : Node → Bool)
    (hP : ∀ (t : String) (a : List (String × Prim)) (kids kids' : List (String × Node))
      (r : Node), visitKids f kids = some kids' → allKids P kids' = true →
      f (.mk t a kids') = some r → P (.mk t a kids) = true → allNodes P r = true) :
    ∀ n n' : Node, allNodes P n = true → visitNode f n = some n' → allNodes P n' = true
  | .mk t a kids, n', h, hv => by
      rw [allNodes, Bool.and_eq_true] at h
      rw [visitNode_eq] at hv
      cases hk : visitKids f kids with
      | none => simp [hk] at hv
      | some kids' =>
          simp only [hk, Option.some_bind] at hv
          exact hP t a kids kids' n' hk (visitKids_allKids f P hP kids kids' h.2 hk) hv h.1
theorem visitKids_allKids (f : Node → Option Node) (P : Node → Bool)
    (hP : ∀ (t : String) (a : List (String × Prim)) (kids kids' : List (String × Node))
      (r : Node), visitKids f kids = some kids' → allKids P kids' = true →
      f (.mk t a kids') = some r → P (.mk t a kids) = true → allNodes P r = true) :
    ∀ kids kids' : List (String × Node), allKids P kids = true →
      visitKids f kids = some kids' → allKids P kids' = true
  | [], kids', _, hv => by
      rw [visitKids] at hv
      cases hv
      rfl
  | (l, k) :: rest, kids', h, hv => by
      rw [allKids, Bool.and_eq_true] at h
      rw [visitKids_cons] at hv
      cases hk : visitNode f k with
      | none => simp [hk] at hv
      | some k' =>
          cases hr : visitKids f rest with
          | none => simp [hk, hr] at hv
          | some rest' =>
              simp [hk, hr] at hv
              subst hv
              rw [allKids, Bool.and_eq_true]
              exact ⟨visitNode_allNodes f P hP k k' h.1 hk,
                visitKids_allKids f P hP rest rest' h.2 hr⟩
end

theorem renameDeclaratorCallback_type_attrs (old new : String) (n r : Node)
    (h : renameDeclaratorCallback old new n = some r) : r.type = n.type ∧ r.attrs = n.attrs := by
  unfold renameDeclaratorCallback at h
  by_cases hd : isThisDeclarator n = true
  · simp only [hd, if_true] at h
    cases hid : n.kid "id" with
    | none => simp [hid] at h
    | some id =>
        simp only [hid] at h
        cases hps : id.kid "properties" with
        | none => simp [hps] at h
        | some props =>
            simp only [hps] at h
            by_cases ht : (props.type == "[]") = true
            · simp only [ht, if_true] at h
              cases hr : renameDestructuredProps old new props.kids with
              | none => simp [hr] at h
              | some kids' =>
                  simp only [hr, Option.some.injEq] at h
                  subst h
                  exact ⟨rfl, rfl⟩
            · simp [ht] at h
  · simp only [hd, Bool.false_eq_true, if_false, Option.some.injEq] at h
    subst h
    exact ⟨rfl, rfl⟩

/-- The test `isThisDeclarator` reads the type of a node and of its `init`. -/
theorem isThisDeclarator_visited (f : Node → Option Node)
    (hf : ∀ n r, f n = some r → r.type = n.type ∧ r.attrs = n.attrs) (t : String)
    (a : List (String × Prim)) (kids kids' : List (String × Node))
    (hk : visitKids f kids = some kids') :
    isThisDeclarator (.mk t a kids') = isThisDeclarator (.mk t a kids) := by
  have hl := visitKids_lookup f "init" kids kids' hk
  unfold isThisDeclarator
  simp only [Node.kid, Node.kids]
  cases ho : kids.lookup "init" with
  | none =>
      rw [hl.1 ho]
      rfl
  | some obj =>
      obtain ⟨obj', hv, ho'⟩ := hl.2 obj ho
      rw [ho']
      have := (visitNode_type_attrs f hf obj obj' hv).1
      show ((Node.mk t a kids').type == "VariableDeclarator" && obj'.type == "ThisExpression")
        = ((Node.mk t a kids).type == "VariableDeclarator" && obj.type == "ThisExpression")
      rw [this]
      rfl

/-- The second pass keeps the children of every node that is no declaration
initialised from `this`. -/
theorem renameDeclaratorCallback_keeps (old new : String) (t : String)
    (a : List (String × Prim)) (kids kids' : List (String × Node)) (r : Node) (i : Nat)
    (hk : visitKids (renameDeclaratorCallback old new) kids = some kids')
    (hr : renameDeclaratorCallback old new (.mk t a kids') = some r)
    (hkeep : isThisDeclarator (.mk t a kids) = false) : r.kids[i]? = kids'[i]? := by
  have hthis := isThisDeclarator_visited _ (renameDeclaratorCallback_type_attrs old new)
    t a kids kids' hk
  unfold renameDeclaratorCallback at hr
  rw [hthis, hkeep] at hr
  simp at hr
  subst hr
  rfl

/-- The callback of the first pass changes no child but `property`. -/
theorem renameMemberCallback_kid_ne (old new : String) (n r : Node) (field : String)
    (hne : field ≠ "property") (h : renameMemberCallback old new n = some r) :
    r.kid field = n.kid field := by
  unfold renameMemberCallback at h
  by_cases hm : isThisMember n = true
  · simp only [hm, if_true] at h
    cases hp : n.kid "property" with
    | none => simp [hp] at h
    | some prop =>
        simp only [hp, Option.some.injEq] at h
        subst h
        by_cases h1 : looseEqString (prop.attr "value") old = true <;>
          by_cases h2 : looseEqString (prop.attr "name") old = true <;>
          simp only [h1, h2, if_true, if_false, Bool.false_eq_true]
        · show (setField "property" (identifier new)
              (setField "property" (literal (.str new)) n.kids)).lookup field = n.kids.lookup field
          rw [lookup_setField_ne "property" field _ hne, lookup_setField_ne "property" field _ hne]
        · show (setField "property" (literal (.str new)) n.kids).lookup field
            = n.kids.lookup field
          rw [lookup_setField_ne "property" field _ hne]
        · show (setField "property" (identifier new) n.kids).lookup field = n.kids.lookup field
          rw [lookup_setField_ne "property" field _ hne]
  · simp only [hm, Bool.false_eq_true, if_false, Option.some.injEq] at h
    subst h
    rfl

/-- After the first pass a child field other than `property` holds the
visited child. -/
theorem renameMember_visited_kid (old new : String) (field : String) (hne : field ≠ "property")
    (n n' : Node) (h : visitNode (renameMemberCallback old new) n = some n') :
    (n.kid field = none → n'.kid field = none) ∧
    (∀ k, n.kid field = some k →
      ∃ k', visitNode (renameMemberCallback old new) k = some k' ∧ n'.kid field = some k') := by
  obtain ⟨t, a, kids⟩ := n
  rw [visitNode_eq] at h
  cases hk : visitKids (renameMemberCallback old new) kids with
  | none => simp [hk] at h
  | some kids' =>
      simp only [hk, Option.some_bind] at h
      have hkid := renameMemberCallback_kid_ne old new _ n' field hne h
      have hl := visitKids_lookup (renameMemberCallback old new) field kids kids' hk
      rw [hkid]
      exact hl

theorem isThisDeclarator_renameMember (old new : String) (n n' : Node)
    (h : visitNode (renameMemberCallback old new) n = some n') :
    isThisDeclarator n' = isThisDeclarator n := by
  have hta := visitNode_type_attrs _ (renameMemberCallback_type_attrs old new) n n' h
  have hk := renameMember_visited_kid old new "init" (by decide) n n' h
  unfold isThisDeclarator
  rw [hta.1]
  cases hi : n.kid "init" with
  | none => rw [hk.1 hi]
  | some init =>
      obtain ⟨init', hv, hi'⟩ := hk.2 init hi
      rw [hi']
      have := (visitNode_type_attrs _ (renameMemberCallback_type_attrs old new) init init' hv).1
      simp only [this]

theorem visitDeclarator_thisMember_leaf (old new : String) (a ta pa : List (String × Prim))
    (pt : String) :
    visitNode (renameDeclaratorCallback old new) (thisMember a ta (.mk pt pa []))
      = some (thisMember a ta (.mk pt pa [])) := by
  apply visitNode_noop (renameDeclaratorCallback old new) (fun m => !isThisDeclarator m)
  · intro n hn
    have : isThisDeclarator n = false := by simpa using hn
    simp [renameDeclaratorCallback, this]
  · simp [thisMember, allNodes, allKids, isThisDeclarator, Node.type, Node.kid, Node.kids,
      List.lookup]

theorem ancestorsAll_prefix (P : Node → Bool) :
    ∀ (q : Path) (i : Nat) (p : Path) (s m : Node), ancestorsAll P s p = true →
      q ++ [i] <+: p → getAt s q = some m → P m = true
  | [], i, p, .mk t a kids, m, h, hq, hm => by
      obtain ⟨rest, rfl⟩ := hq
      rw [getAt_nil] at hm
      cases hm
      simp only [List.nil_append, List.singleton_append] at h
      rw [ancestorsAll, Bool.and_eq_true] at h
      exact h.1
  | j :: q, i, p, .mk t a kids, m, h, hq, hm => by
      obtain ⟨rest, rfl⟩ := hq
      simp only [List.cons_append] at h
      rw [ancestorsAll, Bool.and_eq_true] at h
      rw [getAt_cons] at hm
      cases hget : kids[j]? with
      | none => simp [hget] at hm
      | some lk =>
          obtain ⟨l, k⟩ := lk
          simp only [hget, Option.some_bind] at hm
          have h2 := h.2
          simp only [hget] at h2
          exact ancestorsAll_prefix P q i (q ++ [i] ++ rest) k m h2 ⟨rest, rfl⟩ hm

theorem prefix_of_prefix_snoc {q' q p : Path} {j i : Nat} (h1 : q' ++ [j] <+: q)
    (h2 : q ++ [i] <+: p) : q' ++ [j] <+: p :=
  h1.trans ((List.prefix_append q [i]).trans h2)

/-- Where the first pass leaves the proper ancestors of a node. -/
theorem renameMemberExpressions_ancestor (script script' : Node) (old new : String)
    (p q : Path) (i : Nat) (m n : Node)
    (hwf : wellFormed script = true)
    (h1 : renameMemberExpressions script old new = some script')
    (hg : getAt script p = some n)
    (hq : q ++ [i] <+: p) (hq0 : q ≠ []) (hm : getAt script q = some m) :
    ∃ m', visitNode (renameMemberCallback old new) m = some m' ∧ getAt script' q = some m' :=
  visitBelow_getAt (renameMemberCallback old new) (keepsMember old)
    (renameMemberCallback_keeps old new) q script script' m hq0 h1 hm
    (fun q' j m' _ hq' hm' =>
      keepsMember_strict script old p q' j m' n hwf hg (prefix_of_prefix_snoc hq' hq)
        (by
          intro e
          have h1 := hq'.length_le
          have h2 := hq.length_le
          rw [e] at h1
          simp at h1 h2
          omega) hm')

/-- C3. On a well-formed script tree, at every path `p` below the root where
an access on the receiver `this` stands whose property is a leaf,
`renameThisAttr` (its first pass `renameMemberExpressions`, which returns)
leaves the same access with the property renamed: the identifier `old`
(`this.old`) has become the identifier `new`, the string literal `'old'`
(`this['old']`) the literal `'new'`, and a property of any other name is
unchanged. The second pass, when it returns, leaves this in place wherever the
access is not inside a declaration initialised from `this`. -/
theorem C3_renameThisAttr_member_accesses (script : Node) (old new : String) (p : Path)
    (a ta pa : List (String × Prim)) (pt : String)
    (hwf : wellFormed script = true) (hp : p ≠ [])
    (hg : getAt script p = some (thisMember a ta (.mk pt pa []))) :
    ∃ script', renameMemberExpressions script old new = some script' ∧
      memberRenamedAt script' p a ta pa pt old new ∧
      ∀ script'', renameThisAttr script old new = some script'' →
        ancestorsAll (fun m => !isThisDeclarator m) script p = true →
        memberRenamedAt script'' p a ta pa pt old new := by
  obtain ⟨script', h1⟩ := renameMemberExpressions_total script old new hwf
  obtain ⟨n', hn', hgn'⟩ := visitBelow_getAt (renameMemberCallback old new) (keepsMember old)
    (renameMemberCallback_keeps old new) p script script' _ hp h1 hg
    (fun q i m _ hq hm =>
      keepsMember_on_path script old p q i m _ hwf hg (by simp [thisMember, Node.kids]) hq hm)
  rw [visitNode_thisMember_leaf] at hn'
  have hpost : ∀ s : Node, getAt s p = some n' → memberRenamedAt s p a ta pa pt old new := by
    intro s hs
    refine ⟨?_, ?_, ?_⟩
    · intro hname
      have e : looseEqString (pa.lookup "name") old = true := by
        rw [hname]; simp [looseEqString]
      rw [e] at hn'
      simp only [if_true, Option.some.injEq] at hn'
      rw [hs, ← hn']
    · intro hname hvalue
      have e1 : looseEqString (pa.lookup "name") old = false := by
        rw [hname]; rfl
      have e2 : looseEqString (pa.lookup "value") old = true := by
        rw [hvalue]; simp [looseEqString]
      rw [e1, e2] at hn'
      simp only [Bool.false_eq_true, if_false, if_true, Option.some.injEq] at hn'
      rw [hs, ← hn']
    · intro e1 e2
      rw [e1, e2] at hn'
      simp only [Bool.false_eq_true, if_false, Option.some.injEq] at hn'
      rw [hs, ← hn']
  refine ⟨script', h1, hpost script' hgn', ?_⟩
  intro script'' h2 hanc
  have h2' : renameVariableDestructurings script' old new = some script'' := by
    simpa [renameThisAttr, h1] using h2
  obtain ⟨n'', hn'', hgn''⟩ := visitBelow_getAt (renameDeclaratorCallback old new)
    (fun m _ => isThisDeclarator m = false) (renameDeclaratorCallback_keeps old new)
    p script' script'' n' hp h2' hgn'
    (by
      intro q i m' hq0 hq hm'
      obtain ⟨m, _, _, _, hm, _, _, _⟩ := getAt_prefix q i p script _ hq hg
      obtain ⟨m1, hv, hm1⟩ := renameMemberExpressions_ancestor script script' old new p q i m
        _ hwf h1 hg hq hq0 hm
      rw [hm1] at hm'
      cases hm'
      rw [isThisDeclarator_renameMember old new m m' hv]
      simpa using ancestorsAll_prefix _ q i p script m hanc hq hm)
  have hsame : visitNode (renameDeclaratorCallback old new) n' = some n' := by
    simp only [Option.some.injEq] at hn'
    rw [← hn']
    split
    · exact visitDeclarator_thisMember_leaf old new a ta _ _
    · split
      · exact visitDeclarator_thisMember_leaf old new a ta _ _
      · exact visitDeclarator_thisMember_leaf old new a ta _ _
  rw [hsame] at hn''
  cases hn''
  exact hpost script'' hgn''

/-- C3 at the first statement of `this.foo = 1; this['foo'] = 1; this.baz = 1;`. -/
theorem C3_witness :
    ∃ script', renameMemberExpressions threeAssignments "foo" "bar" = some script' ∧
      getAt script' [0, 0, 0, 0, 0] = some
        (thisMember [("computed", .bool false)] [] (identifier "bar")) := by
  obtain ⟨script', h1, h2, _⟩ := C3_renameThisAttr_member_accesses threeAssignments "foo" "bar"
    [0, 0, 0, 0, 0] [("computed", .bool false)] [] [("name", .str "foo")] "Identifier"
    (by decide) (by decide) (by decide)
  exact ⟨script', h1, h2.1 (by decide)⟩

mutual
theorem allNodes_mono (P Q : Node → Bool) (hPQ : ∀ n, P n = true → Q n = true) :
    ∀ n : Node, allNodes P n = true → allNodes Q n = true
  | .mk t a kids, h => by
      rw [allNodes, Bool.and_eq_true] at h
      rw [allNodes, Bool.and_eq_true]
      exact ⟨hPQ _ h.1, allKids_mono P Q hPQ kids h.2⟩
theorem allKids_mono (P Q : Node → Bool) (hPQ : ∀ n, P n = true → Q n = true) :
    ∀ kids : List (String × Node), allKids P kids = true → allKids Q kids = true
  | [], _ => by rw [allKids]
  | (l, k) :: rest, h => by
      rw [allKids, Bool.and_eq_true] at h
      rw [allKids, Bool.and_eq_true]
      exact ⟨allNodes_mono P Q hPQ k h.1, allKids_mono P Q hPQ rest h.2⟩
end

theorem allKids_setField (P : Node → Bool) (field : String) (x : Node)
    (hx : allNodes P x = true) :
    ∀ kids : List (String × Node), allKids P kids = true →
      allKids P (setField field x kids) = true
  | [], _ => by simp [setField, allKids, hx]
  | (l, k) :: rest, h => by
      rw [allKids, Bool.and_eq_true] at h
      by_cases hl : (l == field) = true
      · simp only [setField, hl, if_true]
        rw [allKids, Bool.and_eq_true]
        exact ⟨hx, h.2⟩
      · have hl' : (l == field) = false := by simpa using hl
        simp only [setField, hl', Bool.false_eq_true, if_false]
        rw [allKids, Bool.and_eq_true]
        exact ⟨h.1, allKids_setField P field x hx rest h.2⟩

/-- The callback of the second pass changes no child but `id`. -/
theorem renameDeclaratorCallback_kid_ne (old new : String) (n r : Node) (field : String)
    (hne : field ≠ "id") (h : renameDeclaratorCallback old new n = some r) :
    r.kid field = n.kid field := by
  unfold renameDeclaratorCallback at h
  by_cases hd : isThisDeclarator n = true
  · simp only [hd, if_true] at h
    cases hid : n.kid "id" with
    | none => simp [hid] at h
    | some id =>
        simp only [hid] at h
        cases hps : id.kid "properties" with
        | none => simp [hps] at h
        | some props =>
            simp only [hps] at h
            by_cases ht : (props.type == "[]") = true
            · simp only [ht, if_true] at h
              cases hr : renameDestructuredProps old new props.kids with
              | none => simp [hr] at h
              | some kids' =>
                  simp only [hr, Option.some.injEq] at h
                  subst h
                  show (setField "id" _ n.kids).lookup field = n.kids.lookup field
                  rw [lookup_setField_ne "id" field _ hne]
            · simp [ht] at h
  · simp only [hd, Bool.false_eq_true, if_false, Option.some.injEq] at h
    subst h
    rfl

/-- After a pass whose callback keeps the child field `field`, the field holds
the visited child. -/
theorem visited_kid (f : Node → Option Node) (field : String)
    (hkid : ∀ n r, f n = some r → r.kid field = n.kid field)
    (n n' : Node) (h : visitNode f n = some n') :
    (n.kid field = none → n'.kid field = none) ∧
    (∀ k, n.kid field = some k → ∃ k', visitNode f k = some k' ∧ n'.kid field = some k') := by
  obtain ⟨t, a, kids⟩ := n
  rw [visitNode_eq] at h
  cases hk : visitKids f kids with
  | none => simp [hk] at h
  | some kids' =>
      simp only [hk, Option.some_bind] at h
      have hl := visitKids_lookup f field kids kids' hk
      rw [hkid _ n' h]
      exact hl

theorem hasKeyAndValue_visited (f : Node → Option Node)
    (hkey : ∀ n r, f n = some r → r.kid "key" = n.kid "key")
    (hvalue : ∀ n r, f n = some r → r.kid "value" = n.kid "value")
    (e e' : Node) (h : visitNode f e = some e') (he : hasKeyAndValue e = true) :
    hasKeyAndValue e' = true := by
  unfold hasKeyAndValue at he ⊢
  rw [Bool.and_eq_true] at he ⊢
  have h1 := visited_kid f "key" hkey e e' h
  have h2 := visited_kid f "value" hvalue e e' h
  constructor
  · cases hk : e.kid "key" with
    | none => simp [hk] at he
    | some k =>
        obtain ⟨k', _, hk'⟩ := h1.2 k hk
        simp [hk']
  · cases hk : e.kid "value" with
    | none => simp [hk] at he
    | some k =>
        obtain ⟨k', _, hk'⟩ := h2.2 k hk
        simp [hk']

theorem all_hasKeyAndValue_visited (f : Node → Option Node)
    (hkey : ∀ n r, f n = some r → r.kid "key" = n.kid "key")
    (hvalue : ∀ n r, f n = some r → r.kid "value" = n.kid "value") :
    ∀ (kids kids' : List (String × Node)), visitKids f kids = some kids' →
      kids.all (fun lk => hasKeyAndValue lk.2) = true →
      kids'.all (fun lk => hasKeyAndValue lk.2) = true
  | [], kids', h, _ => by
      rw [visitKids] at h
      cases h
      rfl
  | (l, k) :: rest, kids', h, hall => by
      rw [visitKids_cons] at h
      cases hk : visitNode f k with
      | none => simp [hk] at h
      | some k' =>
          cases hr : visitKids f rest with
          | none => simp [hk, hr] at h
          | some rest' =>
              simp [hk, hr] at h
              subst h
              simp only [List.all_cons, Bool.and_eq_true] at hall ⊢
              exact ⟨hasKeyAndValue_visited f hkey hvalue k k' hk hall.1,
                all_hasKeyAndValue_visited f hkey hvalue rest rest' hr hall.2⟩

/-- A destructuring pattern is one after a pass whose callback keeps arrays
and the child fields `properties`, `key` and `value`. -/
theorem destructuringPattern_visited (f : Node → Option Node)
    (hprops : ∀ n r, f n = some r → r.kid "properties" = n.kid "properties")
    (hkey : ∀ n r, f n = some r → r.kid "key" = n.kid "key")
    (hvalue : ∀ n r, f n = some r → r.kid "value" = n.kid "value")
    (harr : ∀ a kids, f (.mk "[]" a kids) = some (.mk "[]" a kids))
    (id id' : Node) (h : visitNode f id = some id') (hd : destructuringPattern id = true) :
    destructuringPattern id' = true := by
  unfold destructuringPattern at hd ⊢
  have h1 := visited_kid f "properties" hprops id id' h
  cases hp : id.kid "properties" with
  | none => simp [hp] at hd
  | some props =>
      obtain ⟨props', hv, hp'⟩ := h1.2 props hp
      rw [hp] at hd
      rw [hp']
      obtain ⟨pt, pa, pkids⟩ := props
      simp only [Node.type, Node.kids, Bool.and_eq_true, beq_iff_eq] at hd
      obtain ⟨rfl, hall⟩ := hd
      rw [visitNode_eq] at hv
      cases hk : visitKids f pkids with
      | none => simp [hk] at hv
      | some pkids' =>
          simp only [hk, Option.some_bind, harr, Option.some.injEq] at hv
          subst hv
          simp only [Node.type, Node.kids, Bool.and_eq_true, beq_self_eq_true, true_and]
          exact all_hasKeyAndValue_visited f hkey hvalue pkids pkids' hk hall

theorem renameMemberCallback_array (old new : String) (a : List (String × Prim))
    (kids : List (String × Node)) :
    renameMemberCallback old new (.mk "[]" a kids) = some (.mk "[]" a kids) := by
  simp [renameMemberCallback, isThisMember, Node.type]

theorem renameDeclaratorCallback_array (old new : String) (a : List (String × Prim))
    (kids : List (String × Node)) :
    renameDeclaratorCallback old new (.mk "[]" a kids) = some (.mk "[]" a kids) := by
  simp [renameDeclaratorCallback, isThisDeclarator, Node.type]

theorem renameDestructuredProps_total (old new : String) :
    ∀ props : List (String × Node), props.all (fun lk => hasKeyAndValue lk.2) = true →
      ∃ props', renameDestructuredProps old new props = some props'
  | [], _ => ⟨[], rfl⟩
  | (l, prop) :: rest, h => by
      simp only [List.all_cons, Bool.and_eq_true] at h
      obtain ⟨rest', hr⟩ := renameDestructuredProps_total old new rest h.2
      have hkv := h.1
      unfold hasKeyAndValue at hkv
      rw [Bool.and_eq_true] at hkv
      cases hk : prop.kid "key" with
      | none => simp [hk] at hkv
      | some key =>
          cases hv : prop.kid "value" with
          | none => simp [hv] at hkv
          | some value =>
              by_cases hm : looseEqString (key.attr "name") old = true
              · exact ⟨(l, property "init" (identifier new) value) :: rest', by
                  simp [renameDestructuredProps, renameDestructuredProp, hk, hv, hm, hr]⟩
              · exact ⟨(l, prop) :: rest', by
                  simp [renameDestructuredProps, renameDestructuredProp, hk, hm, hr]⟩

/-- What the `forEach` of the second pass leaves of the properties of a
pattern: as many properties; one whose key carries the old name has become
`j.property('init', j.identifier(new), value)` with the value it had, any other
is as it was. -/
theorem renameDestructuredProps_spec (old new : String) :
    ∀ (props props' : List (String × Node)), renameDestructuredProps old new props = some props' →
      props'.length = props.length ∧
      ∀ (j : Nat) (l : String) (prop key value : Node), props[j]? = some (l, prop) →
        prop.kid "key" = some key → prop.kid "value" = some value →
        (looseEqString (key.attr "name") old = true →
          props'[j]? = some (l, property "init" (identifier new) value)) ∧
        (looseEqString (key.attr "name") old = false → props'[j]? = some (l, prop))
  | [], props', h => by
      simp [renameDestructuredProps] at h
      subst h
      exact ⟨rfl, by intro j l prop key value hj; simp at hj⟩
  | (l0, prop0) :: rest, props', h => by
      rw [renameDestructuredProps] at h
      cases h0 : renameDestructuredProp old new prop0 with
      | none => simp [h0] at h
      | some prop0' =>
          cases hr : renameDestructuredProps old new rest with
          | none => simp [h0, hr] at h
          | some rest' =>
              simp only [h0, hr, Option.some.injEq] at h
              subst h
              obtain ⟨hlen, hel⟩ := renameDestructuredProps_spec old new rest rest' hr
              refine ⟨by simp [hlen], ?_⟩
              intro j l prop key value hj hkey hvalue
              cases j with
              | zero =>
                  simp at hj
                  obtain ⟨rfl, rfl⟩ := hj
                  unfold renameDestructuredProp at h0
                  simp only [hkey, hvalue] at h0
                  constructor
                  · intro hm
                    simp only [hm, if_true, Option.some.injEq] at h0
                    simp [h0]
                  · intro hm
                    simp only [hm, Bool.false_eq_true, if_false, Option.some.injEq] at h0
                    simp [h0]
              | succ j' =>
                  have hj' : rest[j']? = some (l, prop) := by simpa using hj
                  have := hel j' l prop key value hj' hkey hvalue
                  simpa using this

theorem renameMemberCallback_allKids (old new : String) (P : Node → Bool)
    (hid : allNodes P (identifier new) = true) (hlit : allNodes P (literal (.str new)) = true)
    (n r : Node) (h : renameMemberCallback old new n = some r) (hk : allKids P n.kids = true) :
    allKids P r.kids = true := by
  unfold renameMemberCallback at h
  by_cases hm : isThisMember n = true
  · simp only [hm, if_true] at h
    cases hp : n.kid "property" with
    | none => simp [hp] at h
    | some prop =>
        simp only [hp, Option.some.injEq] at h
        subst h
        by_cases h1 : looseEqString (prop.attr "value") old = true <;>
          by_cases h2 : looseEqString (prop.attr "name") old = true <;>
          simp only [h1, h2, if_true, if_false, Bool.false_eq_true]
        · exact allKids_setField P "property" _ hid _ (allKids_setField P "property" _ hlit _ hk)
        · exact allKids_setField P "property" _ hlit _ hk
        · exact allKids_setField P "property" _ hid _ hk
        · exact hk
  · simp only [hm, Bool.false_eq_true, if_false, Option.some.injEq] at h
    subst h
    exact hk

/-- The first pass leaves every declaration initialised from `this` a
destructuring one. -/
theorem renameMemberExpressions_destructure (script script' : Node) (old new : String)
    (hd : receiverDeclarationsDestructure script = true)
    (h : renameMemberExpressions script old new = some script') :
    receiverDeclarationsDestructure script' = true := by
  have hP : ∀ (t : String) (a : List (String × Prim)) (kids kids' : List (String × Node))
      (r : Node), visitKids (renameMemberCallback old new) kids = some kids' →
      allKids (fun node => !isThisDeclarator node || destructures node) kids' = true →
      renameMemberCallback old new (.mk t a kids') = some r →
      (fun node => !isThisDeclarator node || destructures node) (.mk t a kids) = true →
      allNodes (fun node => !isThisDeclarator node || destructures node) r = true := by
    intro t a kids kids' r hk hall hr hP0
    have hv : visitNode (renameMemberCallback old new) (.mk t a kids) = some r := by
      rw [visitNode_eq, hk]
      exact hr
    obtain ⟨rt, ra, rkids⟩ := r
    rw [allNodes, Bool.and_eq_true]
    constructor
    · have hdecl := isThisDeclarator_renameMember old new _ _ hv
      simp only [Bool.or_eq_true, Bool.not_eq_true'] at hP0 ⊢
      rw [hdecl]
      rcases hP0 with h0 | h0
      · exact Or.inl h0
      · right
        unfold destructures at h0 ⊢
        have hkid := renameMember_visited_kid old new "id" (by decide) _ _ hv
        cases hi : (Node.mk t a kids).kid "id" with
        | none => simp [hi] at h0
        | some id =>
            obtain ⟨id', hvid, hi'⟩ := hkid.2 id hi
            rw [hi] at h0
            rw [hi']
            exact destructuringPattern_visited _
              (fun n r h => renameMemberCallback_kid_ne old new n r "properties" (by decide) h)
              (fun n r h => renameMemberCallback_kid_ne old new n r "key" (by decide) h)
              (fun n r h => renameMemberCallback_kid_ne old new n r "value" (by decide) h)
              (renameMemberCallback_array old new) id id' hvid h0
    · exact renameMemberCallback_allKids old new _
        (by simp [identifier, allNodes, allKids, isThisDeclarator, Node.type])
        (by simp [literal, allNodes, allKids, isThisDeclarator, Node.type])
        _ _ hr hall
  obtain ⟨t, a, kids⟩ := script
  unfold receiverDeclarationsDestructure at hd ⊢
  rw [allNodes, Bool.and_eq_true] at hd
  simp only [renameMemberExpressions, visitBelow] at h
  cases hk : visitKids (renameMemberCallback old new) kids with
  | none => simp [hk] at h
  | some kids' =>
      simp only [hk, Option.map_some', Option.some.injEq] at h
      subst h
      rw [allNodes, Bool.and_eq_true]
      refine ⟨?_, visitKids_allKids _ _ hP kids kids' hd.2 hk⟩
      have hself := hd.1
      have hdecl := isThisDeclarator_visited _ (renameMemberCallback_type_attrs old new)
        t a kids kids' hk
      simp only [Bool.or_eq_true, Bool.not_eq_true'] at hself ⊢
      rw [hdecl]
      rcases hself with h0 | h0
      · exact Or.inl h0
      · right
        unfold destructures at h0 ⊢
        have hl := visitKids_lookup (renameMemberCallback old new) "id" kids kids' hk
        cases hi : (Node.mk t a kids).kid "id" with
        | none => simp [hi] at h0
        | some id =>
            obtain ⟨id', hvid, hi'⟩ := hl.2 id hi
            rw [hi] at h0
            show (match kids'.lookup "id" with
              | none => false
              | some id => destructuringPattern id) = true
            rw [hi']
            exact destructuringPattern_visited _
              (fun n r h => renameMemberCallback_kid_ne old new n r "properties" (by decide) h)
              (fun n r h => renameMemberCallback_kid_ne old new n r "key" (by decide) h)
              (fun n r h => renameMemberCallback_kid_ne old new n r "value" (by decide) h)
              (renameMemberCallback_array old new) id id' hvid h0

theorem renameDeclaratorCallback_total (old new : String) (t : String)
    (a : List (String × Prim)) (kids kids' : List (String × Node))
    (hP : (!isThisDeclarator (.mk t a kids) || destructures (.mk t a kids)) = true)
    (hk : visitKids (renameDeclaratorCallback old new) kids = some kids') :
    ∃ r, renameDeclaratorCallback old new (.mk t a kids') = some r := by
  have hdecl := isThisDeclarator_visited _ (renameDeclaratorCallback_type_attrs old new)
    t a kids kids' hk
  unfold renameDeclaratorCallback
  rw [hdecl]
  by_cases hd : isThisDeclarator (.mk t a kids) = true
  · simp only [hd, if_true]
    simp only [hd, Bool.not_true, Bool.false_or] at hP
    unfold destructures at hP
    have hl := visitKids_lookup (renameDeclaratorCallback old new) "id" kids kids' hk
    cases hi : (Node.mk t a kids).kid "id" with
    | none => simp [hi] at hP
    | some id =>
        obtain ⟨id', hvid, hi'⟩ := hl.2 id hi
        rw [hi] at hP
        have hpat := destructuringPattern_visited _
          (fun n r h => renameDeclaratorCallback_kid_ne old new n r "properties" (by decide) h)
          (fun n r h => renameDeclaratorCallback_kid_ne old new n r "key" (by decide) h)
          (fun n r h => renameDeclaratorCallback_kid_ne old new n r "value" (by decide) h)
          (renameDeclaratorCallback_array old new) id id' hvid hP
        have hi'' : (Node.mk t a kids').kid "id" = some id' := hi'
        rw [hi'']
        unfold destructuringPattern at hpat
        cases hp : id'.kid "properties" with
        | none => simp [hp] at hpat
        | some props =>
            rw [hp] at hpat
            rw [Bool.and_eq_true] at hpat
            obtain ⟨props', hr⟩ := renameDestructuredProps_total old new props.kids hpat.2
            simp only [hp, hpat.1, if_true, hr]
            exact ⟨_, rfl⟩
  · have hd' : isThisDeclarator (.mk t a kids) = false := by simpa using hd
    simp only [hd', Bool.false_eq_true, if_false]
    exact ⟨_, rfl⟩

theorem renameVariableDestructurings_total (script : Node) (old new : String)
    (hd : receiverDeclarationsDestructure script = true) :
    ∃ script', renameVariableDestructurings script old new = some script' := by
  obtain ⟨t, a, kids⟩ := script
  unfold receiverDeclarationsDestructure at hd
  rw [allNodes, Bool.and_eq_true] at hd
  obtain ⟨kids', hk⟩ := visitKids_total (renameDeclaratorCallback old new)
    (fun node => !isThisDeclarator node || destructures node)
    (renameDeclaratorCallback_total old new) kids hd.2
  exact ⟨.mk t a kids', by simp [renameVariableDestructurings, visitBelow, hk]⟩

/-- The rename returns on a well-formed tree whose declarations initialised
from `this` are all destructuring ones. -/
theorem renameThisAttr_total (script : Node) (old new : String)
    (hwf : wellFormed script = true) (hd : receiverDeclarationsDestructure script = true) :
    ∃ script1 script', renameMemberExpressions script old new = some script1 ∧
      renameVariableDestructurings script1 old new = some script' ∧
      renameThisAttr script old new = some script' := by
  obtain ⟨script1, h1⟩ := renameMemberExpressions_total script old new hwf
  obtain ⟨script', h2⟩ := renameVariableDestructurings_total script1 old new
    (renameMemberExpressions_destructure script script1 old new hd h1)
  exact ⟨script1, script', h1, h2, by simp [renameThisAttr, h1, h2]⟩

theorem receiverDeclarator_noMember (a : List (String × Prim)) (pt : String)
    (pa ra : List (String × Prim)) (props : List (String × Node)) (ta : List (String × Prim))
    (hfree : allKids (fun m => !isThisMember m && !isThisDeclarator m) props = true) :
    allNodes (fun m => !isThisMember m) (receiverDeclarator a pt pa ra props ta) = true := by
  have hprops : allKids (fun m => !isThisMember m) props = true :=
    allKids_mono _ _ (fun n hn => by
      simp only [Bool.and_eq_true] at hn
      exact hn.1) props hfree
  have h1 : ∀ kids, isThisMember (.mk "VariableDeclarator" a kids) = false := by
    intro kids
    simp [isThisMember, Node.type]
  have h2 : isThisMember (.mk pt pa [("properties", .mk "[]" ra props)]) = false := by
    simp [isThisMember, Node.kid, Node.kids, List.lookup]
  have h3 : isThisMember (.mk "[]" ra props) = false := by
    simp [isThisMember, Node.type]
  have h4 : isThisMember (.mk "ThisExpression" ta []) = false := by
    simp [isThisMember, Node.type]
  simp only [receiverDeclarator, allNodes, allKids, h1, h2, h3, h4, hprops, Bool.not_false,
    Bool.and_self]

theorem visitMember_receiverDeclarator (old new : String) (a : List (String × Prim))
    (pt : String) (pa ra : List (String × Prim)) (props : List (String × Node))
    (ta : List (String × Prim))
    (hfree : allKids (fun m => !isThisMember m && !isThisDeclarator m) props = true) :
    visitNode (renameMemberCallback old new) (receiverDeclarator a pt pa ra props ta)
      = some (receiverDeclarator a pt pa ra props ta) := by
  apply visitNode_noop (renameMemberCallback old new) (fun m => !isThisMember m)
  · intro n hn
    have : isThisMember n = false := by simpa using hn
    simp [renameMemberCallback, this]
  · exact receiverDeclarator_noMember a pt pa ra props ta hfree

theorem visitDeclarator_receiverDeclarator (old new : String) (a : List (String × Prim))
    (pt : String) (pa ra : List (String × Prim)) (props : List (String × Node))
    (ta : List (String × Prim))
    (hfree : allKids (fun m => !isThisMember m && !isThisDeclarator m) props = true) :
    visitNode (renameDeclaratorCallback old new) (receiverDeclarator a pt pa ra props ta)
      = (renameDestructuredProps old new props).map
          (fun props' => receiverDeclarator a pt pa ra props' ta) := by
  have hnoop : ∀ n, (fun m => !isThisDeclarator m) n = true →
      renameDeclaratorCallback old new n = some n := by
    intro n hn
    have : isThisDeclarator n = false := by simpa using hn
    simp [renameDeclaratorCallback, this]
  have hprops : visitKids (renameDeclaratorCallback old new) props = some props :=
    visitKids_noop _ (fun m => !isThisDeclarator m) hnoop props
      (allKids_mono _ _ (fun n hn => by
        simp only [Bool.and_eq_true] at hn
        exact hn.2) props hfree)
  have harr : visitNode (renameDeclaratorCallback old new) (.mk "[]" ra props)
      = some (.mk "[]" ra props) := by
    rw [visitNode_eq, hprops]
    exact renameDeclaratorCallback_array old new ra props
  have hid : visitNode (renameDeclaratorCallback old new)
      (.mk pt pa [("properties", .mk "[]" ra props)])
      = some (.mk pt pa [("properties", .mk "[]" ra props)]) := by
    rw [visitNode_eq, visitKids_cons, harr]
    simp [visitKids, renameDeclaratorCallback, isThisDeclarator, Node.type, Node.kid,
      Node.kids, List.lookup]
  have hthis : visitNode (renameDeclaratorCallback old new) (.mk "ThisExpression" ta [])
      = some (.mk "ThisExpression" ta []) := by
    rw [visitNode_eq]
    simp [visitKids, renameDeclaratorCallback, isThisDeclarator, Node.type]
  unfold receiverDeclarator
  rw [visitNode_eq, visitKids_cons, hid]
  simp only [Option.some_bind]
  rw [visitKids_cons, hthis]
  cases hr : renameDestructuredProps old new props <;>
    simp [visitKids, renameDeclaratorCallback, isThisDeclarator, Node.type, Node.kid,
      Node.kids, List.lookup, Node.setKid, setField, Node.attrs, hr]

/-- C4. On a well-formed script tree whose declarations initialised from
`this` are all destructuring ones, at every path `p` below the root where a
declarator `{ ... } = this` stands (its pattern's properties holding no access
on `this` and no further such declaration, the declarator not being nested in
another one of the kind), `renameThisAttr(old, new)` returns and leaves the
same declarator with as many pattern properties: a property whose key is the
identifier `old` has become the property with the key `new` and exactly the
value pattern it had before, so that the local binding is kept, and a property
with another key is unchanged. -/
theorem C4_renameThisAttr_destructuring (script : Node) (old new : String) (p : Path)
    (a : List (String × Prim)) (pt : String) (pa ra : List (String × Prim))
    (props : List (String × Node)) (ta : List (String × Prim))
    (hwf : wellFormed script = true) (hd : receiverDeclarationsDestructure script = true)
    (hp : p ≠ [])
    (hg : getAt script p = some (receiverDeclarator a pt pa ra props ta))
    (hfree : allKids (fun m => !isThisMember m && !isThisDeclarator m) props = true)
    (hanc : ancestorsAll (fun m => !isThisDeclarator m) script p = true) :
    ∃ script' props', renameThisAttr script old new = some script' ∧
      getAt script' p = some (receiverDeclarator a pt pa ra props' ta) ∧
      props'.length = props.length ∧
      ∀ (j : Nat) (l : String) (prop key value : Node), props[j]? = some (l, prop) →
        prop.kid "key" = some key → prop.kid "value" = some value →
        (key.attr "name" = some (.str old) →
          props'[j]? = some (l, property "init" (identifier new) value)) ∧
        (looseEqString (key.attr "name") old = false → props'[j]? = some (l, prop)) := by
  obtain ⟨script1, script', h1, h2, h3⟩ := renameThisAttr_total script old new hwf hd
  have hkids : (receiverDeclarator a pt pa ra props ta).kids ≠ [] := by
    simp [receiverDeclarator, Node.kids]
  obtain ⟨n1, hn1, hg1⟩ := visitBelow_getAt (renameMemberCallback old new) (keepsMember old)
    (renameMemberCallback_keeps old new) p script script1 _ hp h1 hg
    (fun q i m _ hq hm => keepsMember_on_path script old p q i m _ hwf hg hkids hq hm)
  rw [visitMember_receiverDeclarator old new a pt pa ra props ta hfree] at hn1
  cases hn1
  obtain ⟨n2, hn2, hg2⟩ := visitBelow_getAt (renameDeclaratorCallback old new)
    (fun m _ => isThisDeclarator m = false) (renameDeclaratorCallback_keeps old new)
    p script1 script' _ hp h2 hg1
    (by
      intro q i m' hq0 hq hm'
      obtain ⟨m, _, _, _, hm, _, _, _⟩ := getAt_prefix q i p script _ hq hg
      obtain ⟨m1, hv, hm1⟩ := renameMemberExpressions_ancestor script script1 old new p q i m
        _ hwf h1 hg hq hq0 hm
      rw [hm1] at hm'
      cases hm'
      rw [isThisDeclarator_renameMember old new m m' hv]
      simpa using ancestorsAll_prefix _ q i p script m hanc hq hm)
  rw [visitDeclarator_receiverDeclarator old new a pt pa ra props ta hfree] at hn2
  cases hr : renameDestructuredProps old new props with
  | none => simp [hr] at hn2
  | some props' =>
      simp only [hr, Option.map_some', Option.some.injEq] at hn2
      subst hn2
      obtain ⟨hlen, hel⟩ := renameDestructuredProps_spec old new props props' hr
      refine ⟨script', props', h3, hg2, hlen, ?_⟩
      intro j l prop key value hj hkey hvalue
      have := hel j l prop key value hj hkey hvalue
      refine ⟨fun hname => this.1 ?_, this.2⟩
      rw [hname]
      simp [looseEqString]

/-- C4 at `const { foo } = this;`, which becomes `const { bar: foo } = this;`. -/
theorem C4_witness :
    ∃ script', renameThisAttr destructuringFoo "foo" "bar" = some script' ∧
      getAt script' [0, 0, 0, 0, 0] = some
        (receiverDeclarator [] "ObjectPattern" [] []
          [("", property "init" (identifier "bar") (identifier "foo"))] []) := by
  obtain ⟨script', props', h1, h2, h3, h4⟩ := C4_renameThisAttr_destructuring destructuringFoo
    "foo" "bar" [0, 0, 0, 0, 0] [] "ObjectPattern" [] []
    [("", .mk "Property"
      [("kind", .str "init"), ("method", .bool false), ("shorthand", .bool true),
       ("computed", .bool false)]
      [("key", identifier "foo"), ("value", identifier "foo")])] []
    (by decide) (by decide) (by decide) (by decide) (by decide) (by decide)
  have hlen : props'.length = 1 := by simpa using h3
  have h0 := (h4 0 "" _ (identifier "foo") (identifier "foo") rfl rfl rfl).1 rfl
  match props', hlen, h0 with
  | [x], _, h0 =>
      simp at h0
      subst h0
      exact ⟨script', h1, h2⟩

/-! ## Theorems: what a rename leaves alone -/

theorem isReceiverPropertyAt_cons_cons (t : String) (a : List (String × Prim))
    (kids : List (String × Node)) (j x : Nat) (rest : Path) :
    isReceiverPropertyAt (.mk t a kids) (j :: x :: rest)
      = (match kids[j]? with
         | some (_, k) => isReceiverPropertyAt k (x :: rest)
         | none => false) := by
  rw [isReceiverPropertyAt]

theorem isReceiverPropertyAt_snoc :
    ∀ (q : Path) (i : Nat) (s m : Node), getAt s q = some m →
      isReceiverPropertyAt s (q ++ [i])
        = (isThisMember m && m.kids.findIdx (fun lk => lk.1 == "property") == i)
  | [], i, .mk t a kids, m, hm => by
      rw [getAt_nil] at hm
      cases hm
      rfl
  | j :: q, i, .mk t a kids, m, hm => by
      rw [getAt_cons] at hm
      cases hget : kids[j]? with
      | none => simp [hget] at hm
      | some lk =>
          obtain ⟨l, k⟩ := lk
          simp only [hget, Option.some_bind] at hm
          have ih := isReceiverPropertyAt_snoc q i k m hm
          have hne : q ++ [i] ≠ [] := by simp
          cases hqi : q ++ [i] with
          | nil => exact absurd hqi hne
          | cons x rest =>
              rw [List.cons_append, hqi, isReceiverPropertyAt_cons_cons, hget]
              simp only []
              rw [← hqi]
              exact ih

theorem visit_identifier_leaf (f : Node → Option Node) (ia : List (String × Prim))
    (hf : f (.mk "Identifier" ia []) = some (.mk "Identifier" ia [])) :
    visitNode f (.mk "Identifier" ia []) = some (.mk "Identifier" ia []) := by
  rw [visitNode_eq]
  simp [visitKids, hf]

/-- The script side of C5: the rename leaves an identifier where it is unless
it is the property of an access on `this` or stands inside a declaration
initialised from `this`. -/
theorem renameThisAttr_keeps_identifier (script : Node) (old new : String) (p : Path)
    (ia : List (String × Prim))
    (hwf : wellFormed script = true) (hd : receiverDeclarationsDestructure script = true)
    (hp : p ≠ []) (hg : getAt script p = some (.mk "Identifier" ia []))
    (hprop : isReceiverPropertyAt script p = false)
    (hanc : ancestorsAll (fun m => !isThisDeclarator m) script p = true) :
    ∃ script', renameThisAttr script old new = some script' ∧
      getAt script' p = some (.mk "Identifier" ia []) := by
  obtain ⟨script1, script', h1, h2, h3⟩ := renameThisAttr_total script old new hwf hd
  obtain ⟨n1, hn1, hg1⟩ := visitBelow_getAt (renameMemberCallback old new) (keepsMember old)
    (renameMemberCallback_keeps old new) p script script1 _ hp h1 hg
    (by
      intro q i m _ hq hm
      by_cases hne : q ++ [i] = p
      · rw [← hne, isReceiverPropertyAt_snoc q i script m hm] at hprop
        simp only [Bool.and_eq_false_imp, beq_eq_false_iff_ne, ne_eq] at hprop
        by_cases hmem : isThisMember m = true
        · right; left
          exact hprop hmem
        · left
          simpa using hmem
      · exact keepsMember_strict script old p q i m _ hwf hg hq hne hm)
  rw [visit_identifier_leaf _ ia (by
    simp [renameMemberCallback, isThisMember, Node.type])] at hn1
  cases hn1
  obtain ⟨n2, hn2, hg2⟩ := visitBelow_getAt (renameDeclaratorCallback old new)
    (fun m _ => isThisDeclarator m = false) (renameDeclaratorCallback_keeps old new)
    p script1 script' _ hp h2 hg1
    (by
      intro q i m' hq0 hq hm'
      obtain ⟨m, _, _, _, hm, _, _, _⟩ := getAt_prefix q i p script _ hq hg
      obtain ⟨m1, hv, hm1⟩ := renameMemberExpressions_ancestor script script1 old new p q i m
        _ hwf h1 hg hq hq0 hm
      rw [hm1] at hm'
      cases hm'
      rw [isThisDeclarator_renameMember old new m m' hv]
      simpa using ancestorsAll_prefix _ q i p script m hanc hq hm)
  rw [visit_identifier_leaf _ ia (by
    simp [renameDeclaratorCallback, isThisDeclarator, Node.type])] at hn2
  cases hn2
  exact ⟨script', h3, hg2⟩

theorem replaceIdentifiersKids_get (old new : String) :
    ∀ (kids : List (String × Node)) (i : Nat) (l : String) (k : Node),
      kids[i]? = some (l, k) →
      (replaceIdentifiersKids old new kids)[i]? = some (l, replaceIdentifiersNode old new k)
  | [], i, l, k, h => by simp at h
  | (l0, k0) :: rest, i, l, k, h => by
      rw [replaceIdentifiersKids]
      cases i with
      | zero =>
          simp at h
          obtain ⟨rfl, rfl⟩ := h
          simp
      | succ j =>
          have h' : rest[j]? = some (l, k) := by simpa using h
          simpa using replaceIdentifiersKids_get old new rest j l k h'

theorem replaceIdentifiersNode_getAt (old new : String) :
    ∀ (p : Path) (s n : Node), allNodes wellShaped s = true → getAt s p = some n →
      getAt (replaceIdentifiersNode old new s) p = some (replaceIdentifiersNode old new n)
  | [], s, n, _, hg => by
      rw [getAt_nil] at hg
      cases hg
      exact getAt_nil _
  | i :: rest, .mk t a kids, n, hwf, hg => by
      rw [getAt_cons] at hg
      cases hget : kids[i]? with
      | none => simp [hget] at hg
      | some lk =>
          obtain ⟨l, k⟩ := lk
          simp only [hget, Option.some_bind] at hg
          rw [allNodes, Bool.and_eq_true] at hwf
          have hkw := allKids_get wellShaped kids i l k hwf.2 hget
          have hself := hwf.1
          unfold wellShaped at hself
          simp only [Bool.and_eq_true, Bool.or_eq_true] at hself
          have hname : (Node.mk t a kids).attr "name" = none := by
            rcases hself.2 with h1 | h2
            · simpa using h1.1
            · exfalso
              have : kids = [] := by simpa [Node.kids] using h2
              subst this
              simp at hget
          have hnot : isIdentifierNamed old (.mk t a kids) = false := by
            unfold isIdentifierNamed
            rw [hname]
            simp
          rw [replaceIdentifiersNode, hnot]
          simp only [Bool.false_eq_true, if_false]
          rw [getAt_cons, replaceIdentifiersKids_get old new kids i l k hget]
          exact replaceIdentifiersNode_getAt old new rest k n hkw hg

/-- The markup side of C5: in the tree of a directive attribute value or of an
interpolation, `replaceIdentifiers` replaces every identifier of the old
name, whatever it refers to. -/
theorem replaceIdentifiers_replaces (jsrc : Node) (old new : String) (p : Path)
    (ia : List (String × Prim))
    (hwf : wellFormed jsrc = true) (hp : p ≠ [])
    (hg : getAt jsrc p = some (.mk "Identifier" ia []))
    (hname : ia.lookup "name" = some (.str old)) :
    getAt (replaceIdentifiers jsrc old new) p = some (identifier new) := by
  obtain ⟨t, a, kids⟩ := jsrc
  cases p with
  | nil => exact absurd rfl hp
  | cons i rest =>
      rw [getAt_cons] at hg
      cases hget : kids[i]? with
      | none => simp [hget] at hg
      | some lk =>
          obtain ⟨l, k⟩ := lk
          simp only [hget, Option.some_bind] at hg
          unfold wellFormed at hwf
          rw [allNodes, Bool.and_eq_true] at hwf
          have hkw := allKids_get wellShaped kids i l k hwf.2 hget
          rw [replaceIdentifiers, getAt_cons, replaceIdentifiersKids_get old new kids i l k hget]
          simp only [Option.some_bind]
          rw [replaceIdentifiersNode_getAt old new rest k _ hkw hg]
          simp [replaceIdentifiersNode, isIdentifierNamed, Node.type, Node.attr, Node.attrs,
            hname]

/-- C5 (amended). `renameAttribute(old, new)` leaves unchanged, in the script
tree, every identifier that is neither the property of a member access on
`this` nor inside a declaration initialised from `this` (a local declaration
not initialised from `this` and a function parameter are kept, the rename
returning on a well-formed tree whose receiver declarations destructure); in
the tree of a directive attribute value or of an interpolation of the markup
it replaces every identifier named `old`, whatever the identifier refers to. -/
theorem C5_renameAttribute_frame (script jsrc : Node) (old new : String) (p p' : Path)
    (ia ia' : List (String × Prim))
    (hwf : wellFormed script = true) (hd : receiverDeclarationsDestructure script = true)
    (hp : p ≠ []) (hg : getAt script p = some (.mk "Identifier" ia []))
    (hprop : isReceiverPropertyAt script p = false)
    (hanc : ancestorsAll (fun m => !isThisDeclarator m) script p = true)
    (hwf' : wellFormed jsrc = true) (hp' : p' ≠ [])
    (hg' : getAt jsrc p' = some (.mk "Identifier" ia' []))
    (hname' : ia'.lookup "name" = some (.str old)) :
    (∃ script', renameThisAttr script old new = some script' ∧
      getAt script' p = some (.mk "Identifier" ia [])) ∧
    getAt (replaceIdentifiers jsrc old new) p' = some (identifier new) :=
  ⟨renameThisAttr_keeps_identifier script old new p ia hwf hd hp hg hprop hanc,
    replaceIdentifiers_replaces jsrc old new p' ia' hwf' hp' hg' hname'⟩

/-- C5 (amended) at the parameter `foo` of `function f(foo) { ... }` and at
the left side of `foo in items`. -/
theorem C5_witness :
    (∃ script', renameThisAttr localsNamedFoo "foo" "bar" = some script' ∧
      getAt script' [0, 0, 1, 1, 0] = some (identifier "foo")) ∧
    getAt (replaceIdentifiers (inExpression "foo" "items") "foo" "bar") [0, 0, 0, 0, 0]
      = some (identifier "bar") :=
  C5_renameAttribute_frame localsNamedFoo (inExpression "foo" "items") "foo" "bar"
    [0, 0, 1, 1, 0] [0, 0, 0, 0, 0] [("name", .str "foo")] [("name", .str "foo")]
    (by decide) (by decide) (by decide) (by decide) (by decide) (by decide)
    (by decide) (by decide) (by decide) (by decide)

/-- C5 (counterexample). In `v-for="foo in items"` the identifier `foo` is the
alias of the loop, a local variable of the directive expression; the rename
of the attribute `foo` to `bar` does not leave it unchanged: the value becomes
`bar in items`. -/
theorem C5_counterexample :
    renameInAttrs loopGrammar "foo" "bar" [("v-for", .str "foo in items")]
      = some [("v-for", .str "bar in items")] ∧
    renameInAttrs loopGrammar "foo" "bar" [("v-for", .str "foo in items")]
      ≠ some [("v-for", .str "foo in items")] := by
  decide

/-! ## Theorems: the transparent node, and the typed operations on examples -/

/-- C11. A node whose tag is the sentinel `false` renders as its content
does: `render(node)` is `render(node.content)` for every attribute map and
every content of the node, so no opening tag, attribute or closing tag is
written. -/
theorem C11_transparent_node_renders_content (opts : Options) (attrs : Option Attrs)
    (content : Option (List HNode)) :
    render (.element .skip attrs content) opts = render (contentTree content) opts := by
  cases content with
  | none => simp [render, html, htmlList, htmlNode, htmlContent, contentTree]
  | some items =>
      simp only [render, html, htmlList, htmlNode, htmlContent, contentTree]
      cases htmlList opts "" items with
      | none => rfl
      | some inner => simp [htmlList]

/-- C14 (the code departs from the claim). The component
`export default { props: { foo: { default: true }, bar: {} } }` satisfies the
invariant. `removeProp('foo')` leaves `props: { bar: {} }`, a map whose entries
all have empty metadata, which violates it; `updateProp('foo', { default: null })`
on the same component ends with the list `['foo', 'bar']`. -/
theorem C14_removeProp_leaves_map_of_empty_entries :
    propsInvariant propsFooDefaultBar = true ∧
    removeProp propsFooDefaultBar "foo"
      = some (exportDefault [objProp "props" (objectExpression [objProp "bar" object []]) []]) ∧
    propsInvariant
      (exportDefault [objProp "props" (objectExpression [objProp "bar" object []]) []]) = false ∧
    updateProp identifierGrammar propsFooDefaultBar "foo" [("default", none)]
      = some (exportDefault [objProp "props"
          (arrayExpression [literal (.str "foo"), literal (.str "bar")]) []]) := by
  decide

/-- C15 (the code departs from the claim). On the component
`export default { computed: { classes() { return { active: on }; }, active() {} } }`
the entry `active` is in function form. `addComputedSetter('active')` leaves it
in function form and turns the property `active: on` inside the body of
`classes` into the object with `get` and `set`: the first property with that
key at any depth is taken. -/
theorem C15_addComputedSetter_takes_nested_property :
    addComputedSetter setterGrammar computedClassesActive "active"
      = some (exportDefault [objProp "computed" (objectExpression
          [method "classes" [returnStatement (objectExpression
            [objProp "active" (objectExpression
              [objProp "get" (identifier "on") [("method", .bool true)],
               objProp "set"
                 (functionExpression [identifier "newValue"]
                   (blockStatement
                     [.mk "ExpressionStatement" []
                       [("expression", .mk "AssignmentExpression" [("operator", .str "=")]
                         [("left",
                           thisMember [("computed", .bool false)] [] (identifier "active")),
                          ("right", identifier "newValue")])]]))
                 [("method", .bool true)]]) []])],
           method "active" []]) []]) := by
  decide

/-- C16 (the code departs from the claim). On the component
`export default { watch: { foo: { handler() { return { deep: true }; }, deep: true } } }`
`updateWatcher('foo', { deep: null })` removes the modifier and the property
`deep: true` inside the body of the handler: the watcher is in function form
with the handler `function () { return {}; }`, which is not the original one.
On the function-form watcher with that handler, the modifier `deep` of
`updateWatcher('foo', { deep: true, immediate: true })` is not added, and the
update to `null` that follows does not restore the watcher. -/
theorem C16_updateWatcher_changes_handler :
    updateWatcher watchFooDeep "foo" [("deep", .null)]
      = some (exportDefault [objProp "watch" (objectExpression
          [method "foo" [returnStatement (objectExpression [])]]) []]) ∧
    updateWatcher
        (exportDefault [objProp "watch" (objectExpression [method "foo" [returnsDeepOption]]) []])
        "foo" [("deep", .bool true), ("immediate", .bool true)]
      = some (exportDefault [objProp "watch" (objectExpression
          [objProp "foo" (objectExpression
            [method "handler" [returnsDeepOption],
             objProp "immediate" (literal (.bool true)) []]) []]) []]) ∧
    updateWatcher
        (exportDefault [objProp "watch" (objectExpression
          [objProp "foo" (objectExpression
            [method "handler" [returnsDeepOption],
             objProp "immediate" (literal (.bool true)) []]) []]) []])
        "foo" [("deep", .null), ("immediate", .null)]
      = some (exportDefault [objProp "watch" (objectExpression
          [method "foo" [returnStatement (objectExpression [])]]) []]) := by
  decide

/-- C19 (the code departs from the claim). A markup without a script node
makes a component whose script is `j('')`, a program without a default
export. On it `option(name)`, `sortOptions()`, `toString()` and the additive
operations throw for every name, while on `export default {}` the call
`option(name)` returns. -/
theorem C19_no_script_section_no_default_export (g : ScriptGrammar) (tree : HNode)
    (name : String) (hnone : (scriptNodes tree).length = 0) (hempty : g.parse "" = some emptyProgram) :
    constructScript g tree = some emptyProgram ∧
    option emptyProgram name = none ∧
    sortOptions emptyProgram = none ∧
    editorToString g emptyProgram tree = none ∧
    addProp emptyProgram name = none ∧
    addMethod emptyProgram name none = none ∧
    (option (exportDefault []) name).isSome = true := by
  have hexport : getDefaultExport emptyProgram = none := by decide
  have hfind : findOption emptyProgram name = none := by
    unfold findOption
    rw [hexport]
    rfl
  have hopt : ∀ n, option emptyProgram n = none := by
    intro n
    unfold option findOption
    rw [hexport]
    rfl
  have hsort : sortOptions emptyProgram = none := by
    unfold sortOptions
    rw [hexport]
  refine ⟨?_, hopt name, hsort, ?_, ?_, ?_, ?_⟩
  · unfold constructScript
    rw [List.length_eq_zero.mp hnone]
    exact hempty
  · unfold editorToString
    rw [hsort]
  · unfold addProp
    rw [hopt]
  · unfold addMethod pushEntry
    rw [hopt]
  · have hexp : getDefaultExport (exportDefault []) = some [0, 0, 0, 0] := by decide
    have hnoId : find (exportDefault []) [[0, 0, 0, 0]] "Identifier" (isIdentifierNamed name)
        = [] := by
      simp [find, findBelow, getAt, exportDefault, array, objectExpression, findKids, findFrom]
    have hfield : getField (exportDefault []) [0, 0, 0, 0] "properties" = some [0, 0, 0, 0, 0] := by
      decide
    have harr : getAt (exportDefault []) [0, 0, 0, 0, 0] = some (array []) := by decide
    have hpush : ∀ x, pushAt (exportDefault []) [0, 0, 0, 0, 0] x = some (exportDefault [x]) := by
      intro x
      rfl
    unfold option findOption findObjProp
    rw [hexp]
    simp only [Option.map_some', hnoId]
    simp [closest, dedupPaths, hexp, hfield, harr, hpush]

/-- The markup `<template><div></div></template>` has no script section: the
component made from it has the script `j('')`, and `option('data')`,
`toString()` and `addMethod('go')` throw. -/
theorem C19_witness :
(scriptNodes templateOnly).length = 0 ∧ emptyTextGrammar.parse "" = some emptyProgram ∧
    (constructScript emptyTextGrammar templateOnly = some emptyProgram ∧
     option emptyProgram "data" = none ∧
     sortOptions emptyProgram = none ∧
     editorToString emptyTextGrammar emptyProgram templateOnly = none ∧
     addProp emptyProgram "data" = none ∧
     addMethod emptyProgram "data" none = none ∧
     (option (exportDefault []) "data").isSome = true) :=
  ⟨by decide, by decide,
    C19_no_script_section_no_default_export emptyTextGrammar templateOnly "data"
      (by decide) (by decide)⟩

/-! ## Theorems: `sortOptions` -/

/-- Replacing along a path puts the new node at the path. -/
theorem modifyAt_getAt (f : Node → Option Node) :
    ∀ (path : Path) (root n n' : Node), getAt root path = some n → f n = some n' →
      ∃ root', modifyAt f root path = some root' ∧ getAt root' path = some n' := by
  intro path
  induction path with
  | nil =>
      intro root n n' hget hf
      rw [getAt_nil] at hget
      cases hget
      exact ⟨n', by simpa [modifyAt] using hf, getAt_nil _⟩
  | cons i rest ih =>
      intro root n n' hget hf
      obtain ⟨t, a, kids⟩ := root
      cases hk : kids[i]? with
      | none => simp [getAt, hk] at hget
      | some lk =>
          obtain ⟨l, k⟩ := lk
          have hget' : getAt k rest = some n := by simpa [getAt, hk] using hget
          obtain ⟨k', hk', hgk'⟩ := ih k n n' hget' hf
          refine ⟨.mk t a (kids.set i (l, k')), by simp [modifyAt, hk, hk'], ?_⟩
          have hi : i < kids.length := by
            rcases Nat.lt_or_ge i kids.length with h | h
            · exact h
            · rw [List.getElem?_eq_none h] at hk
              cases hk
          simp [getAt, List.getElem?_set, hi, hgk']

/-- Two names that a value equals loosely are the same name. -/
theorem looseEqString_unique (v : Option Prim) (o o' : String)
    (h : looseEqString v o = true) (h' : looseEqString v o' = true) : o = o' := by
  cases v with
  | none => simp [looseEqString] at h
  | some p =>
      cases p <;> simp [looseEqString] at h h' <;> (try rw [← h, ← h'])

/-- A property is keyed by one option name at most. -/
theorem keyNameEq_unique (x : Node) (o o' : String)
    (h : keyNameEq o x = some true) (h' : keyNameEq o' x = some true) : o = o' := by
  unfold keyNameEq at h h'
  cases hk : x.kid "key" with
  | none => simp [hk] at h
  | some key =>
      simp only [hk, Option.map_some', Option.some.injEq] at h h'
      exact looseEqString_unique _ _ _ h h'

/-- On properties that all have a key, `array.find` returns the position of
the first property keyed by the option name. -/
theorem findIndexFrom_keyed (o : String) :
    ∀ (l : List (String × Node)) (i : Nat),
      l.all (fun lk => (lk.2.kid "key").isSome) = true →
      findIndexFrom (keyNameEq o) l i
        = some (if l.findIdx (fun lk => keyNameEq o lk.2 == some true) < l.length
            then some (i + l.findIdx (fun lk => keyNameEq o lk.2 == some true)) else none) := by
  intro l
  induction l with
  | nil => intro i _; simp [findIndexFrom]
  | cons lk rest ih =>
      intro i hall
      obtain ⟨l, el⟩ := lk
      simp only [List.all_cons, Bool.and_eq_true] at hall
      obtain ⟨hel, hrest⟩ := hall
      cases hkey : el.kid "key" with
      | none => simp [hkey] at hel
      | some key =>
          cases hb : looseEqString (key.attr "name") o with
          | true =>
              simp [findIndexFrom, keyNameEq, hkey, hb, List.findIdx_cons]
          | false =>
              have hno : (keyNameEq o el == some true) = false := by
                simp [keyNameEq, hkey, hb]
              have hstep : findIndexFrom (keyNameEq o) ((l, el) :: rest) i
                  = findIndexFrom (keyNameEq o) rest (i + 1) := by
                simp [findIndexFrom, keyNameEq, hkey, hb]
              rw [hstep, ih (i + 1) hrest, List.findIdx_cons, hno]
              simp only [cond_false, List.length_cons, Nat.add_lt_add_iff_right]
              by_cases hlt : rest.findIdx (fun lk => keyNameEq o lk.2 == some true) < rest.length
              · simp only [hlt, if_true]
                congr 2
                omega
              · simp only [hlt, if_false]

/-- The first element that passes a test stands at the position `findIdx`
gives. -/
theorem find?_eq_getElem?_findIdx {α : Type} (p : α → Bool) :
    ∀ l : List α, l.find? p = l[l.findIdx p]? := by
  intro l
  induction l with
  | nil => simp
  | cons x rest ih =>
      rw [List.find?_cons, List.findIdx_cons]
      cases hp : p x with
      | true => simp
      | false => simpa using ih

/-- Erasing an element that fails a test keeps the first element that passes
it. -/
theorem find?_eraseIdx_of_false {α : Type} (p : α → Bool) :
    ∀ (l : List α) (i : Nat) (x : α), l[i]? = some x → p x = false →
      (l.eraseIdx i).find? p = l.find? p := by
  intro l
  induction l with
  | nil => intro i x h; simp at h
  | cons y rest ih =>
      intro i x h hp
      cases i with
      | zero =>
          simp only [List.getElem?_cons_zero, Option.some.injEq] at h
          subst h
          simp [List.find?_cons, hp]
      | succ i =>
          simp only [List.getElem?_cons_succ] at h
          simp only [List.eraseIdx_cons_succ, List.find?_cons, ih i x h hp]

/-- The element that passes a test first passes it. -/
theorem getElem?_findIdx_pass {α : Type} (p : α → Bool) :
    ∀ (l : List α) (x : α), l[l.findIdx p]? = some x → p x = true := by
  intro l x h
  rw [← find?_eq_getElem?_findIdx] at h
  exact List.find?_some h

/-- The loop of `sortOptions` from a state in which `pre` holds the properties
put first so far: the first property of each remaining option name is moved
behind them, in the order of the names, and the other properties keep their
order. -/
theorem sortLoop_spec :
    ∀ (os : List String) (pre rest : List (String × Node)),
      os.Nodup →
      (∀ x ∈ pre, ∀ o ∈ os, keyNameEq o x.2 ≠ some true) →
      (pre ++ rest).all (fun lk => (lk.2.kid "key").isSome) = true →
      sortLoop os (pre ++ rest, pre.length)
        = some
            (pre ++
              (os.filterMap
                  (fun o => rest.find? (fun lk => keyNameEq o lk.2 == some true))
                ++ withoutOptions os rest),
             pre.length +
              (os.filterMap
                (fun o => rest.find? (fun lk => keyNameEq o lk.2 == some true))).length) := by
  intro os
  induction os with
  | nil =>
      intro pre rest _ _ _
      simp [sortLoop, withoutOptions]
  | cons o os ih =>
      intro pre rest hnodup hpre hkeys
      have hnodup' : os.Nodup := (List.nodup_cons.mp hnodup).2
      have hnotin : o ∉ os := (List.nodup_cons.mp hnodup).1
      have hidx : (pre ++ rest).findIdx (fun lk => keyNameEq o lk.2 == some true)
          = pre.length + rest.findIdx (fun lk => keyNameEq o lk.2 == some true) := by
        rw [List.findIdx_append]
        have hge : ¬ (pre.findIdx (fun lk => keyNameEq o lk.2 == some true) < pre.length) := by
          intro hlt
          have hx := List.findIdx_getElem (w := hlt)
          have hne := hpre _ (List.getElem_mem hlt) o (List.mem_cons_self _ _)
          simp only [beq_iff_eq] at hx
          exact hne hx
        simp [hge, Nat.add_comm]
      unfold sortLoop sortStep
      simp only [findIndexFrom_keyed o _ 0 hkeys, hidx, List.length_append, Nat.zero_add,
        Nat.add_lt_add_iff_left]
      by_cases hlt : rest.findIdx (fun lk => keyNameEq o lk.2 == some true) < rest.length
      · simp only [hlt, if_true]
        obtain ⟨x, hx⟩ : ∃ x, rest[rest.findIdx (fun lk => keyNameEq o lk.2 == some true)]?
            = some x := ⟨_, List.getElem?_eq_getElem hlt⟩
        have hxo : keyNameEq o x.2 = some true := by
          simpa using getElem?_findIdx_pass _ rest x hx
        have hget : (pre ++ rest)[pre.length
            + rest.findIdx (fun lk => keyNameEq o lk.2 == some true)]? = some x := by
          rw [List.getElem?_append_right (Nat.le_add_right _ _)]
          simpa using hx
        have herase : (pre ++ rest).eraseIdx
            (pre.length + rest.findIdx (fun lk => keyNameEq o lk.2 == some true))
            = pre ++ rest.eraseIdx (rest.findIdx (fun lk => keyNameEq o lk.2 == some true)) := by
          rw [List.eraseIdx_append_of_length_le (Nat.le_add_right _ _)]
          simp
        simp only [hget, herase, List.take_left', List.drop_left']
        have hstate : (pre ++ x :: rest.eraseIdx
              (rest.findIdx (fun lk => keyNameEq o lk.2 == some true)), pre.length + 1)
            = ((pre ++ [x]) ++ rest.eraseIdx
              (rest.findIdx (fun lk => keyNameEq o lk.2 == some true)), (pre ++ [x]).length) := by
          simp
        rw [hstate, ih (pre ++ [x]) _ hnodup']
        · have hfind : rest.find? (fun lk => keyNameEq o lk.2 == some true) = some x := by
            rw [find?_eq_getElem?_findIdx, hx]
          have hsame : ∀ o' ∈ os,
              (rest.eraseIdx (rest.findIdx (fun lk => keyNameEq o lk.2 == some true))).find?
                  (fun lk => keyNameEq o' lk.2 == some true)
                = rest.find? (fun lk => keyNameEq o' lk.2 == some true) := by
            intro o' ho'
            apply find?_eraseIdx_of_false _ rest _ x hx
            have hne : keyNameEq o' x.2 ≠ some true := by
              intro h'
              exact hnotin (keyNameEq_unique x.2 o o' hxo h' ▸ ho')
            simpa using hne
          have hchosen : os.filterMap (fun o' =>
                (rest.eraseIdx (rest.findIdx (fun lk => keyNameEq o lk.2 == some true))).find?
                  (fun lk => keyNameEq o' lk.2 == some true))
              = os.filterMap (fun o' => rest.find? (fun lk => keyNameEq o' lk.2 == some true)) := by
            apply List.filterMap_congr
            intro o' ho'
            exact hsame o' ho'
          rw [hchosen]
          simp only [List.filterMap_cons, hfind, withoutOptions, List.foldl_cons,
            List.length_append, List.length_cons, List.length_nil, List.append_assoc,
            List.singleton_append, List.cons_append]
          congr 2
          omega
        · intro y hy o' ho'
          rcases List.mem_append.mp hy with hy | hy
          · exact hpre y hy o' (List.mem_cons_of_mem _ ho')
          · simp only [List.mem_singleton] at hy
            subst hy
            intro h'
            exact hnotin (keyNameEq_unique y.2 o o' hxo h' ▸ ho')
        · simp only [List.all_append, Bool.and_eq_true, List.all_cons, List.all_nil,
            Bool.and_true] at hkeys ⊢
          refine ⟨⟨hkeys.1, ?_⟩, ?_⟩
          · exact (List.all_eq_true.mp hkeys.2) x (List.getElem?_mem hx)
          · apply List.all_eq_true.mpr
            intro y hy
            exact (List.all_eq_true.mp hkeys.2) y (List.mem_of_mem_eraseIdx hy)
      · simp only [hlt, if_false]
        rw [ih pre rest hnodup' (fun x hx o' ho' => hpre x hx o' (List.mem_cons_of_mem _ ho')) hkeys]
        have hfind : rest.find? (fun lk => keyNameEq o lk.2 == some true) = none := by
          rw [find?_eq_getElem?_findIdx]
          exact List.getElem?_eq_none (Nat.le_of_not_lt hlt)
        have herase : rest.eraseIdx (rest.findIdx (fun lk => keyNameEq o lk.2 == some true))
            = rest := List.eraseIdx_of_length_le (Nat.le_of_not_lt hlt)
        simp only [List.filterMap_cons, hfind, withoutOptions, List.foldl_cons, herase]

/-- C20. On a configuration object whose top-level properties all have a key,
`sortOptions` returns, and afterwards the property list starts with the
first property of each of the names mixins, components, props, data,
computed, watch, mounted, methods that it has, in exactly that order
(`presentOptions`); the other properties follow in the order they had. -/
theorem C20_sortOptions_puts_options_first (script : Node) (obj props : Path) (t : String)
    (a : List (String × Prim)) (kids : List (String × Node))
    (hexport : getDefaultExport script = some obj)
    (hfield : getField script obj "properties" = some props)
    (harr : getAt script props = some (.mk t a kids))
    (hkeys : kids.all (fun lk => (lk.2.kid "key").isSome) = true) :
    ∃ script', sortOptions script = some script' ∧
      getAt script' props
        = some (.mk t a (presentOptions kids ++ withoutOptions nonHookOptions kids)) := by
  have hloop := sortLoop_spec nonHookOptions [] kids (by decide) (by simp) (by simpa using hkeys)
  simp only [List.nil_append, List.length_nil, Nat.zero_add] at hloop
  unfold sortOptions
  rw [hexport]
  simp only [hfield]
  apply modifyAt_getAt _ props script (.mk t a kids) _ harr
  simp only [hloop, Option.map_some']
  rfl

/-- On `export default { methods: {}, name: {}, data: {}, mixins: {} }` the
properties after `sortOptions` are `mixins`, `data`, `methods`, `name`. -/
theorem C20_witness :
    getDefaultExport unsortedOptions = some [0, 0, 0, 0] ∧
    getField unsortedOptions [0, 0, 0, 0] "properties" = some [0, 0, 0, 0, 0] ∧
    presentOptions
        [("", objProp "methods" object []), ("", objProp "name" object []),
         ("", objProp "data" object []), ("", objProp "mixins" object [])]
      = [("", objProp "mixins" object []), ("", objProp "data" object []),
         ("", objProp "methods" object [])] ∧
    ∃ script', sortOptions unsortedOptions = some script' ∧
      getAt script' [0, 0, 0, 0, 0]
        = some (.mk "[]" []
            (presentOptions
                [("", objProp "methods" object []), ("", objProp "name" object []),
                 ("", objProp "data" object []), ("", objProp "mixins" object [])]
              ++ withoutOptions nonHookOptions
                [("", objProp "methods" object []), ("", objProp "name" object []),
                 ("", objProp "data" object []), ("", objProp "mixins" object [])])) :=
  ⟨by decide, by decide, by decide,
    C20_sortOptions_puts_options_first unsortedOptions [0, 0, 0, 0] [0, 0, 0, 0, 0] "[]" []
      [("", objProp "methods" object []), ("", objProp "name" object []),
       ("", objProp "data" object []), ("", objProp "mixins" object [])]
      (by decide) (by decide) (by decide) (by decide)⟩

/-! ## Theorems: paths, `find`, and replacement below a path -/

/-- The node at a path that goes on from another one. -/
theorem getAt_append :
    ∀ (p q : Path) (root : Node), getAt root (p ++ q) = (getAt root p).bind (fun n => getAt n q)
  | [], q, root => by simp [getAt_nil]
  | i :: rest, q, .mk t a kids => by
      rw [List.cons_append, getAt_cons, getAt_cons]
      cases kids[i]? with
      | none => rfl
      | some lk => simpa using getAt_append rest q lk.2

mutual
/-- The paths that a search yields from `pre ++ here` are those from `here`,
each with `pre` put before it. -/
theorem findFrom_prefix (type : String) (filter : Node → Bool) (pre : Path) :
    ∀ (n : Node) (here : Path),
      findFrom type filter (pre ++ here) n = (findFrom type filter here n).map (fun p => pre ++ p)
  | .mk t a kids, here => by
      rw [findFrom, findFrom, List.map_append, findKids_prefix type filter pre kids here 0]
      split <;> simp
/-- The paths of the children, likewise. -/
theorem findKids_prefix (type : String) (filter : Node → Bool) (pre : Path) :
    ∀ (kids : List (String × Node)) (here : Path) (i : Nat),
      findKids type filter (pre ++ here) i kids
        = (findKids type filter here i kids).map (fun p => pre ++ p)
  | [], here, i => by simp [findKids]
  | (l, k) :: rest, here, i => by
      rw [findKids, findKids, List.map_append, findKids_prefix type filter pre rest here (i + 1),
        ← findFrom_prefix type filter pre k (here ++ [i]), List.append_assoc]
end

/-- A search below one path looks at the subtree at the path only. -/
theorem find_local (root sub : Node) (base : Path) (type : String) (filter : Node → Bool)
    (hsub : getAt root base = some sub) :
    find root [base] type filter
      = (findKids type filter [] 0 sub.kids).map (fun p => base ++ p) := by
  have h := findKids_prefix type filter base sub.kids [] 0
  simp only [List.append_nil] at h
  simp [find, findBelow, hsub, h]

mutual
/-- A subtree without a matching node yields no path. -/
theorem findFrom_nil (type : String) (filter : Node → Bool) :
    ∀ (n : Node) (here : Path),
      allNodes (fun m => !(m.type == type && filter m)) n = true → findFrom type filter here n = []
  | .mk t a kids, here, h => by
      rw [allNodes, Bool.and_eq_true] at h
      rw [findFrom, findKids_nil type filter kids here 0 h.2]
      have h1 : (t == type && filter (.mk t a kids)) = false := by
        have h0 := h.1
        simp only [Node.type, Bool.not_eq_true'] at h0
        exact h0
      simp [h1]
/-- Children without a matching node yield no path. -/
theorem findKids_nil (type : String) (filter : Node → Bool) :
    ∀ (kids : List (String × Node)) (here : Path) (i : Nat),
      allKids (fun m => !(m.type == type && filter m)) kids = true →
        findKids type filter here i kids = []
  | [], _, _, _ => by simp [findKids]
  | (l, k) :: rest, here, i, h => by
      rw [allKids, Bool.and_eq_true] at h
      rw [findKids, findFrom_nil type filter k (here ++ [i]) h.1,
        findKids_nil type filter rest here (i + 1) h.2]
      rfl
end

mutual
/-- A path that a search yields goes on from the path of the search, to a
node of the subtree. -/
theorem findFrom_sound (type : String) (filter : Node → Bool) :
    ∀ (n : Node) (here p : Path), p ∈ findFrom type filter here n →
      ∃ q m, p = here ++ q ∧ getAt n q = some m ∧ m.type = type ∧ filter m = true
  | .mk t a kids, here, p, h => by
      rw [findFrom, List.mem_append] at h
      rcases h with h | h
      · by_cases hc : (t == type && filter (.mk t a kids)) = true
        · simp only [hc, if_true, List.mem_singleton] at h
          simp only [Bool.and_eq_true, beq_iff_eq] at hc
          exact ⟨[], .mk t a kids, by simp [h], getAt_nil _, hc.1, hc.2⟩
        · simp [hc] at h
      · obtain ⟨j, q, lk, m, hp, hj, hm, ht, hf⟩ := findKids_sound type filter kids here 0 p h
        refine ⟨j :: q, m, by simpa using hp, ?_, ht, hf⟩
        rw [getAt_cons, hj]
        exact hm
/-- A path that a search in the children yields goes through one of them. -/
theorem findKids_sound (type : String) (filter : Node → Bool) :
    ∀ (kids : List (String × Node)) (here : Path) (i : Nat) (p : Path),
      p ∈ findKids type filter here i kids →
      ∃ j q lk m, p = here ++ (i + j) :: q ∧ kids[j]? = some lk ∧ getAt lk.2 q = some m ∧
        m.type = type ∧ filter m = true
  | [], _, _, p, h => by simp [findKids] at h
  | (l, k) :: rest, here, i, p, h => by
      rw [findKids, List.mem_append] at h
      rcases h with h | h
      · obtain ⟨q, m, hp, hm, ht, hf⟩ := findFrom_sound type filter k (here ++ [i]) p h
        exact ⟨0, q, (l, k), m, by simpa using hp, by simp, hm, ht, hf⟩
      · obtain ⟨j, q, lk, m, hp, hj, hm, ht, hf⟩ :=
          findKids_sound type filter rest here (i + 1) p h
        refine ⟨j + 1, q, lk, m, ?_, by simpa using hj, hm, ht, hf⟩
        rw [hp]
        congr 2
        omega
end

/-- A path that `find` yields goes on from a path of the collection, to a
matching node below it. -/
theorem find_sound (root : Node) (type : String) (filter : Node → Bool) :
    ∀ (coll : List Path) (p : Path), p ∈ find root coll type filter →
      ∃ c q m, c ∈ coll ∧ q ≠ [] ∧ p = c ++ q ∧ getAt root p = some m ∧ m.type = type ∧
        filter m = true
  | [], p, h => by simp [find] at h
  | c :: rest, p, h => by
      rw [find, List.mem_append] at h
      rcases h with h | h
      · unfold findBelow at h
        cases hc : getAt root c with
        | none => simp [hc] at h
        | some sub =>
            simp only [hc] at h
            obtain ⟨j, q, lk, m, hp, hj, hm, ht, hf⟩ := findKids_sound type filter sub.kids c 0 p h
            refine ⟨c, (0 + j) :: q, m, List.mem_cons_self _ _, by simp, hp, ?_, ht, hf⟩
            rw [hp, getAt_append, hc]
            obtain ⟨st, sa, skids⟩ := sub
            simp only [Option.some_bind, Nat.zero_add]
            rw [getAt_cons]
            simp only [Node.kids] at hj
            rw [hj]
            exact hm
      · obtain ⟨c', q, m, hc', hq, hp, hm, ht, hf⟩ := find_sound root type filter rest p h
        exact ⟨c', q, m, List.mem_cons_of_mem _ hc', hq, hp, hm, ht, hf⟩

/-- No path is found below paths whose subtrees hold no matching node. -/
theorem find_nil (root : Node) (type : String) (filter : Node → Bool) :
    ∀ (coll : List Path),
      (∀ c ∈ coll, ∀ sub, getAt root c = some sub →
        allKids (fun m => !(m.type == type && filter m)) sub.kids = true) →
      find root coll type filter = []
  | [], _ => by simp [find]
  | c :: rest, h => by
      rw [find, find_nil root type filter rest
        (fun c' hc' => h c' (List.mem_cons_of_mem _ hc'))]
      unfold findBelow
      cases hc : getAt root c with
      | none => rfl
      | some sub =>
          simp only [List.append_nil]
          exact findKids_nil type filter sub.kids c 0 (h c (List.mem_cons_self _ _) sub hc)

/-- The path of a child field leads to the child. -/
theorem getField_kid (root : Node) (p p' : Path) (field : String)
    (h : getField root p field = some p') :
    ∃ n v i l, getAt root p = some n ∧ n.kid field = some v ∧ getAt root p' = some v ∧
      p' = p ++ [i] ∧ n.kids[i]? = some (l, v) := by
  unfold getField at h
  cases hn : getAt root p with
  | none => simp [hn] at h
  | some n =>
      obtain ⟨t, a, kids⟩ := n
      simp only [hn, kidIndex, Node.kids] at h
      by_cases hlt : kids.findIdx (fun lk => lk.1 == field) < kids.length
      · simp only [hlt, if_true, Option.map_some', Option.some.injEq] at h
        have hget : kids[kids.findIdx (fun lk => lk.1 == field)]?
            = some (kids[kids.findIdx (fun lk => lk.1 == field)]) :=
          List.getElem?_eq_getElem hlt
        refine ⟨.mk t a kids, (kids[kids.findIdx (fun lk => lk.1 == field)]).2,
          kids.findIdx (fun lk => lk.1 == field),
          (kids[kids.findIdx (fun lk => lk.1 == field)]).1, rfl, ?_, ?_, h.symm, hget⟩
        · exact lookup_of_findIdx field kids _ _ _ rfl hget
        · rw [← h, getAt_append, hn]
          simp only [Option.some_bind]
          rw [getAt_cons, hget]
          exact getAt_nil _
      · simp [hlt] at h

/-- A change below a path changes the node at the path by the change below
it. -/
theorem modifyAt_append (f : Node → Option Node) :
    ∀ (p q : Path) (root root' n : Node), getAt root p = some n →
      modifyAt f root (p ++ q) = some root' →
      ∃ n', modifyAt f n q = some n' ∧ getAt root' p = some n' ∧
        modifyAt (fun _ => some n') root p = some root'
  | [], q, root, root', n, hn, hm => by
      rw [getAt_nil] at hn
      cases hn
      exact ⟨root', by simpa using hm, getAt_nil _, by simp [modifyAt]⟩
  | i :: rest, q, .mk t a kids, root', n, hn, hm => by
      rw [getAt_cons] at hn
      rw [List.cons_append, modifyAt] at hm
      cases hk : kids[i]? with
      | none => simp [hk] at hn
      | some lk =>
          obtain ⟨l, k⟩ := lk
          simp only [hk, Option.some_bind] at hn
          simp only [hk] at hm
          cases hk' : modifyAt f k (rest ++ q) with
          | none => simp [hk'] at hm
          | some k' =>
              simp only [hk', Option.map_some', Option.some.injEq] at hm
              obtain ⟨n', hn', hg', hr'⟩ := modifyAt_append f rest q k k' n hn hk'
              have hi : i < kids.length := by
                rcases Nat.lt_or_ge i kids.length with h | h
                · exact h
                · rw [List.getElem?_eq_none h] at hk
                  cases hk
              refine ⟨n', hn', ?_, ?_⟩
              · rw [← hm, getAt_cons]
                simp [List.getElem?_set, hi, hg']
              · rw [modifyAt]
                simp only [hk, hr', Option.map_some', hm]

/-- A tree whose nodes all pass keeps that when the child at one position is
replaced by a subtree whose nodes all pass. -/
theorem allKids_set (P : Node → Bool) :
    ∀ (kids : List (String × Node)) (i : Nat) (l : String) (x : Node),
      allKids P kids = true → allNodes P x = true → allKids P (kids.set i (l, x)) = true
  | [], _, _, _, _, _ => by simp [allKids]
  | (l0, k0) :: rest, i, l, x, h, hx => by
      rw [allKids, Bool.and_eq_true] at h
      cases i with
      | zero => simp [allKids, hx, h.2]
      | succ j =>
          simp only [List.set_cons_succ, allKids, Bool.and_eq_true]
          exact ⟨h.1, allKids_set P rest j l x h.2 hx⟩

/-- The path of a child field of a node that is known. -/
theorem getField_of_getAt (root n : Node) (p : Path) (field : String)
    (hn : getAt root p = some n) :
    getField root p field = (kidIndex n field).map (fun i => p ++ [i]) := by
  unfold getField
  rw [hn]

/-- The child at a position of a node that is known. -/
theorem getAt_child (root : Node) (p : Path) (t : String) (a : List (String × Prim))
    (kids : List (String × Node)) (i : Nat) (hn : getAt root p = some (.mk t a kids)) :
    getAt root (p ++ [i]) = (kids[i]?).map (fun lk => lk.2) := by
  rw [getAt_append, hn]
  simp only [Option.some_bind]
  rw [getAt_cons]
  cases kids[i]? with
  | none => rfl
  | some lk => simp [getAt_nil]

/-- A push onto the array at a path is the replacement of the array by the
longer one. -/
theorem pushAt_eq_replaceAt (x : Node) :
    ∀ (p : Path) (root : Node) (a : List (String × Prim)) (kids : List (String × Node)),
      getAt root p = some (.mk "[]" a kids) →
      pushAt root p x = replaceAt root p (.mk "[]" a (kids ++ [("", x)]))
  | [], root, a, kids, h => by
      rw [getAt_nil] at h
      cases h
      simp [pushAt, replaceAt, modifyAt]
  | i :: rest, .mk t ra rkids, a, kids, h => by
      rw [getAt_cons] at h
      cases hk : rkids[i]? with
      | none => simp [hk] at h
      | some lk =>
          obtain ⟨l, k⟩ := lk
          simp only [hk, Option.some_bind] at h
          have ih := pushAt_eq_replaceAt x rest k a kids h
          unfold replaceAt at ih ⊢
          simp only [pushAt, modifyAt, hk, ih]

/-- A replacement at a path that holds a node returns, and puts the new node
there. -/
theorem replaceAt_getAt (root n x : Node) (p : Path) (h : getAt root p = some n) :
    ∃ root', replaceAt root p x = some root' ∧ getAt root' p = some x :=
  modifyAt_getAt (fun _ => some x) p root n x h rfl

/-- A replacement below a path is the replacement of the node at the path by
the node with the replacement made in it. -/
theorem replaceAt_append (root n x : Node) (p q : Path) (root' : Node)
    (hn : getAt root p = some n) (h : replaceAt root (p ++ q) x = some root') :
    ∃ n', replaceAt n q x = some n' ∧ getAt root' p = some n' ∧
      replaceAt root p n' = some root' :=
  modifyAt_append (fun _ => some x) p q root root' n hn h

/-- The search in a child list that is made of two lists. -/
theorem findKids_append (type : String) (filter : Node → Bool) (here : Path) :
    ∀ (l1 l2 : List (String × Node)) (i : Nat),
      findKids type filter here i (l1 ++ l2)
        = findKids type filter here i l1 ++ findKids type filter here (i + l1.length) l2
  | [], l2, i => by simp [findKids]
  | (l, k) :: rest, l2, i => by
      rw [List.cons_append, findKids, findKids, findKids_append type filter here rest l2 (i + 1),
        List.append_assoc]
      congr 3
      simp only [List.length_cons]
      omega

/-- The element behind the first of two lists that are joined. -/
theorem getElem?_middle {α : Type} (l1 l2 : List α) (x : α) :
    (l1 ++ x :: l2)[l1.length]? = some x := by
  rw [List.getElem?_append_right (Nat.le_refl _)]
  simp

/-- The replacement of the element behind the first of two lists that are
joined. -/
theorem set_middle {α : Type} (l1 l2 : List α) (x y : α) :
    (l1 ++ x :: l2).set l1.length y = l1 ++ y :: l2 := by
  simp

/-- A change below a child of a node. -/
theorem modifyAt_cons (f : Node → Option Node) (t : String) (a : List (String × Prim))
    (kids : List (String × Node)) (i : Nat) (rest : Path) :
    modifyAt f (.mk t a kids) (i :: rest)
      = (kids[i]?).bind (fun lk =>
          (modifyAt f lk.2 rest).map (fun k' => .mk t a (kids.set i (lk.1, k')))) := by
  rw [modifyAt]
  cases kids[i]? with
  | none => rfl
  | some lk => rfl

/-! ## Theorems: rename and update of a name that is absent -/

/-- Below the paths of an option from which a name is absent, no property
keyed by the name is found. -/
theorem absentFrom_find (script : Node) (optionName name : String) (opt : OptionResult)
    (hopt : option script optionName = some opt)
    (h : absentFrom script optionName name = true) :
    find opt.script opt.node "Property" (hasKeyNamed name) = [] := by
  unfold absentFrom at h
  rw [hopt] at h
  simp only [List.all_eq_true] at h
  apply find_nil
  intro c hc sub hsub
  have hc' := h c hc
  rw [hsub] at hc'
  exact hc'

/-- The children of a node of a subtree without a matching node hold no
matching node. -/
theorem allKids_below (P : Node → Bool) (sub m : Node) (q : Path) (hq : q ≠ [])
    (hsub : allKids P sub.kids = true) (hm : getAt sub q = some m) :
    allKids P m.kids = true := by
  obtain ⟨t, a, kids⟩ := sub
  cases q with
  | nil => exact absurd rfl hq
  | cons i rest =>
      rw [getAt_cons] at hm
      cases hk : kids[i]? with
      | none => simp [hk] at hm
      | some lk =>
          obtain ⟨l, k⟩ := lk
          simp only [hk, Option.some_bind] at hm
          have hkall : allNodes P k = true := allKids_get P kids i l k hsub hk
          have hmall : allNodes P m = true := allNodes_getAt P rest k m hkall hm
          obtain ⟨mt, ma, mkids⟩ := m
          rw [allNodes, Bool.and_eq_true] at hmall
          exact hmall.2

/-- Below the nodes found below the paths of an option from which a name is
absent, no property keyed by the name is found. -/
theorem absentFrom_find_below (script : Node) (optionName name type : String)
    (opt : OptionResult) (hopt : option script optionName = some opt)
    (h : absentFrom script optionName name = true) :
    find opt.script (find opt.script opt.node type (fun _ => true)) "Property"
      (hasKeyNamed name) = [] := by
  unfold absentFrom at h
  rw [hopt] at h
  simp only [List.all_eq_true] at h
  apply find_nil
  intro c hc sub hsub
  obtain ⟨c0, q, m, hc0, hq, hp, _, _, _⟩ := find_sound opt.script type _ _ c hc
  have h0 := h c0 hc0
  rw [hp, getAt_append] at hsub
  cases hsub0 : getAt opt.script c0 with
  | none => simp [hsub0] at hsub
  | some sub0 =>
      rw [hsub0] at h0 hsub
      exact allKids_below _ sub0 sub q hq h0 hsub

/-- The assignment of a key name throws on an empty collection. -/
theorem renameKey_nil (script : Node) (newName : String) : renameKey script [] newName = none := by
  simp [renameKey]

/-- The position `filter(test)[0]` is undefined when no element passes. -/
theorem filterFirst_none (test : Node → Option Bool) :
    ∀ (elems : List (String × Node)),
      elems.all (fun lk => test lk.2 != some true) = true →
      ∀ i, filterFirst test elems ≠ some (some i) := by
  intro elems hall i
  unfold filterFirst
  have hcollect : ∀ (l : List (String × Node)) (passed : List Bool),
      l.all (fun lk => test lk.2 != some true) = true →
      collect (l.map (fun lk => test lk.2)) = some passed → passed.all (fun b => !b) = true := by
    intro l
    induction l with
    | nil =>
        intro passed _ hc
        simp [collect] at hc
        subst hc
        rfl
    | cons lk rest ih =>
        intro passed hl hc
        simp only [List.all_cons, Bool.and_eq_true] at hl
        simp only [List.map_cons] at hc
        cases ht : test lk.2 with
        | none => simp [ht, collect] at hc
        | some b =>
            rw [ht] at hc
            simp only [collect] at hc
            cases hr : collect (rest.map (fun lk => test lk.2)) with
            | none => simp [hr] at hc
            | some passed' =>
                simp only [hr, Option.map_some', Option.some.injEq] at hc
                subst hc
                have hb : b = false := by
                  cases b with
                  | false => rfl
                  | true => simp [ht] at hl
                simp [hb, ih passed' hl.2 hr]
  cases hc : collect (elems.map (fun lk => test lk.2)) with
  | none => simp
  | some passed =>
      have hno := hcollect elems passed hall hc
      simp only [Option.map_some', ne_eq, Option.some.injEq]
      have hidx : ¬ (passed.findIdx (fun b => b) < passed.length) := by
        intro hlt
        have hx := List.findIdx_getElem (w := hlt)
        have hmem := List.getElem_mem hlt
        have := (List.all_eq_true.mp hno) _ hmem
        simp [hx] at this
      simp [hidx]

/-- A new key among the keys of an object is the entry put in, or one that
was there. -/
theorem insertKey_mem {α : Type} (key : String) (val : α) :
    ∀ (acc : List (String × α)) (kv : String × α), kv ∈ insertKey key val acc →
      kv = (key, val) ∨ kv ∈ acc
  | [], kv, h => by
      simp only [insertKey, List.mem_singleton] at h
      exact Or.inl h
  | (k, v) :: rest, kv, h => by
      unfold insertKey at h
      cases hi : arrayIndex key with
      | none =>
          simp only [hi, List.mem_cons] at h
          rcases h with h | h
          · exact Or.inr (by simp [h])
          · rcases insertKey_mem key val rest kv h with h' | h'
            · exact Or.inl h'
            · exact Or.inr (List.mem_cons_of_mem _ h')
      | some n =>
          simp only [hi] at h
          cases hk : arrayIndex k with
          | none =>
              simp only [hk, List.mem_cons] at h
              rcases h with h | h | h
              · exact Or.inl h
              · exact Or.inr (by simp [h])
              · exact Or.inr (List.mem_cons_of_mem _ h)
          | some m =>
              simp only [hk] at h
              by_cases hlt : n < m
              · simp only [hlt, if_true, List.mem_cons] at h
                rcases h with h | h | h
                · exact Or.inl h
                · exact Or.inr (by simp [h])
                · exact Or.inr (List.mem_cons_of_mem _ h)
              · simp only [hlt, if_false, List.mem_cons] at h
                rcases h with h | h
                · exact Or.inr (by simp [h])
                · rcases insertKey_mem key val rest kv h with h' | h'
                  · exact Or.inl h'
                  · exact Or.inr (List.mem_cons_of_mem _ h')

/-- The key of an entry of `{ ...acc, [key]: val }` is `key` or a key of
`acc`. -/
theorem assignKey_keys {α : Type} (acc : List (String × α)) (key : String) (val : α)
    (kv : String × α) (h : kv ∈ assignKey acc key val) :
    kv.1 = key ∨ ∃ kv' ∈ acc, kv'.1 = kv.1 := by
  unfold assignKey at h
  split at h
  · simp only [List.mem_map] at h
    obtain ⟨kv0, hkv0, he⟩ := h
    refine Or.inr ⟨kv0, hkv0, ?_⟩
    split at he <;> simp [← he]
  · rcases insertKey_mem key val acc kv h with h' | h'
    · exact Or.inl (by simp [h'])
    · exact Or.inr ⟨kv, h', rfl⟩

/-- The keys of `mapWithKeys(arr, cb)` are keys that `cb` gives. -/
theorem mapWithKeys_keys {α β : Type} (cb : α → String × β) :
    ∀ (arr : List α) (acc : List (String × β)) (kv : String × β),
      kv ∈ arr.foldl (fun acc value => assignKey acc (cb value).1 (cb value).2) acc →
      (∃ kv' ∈ acc, kv'.1 = kv.1) ∨ ∃ x ∈ arr, (cb x).1 = kv.1
  | [], acc, kv, h => Or.inl ⟨kv, by simpa using h, rfl⟩
  | x :: rest, acc, kv, h => by
      rw [List.foldl_cons] at h
      rcases mapWithKeys_keys cb rest _ kv h with ⟨kv', hkv', he⟩ | ⟨y, hy, he⟩
      · rcases assignKey_keys acc _ _ kv' hkv' with h1 | ⟨kv'', h2, h3⟩
        · exact Or.inr ⟨x, List.mem_cons_self _ _, by rw [← he, h1]⟩
        · exact Or.inl ⟨kv'', h2, by rw [h3, he]⟩
      · exact Or.inr ⟨y, List.mem_cons_of_mem _ hy, he⟩

/-- The nodes of a list of subtrees all pass when those of each subtree do. -/
theorem allKids_map {α : Type} (P : Node → Bool) (f : α → Node) :
    ∀ (l : List α), (∀ x ∈ l, allNodes P (f x) = true) →
      allKids P (l.map (fun x => ("", f x))) = true
  | [], _ => by simp [allKids]
  | x :: rest, h => by
      simp only [List.map_cons, allKids, Bool.and_eq_true]
      exact ⟨h x (List.mem_cons_self _ _),
        allKids_map P f rest (fun y hy => h y (List.mem_cons_of_mem _ hy))⟩

/-- An entry with empty metadata holds no property keyed by another name. -/
theorem objProp_empty_absent (key name : String) (hne : key ≠ name) :
    allNodes (fun m => !(m.type == "Property" && hasKeyNamed name m)) (objProp key object [])
      = true := by
  have hk : (some (Prim.str key) == some (Prim.str name)) = false := by
    simpa using hne
  simp [objProp, assocIn, property, identifier, object, objectExpression, array, allNodes,
    allKids, hasKeyNamed, Node.kid, Node.attr, Node.type, Node.kids, Node.attrs, List.lookup, hk]

/-- The map that `updateProp` makes of a list holds no property keyed by a
name that is the key of no element. -/
theorem propsObject_absent (name : String) (elements : List (String × Node))
    (h : ∀ lk ∈ elements, propertyKey (lk.2.attr "value") ≠ name) :
    allNodes (fun m => !(m.type == "Property" && hasKeyNamed name m)) (propsObject elements)
      = true := by
  unfold propsObject objectExpression array
  simp only [allNodes, allKids, Node.type, Bool.and_true, Bool.and_eq_true]
  refine ⟨by simp, by simp, ?_⟩
  rw [List.map_map]
  apply allKids_map _ (fun kv : String × Unit => objProp kv.1 object [])
  intro kv hkv
  apply objProp_empty_absent
  unfold mapWithKeys at hkv
  rcases mapWithKeys_keys _ _ [] kv hkv with ⟨kv', hkv', _⟩ | ⟨x, hx, he⟩
  · simp at hkv'
  · simp only [List.mem_map] at hx
    obtain ⟨lk, hlk, rfl⟩ := hx
    rw [← he]
    exact h lk hlk

/-- The loop of `updateProp` throws when no property of the name was found and
one attribute has a value that is not `null`. -/
theorem updatePropLoop_none (g : ScriptGrammar) :
    ∀ (attrs : List (String × Option String)) (state : UpdateState),
      state.prop = [] → attrs.any (fun kv => kv.2.isSome) = true →
      updatePropLoop g attrs state = none
  | [], _, _, h => by simp at h
  | (key, none) :: rest, state, hprop, h => by
      simp only [List.any_cons, Option.isSome_none, Bool.false_or] at h
      unfold updatePropLoop updatePropStep
      simp only [hprop]
      exact updatePropLoop_none g rest _ (by simp [find, relocateAll]) h
  | (key, some val) :: rest, state, hprop, _ => by
      unfold updatePropLoop updatePropStep
      simp only [hprop, List.head?_nil]
      cases parseAttrValue g val <;> rfl

/-- The first statement of `renameProp` throws for a name that is absent from
`props`. -/
theorem renamePropEntry_absent (script : Node) (name newName : String)
    (h : absentFromProps script name = true) : renamePropEntry script name newName = none := by
  unfold renamePropEntry
  unfold absentFromProps at h
  cases hopt : option script "props" with
  | none => rfl
  | some opt =>
      simp only [hopt] at h
      cases hnode : opt.node with
      | nil => simp [hnode] at h
      | cons base tl =>
          cases tl with
          | cons _ _ => simp [hnode] at h
          | nil =>
              simp only [hnode, List.head?_cons] at h ⊢
              cases hfield : getField opt.script base "value" with
              | none => rfl
              | some value =>
                  obtain ⟨n, v, i, l, hn, hkid, hv, _, _⟩ := getField_kid _ _ _ _ hfield
                  simp only [hn, hkid, Bool.and_eq_true] at h
                  simp only [hv]
                  obtain ⟨_, helems, hprops⟩ := h
                  by_cases htype : (v.type == "ArrayExpression") = true
                  · simp only [htype, if_true]
                    cases hfe : getField opt.script value "elements" with
                    | none => rfl
                    | some elements =>
                        obtain ⟨n', arr, _, _, hn', hkid', harr, _, _⟩ := getField_kid _ _ _ _ hfe
                        rw [hv] at hn'
                        cases hn'
                        simp only [harr]
                        simp only [hkid'] at helems
                        have hall : arr.kids.all (fun lk =>
                            (fun el : Node => some (looseEqString (el.attr "value") name)) lk.2
                              != some true) = true := by
                          apply List.all_eq_true.mpr
                          intro lk hlk
                          have := (List.all_eq_true.mp helems) lk hlk
                          simp only [Bool.and_eq_true, Bool.not_eq_true'] at this
                          simp [this.1]
                        have hff := filterFirst_none
                          (fun el : Node => some (looseEqString (el.attr "value") name))
                          arr.kids hall
                        cases hres : filterFirst
                            (fun el => some (looseEqString (el.attr "value") name)) arr.kids with
                        | none => rfl
                        | some r =>
                            cases r with
                            | none => rfl
                            | some j => exact absurd hres (hff j)
                  · simp only [htype, Bool.false_eq_true, if_false]
                    cases hfp : getField opt.script value "properties" with
                    | none => rfl
                    | some properties =>
                        obtain ⟨n', arr, _, _, hn', hkid', harr, _, _⟩ := getField_kid _ _ _ _ hfp
                        rw [hv] at hn'
                        cases hn'
                        simp only [harr]
                        simp only [hkid'] at hprops
                        have hff := filterFirst_none _ arr.kids hprops
                        cases hres : filterFirst (keyNameEq name) arr.kids with
                        | none => rfl
                        | some r =>
                            cases r with
                            | none => rfl
                            | some j => exact absurd hres (hff j)

/-- The method `updateProp` throws for a name that is absent from `props` when
one attribute has a value that is not `null`. -/
theorem updateProp_absent (g : ScriptGrammar) (script : Node) (name : String)
    (attrs : List (String × Option String)) (h : absentFromProps script name = true)
    (hattrs : attrs.any (fun kv => kv.2.isSome) = true) :
    updateProp g script name attrs = none := by
  unfold updateProp
  unfold absentFromProps at h
  cases hopt : option script "props" with
  | none => rfl
  | some opt =>
      simp only [hopt] at h
      cases hnode : opt.node with
      | nil => simp [hnode] at h
      | cons base tl =>
          cases tl with
          | cons _ _ => simp [hnode] at h
          | nil =>
              simp only [hnode, List.head?_cons] at h ⊢
              cases hfield : getField opt.script base "value" with
              | none => rfl
              | some value =>
                  obtain ⟨n, v, i, l, hn, hkid, hv, hvalue, hi⟩ := getField_kid _ _ _ _ hfield
                  simp only [hn, hkid, Bool.and_eq_true] at h
                  simp only [hv]
                  obtain ⟨habs, helems, _⟩ := h
                  by_cases htype : (v.type == "ArrayExpression") = true
                  · simp only [htype, if_true]
                    cases hke : v.kid "elements" with
                    | none => rfl
                    | some elements =>
                        simp only []
                        cases hrep : replaceAt opt.script value (propsObject elements.kids) with
                        | none => rfl
                        | some script1 =>
                            simp only [Option.map_some']
                            have hkeep : ([base].filter
                                (fun p => !(value.isPrefixOf p && p != value))) = [base] := by
                              have hnp : value.isPrefixOf base = false := by
                                rw [hvalue]
                                cases hb : (base ++ [i]).isPrefixOf base with
                                | false => rfl
                                | true =>
                                    have hp := List.isPrefixOf_iff_prefix.mp hb
                                    have hlen := hp.length_le
                                    simp at hlen
                              simp [hnp]
                            rw [hkeep]
                            have hfind : find script1 [base] "Property" (hasKeyNamed name) = [] := by
                              apply find_nil
                              intro c hc sub hsub
                              simp only [List.mem_singleton] at hc
                              subst hc
                              rw [hvalue] at hrep
                              obtain ⟨n', hn', hg', _⟩ := modifyAt_append _ c [i] opt.script script1 n
                                hn hrep
                              rw [hsub] at hg'
                              cases hg'
                              obtain ⟨t, a, kids⟩ := n
                              simp only [Node.kids] at hi
                              simp only [modifyAt, hi, Option.map_some', Option.some.injEq] at hn'
                              rw [← hn']
                              simp only [Node.kids]
                              apply allKids_set _ kids i l _ habs
                              apply propsObject_absent
                              intro lk hlk
                              simp only [hke] at helems
                              have := (List.all_eq_true.mp helems) lk hlk
                              simp only [Bool.and_eq_true, bne_iff_ne] at this
                              exact this.2
                            rw [hfind, updatePropLoop_none g attrs _ rfl hattrs]
                  · simp only [htype, Bool.false_eq_true, if_false]
                    have hfind : find opt.script [base] "Property" (hasKeyNamed name) = [] := by
                      apply find_nil
                      intro c hc sub hsub
                      simp only [List.mem_singleton] at hc
                      subst hc
                      rw [hn] at hsub
                      cases hsub
                      exact habs
                    rw [hfind, updatePropLoop_none g attrs _ rfl hattrs]

/-- C18, amended. For a name that is absent from the targeted option (no
property below the option has a key of that name), `renameProp`, `renameData`,
`setData`, `renameComputed`, `renameMethod`, `renameWatcher` and
`updateWatcher` throw whatever their other arguments are, and `updateProp`
throws when one of its attributes has a value that is not `null`. -/
theorem C18_absent_name_fails (g : ScriptGrammar) (script : Node) (tree : HNode)
    (name newName newVal : String) (attrs : List (String × Option String))
    (modifiers : List (String × Prim)) :
    (absentFromProps script name = true →
      renameProp g script tree name newName = none ∧
        (attrs.any (fun kv => kv.2.isSome) = true → updateProp g script name attrs = none)) ∧
    (absentFrom script "data" name = true →
      renameData g script tree name newName = none ∧ setData g script name newVal = none) ∧
    (absentFrom script "computed" name = true →
      renameComputed g script tree name newName = none) ∧
    (absentFrom script "methods" name = true →
      renameMethod g script tree name newName = none) ∧
    (absentFrom script "watch" name = true →
      renameWatcher script name newName = none ∧ updateWatcher script name modifiers = none) := by
  refine ⟨?_, ?_, ?_, ?_, ?_⟩
  · intro h
    refine ⟨?_, updateProp_absent g script name attrs h⟩
    unfold renameProp
    rw [renamePropEntry_absent script name newName h]
  · intro h
    constructor
    · unfold renameData renameDataEntry
      cases hopt : option script "data" with
      | none => rfl
      | some opt =>
          simp only [absentFrom_find_below script "data" name "ReturnStatement" opt hopt h,
            renameKey_nil]
    · unfold setData
      cases hopt : option script "data" with
      | none => rfl
      | some opt =>
          simp only [absentFrom_find script "data" name opt hopt h, List.head?_nil]
  · intro h
    unfold renameComputed renameComputedEntry
    cases hopt : option script "computed" with
    | none => rfl
    | some opt =>
        simp only [absentFrom_find script "computed" name opt hopt h, renameKey_nil]
  · intro h
    unfold renameMethod renameMethodEntry
    cases hopt : option script "methods" with
    | none => rfl
    | some opt =>
        simp only [absentFrom_find script "methods" name opt hopt h, renameKey_nil]
  · intro h
    constructor
    · unfold renameWatcher
      cases hopt : option script "watch" with
      | none => rfl
      | some opt =>
          simp only [absentFrom_find script "watch" name opt hopt h, renameKey_nil]
    · unfold updateWatcher
      cases hopt : option script "watch" with
      | none => rfl
      | some opt =>
          simp only [absentFrom_find script "watch" name opt hopt h, List.head?_nil]

/-- On `export default { props: ['foo'] }` the name `bar` is absent from every
option, and each of the operations throws; `updateProp` does with the
attribute `type: 'String'`. -/
theorem C18_witness :
    absentFromProps propsFoo "bar" = true ∧ absentFrom propsFoo "data" "bar" = true ∧
    absentFrom propsFoo "computed" "bar" = true ∧ absentFrom propsFoo "methods" "bar" = true ∧
    absentFrom propsFoo "watch" "bar" = true ∧
    renameProp identifierGrammar propsFoo templateOnly "bar" "baz" = none ∧
    updateProp identifierGrammar propsFoo "bar" [("type", some "String")] = none ∧
    renameData identifierGrammar propsFoo templateOnly "bar" "baz" = none ∧
    setData identifierGrammar propsFoo "bar" "x" = none ∧
    renameComputed identifierGrammar propsFoo templateOnly "bar" "baz" = none ∧
    renameMethod identifierGrammar propsFoo templateOnly "bar" "baz" = none ∧
    renameWatcher propsFoo "bar" "baz" = none ∧
    updateWatcher propsFoo "bar" [("deep", .bool true)] = none :=
  have h := C18_absent_name_fails identifierGrammar propsFoo templateOnly "bar" "baz" "x"
    [("type", some "String")] [("deep", .bool true)]
  ⟨by decide, by decide, by decide, by decide, by decide,
    (h.1 (by decide)).1, (h.1 (by decide)).2 (by decide),
    (h.2.1 (by decide)).1, (h.2.1 (by decide)).2, h.2.2.1 (by decide), h.2.2.2.1 (by decide),
    (h.2.2.2.2 (by decide)).1, (h.2.2.2.2 (by decide)).2⟩

/-- C18, counterexample. On `export default { props: ['foo'] }` the name `bar`
is absent from `props`, and `updateProp('bar', { type: null })` and
`updateProp('bar', {})` return normally, with the component as it was. -/
theorem C18_counterexample :
    absentFromProps propsFoo "bar" = true ∧
    updateProp identifierGrammar propsFoo "bar" [("type", none)] = some propsFoo ∧
    updateProp identifierGrammar propsFoo "bar" [] = some propsFoo := by
  decide

/-! ## Theorems: the additive operations -/

/-- The statement `option(name).get().value.value.properties.push(entry)` on an
option whose value is an object literal: it returns, and the entry is the
last one of the option, behind the entries that were there. -/
theorem pushEntry_appends (script : Node) (optionName : String) (entry : Node)
    (opt : OptionResult) (first : Path) (pa va a : List (String × Prim)) (k : Node)
    (entries : List (String × Node))
    (hopt : option script optionName = some opt) (hfirst : opt.node.head? = some first)
    (hshape : getAt opt.script first
      = some (.mk "Property" pa
          [("key", k), ("value", .mk "ObjectExpression" va
            [("properties", .mk "[]" a entries)])])) :
    ∃ script', pushEntry script optionName entry = some script' ∧
      replaceAt opt.script first
        (.mk "Property" pa
          [("key", k), ("value", .mk "ObjectExpression" va
            [("properties", .mk "[]" a (entries ++ [("", entry)]))])]) = some script' := by
  have hvalue : getAt opt.script (first ++ [1])
      = some (.mk "ObjectExpression" va [("properties", .mk "[]" a entries)]) := by
    rw [getAt_child _ _ _ _ _ 1 hshape]
    rfl
  have hprops : getAt opt.script ((first ++ [1]) ++ [0]) = some (.mk "[]" a entries) := by
    rw [getAt_child _ _ _ _ _ 0 hvalue]
    rfl
  have hf1 : getField opt.script first "value" = some (first ++ [1]) := by
    rw [getField_of_getAt _ _ _ _ hshape]
    rfl
  have hf2 : getField opt.script (first ++ [1]) "properties" = some ((first ++ [1]) ++ [0]) := by
    rw [getField_of_getAt _ _ _ _ hvalue]
    rfl
  unfold pushEntry
  simp only [hopt, hfirst, hf1, hf2]
  rw [pushAt_eq_replaceAt entry _ _ a entries hprops]
  obtain ⟨script', hrep, _⟩ := replaceAt_getAt opt.script _
    (.mk "[]" a (entries ++ [("", entry)])) _ hprops
  refine ⟨script', hrep, ?_⟩
  rw [List.append_assoc] at hrep
  obtain ⟨n', hn', _, hr'⟩ := replaceAt_append _ _ _ first ([1] ++ [0]) script' hshape hrep
  have hn'' : n' = .mk "Property" pa
      [("key", k), ("value", .mk "ObjectExpression" va
        [("properties", .mk "[]" a (entries ++ [("", entry)]))])] := by
    simp [replaceAt, modifyAt] at hn'
    exact hn'.symm
  rw [← hn'']
  exact hr'

/-- The method `addProp` on a list of props: it returns, and the literal of
the name is the last element, behind the elements that were there. -/
theorem addProp_list_appends (script : Node) (name : String) (opt : OptionResult)
    (first : Path) (pa va a : List (String × Prim)) (k : Node) (entries : List (String × Node))
    (hopt : option script "props" = some opt) (hfirst : opt.node.head? = some first)
    (hshape : getAt opt.script first
      = some (.mk "Property" pa
          [("key", k), ("value", .mk "ArrayExpression" va
            [("elements", .mk "[]" a entries)])])) :
    ∃ script', addProp script name = some script' ∧
      replaceAt opt.script first
        (.mk "Property" pa
          [("key", k), ("value", .mk "ArrayExpression" va
            [("elements", .mk "[]" a (entries ++ [("", literal (.str name))]))])])
        = some script' := by
  have hvalue : getAt opt.script (first ++ [1])
      = some (.mk "ArrayExpression" va [("elements", .mk "[]" a entries)]) := by
    rw [getAt_child _ _ _ _ _ 1 hshape]
    rfl
  have hprops : getAt opt.script ((first ++ [1]) ++ [0]) = some (.mk "[]" a entries) := by
    rw [getAt_child _ _ _ _ _ 0 hvalue]
    rfl
  have hf1 : getField opt.script first "value" = some (first ++ [1]) := by
    rw [getField_of_getAt _ _ _ _ hshape]
    rfl
  have hf2 : getField opt.script (first ++ [1]) "elements" = some ((first ++ [1]) ++ [0]) := by
    rw [getField_of_getAt _ _ _ _ hvalue]
    rfl
  unfold addProp
  simp only [hopt, hfirst, hf1, hvalue, hf2, Node.type, beq_self_eq_true, if_true]
  rw [pushAt_eq_replaceAt _ _ _ a entries hprops]
  obtain ⟨script', hrep, _⟩ := replaceAt_getAt opt.script _
    (.mk "[]" a (entries ++ [("", literal (.str name))])) _ hprops
  refine ⟨script', hrep, ?_⟩
  rw [List.append_assoc] at hrep
  obtain ⟨n', hn', _, hr'⟩ := replaceAt_append _ _ _ first ([1] ++ [0]) script' hshape hrep
  have hn'' : n' = .mk "Property" pa
      [("key", k), ("value", .mk "ArrayExpression" va
        [("elements", .mk "[]" a (entries ++ [("", literal (.str name))]))])] := by
    simp [replaceAt, modifyAt] at hn'
    exact hn'.symm
  rw [← hn'']
  exact hr'

/-- The method `addProp` on a map of props: it returns, and the entry of the
name with empty metadata is the last one, behind the entries that were
there. -/
theorem addProp_map_appends (script : Node) (name : String) (opt : OptionResult)
    (first : Path) (pa va a : List (String × Prim)) (k : Node) (entries : List (String × Node))
    (hopt : option script "props" = some opt) (hfirst : opt.node.head? = some first)
    (hshape : getAt opt.script first
      = some (.mk "Property" pa
          [("key", k), ("value", .mk "ObjectExpression" va
            [("properties", .mk "[]" a entries)])])) :
    ∃ script', addProp script name = some script' ∧
      replaceAt opt.script first
        (.mk "Property" pa
          [("key", k), ("value", .mk "ObjectExpression" va
            [("properties", .mk "[]" a (entries ++ [("", objProp name object [])]))])])
        = some script' := by
  have hvalue : getAt opt.script (first ++ [1])
      = some (.mk "ObjectExpression" va [("properties", .mk "[]" a entries)]) := by
    rw [getAt_child _ _ _ _ _ 1 hshape]
    rfl
  have hf1 : getField opt.script first "value" = some (first ++ [1]) := by
    rw [getField_of_getAt _ _ _ _ hshape]
    rfl
  have hpush := pushEntry_appends script "props" (objProp name object []) opt first pa va a k
    entries hopt hfirst hshape
  unfold pushEntry at hpush
  simp only [hopt, hfirst, hf1] at hpush
  unfold addProp
  have hne : ("ObjectExpression" == "ArrayExpression") = false := by decide
  simp only [hopt, hfirst, hf1, hvalue, Node.type, hne, Bool.false_eq_true, if_false]
  exact hpush

/-- A subtree without a node of a type yields no path in a search for the
type. -/
theorem findFrom_noneOfType (type : String) (n : Node) (here : Path)
    (h : noneOfType type n = true) : findFrom type (fun _ => true) here n = [] := by
  apply findFrom_nil
  apply allNodes_mono _ _ _ n h
  intro m hm
  simpa using hm

/-- Subtrees without a node of a type yield no path in a search for the
type. -/
theorem findKids_noneOfType (type : String) (kids : List (String × Node)) (here : Path) (i : Nat)
    (h : allKids (fun m => m.type != type) kids = true) :
    findKids type (fun _ => true) here i kids = [] := by
  apply findKids_nil
  apply allKids_mono _ _ _ kids h
  intro m hm
  simpa using hm

/-- The method `addData` on an option `data` whose function has the return
statement of an object literal as its first return statement: it returns, and
the entry of the name with the parsed value is the last one of the object,
behind the entries that were there. -/
theorem addData_appends (g : ScriptGrammar) (script : Node) (name val : String)
    (expression : Node) (opt : OptionResult) (first : Path)
    (pa fa ba sa ra oa a : List (String × Prim)) (k params : Node)
    (stmts more entries : List (String × Node))
    (hopt : option script "data" = some opt) (hfirst : opt.node.head? = some first)
    (hshape : getAt opt.script first
      = some (dataOption pa fa ba sa k params stmts (returnsObject ra oa a entries) more))
    (hk : noneOfType "ReturnStatement" k = true)
    (hparams : noneOfType "ReturnStatement" params = true)
    (hstmts : allKids (fun m => m.type != "ReturnStatement") stmts = true)
    (hval : parseExpression g val = some (some expression)) :
    ∃ script', addData g script name val = some script' ∧
      replaceAt opt.script first
        (dataOption pa fa ba sa k params stmts
          (returnsObject ra oa a (entries ++ [("", objProp name expression [])])) more)
        = some script' := by
  obtain ⟨others, hnode⟩ : ∃ others, opt.node = first :: others := by
    cases hn : opt.node with
    | nil => simp [hn] at hfirst
    | cons p tl =>
        simp only [hn, List.head?_cons, Option.some.injEq] at hfirst
        exact ⟨tl, by rw [hfirst]⟩
  have hne1 : ("Property" == "ReturnStatement") = false := by decide
  have hne2 : ("FunctionExpression" == "ReturnStatement") = false := by decide
  have hne3 : ("BlockStatement" == "ReturnStatement") = false := by decide
  have hne4 : ("[]" == "ReturnStatement") = false := by decide
  have hne5 : ("ReturnStatement" == "ObjectExpression") = false := by decide
  -- the first return statement
  have hret : ∃ X, find opt.script opt.node "ReturnStatement" (fun _ => true)
      = (first ++ [1, 1, 0, stmts.length]) :: X := by
    rw [hnode, find, findBelow, hshape]
    simp only [dataOption, Node.kids, findKids, findFrom, findFrom_noneOfType _ k _ hk,
      findFrom_noneOfType _ params _ hparams, findKids_append,
      findKids_noneOfType _ stmts _ _ hstmts, hne2, hne3, hne4, Bool.false_and, returnsObject,
      Bool.false_eq_true, if_false, List.nil_append, List.append_nil, beq_self_eq_true,
      Bool.and_self, if_true, Nat.zero_add, List.append_assoc, List.singleton_append,
      List.cons_append]
    exact ⟨_, rfl⟩
  obtain ⟨X, hX⟩ := hret
  have hgetret : getAt opt.script (first ++ [1, 1, 0, stmts.length])
      = some (returnsObject ra oa a entries) := by
    rw [getAt_append, hshape]
    simp only [dataOption, Option.some_bind, getAt_cons, List.getElem?_cons_succ,
      List.getElem?_cons_zero, getElem?_middle, getAt_nil]
  have hobj : ∃ Y, find opt.script ((first ++ [1, 1, 0, stmts.length]) :: X) "ObjectExpression"
      (fun _ => true) = ((first ++ [1, 1, 0, stmts.length]) ++ [0]) :: Y := by
    rw [find, findBelow, hgetret]
    simp only [returnsObject, Node.kids, findKids, findFrom, beq_self_eq_true, Bool.and_self,
      if_true, List.singleton_append, List.cons_append, List.append_assoc]
    exact ⟨_, rfl⟩
  obtain ⟨Y, hY⟩ := hobj
  have hgetobj : getAt opt.script ((first ++ [1, 1, 0, stmts.length]) ++ [0])
      = some (.mk "ObjectExpression" oa [("properties", .mk "[]" a entries)]) := by
    rw [getAt_child _ _ _ _ _ 0 hgetret]
    rfl
  have hgetarr : getAt opt.script (((first ++ [1, 1, 0, stmts.length]) ++ [0]) ++ [0])
      = some (.mk "[]" a entries) := by
    rw [getAt_child _ _ _ _ _ 0 hgetobj]
    rfl
  have hfield : getField opt.script ((first ++ [1, 1, 0, stmts.length]) ++ [0]) "properties"
      = some (((first ++ [1, 1, 0, stmts.length]) ++ [0]) ++ [0]) := by
    rw [getField_of_getAt _ _ _ _ hgetobj]
    rfl
  unfold addData
  simp only [hopt, hX, hY, List.head?_cons, hfield, hval]
  rw [pushAt_eq_replaceAt _ _ _ a entries hgetarr]
  obtain ⟨script', hrep, _⟩ := replaceAt_getAt opt.script _
    (.mk "[]" a (entries ++ [("", objProp name expression [])])) _ hgetarr
  refine ⟨script', hrep, ?_⟩
  rw [List.append_assoc, List.append_assoc] at hrep
  obtain ⟨n', hn', _, hr'⟩ := replaceAt_append _ _ _ first _ script' hshape hrep
  have hn'' : n' = dataOption pa fa ba sa k params stmts
      (returnsObject ra oa a (entries ++ [("", objProp name expression [])])) more := by
    simp only [replaceAt, dataOption, returnsObject, List.cons_append, List.nil_append,
      modifyAt_cons, List.getElem?_cons_succ, List.getElem?_cons_zero, getElem?_middle,
      Option.some_bind, Option.map_some', set_middle, List.set_cons_succ, List.set_cons_zero,
      modifyAt, Option.some.injEq] at hn'
    rw [← hn']
    rfl
  rw [← hn'']
  exact hr'

/-- A missing option is made by `option(name)` at the end of the properties of
the default export, in the shape of `makeOptionProp`. -/
theorem option_creates (script : Node) (name : String) (obj props : Path)
    (a : List (String × Prim)) (entries : List (String × Node))
    (hfind : findOption script name = some [])
    (hexport : getDefaultExport script = some obj)
    (hfield : getField script obj "properties" = some props)
    (harr : getAt script props = some (.mk "[]" a entries)) :
    ∃ script', option script name
        = some { script := script', node := [props ++ [entries.length]], detached := true } ∧
      replaceAt script props (.mk "[]" a (entries ++ [("", makeOptionProp name)])) = some script' ∧
      getAt script' (props ++ [entries.length]) = some (makeOptionProp name) := by
  obtain ⟨script', hrep, hget⟩ := replaceAt_getAt script _
    (.mk "[]" a (entries ++ [("", makeOptionProp name)])) _ harr
  refine ⟨script', ?_, hrep, ?_⟩
  · unfold option
    simp only [hfind, List.length_nil, beq_self_eq_true, if_true, hexport, hfield, harr,
      pushAt_eq_replaceAt _ _ _ a entries harr, hrep, Option.map_some', Node.kids]
  · rw [getAt_child _ _ _ _ _ entries.length hget, getElem?_middle]
    rfl

/-- C17, amended. On a component whose option has the shape the editor
writes (`props` a list or a map; `computed`, `watch`, `methods` an object
literal; `data` a function whose first return statement returns an object
literal), each additive operation returns, and the component afterwards is
the one before with one new entry of the name at the end of the option, behind
the entries that were there, whether or not one of them has that name; the
value of `addData` is taken to parse as an expression. -/
theorem C17_additive_operations_append (g : ScriptGrammar) (script : Node)
    (name val : String) (node : Option Node) (expression : Node) (opt : OptionResult)
    (first : Path) (pa va a fa ba sa ra oa : List (String × Prim)) (k params : Node)
    (entries stmts more : List (String × Node)) (hfirst : opt.node.head? = some first) :
    (option script "props" = some opt →
      getAt opt.script first = some (listOption pa va a k entries) →
      ∃ script', addProp script name = some script' ∧
        replaceAt opt.script first
          (listOption pa va a k (entries ++ [("", literal (.str name))])) = some script') ∧
    (option script "props" = some opt →
      getAt opt.script first = some (mapOption pa va a k entries) →
      ∃ script', addProp script name = some script' ∧
        replaceAt opt.script first
          (mapOption pa va a k (entries ++ [("", objProp name object [])])) = some script') ∧
    (option script "data" = some opt →
      getAt opt.script first
        = some (dataOption pa fa ba sa k params stmts (returnsObject ra oa a entries) more) →
      noneOfType "ReturnStatement" k = true → noneOfType "ReturnStatement" params = true →
      allKids (fun m => m.type != "ReturnStatement") stmts = true →
      parseExpression g val = some (some expression) →
      ∃ script', addData g script name val = some script' ∧
        replaceAt opt.script first
          (dataOption pa fa ba sa k params stmts
            (returnsObject ra oa a (entries ++ [("", objProp name expression [])])) more)
          = some script') ∧
    (option script "computed" = some opt →
      getAt opt.script first = some (mapOption pa va a k entries) →
      ∃ script', addComputed script name node = some script' ∧
        replaceAt opt.script first
          (mapOption pa va a k (entries ++ [("", functionEntry name node)])) = some script') ∧
    (option script "watch" = some opt →
      getAt opt.script first = some (mapOption pa va a k entries) →
      ∃ script', addWatcher script name node = some script' ∧
        replaceAt opt.script first
          (mapOption pa va a k (entries ++ [("", watcherEntry name node)])) = some script') ∧
    (option script "methods" = some opt →
      getAt opt.script first = some (mapOption pa va a k entries) →
      ∃ script', addMethod script name node = some script' ∧
        replaceAt opt.script first
          (mapOption pa va a k (entries ++ [("", functionEntry name node)])) = some script') := by
  refine ⟨?_, ?_, ?_, ?_, ?_, ?_⟩
  · intro hopt hshape
    exact addProp_list_appends script name opt first pa va a k entries hopt hfirst hshape
  · intro hopt hshape
    exact addProp_map_appends script name opt first pa va a k entries hopt hfirst hshape
  · intro hopt hshape hk hparams hstmts hval
    exact addData_appends g script name val expression opt first pa fa ba sa ra oa a k params
      stmts more entries hopt hfirst hshape hk hparams hstmts hval
  · intro hopt hshape
    exact pushEntry_appends script "computed" (functionEntry name node) opt first pa va a k
      entries hopt hfirst hshape
  · intro hopt hshape
    exact pushEntry_appends script "watch" (watcherEntry name node) opt first pa va a k
      entries hopt hfirst hshape
  · intro hopt hshape
    exact pushEntry_appends script "methods" (functionEntry name node) opt first pa va a k
      entries hopt hfirst hshape

/-- The additive operations on example components: `addProp('foo')` on
`props: ['foo']` and on `props: { foo: { default: true }, bar: {} }`,
`addData`, `addComputed` and `addWatcher` on `export default {}`, where the
option is made first, and `addMethod('foo')` on `methods: { foo() {} }`,
which then has two entries `foo`. -/
theorem C17_witness :
    (∃ script', addProp propsFoo "foo" = some script' ∧
      replaceAt propsFoo [0, 0, 0, 0, 0, 0]
        (listOption plainAttrs [] [] (identifier "props")
          ([("", literal (.str "foo"))] ++ [("", literal (.str "foo"))])) = some script') ∧
    (∃ script', addProp propsFooDefaultBar "foo" = some script' ∧
      replaceAt propsFooDefaultBar [0, 0, 0, 0, 0, 0]
        (mapOption plainAttrs [] [] (identifier "props")
          ([("", objProp "foo" (objectExpression [objProp "default" (literal (.bool true)) []]) []),
            ("", objProp "bar" object [])] ++ [("", objProp "foo" object [])])) = some script') ∧
    (∃ script', addData identifierGrammar (exportDefault []) "foo" "x" = some script' ∧
      replaceAt (exportDefault [makeOptionProp "data"]) [0, 0, 0, 0, 0, 0]
        (dataOption methodAttrs [("id", .null)] [] [] (identifier "data") (array []) []
          (returnsObject [] [] [] ([] ++ [("", objProp "foo" (identifier "x") [])])) [])
        = some script') ∧
    (∃ script', addComputed (exportDefault []) "foo" none = some script' ∧
      replaceAt (exportDefault [makeOptionProp "computed"]) [0, 0, 0, 0, 0, 0]
        (mapOption plainAttrs [] [] (identifier "computed")
          ([] ++ [("", functionEntry "foo" none)])) = some script') ∧
    (∃ script', addWatcher (exportDefault []) "foo" none = some script' ∧
      replaceAt (exportDefault [makeOptionProp "watch"]) [0, 0, 0, 0, 0, 0]
        (mapOption plainAttrs [] [] (identifier "watch")
          ([] ++ [("", watcherEntry "foo" none)])) = some script') ∧
    (∃ script', addMethod methodsFoo "foo" none = some script' ∧
      replaceAt methodsFoo [0, 0, 0, 0, 0, 0]
        (mapOption plainAttrs [] [] (identifier "methods")
          ([("", method "foo" [])] ++ [("", functionEntry "foo" none)])) = some script') :=
  ⟨(C17_additive_operations_append identifierGrammar propsFoo "foo" "x" none (identifier "x")
      { script := propsFoo, node := [[0, 0, 0, 0, 0, 0]], detached := false }
      [0, 0, 0, 0, 0, 0] plainAttrs [] [] [] [] [] [] [] (identifier "props") (array [])
      [("", literal (.str "foo"))] [] [] rfl).1 (by decide) (by decide),
   (C17_additive_operations_append identifierGrammar propsFooDefaultBar "foo" "x" none
      (identifier "x")
      { script := propsFooDefaultBar, node := [[0, 0, 0, 0, 0, 0]], detached := false }
      [0, 0, 0, 0, 0, 0] plainAttrs [] [] [] [] [] [] [] (identifier "props") (array [])
      [("", objProp "foo" (objectExpression [objProp "default" (literal (.bool true)) []]) []),
       ("", objProp "bar" object [])] [] [] rfl).2.1 (by decide) (by decide),
   (C17_additive_operations_append identifierGrammar (exportDefault []) "foo" "x" none
      (identifier "x")
      { script := exportDefault [makeOptionProp "data"], node := [[0, 0, 0, 0, 0, 0]],
        detached := true }
      [0, 0, 0, 0, 0, 0] methodAttrs [] [] [("id", .null)] [] [] [] [] (identifier "data")
      (array []) [] [] [] rfl).2.2.1 (by decide) (by decide) (by decide) (by decide) (by decide)
      (by decide),
   (C17_additive_operations_append identifierGrammar (exportDefault []) "foo" "x" none
      (identifier "x")
      { script := exportDefault [makeOptionProp "computed"], node := [[0, 0, 0, 0, 0, 0]],
        detached := true }
      [0, 0, 0, 0, 0, 0] plainAttrs [] [] [] [] [] [] [] (identifier "computed") (array [])
      [] [] [] rfl).2.2.2.1 (by decide) (by decide),
   (C17_additive_operations_append identifierGrammar (exportDefault []) "foo" "x" none
      (identifier "x")
      { script := exportDefault [makeOptionProp "watch"], node := [[0, 0, 0, 0, 0, 0]],
        detached := true }
      [0, 0, 0, 0, 0, 0] plainAttrs [] [] [] [] [] [] [] (identifier "watch") (array [])
      [] [] [] rfl).2.2.2.2.1 (by decide) (by decide),
   (C17_additive_operations_append identifierGrammar methodsFoo "foo" "x" none
      (identifier "x")
      { script := methodsFoo, node := [[0, 0, 0, 0, 0, 0]], detached := false }
      [0, 0, 0, 0, 0, 0] plainAttrs [] [] [] [] [] [] [] (identifier "methods") (array [])
      [("", method "foo" [])] [] [] rfl).2.2.2.2.2 (by decide) (by decide)⟩

/-- C17, counterexample. The component `export default { data: () => ({ a: 1 }) }`
has the option `data`, a function that returns an object literal without a
return statement; `addData('b', 'x')` throws on it. -/
theorem C17_counterexample :
    findOption arrowData "data" = some [[0, 0, 0, 0, 0, 0]] ∧
    addData identifierGrammar arrowData "b" "x" = none := by
  decide

/-! ## Theorems: completeness of `find`, and `remove` below a path -/

mutual
/-- A matching node of a subtree is found. -/
theorem findFrom_complete (type : String) (filter : Node → Bool) :
    ∀ (n : Node) (here q : Path) (m : Node), getAt n q = some m → m.type = type →
      filter m = true → here ++ q ∈ findFrom type filter here n
  | .mk t a kids, here, [], m, hm, ht, hf => by
      rw [getAt_nil] at hm
      cases hm
      simp only [Node.type] at ht
      subst ht
      simp [findFrom, hf]
  | .mk t a kids, here, i :: rest, m, hm, ht, hf => by
      rw [getAt_cons] at hm
      rw [findFrom, List.mem_append]
      right
      cases hk : kids[i]? with
      | none => simp [hk] at hm
      | some lk =>
          simp only [hk, Option.some_bind] at hm
          have := findKids_complete type filter kids here 0 i lk rest m hk hm ht hf
          simpa using this
/-- A matching node below a child is found. -/
theorem findKids_complete (type : String) (filter : Node → Bool) :
    ∀ (kids : List (String × Node)) (here : Path) (i j : Nat) (lk : String × Node) (q : Path)
      (m : Node), kids[j]? = some lk → getAt lk.2 q = some m → m.type = type →
      filter m = true → here ++ (i + j) :: q ∈ findKids type filter here i kids
  | [], _, _, j, _, _, _, hj, _, _, _ => by simp at hj
  | (l, k) :: rest, here, i, 0, lk, q, m, hj, hm, ht, hf => by
      simp only [List.getElem?_cons_zero, Option.some.injEq] at hj
      subst hj
      rw [findKids, List.mem_append]
      left
      have := findFrom_complete type filter k (here ++ [i]) q m hm ht hf
      simpa using this
  | (l, k) :: rest, here, i, j + 1, lk, q, m, hj, hm, ht, hf => by
      simp only [List.getElem?_cons_succ] at hj
      rw [findKids, List.mem_append]
      right
      have := findKids_complete type filter rest here (i + 1) j lk q m hj hm ht hf
      have he : i + (j + 1) = i + 1 + j := by omega
      rw [he]
      exact this
end

/-- A matching node below a path of the collection is found. -/
theorem find_complete (root : Node) (type : String) (filter : Node → Bool) :
    ∀ (coll : List Path) (c q : Path) (m : Node), c ∈ coll → q ≠ [] →
      getAt root (c ++ q) = some m → m.type = type → filter m = true →
      c ++ q ∈ find root coll type filter
  | [], _, _, _, hc, _, _, _, _ => by simp at hc
  | c0 :: rest, c, q, m, hc, hq, hm, ht, hf => by
      rw [find, List.mem_append]
      rcases List.mem_cons.mp hc with hc | hc
      · left
        subst hc
        rw [getAt_append] at hm
        unfold findBelow
        cases hsub : getAt root c with
        | none => simp [hsub] at hm
        | some sub =>
            simp only [hsub, Option.some_bind] at hm
            obtain ⟨t, a, kids⟩ := sub
            cases q with
            | nil => exact absurd rfl hq
            | cons i q' =>
                rw [getAt_cons] at hm
                cases hk : kids[i]? with
                | none => simp [hk] at hm
                | some lk =>
                    simp only [hk, Option.some_bind] at hm
                    have := findKids_complete type filter kids c 0 i lk q' m hk hm ht hf
                    simpa using this
      · right
        exact find_complete root type filter rest c q m hc hq hm ht hf

mutual
/-- Pruning with a test that nothing passes leaves a subtree as it is. -/
theorem pruneWhere_false : ∀ n : Node, pruneWhere (fun _ => false) n = n
  | .mk t a kids => by rw [pruneWhere, pruneWhereKids_false kids]
/-- Pruning with a test that nothing passes leaves the children as they are. -/
theorem pruneWhereKids_false :
    ∀ kids : List (String × Node), pruneWhereKids (fun _ => false) kids = kids
  | [] => by rw [pruneWhereKids]
  | (l, k) :: rest => by
      rw [pruneWhereKids, pruneWhere_false k, pruneWhereKids_false rest]
      simp
end

mutual
/-- When the doomed paths below a node are those of its descendants that pass
a test, `pruneNode` leaves what `pruneWhere` does. -/
theorem pruneNode_eq_pruneWhere (doomed : List Path) (P : Node → Bool) :
    ∀ (n : Node) (here : Path),
      (∀ (q : Path) (m : Node), q ≠ [] → getAt n q = some m →
        doomed.contains (here ++ q) = P m) →
      pruneNode doomed here n = pruneWhere P n
  | .mk t a kids, here, h => by
      rw [pruneNode, pruneWhere]
      congr 1
      apply pruneKids_eq_pruneWhereKids doomed P kids here 0
      intro j lk q m hj hm
      have := h (j :: q) m (by simp) (by rw [getAt_cons, hj]; exact hm)
      simpa using this
/-- The children, likewise. -/
theorem pruneKids_eq_pruneWhereKids (doomed : List Path) (P : Node → Bool) :
    ∀ (kids : List (String × Node)) (here : Path) (i : Nat),
      (∀ (j : Nat) (lk : String × Node) (q : Path) (m : Node), kids[j]? = some lk →
        getAt lk.2 q = some m → doomed.contains (here ++ (i + j) :: q) = P m) →
      pruneKids doomed here i kids = pruneWhereKids P kids
  | [], _, _, _ => by rw [pruneKids, pruneWhereKids]
  | (l, k) :: rest, here, i, h => by
      rw [pruneKids, pruneWhereKids]
      have h0 : doomed.contains (here ++ [i]) = P k := by
        have := h 0 (l, k) [] k (by simp) (getAt_nil _)
        simpa using this
      have hrest : pruneKids doomed here (i + 1) rest = pruneWhereKids P rest := by
        apply pruneKids_eq_pruneWhereKids doomed P rest here (i + 1)
        intro j lk q m hj hm
        have := h (j + 1) lk q m (by simpa using hj) hm
        have he : i + (j + 1) = i + 1 + j := by omega
        rw [he] at this
        exact this
      have hk : pruneNode doomed (here ++ [i]) k = pruneWhere P k := by
        apply pruneNode_eq_pruneWhere doomed P k (here ++ [i])
        intro q m hq hm
        have := h 0 (l, k) q m (by simp) hm
        simpa using this
      rw [h0, hrest, hk]
end

/-- A subtree below which no path is doomed is left as it is. -/
theorem pruneNode_id (doomed : List Path) (n : Node) (here : Path)
    (h : ∀ (q : Path), q ≠ [] → doomed.contains (here ++ q) = false) :
    pruneNode doomed here n = n := by
  rw [pruneNode_eq_pruneWhere doomed (fun _ => false) n here (fun q _ hq _ => h q hq)]
  exact pruneWhere_false n

/-- The children of a node none of which is doomed are pruned each in its
place. -/
theorem pruneKids_getElem? (doomed : List Path) :
    ∀ (kids : List (String × Node)) (here : Path) (i : Nat),
      (∀ j, j < kids.length → doomed.contains (here ++ [i + j]) = false) →
      ∀ j, (pruneKids doomed here i kids)[j]?
        = (kids[j]?).map (fun lk => (lk.1, pruneNode doomed (here ++ [i + j]) lk.2))
  | [], _, _, _, j => by simp [pruneKids]
  | (l, k) :: rest, here, i, h, j => by
      have h0 : doomed.contains (here ++ [i]) = false := by
        have := h 0 (by simp)
        simpa using this
      rw [pruneKids]
      simp only [h0, Bool.false_eq_true, if_false]
      cases j with
      | zero => simp
      | succ j =>
          simp only [List.getElem?_cons_succ]
          rw [pruneKids_getElem? doomed rest here (i + 1)
            (fun j' hj' => by
              have := h (j' + 1) (by simpa using hj')
              have he : i + (j' + 1) = i + 1 + j' := by omega
              rw [he] at this
              exact this) j]
          have he : i + 1 + j = i + (j + 1) := by omega
          rw [he]

/-- When the doomed paths are those of the proper descendants of the node at
`pe` that pass a test, `pruneNode` replaces that node by what `pruneWhere`
leaves of it. -/
theorem pruneNode_local (doomed : List Path) (P : Node → Bool) :
    ∀ (pe : Path) (root : Node) (here : Path) (sub : Node), getAt root pe = some sub →
      (∀ p : Path, doomed.contains (here ++ p) = true ↔
        ∃ q m, q ≠ [] ∧ p = pe ++ q ∧ getAt sub q = some m ∧ P m = true) →
      replaceAt root pe (pruneWhere P sub) = some (pruneNode doomed here root)
  | [], root, here, sub, hsub, h => by
      rw [getAt_nil] at hsub
      cases hsub
      rw [pruneNode_eq_pruneWhere doomed P root here]
      · simp [replaceAt, modifyAt]
      · intro q m hq hm
        cases hP : P m with
        | true =>
            exact (h q).mpr ⟨q, m, hq, by simp, hm, hP⟩
        | false =>
            cases hc : doomed.contains (here ++ q) with
            | false => rfl
            | true =>
                obtain ⟨q', m', _, hq', hm', hP'⟩ := (h q).mp hc
                simp only [List.nil_append] at hq'
                subst hq'
                rw [hm] at hm'
                cases hm'
                rw [hP] at hP'
                cases hP'
  | i :: rest, .mk t a kids, here, sub, hsub, h => by
      rw [getAt_cons] at hsub
      cases hk : kids[i]? with
      | none => simp [hk] at hsub
      | some lk =>
          obtain ⟨l, k⟩ := lk
          simp only [hk, Option.some_bind] at hsub
          have hi : i < kids.length := by
            rcases Nat.lt_or_ge i kids.length with h' | h'
            · exact h'
            · rw [List.getElem?_eq_none h'] at hk
              cases hk
          have ih := pruneNode_local doomed P rest k (here ++ [i]) sub hsub
            (by
              intro p
              rw [List.append_assoc]
              constructor
              · intro hc
                obtain ⟨q, m, hq, hp, hm, hP⟩ := (h ([i] ++ p)).mp hc
                simp only [List.singleton_append, List.cons_append, List.cons.injEq,
                  true_and] at hp
                exact ⟨q, m, hq, hp, hm, hP⟩
              · rintro ⟨q, m, hq, hp, hm, hP⟩
                exact (h ([i] ++ p)).mpr ⟨q, m, hq, by simp [hp], hm, hP⟩)
          have hundoomed : ∀ j, j < kids.length → doomed.contains (here ++ [0 + j]) = false := by
            intro j _
            cases hc : doomed.contains (here ++ [0 + j]) with
            | false => rfl
            | true =>
                obtain ⟨q, m, hq, hp, _, _⟩ := (h [0 + j]).mp hc
                have hlen := congrArg List.length hp
                simp only [List.length_singleton, List.cons_append, List.length_cons,
                  List.length_append] at hlen
                cases q with
                | nil => exact absurd rfl hq
                | cons _ _ => simp at hlen
          have hkids : pruneKids doomed here 0 kids
              = kids.set i (l, pruneNode doomed (here ++ [i]) k) := by
            apply List.ext_getElem?
            intro j
            rw [pruneKids_getElem? doomed kids here 0 hundoomed j, List.getElem?_set]
            by_cases hji : i = j
            · subst hji
              simp [hk, hi]
            · simp only [hji, if_false, Nat.zero_add]
              cases hj : kids[j]? with
              | none => rfl
              | some lk' =>
                  simp only [Option.map_some', Option.some.injEq]
                  rw [pruneNode_id doomed lk'.2 (here ++ [j])]
                  intro q hq
                  cases hc : doomed.contains (here ++ [j] ++ q) with
                  | false => rfl
                  | true =>
                      rw [List.append_assoc] at hc
                      obtain ⟨q', m, _, hp, _, _⟩ := (h ([j] ++ q)).mp hc
                      simp only [List.singleton_append, List.cons_append, List.cons.injEq] at hp
                      exact absurd hp.1.symm hji
          rw [pruneNode, hkids]
          unfold replaceAt at ih ⊢
          rw [modifyAt_cons, hk]
          simp only [Option.some_bind, ih, Option.map_some']

/-- A path is doomed when it is in the list of the doomed paths. -/
theorem contains_eq_true_iff (doomed : List Path) (q : Path) :
    doomed.contains q = true ↔ q ∈ doomed := by
  simp

/-- A path shorter than every doomed path is not doomed. -/
theorem contains_false_of_short (doomed : List Path) (n : Nat) (q : Path)
    (h : ∀ p ∈ doomed, n < p.length) (hq : q.length ≤ n) : doomed.contains q = false := by
  cases hc : doomed.contains q with
  | false => rfl
  | true =>
      have hmem : q ∈ doomed := by simpa using hc
      have := h q hmem
      omega

/-- The first part of a path is where it was after a removal when every
removed node lies deeper than it. -/
theorem relocate_append (doomed : List Path) (n : Nat) (h : ∀ p ∈ doomed, n < p.length) :
    ∀ (p1 done p2 : Path), done.length + p1.length ≤ n →
      relocate doomed done (p1 ++ p2)
        = (relocate doomed (done ++ p1) p2).map (fun p2' => p1 ++ p2')
  | [], done, p2, _ => by simp
  | i :: rest, done, p2, hlen => by
      simp only [List.length_cons] at hlen
      have hnot : ∀ k, doomed.contains (done ++ [k]) = false := by
        intro k
        apply contains_false_of_short doomed n _ h
        simp
        omega
      have hshift : ((List.range i).filter (fun _ => false)).length = 0 := by
        simp
      rw [List.cons_append, relocate]
      simp only [hnot, Bool.false_eq_true, if_false, hshift, Nat.sub_zero]
      rw [relocate_append doomed n h rest (done ++ [i]) p2 (by simp; omega)]
      simp only [List.append_assoc, List.singleton_append]
      cases relocate doomed (done ++ i :: rest) p2 <;> rfl

/-- A path is where it was after a removal when every removed node lies
deeper than it. -/
theorem relocate_short (doomed : List Path) (n : Nat) (h : ∀ p ∈ doomed, n < p.length)
    (path : Path) (hlen : path.length ≤ n) : relocate doomed [] path = some path := by
  have := relocate_append doomed n h path [] [] (by simpa using hlen)
  simpa [relocate] using this

/-! ## Theorems: `updateProp` between the list form and the map form -/

/-- A key that is no array index goes last. -/
theorem insertKey_none {α : Type} (key : String) (val : α) (h : arrayIndex key = none) :
    ∀ acc : List (String × α), insertKey key val acc = acc ++ [(key, val)]
  | [] => rfl
  | (k, v) :: rest => by
      rw [insertKey]
      simp only [h, insertKey_none key val h rest, List.cons_append]

/-- For names that differ from one another and are no array indices,
`mapWithKeys` keeps the names in their order. -/
theorem mapWithKeys_names :
    ∀ (names : List String) (acc : List (String × Unit)),
      (acc.map Prod.fst ++ names).Nodup → (∀ n ∈ names, arrayIndex n = none) →
      (names.map (fun n => some (Prim.str n))).foldl
          (fun acc value => assignKey acc (propertyKey value, ()).1 (propertyKey value, ()).2) acc
        = acc ++ names.map (fun n => (n, ()))
  | [], acc, _, _ => by simp
  | n :: rest, acc, hnodup, hidx => by
      have hn : n ∉ acc.map Prod.fst := by
        intro hmem
        have := List.nodup_append.mp hnodup
        exact this.2.2 hmem (List.mem_cons_self _ _)
      have hany : acc.any (fun kv => kv.1 == n) = false := by
        cases h : acc.any (fun kv => kv.1 == n) with
        | false => rfl
        | true =>
            simp only [List.any_eq_true, beq_iff_eq] at h
            obtain ⟨kv, hkv, he⟩ := h
            exact absurd (List.mem_map.mpr ⟨kv, hkv, he⟩) hn
      have hstep : assignKey acc (propertyKey (some (Prim.str n)), ()).1
          (propertyKey (some (Prim.str n)), ()).2 = acc ++ [(n, ())] := by
        simp only [propertyKey, assignKey, hany, Bool.false_eq_true, if_false,
          insertKey_none n () (hidx n (List.mem_cons_self _ _)) acc]
      rw [List.map_cons, List.foldl_cons]
      show List.foldl _ (assignKey acc (propertyKey (some (Prim.str n)), ()).1
          (propertyKey (some (Prim.str n)), ()).2) _ = _
      rw [hstep, mapWithKeys_names rest (acc ++ [(n, ())])
        (by
          simp only [List.map_append, List.map_cons, List.map_nil, List.append_assoc,
            List.singleton_append]
          exact hnodup)
        (fun m hm => hidx m (List.mem_cons_of_mem _ hm))]
      simp

/-- The map that `updateProp` makes of a list of names that differ from one
another and are no array indices: an entry with empty metadata for each name,
in the order of the list. -/
theorem propsObject_names (names : List String) (elements : List (String × Node))
    (hvalues : elements.map (fun el => el.2.attr "value") = names.map (fun n => some (Prim.str n)))
    (hnodup : names.Nodup) (hidx : ∀ n ∈ names, arrayIndex n = none) :
    propsObject elements
      = .mk "ObjectExpression" [] [("properties", .mk "[]" [] (emptyEntries names))] := by
  unfold propsObject mapWithKeys
  rw [hvalues, mapWithKeys_names names [] (by simpa using hnodup) hidx]
  simp [objectExpression, array, emptyEntries, List.map_map, Function.comp]

/-- An entry with empty metadata is the entry `metaEntry` without metadata. -/
theorem objProp_empty_eq (name : String) : objProp name object [] = metaEntry name [] := rfl

/-- Entries with empty metadata of other names hold no property keyed by a
name. -/
theorem findKids_emptyEntries_absent (name : String) (l : List String) (here : Path) (i : Nat)
    (h : name ∉ l) :
    findKids "Property" (hasKeyNamed name) here i (emptyEntries l) = [] := by
  apply findKids_nil
  unfold emptyEntries
  apply allKids_map _ (fun n => objProp n object [])
  intro n hn
  apply objProp_empty_absent
  intro he
  exact h (he ▸ hn)

/-- The properties found in entries with empty metadata are the entries. -/
theorem findKids_emptyEntries_all :
    ∀ (l : List String) (here : Path) (i : Nat),
      findKids "Property" (fun _ => true) here i (emptyEntries l)
        = (List.range l.length).map (fun j => here ++ [i + j])
  | [], _, _ => by simp [emptyEntries, findKids]
  | n :: rest, here, i => by
      have hrest := findKids_emptyEntries_all rest here (i + 1)
      unfold emptyEntries at hrest ⊢
      rw [List.map_cons, findKids, hrest]
      have hone : findFrom "Property" (fun _ => true) (here ++ [i]) (objProp n object [])
          = [here ++ [i]] := by
        have h1 : ("Identifier" == "Property") = false := by decide
        have h2 : ("ObjectExpression" == "Property") = false := by decide
        have h3 : ("[]" == "Property") = false := by decide
        simp [objProp, assocIn, property, identifier, object, objectExpression, array, findFrom,
          findKids, h1, h2, h3]
      rw [hone, List.length_cons, List.range_succ_eq_map, List.map_cons, List.map_map]
      simp only [Nat.add_zero, List.singleton_append, List.cons.injEq, true_and]
      apply List.map_congr_left
      intro j _
      simp only [Function.comp]
      congr 2
      omega

/-- A replacement at a path where one was made is the replacement in the
tree before. -/
theorem replaceAt_replaceAt (x y : Node) :
    ∀ (p : Path) (root root1 : Node), replaceAt root p x = some root1 →
      replaceAt root1 p y = replaceAt root p y
  | [], root, root1, _ => by simp [replaceAt, modifyAt]
  | i :: rest, .mk t a kids, root1, h => by
      unfold replaceAt at h ⊢
      rw [modifyAt_cons] at h ⊢
      cases hk : kids[i]? with
      | none => simp [hk] at h
      | some lk =>
          simp only [hk, Option.some_bind] at h ⊢
          cases hm : modifyAt (fun _ => some x) lk.2 rest with
          | none => simp [hm] at h
          | some k1 =>
              simp only [hm, Option.map_some', Option.some.injEq] at h
              have hi : i < kids.length := by
                rcases Nat.lt_or_ge i kids.length with h' | h'
                · exact h'
                · rw [List.getElem?_eq_none h'] at hk
                  cases hk
              have ih := replaceAt_replaceAt x y rest lk.2 k1 hm
              unfold replaceAt at ih
              rw [← h, modifyAt_cons]
              simp only [List.getElem?_set, hi, if_true, Option.some_bind, ih, List.set_set]

/-- The search for properties in the option `props` in map form, part by
part. -/
theorem findKids_propsMap (filter : Node → Bool) (here : Path) (pa : List (String × Prim))
    (k : Node) (pre : List String) (name : String) (metas : List (String × Node))
    (post : List String) :
    findKids "Property" filter here 0 (propsMap pa k pre name metas post).kids
      = findFrom "Property" filter (here ++ [0]) k
        ++ (findKids "Property" filter (here ++ [1, 0]) 0 (emptyEntries pre)
          ++ (findFrom "Property" filter (here ++ [1, 0, pre.length]) (metaEntry name metas)
            ++ findKids "Property" filter (here ++ [1, 0]) (pre.length + 1)
                (emptyEntries post))) := by
  have h2 : ("ObjectExpression" == "Property") = false := by decide
  have h3 : ("[]" == "Property") = false := by decide
  have hlen : (emptyEntries pre).length = pre.length := by simp [emptyEntries]
  simp only [propsMap, mapOption, Node.kids, findKids, findFrom, h2, h3, Bool.false_and,
    Bool.false_eq_true, if_false, List.nil_append, List.append_nil, findKids_append, hlen,
    Nat.zero_add, List.append_assoc, List.singleton_append, List.cons_append]

/-- The node of the entry `name` in the option `props` in map form. -/
theorem getAt_propsMap_entry (pa : List (String × Prim)) (k : Node) (pre : List String)
    (name : String) (metas : List (String × Node)) (post : List String) :
    getAt (propsMap pa k pre name metas post) [1, 0, pre.length]
      = some (metaEntry name metas) := by
  have hlen : (emptyEntries pre).length = pre.length := by simp [emptyEntries]
  simp only [propsMap, mapOption, getAt_cons, List.getElem?_cons_succ, List.getElem?_cons_zero,
    Option.some_bind, ← hlen, getElem?_middle, getAt_nil]

/-- The replacement of the entry `name` in the option `props` in map form. -/
theorem replaceAt_propsMap_entry (pa : List (String × Prim)) (k : Node) (pre : List String)
    (name : String) (metas : List (String × Node)) (post : List String) (x : Node) :
    replaceAt (propsMap pa k pre name metas post) [1, 0, pre.length] x
      = some (mapOption pa [] [] k (emptyEntries pre ++ ("", x) :: emptyEntries post)) := by
  have hlen : (emptyEntries pre).length = pre.length := by simp [emptyEntries]
  simp only [replaceAt, propsMap, mapOption, modifyAt_cons, List.getElem?_cons_succ,
    List.getElem?_cons_zero, Option.some_bind, ← hlen, getElem?_middle, modifyAt,
    Option.map_some', set_middle, List.set_cons_succ, List.set_cons_zero]

/-- Setting the element of a position to itself leaves a list as it is. -/
theorem set_getElem?_self {α : Type} (l : List α) (i : Nat) (x : α) (h : l[i]? = some x) :
    l.set i x = l := by
  apply List.ext_getElem?
  intro j
  rw [List.getElem?_set]
  split
  · next hij =>
      subst hij
      split
      · exact h.symm
      · next hlt => rw [List.getElem?_eq_none (Nat.le_of_not_lt hlt)]
  · rfl

/-- Replacing a node by itself leaves the tree as it is. -/
theorem replaceAt_self :
    ∀ (p : Path) (root n : Node), getAt root p = some n → replaceAt root p n = some root
  | [], root, n, h => by
      rw [getAt_nil] at h
      cases h
      simp [replaceAt, modifyAt]
  | i :: rest, .mk t a kids, n, h => by
      rw [getAt_cons] at h
      unfold replaceAt
      rw [modifyAt_cons]
      cases hk : kids[i]? with
      | none => simp [hk] at h
      | some lk =>
          simp only [hk, Option.some_bind] at h ⊢
          have ih := replaceAt_self rest lk.2 n h
          unfold replaceAt at ih
          rw [ih]
          simp only [Option.map_some', Option.some.injEq, Node.mk.injEq, true_and]
          exact set_getElem?_self kids i _ hk

/-- The values of results that are all there. -/
theorem collect_map {α β : Type} (f : α → Option β) (g : α → β) :
    ∀ l : List α, (∀ x ∈ l, f x = some (g x)) → collect (l.map f) = some (l.map g)
  | [], _ => rfl
  | x :: rest, h => by
      rw [List.map_cons, h x (List.mem_cons_self _ _), collect,
        collect_map f g rest (fun y hy => h y (List.mem_cons_of_mem _ hy))]
      rfl

/-- A list of booleans with a `false` in it has fewer entries `true` than
entries. -/
theorem filter_length_lt_of_false :
    ∀ bs : List Bool, false ∈ bs → (bs.filter (fun b => b)).length < bs.length
  | [], h => by simp at h
  | b :: rest, h => by
      cases b with
      | false =>
          simp only [List.filter_cons, Bool.false_eq_true, if_false, List.length_cons]
          exact Nat.lt_succ_of_le (List.length_filter_le _ _)
      | true =>
          simp only [List.mem_cons, Bool.false_eq_true, false_or] at h
          simp only [List.filter_cons, if_true, List.length_cons]
          exact Nat.succ_lt_succ (filter_length_lt_of_false rest h)

/-- A map over the positions of a list that reads the element at each
position is a map over the list. -/
theorem map_range_eq_map {α β : Type} (l : List α) (f : Nat → β) (g : α → β)
    (h : ∀ j x, l[j]? = some x → f j = g x) : (List.range l.length).map f = l.map g := by
  apply List.ext_getElem?
  intro j
  by_cases hj : j < l.length
  · simp only [List.getElem?_map, List.getElem?_range hj, Option.map_some',
      List.getElem?_eq_getElem hj]
    rw [h j l[j] (List.getElem?_eq_getElem hj)]
  · have hj' : l.length ≤ j := Nat.le_of_not_lt hj
    simp [List.getElem?_eq_none, hj']

/-- A subtree without a property holds properties with a value only. -/
theorem propertiesHaveValue_of_none (n : Node) (h : noneOfType "Property" n = true) :
    propertiesHaveValue n = true := by
  apply allNodes_mono _ _ _ n h
  intro m hm
  simp only [hm, Bool.true_or]

/-- A subtree without a property yields no path in a search for properties. -/
theorem findFrom_noProperty (filter : Node → Bool) (n : Node) (here : Path)
    (h : noneOfType "Property" n = true) : findFrom "Property" filter here n = [] := by
  apply findFrom_nil
  apply allNodes_mono _ _ _ n h
  intro m hm
  simp only [bne_iff_ne, ne_eq] at hm
  have : (m.type == "Property") = false := by simpa using hm
  simp [this]

/-- A replacement below the option `props` in map form, inside the entry
`name`, is the replacement of the option by the one with the new entry. -/
theorem replaceAt_in_entry (root root' : Node) (base q : Path) (pa : List (String × Prim))
    (k : Node) (pre : List String) (name : String) (metas metas' : List (String × Node))
    (post : List String) (x : Node)
    (hbase : getAt root base = some (propsMap pa k pre name metas post))
    (hentry : replaceAt (metaEntry name metas) q x = some (metaEntry name metas'))
    (hrep : replaceAt root ((base ++ [1, 0, pre.length]) ++ q) x = some root') :
    replaceAt root base (propsMap pa k pre name metas' post) = some root' ∧
      getAt root' base = some (propsMap pa k pre name metas' post) := by
  have hpe : getAt root (base ++ [1, 0, pre.length]) = some (metaEntry name metas) := by
    rw [getAt_append, hbase]
    exact getAt_propsMap_entry pa k pre name metas post
  obtain ⟨n', hn', _, hr'⟩ := replaceAt_append root _ x _ q root' hpe hrep
  rw [hentry] at hn'
  cases hn'
  obtain ⟨n'', hn'', hg'', hr''⟩ := replaceAt_append root _ (metaEntry name metas') base
    [1, 0, pre.length] root' hbase hr'
  rw [replaceAt_propsMap_entry] at hn''
  cases hn''
  exact ⟨hr'', hg''⟩

/-- The loop of `updateProp` over attributes with values: each is put behind
the metadata of the entry, in the order of the attributes. -/
theorem updatePropLoop_adds (g : ScriptGrammar) (base : Path) (pa : List (String × Prim))
    (k : Node) (pre : List String) (name : String) (post : List String) (X : List Path) :
    ∀ (attrs : List (String × String)) (script : Node) (metas : List (String × Node)),
      getAt script base = some (propsMap pa k pre name metas post) →
      (∀ kv ∈ attrs, (parseAttrValue g kv.2).isSome = true) →
      ∃ script',
        updatePropLoop g (attrs.map (fun kv => (kv.1, some kv.2)))
            { script := script, props := [base], prop := (base ++ [1, 0, pre.length]) :: X }
          = some { script := script', props := [base],
                   prop := (base ++ [1, 0, pre.length]) :: X } ∧
        replaceAt script base (propsMap pa k pre name (metas ++ attrEntries g attrs) post)
          = some script' ∧
        getAt script' base
          = some (propsMap pa k pre name (metas ++ attrEntries g attrs) post)
  | [], script, metas, hbase, _ => by
      refine ⟨script, rfl, ?_, ?_⟩
      · simp only [attrEntries, List.filterMap_nil, List.append_nil]
        exact replaceAt_self base script _ hbase
      · simpa [attrEntries] using hbase
  | (a, v) :: rest, script, metas, hbase, hparse => by
      obtain ⟨nv, hnv⟩ := Option.isSome_iff_exists.mp (hparse (a, v) (List.mem_cons_self _ _))
      have hpe : getAt script (base ++ [1, 0, pre.length]) = some (metaEntry name metas) := by
        rw [getAt_append, hbase]
        exact getAt_propsMap_entry pa k pre name metas post
      have hvalue : getAt script ((base ++ [1, 0, pre.length]) ++ [1])
          = some (.mk "ObjectExpression" [] [("properties", .mk "[]" [] metas)]) := by
        rw [getAt_child _ _ _ _ _ 1 hpe]
        rfl
      have harr : getAt script (((base ++ [1, 0, pre.length]) ++ [1]) ++ [0])
          = some (.mk "[]" [] metas) := by
        rw [getAt_child _ _ _ _ _ 0 hvalue]
        rfl
      have hf1 : getField script (base ++ [1, 0, pre.length]) "value"
          = some ((base ++ [1, 0, pre.length]) ++ [1]) := by
        rw [getField_of_getAt _ _ _ _ hpe]
        rfl
      have hf2 : getField script ((base ++ [1, 0, pre.length]) ++ [1]) "properties"
          = some (((base ++ [1, 0, pre.length]) ++ [1]) ++ [0]) := by
        rw [getField_of_getAt _ _ _ _ hvalue]
        rfl
      obtain ⟨script1, hrep, _⟩ := replaceAt_getAt script _
        (.mk "[]" [] (metas ++ [("", objProp a nv [])])) _ harr
      have hrep' := hrep
      rw [List.append_assoc] at hrep'
      have hentry : replaceAt (metaEntry name metas) ([1] ++ [0])
          (.mk "[]" [] (metas ++ [("", objProp a nv [])]))
          = some (metaEntry name (metas ++ [("", objProp a nv [])])) := by
        simp [replaceAt, modifyAt, metaEntry]
      obtain ⟨hlift, hbase1⟩ := replaceAt_in_entry script script1 base ([1] ++ [0]) pa k pre name
        metas (metas ++ [("", objProp a nv [])]) post _ hbase hentry hrep'
      obtain ⟨script', hloop, hrep2, hget2⟩ := updatePropLoop_adds g base pa k pre name post X rest
        script1 (metas ++ [("", objProp a nv [])]) hbase1
        (fun kv hkv => hparse kv (List.mem_cons_of_mem _ hkv))
      have hentries : metas ++ attrEntries g ((a, v) :: rest)
          = (metas ++ [("", objProp a nv [])]) ++ attrEntries g rest := by
        simp [attrEntries, hnv]
      refine ⟨script', ?_, ?_, ?_⟩
      · rw [List.map_cons, updatePropLoop, updatePropStep]
        simp only [hnv, List.head?_cons, hf1, hf2, pushAt_eq_replaceAt _ _ _ [] metas harr, hrep,
          Option.map_some']
        exact hloop
      · rw [hentries, ← replaceAt_replaceAt _ _ base script script1 hlift]
        exact hrep2
      · rw [hentries]
        exact hget2

/-- The nodes of two child lists that are joined all pass a test when those
of each list do. -/
theorem allKids_append (P : Node → Bool) :
    ∀ (l1 l2 : List (String × Node)),
      allKids P (l1 ++ l2) = (allKids P l1 && allKids P l2)
  | [], l2 => by simp [allKids]
  | (l, k) :: rest, l2 => by
      rw [List.cons_append, allKids, allKids, allKids_append P rest l2, Bool.and_assoc]

/-- In the option `props` in map form every property has a value, when that
holds for the key of the option and for the metadata of the entry. -/
theorem propertiesHaveValue_propsMap (pa : List (String × Prim)) (k : Node) (pre : List String)
    (name : String) (metas : List (String × Node)) (post : List String)
    (hk : noneOfType "Property" k = true)
    (hmetas : allKids (fun m => m.type != "Property" || (m.kid "value").isSome) metas = true) :
    propertiesHaveValue (propsMap pa k pre name metas post) = true := by
  have hkW := propertiesHaveValue_of_none k hk
  unfold propertiesHaveValue at hkW ⊢
  have hempty : ∀ l : List String,
      allKids (fun m => m.type != "Property" || (m.kid "value").isSome) (emptyEntries l)
        = true := by
    intro l
    unfold emptyEntries
    apply allKids_map _ (fun n => objProp n object [])
    intro n _
    simp [objProp, assocIn, property, identifier, object, objectExpression, array, allNodes,
      allKids, Node.kid, Node.type, Node.kids, List.lookup]
  have hpre := hempty pre
  have hpost := hempty post
  generalize hWdef : (fun m : Node => m.type != "Property" || (m.kid "value").isSome) = W at *
  have hP : ∀ (a : List (String × Prim)) (key v : Node),
      W (.mk "Property" a [("key", key), ("value", v)]) = true := by
    intro a key v
    rw [← hWdef]
    simp [Node.kid, Node.kids, List.lookup]
  have hO : ∀ (a : List (String × Prim)) (ks : List (String × Node)),
      W (.mk "ObjectExpression" a ks) = true := by
    intro a ks
    rw [← hWdef]
    simp [Node.type]
  have hA : ∀ (a : List (String × Prim)) (ks : List (String × Node)),
      W (.mk "[]" a ks) = true := by
    intro a ks
    rw [← hWdef]
    simp [Node.type]
  have hI : ∀ (a : List (String × Prim)) (ks : List (String × Node)),
      W (.mk "Identifier" a ks) = true := by
    intro a ks
    rw [← hWdef]
    simp [Node.type]
  simp only [propsMap, mapOption, metaEntry, identifier, allNodes, allKids, allKids_append, hP,
    hO, hA, hI, hkW, hpre, hpost, hmetas, Bool.and_self]

/-- After `updateProp` has put metadata on an entry, the test of its last step
runs on every property below the option, and not all of them pass: the
entries are not all empty. -/
theorem updateProp_not_all_empty (script : Node) (base : Path) (pa : List (String × Prim))
    (k : Node) (pre : List String) (name : String) (metas : List (String × Node))
    (post : List String)
    (hbase : getAt script base = some (propsMap pa k pre name metas post))
    (hk : noneOfType "Property" k = true)
    (hmetas : allKids (fun m => m.type != "Property" || (m.kid "value").isSome) metas = true)
    (hne : metas ≠ []) :
    ∃ empty,
      collect ((find script [base] "Property" (fun _ => true)).map
        (fun p => (getAt script p).bind hasEmptyObject)) = some empty ∧
      ((find script [base] "Property" (fun _ => true)).length
        == (empty.filter (fun b => b)).length) = false := by
  have hW := propertiesHaveValue_propsMap pa k pre name metas post hk hmetas
  have hsome : ∀ p ∈ find script [base] "Property" (fun _ => true),
      (getAt script p).bind hasEmptyObject
        = some (((getAt script p).bind hasEmptyObject).getD false) := by
    intro p hp
    obtain ⟨c, q, m, hc, _, hpq, hm, ht, _⟩ := find_sound script _ _ _ p hp
    simp only [List.mem_singleton] at hc
    subst hc
    have hm' : getAt (propsMap pa k pre name metas post) q = some m := by
      rw [hpq, getAt_append, hbase] at hm
      exact hm
    have hWm := allNodes_self _ m (allNodes_getAt _ q _ m hW hm')
    simp only [ht, bne_self_eq_false, Bool.false_or] at hWm
    obtain ⟨v, hv⟩ := Option.isSome_iff_exists.mp hWm
    simp [hm, hasEmptyObject, hv]
  have hcollect := collect_map _ _ _ hsome
  refine ⟨_, hcollect, ?_⟩
  have hpe : getAt script (base ++ [1, 0, pre.length]) = some (metaEntry name metas) := by
    rw [getAt_append, hbase]
    exact getAt_propsMap_entry pa k pre name metas post
  have hmem : base ++ [1, 0, pre.length] ∈ find script [base] "Property" (fun _ => true) :=
    find_complete script _ _ [base] base [1, 0, pre.length] _ (List.mem_singleton.mpr rfl)
      (by simp) hpe rfl rfl
  have hfalse : false ∈ (find script [base] "Property" (fun _ => true)).map
      (fun p => ((getAt script p).bind hasEmptyObject).getD false) := by
    apply List.mem_map.mpr
    refine ⟨_, hmem, ?_⟩
    have hlen : metas.length ≠ 0 := fun h => hne (List.length_eq_zero.mp h)
    simp [hpe, hasEmptyObject, metaEntry, Node.kid, Node.type, Node.kids, List.lookup, hlen]
  have hlt := filter_length_lt_of_false _ hfalse
  simp only [List.length_map] at hlt
  simp only [beq_eq_false_iff_ne, ne_eq]
  omega

/-- The metadata that `updateProp` makes holds properties with a value only,
when that holds for the parsed values. -/
theorem attrEntries_haveValue (g : ScriptGrammar) :
    ∀ attrs : List (String × String),
      (∀ kv ∈ attrs, ∀ nv, parseAttrValue g kv.2 = some nv → propertiesHaveValue nv = true) →
      allKids (fun m => m.type != "Property" || (m.kid "value").isSome) (attrEntries g attrs)
        = true
  | [], _ => by simp [attrEntries, allKids]
  | (a, v) :: rest, h => by
      have ih := attrEntries_haveValue g rest (fun kv hkv => h kv (List.mem_cons_of_mem _ hkv))
      unfold attrEntries at ih ⊢
      rw [List.filterMap_cons]
      cases hnv : parseAttrValue g v with
      | none => simpa [hnv] using ih
      | some nv =>
          have hW := h (a, v) (List.mem_cons_self _ _) nv hnv
          unfold propertiesHaveValue at hW
          simp only [hnv, Option.map_some', allKids, ih, Bool.and_true]
          simp only [objProp, assocIn, List.foldl_nil, property, identifier, allNodes, allKids, hW,
            Bool.and_true]
          simp [Node.type, Node.kid, Node.kids, List.lookup]

/-- The metadata that `updateProp` makes for attributes that all parse has
one property for each attribute. -/
theorem attrEntries_ne_nil (g : ScriptGrammar) (attrs : List (String × String))
    (hne : attrs ≠ []) (hparse : ∀ kv ∈ attrs, (parseAttrValue g kv.2).isSome = true) :
    attrEntries g attrs ≠ [] := by
  cases attrs with
  | nil => exact absurd rfl hne
  | cons kv rest =>
      obtain ⟨nv, hnv⟩ := Option.isSome_iff_exists.mp (hparse kv (List.mem_cons_self _ _))
      simp [attrEntries, hnv]

/-- The only property with the key `name` in a map of props whose other
entries have empty metadata and other names, when the entry `name` has no
metadata. -/
theorem find_propsMap_empty_entry (script : Node) (base : Path) (pa : List (String × Prim))
    (k : Node) (pre : List String) (name : String) (post : List String)
    (hbase : getAt script base = some (propsMap pa k pre name [] post))
    (hk : noneOfType "Property" k = true) (hpre : name ∉ pre) (hpost : name ∉ post) :
    find script [base] "Property" (hasKeyNamed name) = [base ++ [1, 0, pre.length]] := by
  rw [find_local script _ base _ _ hbase, findKids_propsMap, findFrom_noProperty _ k _ hk,
    findKids_emptyEntries_absent name pre _ _ hpre,
    findKids_emptyEntries_absent name post _ _ hpost]
  have h1 : ("Identifier" == "Property") = false := by decide
  have h2 : ("ObjectExpression" == "Property") = false := by decide
  have h3 : ("[]" == "Property") = false := by decide
  simp [metaEntry, identifier, findFrom, findKids, hasKeyNamed, Node.kid, Node.attr, Node.kids,
    Node.attrs, List.lookup, h1, h2, h3]

/-- The method `updateProp` on a list of names that differ from one another
and are no array indices, for a name of the list and attributes with values
that parse: it returns, and `props` is the map of the names in their order
in which the entry of the name has the attributes, in their order, and the
other entries have empty metadata. -/
theorem updateProp_list_form (g : ScriptGrammar) (script : Node) (name : String)
    (opt : OptionResult) (base : Path) (pa va a : List (String × Prim)) (k : Node)
    (entries : List (String × Node)) (pre post : List String) (attrs : List (String × String))
    (hopt : option script "props" = some opt) (hnode : opt.node = [base])
    (hshape : getAt opt.script base = some (listOption pa va a k entries))
    (hvalues : entries.map (fun el => el.2.attr "value")
      = (pre ++ name :: post).map (fun n => some (Prim.str n)))
    (hnodup : (pre ++ name :: post).Nodup)
    (hidx : ∀ n ∈ pre ++ name :: post, arrayIndex n = none)
    (hk : noneOfType "Property" k = true)
    (hparse : ∀ kv ∈ attrs, (parseAttrValue g kv.2).isSome = true)
    (hwell : ∀ kv ∈ attrs, ∀ nv, parseAttrValue g kv.2 = some nv → propertiesHaveValue nv = true)
    (hne : attrs ≠ []) :
    ∃ script', updateProp g script name (attrs.map (fun kv => (kv.1, some kv.2))) = some script' ∧
      replaceAt opt.script base (propsMap pa k pre name (attrEntries g attrs) post)
        = some script' ∧
      getAt script' base = some (propsMap pa k pre name (attrEntries g attrs) post) := by
  have hpre : name ∉ pre := by
    intro hmem
    have := (List.nodup_append.mp hnodup).2.2 hmem (List.mem_cons_self _ _)
    exact this
  have hpost : name ∉ post := by
    have := (List.nodup_append.mp hnodup).2.1
    exact (List.nodup_cons.mp this).1
  have hvalue : getAt opt.script (base ++ [1])
      = some (.mk "ArrayExpression" va [("elements", .mk "[]" a entries)]) := by
    rw [getAt_child _ _ _ _ _ 1 hshape]
    rfl
  have hf1 : getField opt.script base "value" = some (base ++ [1]) := by
    rw [getField_of_getAt _ _ _ _ hshape]
    rfl
  obtain ⟨scriptA, hrepA, _⟩ := replaceAt_getAt opt.script _ (propsObject entries) _ hvalue
  obtain ⟨nA, hnA, hgetA, hliftA⟩ := replaceAt_append opt.script _ _ base [1] scriptA hshape hrepA
  have hnA' : nA = propsMap pa k pre name [] post := by
    rw [propsObject_names _ entries hvalues hnodup hidx] at hnA
    simp only [replaceAt, listOption, modifyAt_cons, List.getElem?_cons_succ,
      List.getElem?_cons_zero, Option.some_bind, modifyAt, Option.map_some', List.set_cons_succ,
      List.set_cons_zero, Option.some.injEq] at hnA
    rw [← hnA]
    simp [propsMap, mapOption, emptyEntries, objProp_empty_eq]
  rw [hnA'] at hgetA hliftA
  have hkeep : ([base].filter (fun p => !((base ++ [1]).isPrefixOf p && p != base ++ [1])))
      = [base] := by
    have hnp : (base ++ [1]).isPrefixOf base = false := by
      cases hb : (base ++ [1]).isPrefixOf base with
      | false => rfl
      | true =>
          have hp := List.isPrefixOf_iff_prefix.mp hb
          have hlen := hp.length_le
          simp at hlen
    simp [hnp]
  have hfind := find_propsMap_empty_entry scriptA base pa k pre name post hgetA hk hpre hpost
  obtain ⟨script', hloop, hrep', hget'⟩ := updatePropLoop_adds g base pa k pre name post [] attrs
    scriptA [] hgetA hparse
  simp only [List.nil_append] at hrep' hget'
  obtain ⟨empty, hcollect, hcount⟩ := updateProp_not_all_empty script' base pa k pre name
    (attrEntries g attrs) post hget' hk (attrEntries_haveValue g attrs hwell)
    (attrEntries_ne_nil g attrs hne hparse)
  refine ⟨script', ?_, ?_, hget'⟩
  · unfold updateProp
    simp only [hopt, hnode, List.head?_cons, hf1, hvalue, Node.type, beq_self_eq_true, if_true,
      Node.kid, Node.kids, List.lookup, hrepA, Option.map_some', hkeep, hfind, hloop, hcollect,
      hcount, Bool.false_eq_true, if_false]
  · rw [← replaceAt_replaceAt _ _ base opt.script scriptA hliftA]
    exact hrep'

/-! ## Theorems: `updateProp` with attributes set to `null` -/

/-- The properties with the key `name` in a map of props whose other entries
have empty metadata and other names: the entry `name`, and properties below
it. -/
theorem find_propsMap_entry (script : Node) (base : Path) (pa : List (String × Prim))
    (k : Node) (pre : List String) (name : String) (metas : List (String × Node))
    (post : List String)
    (hbase : getAt script base = some (propsMap pa k pre name metas post))
    (hk : noneOfType "Property" k = true) (hpre : name ∉ pre) (hpost : name ∉ post) :
    ∃ X, find script [base] "Property" (hasKeyNamed name) = (base ++ [1, 0, pre.length]) :: X ∧
      ∀ x ∈ X, ∃ r, x = (base ++ [1, 0, pre.length]) ++ r := by
  rw [find_local script _ base _ _ hbase, findKids_propsMap, findFrom_noProperty _ k _ hk,
    findKids_emptyEntries_absent name pre _ _ hpre,
    findKids_emptyEntries_absent name post _ _ hpost]
  have hkey : hasKeyNamed name (metaEntry name metas) = true := by
    simp [hasKeyNamed, metaEntry, identifier, Node.kid, Node.attr, Node.kids, Node.attrs,
      List.lookup]
  have hfrom : findFrom "Property" (hasKeyNamed name) ([] ++ [1, 0, pre.length])
      (metaEntry name metas)
      = ([] ++ [1, 0, pre.length])
        :: findKids "Property" (hasKeyNamed name) ([] ++ [1, 0, pre.length]) 0
            (metaEntry name metas).kids := by
    have hm : metaEntry name metas = .mk "Property" plainAttrs (metaEntry name metas).kids := rfl
    rw [hm, findFrom, ← hm, hkey]
    simp
  rw [hfrom]
  simp only [List.nil_append, List.append_nil, List.map_cons]
  refine ⟨_, rfl, ?_⟩
  intro x hx
  obtain ⟨y, hy, rfl⟩ := List.mem_map.mp hx
  obtain ⟨j, q, _, _, hyq, _⟩ := findKids_sound _ _ _ _ _ y hy
  exact ⟨(0 + j) :: q, by rw [hyq]; simp⟩

/-- The first child with a label is pruned in its place when it does not pass
the test. -/
theorem lookup_pruneWhereKids (P : Node → Bool) (field : String) (v : Node) :
    ∀ kids : List (String × Node), kids.lookup field = some v → P v = false →
      (pruneWhereKids P kids).lookup field = some (pruneWhere P v)
  | [], h, _ => by simp [List.lookup] at h
  | (l, k) :: rest, h, hP => by
      rw [pruneWhereKids]
      by_cases hl : (field == l) = true
      · simp only [List.lookup, hl] at h
        cases h
        simp [hP, List.lookup, hl]
      · have hl' : (field == l) = false := by simpa using hl
        simp only [List.lookup, hl'] at h
        have ih := lookup_pruneWhereKids P field v rest h hP
        by_cases hk : P k = true
        · simp only [hk, if_true]
          exact ih
        · simp only [hk, Bool.false_eq_true, if_false, List.lookup, hl']
          exact ih

/-- Pruning keeps the type of a node, and its key when that is an
identifier. -/
theorem pruneWhere_keyed (a : String) (m : Node) (key : String)
    (hkey : m.kid "key" = some (identifier key)) :
    (pruneWhere (fun n => n.type == "Property" && hasKeyNamed a n) m).type = m.type ∧
    (pruneWhere (fun n => n.type == "Property" && hasKeyNamed a n) m).kid "key"
      = some (identifier key) := by
  obtain ⟨t, at', kids⟩ := m
  rw [pruneWhere]
  refine ⟨rfl, ?_⟩
  have hP : (fun n : Node => n.type == "Property" && hasKeyNamed a n) (identifier key) = false := by
    have h1 : ("Identifier" == "Property") = false := by decide
    simp [identifier, Node.type, h1]
  have := lookup_pruneWhereKids (fun n : Node => n.type == "Property" && hasKeyNamed a n) "key"
    (identifier key) kids hkey hP
  simp only [Node.kid, Node.kids]
  rw [this]
  simp [identifier, pruneWhere, pruneWhereKids]

/-- The removal of the properties with the key of the first attribute leaves
the metadata of the other attributes, keyed as before. -/
theorem pruneWhereKids_keyedBy (a : String) (keys : List String) :
    ∀ (metas : List (String × Node)), keyedBy (a :: keys) metas → a ∉ keys →
      keyedBy keys (pruneWhereKids (fun n => n.type == "Property" && hasKeyNamed a n) metas) := by
  intro metas hkeyed hnotin
  cases metas with
  | nil => simp [keyedBy] at hkeyed
  | cons m0 ms =>
      obtain ⟨l0, m0⟩ := m0
      unfold keyedBy at hkeyed
      simp only [List.map_cons, List.cons.injEq, Prod.mk.injEq] at hkeyed
      obtain ⟨⟨ht0, hk0⟩, hms⟩ := hkeyed
      have hP0 : (m0.type == "Property" && hasKeyNamed a m0) = true := by
        simp [ht0, hasKeyNamed, hk0, identifier, Node.attr, Node.attrs, List.lookup]
      rw [pruneWhereKids]
      simp only [hP0, if_true]
      have hrest : ∀ (ks : List String) (ms : List (String × Node)),
          ms.map (fun lk => (lk.2.type, lk.2.kid "key"))
            = ks.map (fun key => ("Property", some (identifier key))) →
          a ∉ ks →
          keyedBy ks (pruneWhereKids (fun n => n.type == "Property" && hasKeyNamed a n) ms) := by
        intro ks
        induction ks with
        | nil =>
            intro ms h _
            have : ms = [] := by simpa using h
            subst this
            simp [keyedBy, pruneWhereKids]
        | cons key ks ih =>
            intro ms h hn
            cases ms with
            | nil => simp at h
            | cons m ms' =>
                obtain ⟨l, m⟩ := m
                simp only [List.map_cons, List.cons.injEq, Prod.mk.injEq] at h
                obtain ⟨⟨ht, hk⟩, hms'⟩ := h
                have hne : key ≠ a := fun he => hn (he ▸ List.mem_cons_self _ _)
                have hP : (m.type == "Property" && hasKeyNamed a m) = false := by
                  have : (some (Prim.str key) == some (Prim.str a)) = false := by simpa using hne
                  simp [hasKeyNamed, hk, identifier, Node.attr, Node.attrs, List.lookup, this]
                have hkeep := pruneWhere_keyed a m key hk
                have ih' := ih ms' hms' (fun hm => hn (List.mem_cons_of_mem _ hm))
                rw [pruneWhereKids]
                simp only [hP, Bool.false_eq_true, if_false]
                unfold keyedBy at ih' ⊢
                simp only [List.map_cons, ih', hkeep.1, hkeep.2, ht]
      exact hrest keys ms hms hnotin

/-- Pruning the entry `name` prunes its metadata. -/
theorem pruneWhere_metaEntry (a name : String) (metas : List (String × Node)) :
    pruneWhere (fun n => n.type == "Property" && hasKeyNamed a n) (metaEntry name metas)
      = metaEntry name
          (pruneWhereKids (fun n => n.type == "Property" && hasKeyNamed a n) metas) := by
  have h1 : ("Identifier" == "Property") = false := by decide
  have h2 : ("ObjectExpression" == "Property") = false := by decide
  have h3 : ("[]" == "Property") = false := by decide
  simp [metaEntry, identifier, pruneWhere, pruneWhereKids, Node.type, h1, h2, h3]

/-- One round of the loop of `updateProp` for an attribute set to `null`: the
properties with the key of the attribute are removed from the metadata of
the entry `name`, at any depth, and the paths of the collections stay at or
below the entry. -/
theorem updatePropStep_removes (g : ScriptGrammar) (script : Node) (base : Path)
    (pa : List (String × Prim)) (k : Node) (pre : List String) (name : String)
    (metas : List (String × Node)) (post : List String) (X : List Path) (a : String)
    (hbase : getAt script base = some (propsMap pa k pre name metas post))
    (hX : ∀ x ∈ X, ∃ r, x = (base ++ [1, 0, pre.length]) ++ r) :
    ∃ script' X',
      updatePropStep g
          { script := script, props := [base], prop := (base ++ [1, 0, pre.length]) :: X }
          (a, none)
        = some { script := script', props := [base],
                 prop := (base ++ [1, 0, pre.length]) :: X' } ∧
      (∀ x ∈ X', ∃ r, x = (base ++ [1, 0, pre.length]) ++ r) ∧
      replaceAt script base
          (propsMap pa k pre name
            (pruneWhereKids (fun n => n.type == "Property" && hasKeyNamed a n) metas) post)
        = some script' ∧
      getAt script' base
        = some (propsMap pa k pre name
            (pruneWhereKids (fun n => n.type == "Property" && hasKeyNamed a n) metas) post) := by
  have hpe : getAt script (base ++ [1, 0, pre.length]) = some (metaEntry name metas) := by
    rw [getAt_append, hbase]
    exact getAt_propsMap_entry pa k pre name metas post
  obtain ⟨D, hDdef⟩ : ∃ D, find script ((base ++ [1, 0, pre.length]) :: X) "Property"
      (hasKeyNamed a) = D := ⟨_, rfl⟩
  have hD : ∀ p : Path,
      D.contains ([] ++ p) = true ↔
        ∃ q m, q ≠ [] ∧ p = (base ++ [1, 0, pre.length]) ++ q ∧
          getAt (metaEntry name metas) q = some m ∧
          (fun n : Node => n.type == "Property" && hasKeyNamed a n) m = true := by
    intro p
    rw [List.nil_append, contains_eq_true_iff, ← hDdef]
    constructor
    · intro hp
      obtain ⟨c, q0, m, hc, hq0, hpq, hm, ht, hf⟩ := find_sound script _ _ _ p hp
      obtain ⟨r, hr⟩ : ∃ r, c = (base ++ [1, 0, pre.length]) ++ r := by
        rcases List.mem_cons.mp hc with h | h
        · exact ⟨[], by simp [h]⟩
        · exact hX c h
      refine ⟨r ++ q0, m, by simp [hq0], by rw [hpq, hr, List.append_assoc], ?_, ?_⟩
      · rw [hpq, hr, List.append_assoc, getAt_append, hpe] at hm
        exact hm
      · simp [ht, hf]
    · rintro ⟨q, m, hq, hpq, hm, hP⟩
      simp only [Bool.and_eq_true, beq_iff_eq] at hP
      rw [hpq]
      apply find_complete script _ _ _ _ q m (List.mem_cons_self _ _) hq _ hP.1 hP.2
      rw [getAt_append, hpe]
      exact hm
  have hlocal := pruneNode_local D _ (base ++ [1, 0, pre.length]) script [] _ hpe hD
  rw [pruneWhere_metaEntry] at hlocal
  have hlen : ∀ p ∈ D, (base ++ [1, 0, pre.length]).length < p.length := by
    intro p hp
    obtain ⟨q, m, hq, hpq, _, _⟩ := (hD p).mp (by
      rw [List.nil_append, contains_eq_true_iff]
      exact hp)
    have : 0 < q.length := List.length_pos.mpr hq
    simp only [hpq, List.length_append]
    omega
  have hprops : relocateAll D [base] = [base] := by
    simp only [relocateAll, List.filterMap_cons, List.filterMap_nil,
      relocate_short D _ hlen base (by simp)]
  have hprop : relocateAll D ((base ++ [1, 0, pre.length]) :: X)
      = (base ++ [1, 0, pre.length]) :: X.filterMap (relocate D []) := by
    simp only [relocateAll, List.filterMap_cons,
      relocate_short D _ hlen (base ++ [1, 0, pre.length]) (Nat.le_refl _)]
  have hX' : ∀ x ∈ X.filterMap (relocate D []), ∃ r, x = (base ++ [1, 0, pre.length]) ++ r := by
    intro x' hx'
    obtain ⟨x, hx, hrel⟩ := List.mem_filterMap.mp hx'
    obtain ⟨r, hr⟩ := hX x hx
    rw [hr, relocate_append D _ hlen (base ++ [1, 0, pre.length]) [] r (by simp),
      List.nil_append] at hrel
    cases hrr : relocate D (base ++ [1, 0, pre.length]) r with
    | none => simp [hrr] at hrel
    | some r' =>
        simp only [hrr, Option.map_some', Option.some.injEq] at hrel
        exact ⟨r', hrel.symm⟩
  have hrep : replaceAt script ((base ++ [1, 0, pre.length]) ++ [])
      (metaEntry name
        (pruneWhereKids (fun n => n.type == "Property" && hasKeyNamed a n) metas))
      = some (pruneNode D [] script) := by
    rw [List.append_nil]
    exact hlocal
  obtain ⟨hlift, hget⟩ := replaceAt_in_entry script _ base [] pa k pre name metas
    (pruneWhereKids (fun n => n.type == "Property" && hasKeyNamed a n) metas) post _ hbase
    (by simp [replaceAt, modifyAt]) hrep
  refine ⟨_, X.filterMap (relocate D []), ?_, hX', hlift, hget⟩
  simp only [updatePropStep, remove, hDdef, hprops, hprop]

/-- The loop of `updateProp` over attributes set to `null`, on an entry whose
metadata is keyed by the names of the attributes, in their order: the entry
is left without metadata. -/
theorem updatePropLoop_removes (g : ScriptGrammar) (base : Path) (pa : List (String × Prim))
    (k : Node) (pre : List String) (name : String) (post : List String) :
    ∀ (keys : List String) (script : Node) (metas : List (String × Node)) (X : List Path),
      getAt script base = some (propsMap pa k pre name metas post) →
      keyedBy keys metas → keys.Nodup →
      (∀ x ∈ X, ∃ r, x = (base ++ [1, 0, pre.length]) ++ r) →
      ∃ script' X',
        updatePropLoop g (keys.map (fun key => (key, none)))
            { script := script, props := [base], prop := (base ++ [1, 0, pre.length]) :: X }
          = some { script := script', props := [base],
                   prop := (base ++ [1, 0, pre.length]) :: X' } ∧
        replaceAt script base (propsMap pa k pre name [] post) = some script' ∧
        getAt script' base = some (propsMap pa k pre name [] post)
  | [], script, metas, X, hbase, hkeyed, _, _ => by
      have hm : metas = [] := by
        unfold keyedBy at hkeyed
        simpa using hkeyed
      subst hm
      exact ⟨script, X, rfl, replaceAt_self base script _ hbase, hbase⟩
  | a :: keys, script, metas, X, hbase, hkeyed, hnodup, hX => by
      obtain ⟨script1, X1, hstep, hX1, hrep1, hget1⟩ := updatePropStep_removes g script base pa k
        pre name metas post X a hbase hX
      obtain ⟨script', X', hloop, hrep', hget'⟩ := updatePropLoop_removes g base pa k pre name post
        keys script1 _ X1 hget1
        (pruneWhereKids_keyedBy a keys metas hkeyed (List.nodup_cons.mp hnodup).1)
        (List.nodup_cons.mp hnodup).2 hX1
      refine ⟨script', X', ?_, ?_, hget'⟩
      · rw [List.map_cons, updatePropLoop, hstep]
        exact hloop
      · rw [← replaceAt_replaceAt _ _ base script script1 hrep1]
        exact hrep'

/-- The option `props` in map form whose entries all have empty metadata. -/
theorem propsMap_empty (pa : List (String × Prim)) (k : Node) (pre : List String)
    (name : String) (post : List String) :
    propsMap pa k pre name [] post = mapOption pa [] [] k (emptyEntries (pre ++ name :: post)) := by
  simp [propsMap, emptyEntries, objProp_empty_eq]

/-- The properties below a map of props whose entries all have empty
metadata are the entries. -/
theorem find_mapOption_empty (script : Node) (base : Path) (pa : List (String × Prim))
    (k : Node) (names : List String)
    (hbase : getAt script base = some (mapOption pa [] [] k (emptyEntries names)))
    (hk : noneOfType "Property" k = true) :
    find script [base] "Property" (fun _ => true)
      = (List.range names.length).map (fun j => base ++ [1, 0, j]) := by
  have h2 : ("ObjectExpression" == "Property") = false := by decide
  have h3 : ("[]" == "Property") = false := by decide
  rw [find_local script _ base _ _ hbase]
  simp only [mapOption, Node.kids, findKids, findFrom, findFrom_noProperty _ k _ hk, h2, h3,
    Bool.false_and, Bool.false_eq_true, if_false, List.nil_append, List.append_nil,
    findKids_emptyEntries_all, List.map_map]
  apply List.map_congr_left
  intro j _
  simp

/-- The entry at a position of a map of props whose entries all have empty
metadata. -/
theorem getAt_mapOption_empty (script : Node) (base : Path) (pa : List (String × Prim))
    (k : Node) (names : List String) (j : Nat) (n : String)
    (hbase : getAt script base = some (mapOption pa [] [] k (emptyEntries names)))
    (hj : names[j]? = some n) :
    getAt script (base ++ [1, 0, j]) = some (objProp n object []) := by
  rw [getAt_append, hbase]
  simp only [Option.some_bind, mapOption, getAt_cons, List.getElem?_cons_succ,
    List.getElem?_cons_zero, emptyEntries, List.getElem?_map, hj, Option.map_some', getAt_nil]

/-- The last step of `updateProp` on a map of props whose entries all have
empty metadata: every property below the option passes the test, and the
literals of the keys are those of the names, in their order. -/
theorem updateProp_collapse (script : Node) (base : Path) (pa : List (String × Prim))
    (k : Node) (names : List String)
    (hbase : getAt script base = some (mapOption pa [] [] k (emptyEntries names)))
    (hk : noneOfType "Property" k = true) :
    collect ((find script [base] "Property" (fun _ => true)).map
        (fun p => (getAt script p).bind hasEmptyObject))
      = some ((List.range names.length).map (fun _ => true)) ∧
    collect ((find script [base] "Property" (fun _ => true)).map
        (fun p => (getAt script p).bind keyLiteral))
      = some (names.map (fun n => literal (.str n))) := by
  rw [find_mapOption_empty script base pa k names hbase hk]
  constructor
  · rw [List.map_map, map_range_eq_map names _ (fun _ => some true),
      map_range_eq_map names (fun _ => true) (fun _ => true) (fun _ _ _ => rfl)]
    · exact collect_map _ (fun _ => true) names (fun _ _ => rfl)
    · intro j n hj
      simp only [Function.comp, getAt_mapOption_empty script base pa k names j n hbase hj,
        Option.some_bind]
      rfl
  · rw [List.map_map, map_range_eq_map names _ (fun n => some (literal (.str n)))]
    · exact collect_map _ (fun n => literal (.str n)) names (fun _ _ => rfl)
    · intro j n hj
      simp only [Function.comp, getAt_mapOption_empty script base pa k names j n hbase hj,
        Option.some_bind]
      rfl

/-- The metadata that `updateProp` makes for attributes that all parse is
keyed by the names of the attributes. -/
theorem attrEntries_keyedBy (g : ScriptGrammar) :
    ∀ attrs : List (String × String), (∀ kv ∈ attrs, (parseAttrValue g kv.2).isSome = true) →
      keyedBy (attrs.map Prod.fst) (attrEntries g attrs)
  | [], _ => by simp [keyedBy, attrEntries]
  | (a, v) :: rest, h => by
      obtain ⟨nv, hnv⟩ := Option.isSome_iff_exists.mp (h (a, v) (List.mem_cons_self _ _))
      have ih := attrEntries_keyedBy g rest (fun kv hkv => h kv (List.mem_cons_of_mem _ hkv))
      unfold keyedBy attrEntries at ih ⊢
      simp only [List.filterMap_cons, hnv, Option.map_some', List.map_cons, ih]
      rfl

/-- The method `updateProp` with attributes set to `null`, on a map of props
in which the entry of the name has metadata keyed by those attributes and the
other entries have empty metadata: it returns, and `props` is the list of the
names in their order. -/
theorem updateProp_map_to_list (g : ScriptGrammar) (script : Node) (name : String)
    (opt : OptionResult) (base : Path) (pa : List (String × Prim)) (k : Node)
    (pre post : List String) (metas : List (String × Node)) (keys : List String)
    (hopt : option script "props" = some opt) (hnode : opt.node = [base])
    (hshape : getAt opt.script base = some (propsMap pa k pre name metas post))
    (hkeyed : keyedBy keys metas) (hkeys : keys.Nodup)
    (hk : noneOfType "Property" k = true) (hpre : name ∉ pre) (hpost : name ∉ post) :
    ∃ script', updateProp g script name (keys.map (fun key => (key, none))) = some script' ∧
      replaceAt opt.script base (listOption pa [] [] k (nameLiterals (pre ++ name :: post)))
        = some script' := by
  have hvalue : getAt opt.script (base ++ [1])
      = some (.mk "ObjectExpression" []
          [("properties", .mk "[]" []
            (emptyEntries pre ++ ("", metaEntry name metas) :: emptyEntries post))]) := by
    rw [getAt_child _ _ _ _ _ 1 hshape]
    rfl
  have hf1 : getField opt.script base "value" = some (base ++ [1]) := by
    rw [getField_of_getAt _ _ _ _ hshape]
    rfl
  obtain ⟨X, hfind, hX⟩ := find_propsMap_entry opt.script base pa k pre name metas post hshape hk
    hpre hpost
  obtain ⟨script1, X', hloop, hrep1, hget1⟩ := updatePropLoop_removes g base pa k pre name post
    keys opt.script metas X hshape hkeyed hkeys hX
  have hget1' := hget1
  rw [propsMap_empty] at hget1'
  obtain ⟨hempty, hlits⟩ := updateProp_collapse script1 base pa k (pre ++ name :: post) hget1' hk
  have hf1' : getField script1 base "value" = some (base ++ [1]) := by
    rw [getField_of_getAt _ _ _ _ hget1']
    rfl
  have hvalue1 : getAt script1 (base ++ [1])
      = some (.mk "ObjectExpression" []
          [("properties", .mk "[]" [] (emptyEntries (pre ++ name :: post)))]) := by
    rw [getAt_child _ _ _ _ _ 1 hget1']
    rfl
  obtain ⟨script', hrep', _⟩ := replaceAt_getAt script1 _
    (arrayExpression ((pre ++ name :: post).map (fun n => literal (.str n)))) _ hvalue1
  obtain ⟨n', hn', _, hlift'⟩ := replaceAt_append script1 _ _ base [1] script' hget1' hrep'
  have hn'' : n' = listOption pa [] [] k (nameLiterals (pre ++ name :: post)) := by
    simp only [replaceAt, mapOption, modifyAt_cons, List.getElem?_cons_succ,
      List.getElem?_cons_zero, Option.some_bind, modifyAt, Option.map_some', List.set_cons_succ,
      List.set_cons_zero, Option.some.injEq] at hn'
    rw [← hn']
    simp only [listOption, nameLiterals, arrayExpression, array, List.map_map]
    rfl
  rw [hn''] at hlift'
  have hcount : ((find script1 [base] "Property" (fun _ => true)).length
      == (((List.range (pre ++ name :: post).length).map (fun _ => true)).filter
          (fun b => b)).length) = true := by
    rw [find_mapOption_empty script1 base pa k _ hget1' hk]
    simp
  refine ⟨script', ?_, ?_⟩
  · unfold updateProp
    have hne : ("ObjectExpression" == "ArrayExpression") = false := by decide
    simp only [hopt, hnode, List.head?_cons, hf1, hvalue, Node.type, hne, Bool.false_eq_true,
      if_false, hfind, hloop, hempty, hcount, if_true, hlits, hf1', hrep']
  · rw [← replaceAt_replaceAt _ _ base opt.script script1 hrep1]
    exact hlift'

/-! ## Theorems: the claims on `updateProp` -/

/-- C12, amended. On a component whose option `props` is a list of names
that differ from one another (and are no array indices), found by the lookup
of the option, `updateProp(n, { a: v })` with a value that parses returns, and
`props` is then the map of the names in their order in which the entry `n`
has exactly the attribute `a` with the parsed value and every other entry has
empty metadata; `addProp(m)` on that component returns and puts the entry `m`
with empty metadata behind them. -/
theorem C12_updateProp_list_to_map (g : ScriptGrammar) (script : Node)
    (name attr val m : String) (nodeVal : Node) (opt : OptionResult) (base : Path)
    (pa va a : List (String × Prim)) (k : Node) (entries : List (String × Node))
    (pre post : List String)
    (hopt : option script "props" = some opt) (hnode : opt.node = [base])
    (hshape : getAt opt.script base = some (listOption pa va a k entries))
    (hvalues : entries.map (fun el => el.2.attr "value")
      = (pre ++ name :: post).map (fun n => some (Prim.str n)))
    (hnodup : (pre ++ name :: post).Nodup)
    (hidx : ∀ n ∈ pre ++ name :: post, arrayIndex n = none)
    (hk : noneOfType "Property" k = true)
    (hval : parseAttrValue g val = some nodeVal)
    (hwell : propertiesHaveValue nodeVal = true) :
    updateProp g script name [(attr, some val)]
      = replaceAt opt.script base
          (propsMap pa k pre name [("", objProp attr nodeVal [])] post) ∧
    (∃ script1, updateProp g script name [(attr, some val)] = some script1) ∧
    ∀ script1, updateProp g script name [(attr, some val)] = some script1 →
      option script1 "props" = some { script := script1, node := [base], detached := false } →
      addProp script1 m
        = replaceAt opt.script base
            (mapOption pa [] [] k
              ((emptyEntries pre ++ ("", metaEntry name [("", objProp attr nodeVal [])])
                  :: emptyEntries post) ++ [("", objProp m object [])])) ∧
      ∃ script2, addProp script1 m = some script2 := by
  have hentries : attrEntries g [(attr, val)] = [("", objProp attr nodeVal [])] := by
    simp [attrEntries, hval]
  obtain ⟨script', hupdate, hrep, hget⟩ := updateProp_list_form g script name opt base pa va a k
    entries pre post [(attr, val)] hopt hnode hshape hvalues hnodup hidx hk
    (by simp [hval])
    (by
      intro kv hkv nv hnv
      simp only [List.mem_singleton] at hkv
      subst hkv
      rw [hval] at hnv
      cases hnv
      exact hwell)
    (by simp)
  simp only [List.map_cons, List.map_nil, hentries] at hupdate hrep hget
  refine ⟨by rw [hupdate, hrep], ⟨script', hupdate⟩, ?_⟩
  intro script1 h1 hopt1
  rw [hupdate] at h1
  cases h1
  obtain ⟨script2, hadd, hrep2⟩ := addProp_map_appends script' m
    { script := script', node := [base], detached := false } base pa [] [] k _ hopt1 rfl hget
  refine ⟨?_, script2, hadd⟩
  rw [hadd, ← replaceAt_replaceAt _ _ base opt.script script' hrep]
  exact hrep2.symm

/-- On `export default { props: ['foo'] }`, `updateProp('foo', { type: 'String' })`
gives `props: { foo: { type: String } }`, and `addProp('bar')` then gives
`props: { foo: { type: String }, bar: {} }`. -/
theorem C12_witness :
    updateProp identifierGrammar propsFoo "foo" [("type", some "String")] = some propsFooTyped ∧
    addProp propsFooTyped "bar"
      = some (exportDefault [objProp "props" (objectExpression
          [objProp "foo" (objectExpression [objProp "type" (identifier "String") []]) [],
           objProp "bar" object []]) []]) :=
  have h := C12_updateProp_list_to_map identifierGrammar propsFoo "foo" "type" "String" "bar"
    (identifier "String") { script := propsFoo, node := [[0, 0, 0, 0, 0, 0]], detached := false }
    [0, 0, 0, 0, 0, 0] plainAttrs [] [] (identifier "props") [("", literal (.str "foo"))] [] []
    (by decide) rfl (by decide) (by decide) (by decide) (by decide) (by decide) (by decide)
    (by decide)
  have h1 : updateProp identifierGrammar propsFoo "foo" [("type", some "String")]
      = some propsFooTyped := h.1.trans (by decide)
  ⟨h1, ((h.2.2 propsFooTyped h1 (by decide)).1).trans (by decide)⟩

/-- C12, counterexample. On `export default { props: ['foo', 'foo'] }`, the
list that two calls of `addProp('foo')` make, `updateProp('foo', { type: 'String' })`
gives the map `{ foo: { type: String } }` with one entry, not two:
`mapWithKeys` makes an object of the names, in which a name is a key once. -/
theorem C12_counterexample :
    (addProp (exportDefault []) "foo").bind (fun s => addProp s "foo") = some propsFooFoo ∧
    updateProp identifierGrammar propsFooFoo "foo" [("type", some "String")]
      = some propsFooTyped := by
  decide

/-- C13, amended. On a component whose option `props` is a list of names that
differ from one another (and are no array indices), found by the lookup of
the option, `updateProp(n, attrs)` for attributes with values that parse
returns, and `updateProp(n, ...)` with the same attributes all set to `null`
on the component it leaves returns and restores `props` to the list of the
literals of the original names in the original order. The parsed values hold
no property with the key `n`, so that the removal meets no node twice. -/
theorem C13_updateProp_round_trip (g : ScriptGrammar) (script : Node) (name : String)
    (attrs : List (String × String)) (opt : OptionResult) (base : Path)
    (pa va a : List (String × Prim)) (k : Node) (entries : List (String × Node))
    (pre post : List String)
    (hopt : option script "props" = some opt) (hnode : opt.node = [base])
    (hshape : getAt opt.script base = some (listOption pa va a k entries))
    (hvalues : entries.map (fun el => el.2.attr "value")
      = (pre ++ name :: post).map (fun n => some (Prim.str n)))
    (hnodup : (pre ++ name :: post).Nodup)
    (hidx : ∀ n ∈ pre ++ name :: post, arrayIndex n = none)
    (hk : noneOfType "Property" k = true)
    (hne : attrs ≠ []) (hkeys : (attrs.map Prod.fst).Nodup)
    (hparse : ∀ kv ∈ attrs, (parseAttrValue g kv.2).isSome = true)
    (hwell : ∀ kv ∈ attrs, ∀ nv, parseAttrValue g kv.2 = some nv →
      propertiesHaveValue nv = true)
    (_hclean : ∀ kv ∈ attrs, ∀ nv, parseAttrValue g kv.2 = some nv →
      noPropertyKeyed name [("", nv)] = true) :
    (∃ script1, updateProp g script name (attrs.map (fun kv => (kv.1, some kv.2)))
      = some script1) ∧
    ∀ script1, updateProp g script name (attrs.map (fun kv => (kv.1, some kv.2))) = some script1 →
      option script1 "props" = some { script := script1, node := [base], detached := false } →
      updateProp g script1 name (attrs.map (fun kv => (kv.1, none)))
        = replaceAt opt.script base
            (listOption pa [] [] k (nameLiterals (pre ++ name :: post))) ∧
      ∃ script2, updateProp g script1 name (attrs.map (fun kv => (kv.1, none)))
        = some script2 := by
  have hpre : name ∉ pre := by
    intro hmem
    exact (List.nodup_append.mp hnodup).2.2 hmem (List.mem_cons_self _ _)
  have hpost : name ∉ post := (List.nodup_cons.mp (List.nodup_append.mp hnodup).2.1).1
  obtain ⟨script', hupdate, hrep, hget⟩ := updateProp_list_form g script name opt base pa va a k
    entries pre post attrs hopt hnode hshape hvalues hnodup hidx hk hparse hwell hne
  refine ⟨⟨script', hupdate⟩, ?_⟩
  intro script1 h1 hopt1
  rw [hupdate] at h1
  cases h1
  obtain ⟨script2, hback, hrep2⟩ := updateProp_map_to_list g script' name
    { script := script', node := [base], detached := false } base pa k pre post
    (attrEntries g attrs) (attrs.map Prod.fst) hopt1 rfl hget (attrEntries_keyedBy g attrs hparse)
    hkeys hk hpre hpost
  have hmap : attrs.map (fun kv => (kv.1, (none : Option String)))
      = (attrs.map Prod.fst).map (fun key => (key, none)) := by
    rw [List.map_map]
    rfl
  rw [hmap]
  refine ⟨?_, script2, hback⟩
  rw [hback, ← replaceAt_replaceAt _ _ base opt.script script' hrep]
  exact hrep2.symm

/-- On `export default { props: ['foo'] }`,
`updateProp('foo', { type: 'String', default: 'x' })` gives the map
`{ foo: { type: String, default: x } }`, and the update of both attributes to
`null` gives back `props: ['foo']`. -/
theorem C13_witness :
    updateProp identifierGrammar propsFoo "foo" [("type", some "String"), ("default", some "x")]
      = some (exportDefault [objProp "props" (objectExpression
          [objProp "foo" (objectExpression
            [objProp "type" (identifier "String") [],
             objProp "default" (identifier "x") []]) []]) []]) ∧
    updateProp identifierGrammar
        (exportDefault [objProp "props" (objectExpression
          [objProp "foo" (objectExpression
            [objProp "type" (identifier "String") [],
             objProp "default" (identifier "x") []]) []]) []])
        "foo" [("type", none), ("default", none)]
      = some propsFoo :=
  have h := C13_updateProp_round_trip identifierGrammar propsFoo "foo"
    [("type", "String"), ("default", "x")]
    { script := propsFoo, node := [[0, 0, 0, 0, 0, 0]], detached := false }
    [0, 0, 0, 0, 0, 0] plainAttrs [] [] (identifier "props") [("", literal (.str "foo"))] [] []
    (by decide) rfl (by decide) (by decide) (by decide) (by decide) (by decide) (by decide)
    (by decide) (by decide) (by decide) (by decide)
  have h1 : updateProp identifierGrammar propsFoo "foo"
      [("type", some "String"), ("default", some "x")]
      = some (exportDefault [objProp "props" (objectExpression
          [objProp "foo" (objectExpression
            [objProp "type" (identifier "String") [],
             objProp "default" (identifier "x") []]) []]) []]) := by decide
  ⟨h1, ((h.2 _ h1 (by decide)).1).trans (by decide)⟩

/-- C13, counterexample. On `export default { props: ['foo', 'foo'] }`,
`updateProp('foo', { type: 'String' })` followed by
`updateProp('foo', { type: null })` gives `props: ['foo']`, a list with one
entry where the original list had two. -/
theorem C13_counterexample :
    (updateProp identifierGrammar propsFooFoo "foo" [("type", some "String")]).bind
        (fun s => updateProp identifierGrammar s "foo" [("type", none)])
      = some propsFoo ∧
    propsFoo ≠ propsFooFoo := by
  decide

/-! ## Theorems: the canonical order of the options -/

/-- On a configuration object whose top-level properties all have a key,
`sortOptions` returns and leaves the property list `presentOptions` followed
by the other properties. -/
theorem sortOptions_spec (script : Node) (obj props : Path) (t : String)
    (a : List (String × Prim)) (kids : List (String × Node))
    (hexport : getDefaultExport script = some obj)
    (hfield : getField script obj "properties" = some props)
    (harr : getAt script props = some (.mk t a kids))
    (hkeys : kids.all (fun lk => (lk.2.kid "key").isSome) = true) :
    ∃ script', sortOptions script = some script' ∧
      getAt script' props
        = some (.mk t a (presentOptions kids ++ withoutOptions nonHookOptions kids)) := by
  have hloop := sortLoop_spec nonHookOptions [] kids (by decide) (by simp) (by simpa using hkeys)
  simp only [List.nil_append, List.length_nil, Nat.zero_add] at hloop
  unfold sortOptions
  rw [hexport]
  simp only [hfield]
  apply modifyAt_getAt _ props script (.mk t a kids) _ harr
  simp only [hloop, Option.map_some']
  rfl

/-- An element that `f` keeps has a position in the list `filterMap` makes. -/
theorem filterMap_position {α β : Type} (f : α → Option β) :
    ∀ (os : List α) (j : Nat) (o : α) (y : β), os[j]? = some o → f o = some y →
      ∃ n : Nat, (os.filterMap f)[n]? = some y := by
  intro os
  induction os with
  | nil => intro j o y h; simp at h
  | cons o' os ih =>
      intro j o y h hf
      cases j with
      | zero =>
          simp only [List.getElem?_cons_zero, Option.some.injEq] at h
          subst h
          exact ⟨0, by simp [List.filterMap_cons, hf]⟩
      | succ j =>
          simp only [List.getElem?_cons_succ] at h
          obtain ⟨n, hn⟩ := ih j o y h hf
          cases hfo : f o' with
          | none => exact ⟨n, by simpa [List.filterMap_cons, hfo] using hn⟩
          | some z => exact ⟨n + 1, by simpa [List.filterMap_cons, hfo] using hn⟩

/-- The list that `filterMap` makes keeps the order of the elements. -/
theorem filterMap_positions {α β : Type} (f : α → Option β) :
    ∀ (os : List α) (i j : Nat) (a b : α) (x y : β), i < j →
      os[i]? = some a → os[j]? = some b → f a = some x → f b = some y →
      ∃ m n : Nat, m < n ∧ (os.filterMap f)[m]? = some x ∧ (os.filterMap f)[n]? = some y := by
  intro os
  induction os with
  | nil => intro i j a b x y _ h; simp at h
  | cons o os ih =>
      intro i j a b x y hij hi hj hfa hfb
      cases j with
      | zero => omega
      | succ j =>
          simp only [List.getElem?_cons_succ] at hj
          cases i with
          | zero =>
              simp only [List.getElem?_cons_zero, Option.some.injEq] at hi
              subst hi
              obtain ⟨n, hn⟩ := filterMap_position f os j b y hj hfb
              exact ⟨0, n + 1, by omega, by simp [List.filterMap_cons, hfa],
                by simpa [List.filterMap_cons, hfa] using hn⟩
          | succ i =>
              simp only [List.getElem?_cons_succ] at hi
              obtain ⟨m, n, hmn, hm, hn⟩ := ih i j a b x y (by omega) hi hj hfa hfb
              cases hfo : f o with
              | none =>
                  exact ⟨m, n, hmn, by simpa [List.filterMap_cons, hfo] using hm,
                    by simpa [List.filterMap_cons, hfo] using hn⟩
              | some z =>
                  exact ⟨m + 1, n + 1, by omega, by simpa [List.filterMap_cons, hfo] using hm,
                    by simpa [List.filterMap_cons, hfo] using hn⟩

/-- A list is its element at a position together with the list without it. -/
theorem perm_cons_eraseIdx {α : Type} :
    ∀ (l : List α) (i : Nat) (x : α), l[i]? = some x → (x :: l.eraseIdx i).Perm l := by
  intro l
  induction l with
  | nil => intro i x h; simp at h
  | cons y rest ih =>
      intro i x h
      cases i with
      | zero =>
          simp only [List.getElem?_cons_zero, Option.some.injEq] at h
          subst h
          simp
      | succ i =>
          simp only [List.getElem?_cons_succ] at h
          simp only [List.eraseIdx_cons_succ]
          exact (List.Perm.swap y x _).trans ((ih i x h).cons y)

/-- Erasing an element that fails a test keeps the elements that pass it. -/
theorem filter_eraseIdx_of_false {α : Type} (p : α → Bool) :
    ∀ (l : List α) (i : Nat) (x : α), l[i]? = some x → p x = false →
      (l.eraseIdx i).filter p = l.filter p := by
  intro l
  induction l with
  | nil => intro i x h; simp at h
  | cons y rest ih =>
      intro i x h hp
      cases i with
      | zero =>
          simp only [List.getElem?_cons_zero, Option.some.injEq] at h
          subst h
          simp [List.filter_cons, hp]
      | succ i =>
          simp only [List.getElem?_cons_succ] at h
          simp only [List.eraseIdx_cons_succ, List.filter_cons, ih i x h hp]

/-- The rest of `sortOptions` is the list with one more property erased. -/
theorem withoutOptions_cons (o : String) (os : List String) (kids : List (String × Node)) :
    withoutOptions (o :: os) kids
      = withoutOptions os
          (kids.eraseIdx (kids.findIdx (fun lk => keyNameEq o lk.2 == some true))) := by
  simp [withoutOptions]

/-- Erasing the first property of one option keeps the first property of
another. -/
theorem firstKeyed_eraseIdx (o o' : String) (hne : o' ≠ o) (kids : List (String × Node)) :
    (kids.eraseIdx (kids.findIdx (fun lk => keyNameEq o lk.2 == some true))).find?
        (fun lk => keyNameEq o' lk.2 == some true)
      = kids.find? (fun lk => keyNameEq o' lk.2 == some true) := by
  cases hx : kids[kids.findIdx (fun lk => keyNameEq o lk.2 == some true)]? with
  | none =>
      rw [List.eraseIdx_of_length_le]
      exact List.getElem?_eq_none_iff.mp hx
  | some x =>
      apply find?_eraseIdx_of_false _ kids _ x hx
      have hpass := getElem?_findIdx_pass _ kids x hx
      simp only [beq_iff_eq] at hpass
      cases hk : keyNameEq o' x.2 == some true with
      | false => rfl
      | true =>
          simp only [beq_iff_eq] at hk
          exact absurd (keyNameEq_unique x.2 o' o hk hpass) hne

/-- The first properties of the options and the rest make up the property
list. -/
theorem presentOptions_perm :
    ∀ (os : List String) (kids : List (String × Node)), os.Nodup →
      (os.filterMap (fun o => kids.find? (fun lk => keyNameEq o lk.2 == some true))
        ++ withoutOptions os kids).Perm kids := by
  intro os
  induction os with
  | nil => intro kids _; simp [withoutOptions]
  | cons o os ih =>
      intro kids hnodup
      have hnotin : o ∉ os := (List.nodup_cons.mp hnodup).1
      have hcongr : os.filterMap
            (fun o' => kids.find? (fun lk => keyNameEq o' lk.2 == some true))
          = os.filterMap
              (fun o' =>
                (kids.eraseIdx (kids.findIdx (fun lk => keyNameEq o lk.2 == some true))).find?
                  (fun lk => keyNameEq o' lk.2 == some true)) := by
        apply List.filterMap_congr
        intro o' ho'
        rw [firstKeyed_eraseIdx o o' (fun h => hnotin (h ▸ ho')) kids]
      have hrec := ih (kids.eraseIdx (kids.findIdx (fun lk => keyNameEq o lk.2 == some true)))
        (List.nodup_cons.mp hnodup).2
      rw [withoutOptions_cons, List.filterMap_cons, hcongr]
      cases hx : kids.find? (fun lk => keyNameEq o lk.2 == some true) with
      | none =>
          have hlen : kids.length ≤ kids.findIdx (fun lk => keyNameEq o lk.2 == some true) := by
            rw [find?_eq_getElem?_findIdx] at hx
            exact List.getElem?_eq_none_iff.mp hx
          rw [List.eraseIdx_of_length_le hlen] at hrec ⊢
          exact hrec
      | some x =>
          rw [find?_eq_getElem?_findIdx] at hx
          exact (hrec.cons x).trans (perm_cons_eraseIdx kids _ x hx)

/-- The rest of `sortOptions` keeps the properties that no option keys. -/
theorem withoutOptions_filter (p : String × Node → Bool) :
    ∀ (os : List String) (kids : List (String × Node)),
      (∀ x, p x = true → ∀ o ∈ os, (keyNameEq o x.2 == some true) = false) →
      (withoutOptions os kids).filter p = kids.filter p := by
  intro os
  induction os with
  | nil => intro kids _; simp [withoutOptions]
  | cons o os ih =>
      intro kids hp
      rw [withoutOptions_cons,
        ih _ (fun x hx o' ho' => hp x hx o' (List.mem_cons_of_mem _ ho'))]
      cases hx : kids[kids.findIdx (fun lk => keyNameEq o lk.2 == some true)]? with
      | none => rw [List.eraseIdx_of_length_le (List.getElem?_eq_none_iff.mp hx)]
      | some x =>
          apply filter_eraseIdx_of_false p kids _ x hx
          have hpass := getElem?_findIdx_pass _ kids x hx
          cases hpx : p x with
          | false => rfl
          | true =>
              have := hp x hpx o (List.mem_cons_self _ _)
              rw [hpass] at this
              cases this

/-- A property of `presentOptions` is keyed by one of the option names. -/
theorem presentOptions_recognized (kids : List (String × Node)) :
    ∀ lk ∈ presentOptions kids, recognized lk = true := by
  intro lk hlk
  unfold presentOptions at hlk
  obtain ⟨o, ho, hfind⟩ := List.mem_filterMap.mp hlk
  have hpass : (keyNameEq o lk.2 == some true) = true := by
    rw [find?_eq_getElem?_findIdx] at hfind
    exact getElem?_findIdx_pass _ kids lk hfind
  unfold recognized
  exact List.any_eq_true.mpr ⟨o, ho, hpass⟩

/-- What no option name keys is not recognized, and conversely. -/
theorem recognized_false (x : String × Node) (h : (!recognized x) = true) :
    ∀ o ∈ nonHookOptions, (keyNameEq o x.2 == some true) = false := by
  intro o ho
  cases hk : keyNameEq o x.2 == some true with
  | false => rfl
  | true =>
      have : recognized x = true := List.any_eq_true.mpr ⟨o, ho, hk⟩
      simp [this] at h

/-- The rest of `sortOptions` is a part of the property list. -/
theorem withoutOptions_subset :
    ∀ (os : List String) (kids : List (String × Node)), ∀ x ∈ withoutOptions os kids, x ∈ kids := by
  intro os
  induction os with
  | nil => intro kids x hx; simpa [withoutOptions] using hx
  | cons o os ih =>
      intro kids x hx
      rw [withoutOptions_cons] at hx
      exact (List.eraseIdx_sublist _ _).subset (ih _ x hx)

/-- Without the first element that passes a test, a list with one such element
at most has none. -/
theorem eraseIdx_findIdx_unique {α : Type} (p : α → Bool) :
    ∀ l : List α, (l.filter p).length ≤ 1 → ∀ x ∈ l.eraseIdx (l.findIdx p), p x = false := by
  intro l
  induction l with
  | nil => intro _ x hx; simp at hx
  | cons y rest ih =>
      intro hlen x hx
      cases hy : p y with
      | true =>
          simp only [List.findIdx_cons, hy, cond_true, List.eraseIdx_cons_zero] at hx
          simp only [List.filter_cons, hy, if_true, List.length_cons] at hlen
          have hnil : rest.filter p = [] := List.length_eq_zero.mp (by omega)
          cases hpx : p x with
          | false => rfl
          | true =>
              have : x ∈ rest.filter p := List.mem_filter.mpr ⟨hx, hpx⟩
              rw [hnil] at this
              cases this
      | false =>
          simp only [List.findIdx_cons, hy, cond_false, List.eraseIdx_cons_succ,
            List.mem_cons] at hx
          simp only [List.filter_cons, hy] at hlen
          rcases hx with hx | hx
          · rw [hx]; exact hy
          · exact ih (by simpa using hlen) x hx

/-- When no option name keys two properties, no property of the rest of
`sortOptions` is keyed by an option name. -/
theorem withoutOptions_unrecognized :
    ∀ (os : List String) (kids : List (String × Node)),
      (∀ o ∈ os, (kids.filter (fun lk => keyNameEq o lk.2 == some true)).length ≤ 1) →
      ∀ x ∈ withoutOptions os kids, ∀ o ∈ os, (keyNameEq o x.2 == some true) = false := by
  intro os
  induction os with
  | nil => intro kids _ x _ o ho; cases ho
  | cons o os ih =>
      intro kids huniq x hx o' ho'
      rw [withoutOptions_cons] at hx
      have hsub := List.eraseIdx_sublist kids
        (kids.findIdx (fun lk => keyNameEq o lk.2 == some true))
      rcases List.mem_cons.mp ho' with heq | hmem
      · subst heq
        exact eraseIdx_findIdx_unique _ kids (huniq o' (List.mem_cons_self _ _)) x
          (withoutOptions_subset os _ x hx)
      · refine ih _ (fun o2 ho2 => ?_) x hx o' hmem
        exact Nat.le_trans (List.Sublist.length_le (hsub.filter _))
          (huniq o2 (List.mem_cons_of_mem _ ho2))

/-- C21 (amended). On a configuration object whose top-level properties all
have a key, `toString` first sorts: `sortOptions` returns, the text is made of
the sorted script, and whenever two of the names mixins, components, props,
data, computed, watch, mounted, methods both key a property, the first
property of the name that is earlier in this list stands before the first
property of the other. -/
theorem C21_toString_sorts_in_the_order_of_the_code (g : ScriptGrammar) (tree : HNode)
    (script : Node) (obj props : Path) (t : String) (a : List (String × Prim))
    (kids : List (String × Node))
    (hexport : getDefaultExport script = some obj)
    (hfield : getField script obj "properties" = some props)
    (harr : getAt script props = some (.mk t a kids))
    (hkeys : kids.all (fun lk => (lk.2.kid "key").isSome) = true) :
    ∃ script' kids', sortOptions script = some script' ∧
      editorToString g script tree
        = (matchTagged (setScriptContent (g.toSource script')) tree).bind
            (fun tree' => render tree' editorOptions) ∧
      getAt script' props = some (.mk t a kids') ∧
      ∀ (i j : Nat) (o1 o2 : String) (x y : String × Node), i < j →
        nonHookOptions[i]? = some o1 → nonHookOptions[j]? = some o2 →
        firstKeyed o1 kids = some x → firstKeyed o2 kids = some y →
        ∃ m n : Nat, m < n ∧ kids'[m]? = some x ∧ kids'[n]? = some y := by
  obtain ⟨script', hsort, hget⟩ :=
    sortOptions_spec script obj props t a kids hexport hfield harr hkeys
  refine ⟨script', _, hsort, ?_, hget, ?_⟩
  · unfold editorToString
    rw [hsort]
    dsimp only
    cases matchTagged (setScriptContent (g.toSource script')) tree <;> rfl
  · intro i j o1 o2 x y hij hi hj hx hy
    obtain ⟨m, n, hmn, hm, hn⟩ := filterMap_positions
      (fun o => kids.find? (fun lk : String × Node => keyNameEq o lk.2 == some true))
      nonHookOptions i j o1 o2 x y hij hi hj hx hy
    have hnlt : n < (presentOptions kids).length := by
      rcases Nat.lt_or_ge n (presentOptions kids).length with h | h
      · exact h
      · have hnone : (presentOptions kids)[n]? = none := List.getElem?_eq_none h
        unfold presentOptions at hnone
        rw [hnone] at hn
        cases hn
    refine ⟨m, n, hmn, ?_, ?_⟩
    · rw [List.getElem?_append_left (by omega)]
      exact hm
    · rw [List.getElem?_append_left hnlt]
      exact hn

/-- On `export default { methods: {}, name: {}, data: {}, mixins: {} }` the
text is made of the sorted script, in which `mixins` stands before
`methods`. -/
theorem C21_witness :
    ∃ script' kids', sortOptions unsortedOptions = some script' ∧
      editorToString verbatim unsortedOptions (.list [])
        = (matchTagged (setScriptContent (verbatim.toSource script')) (.list [])).bind
            (fun tree' => render tree' editorOptions) ∧
      getAt script' [0, 0, 0, 0, 0] = some (.mk "[]" [] kids') ∧
      ∃ m n : Nat, m < n ∧ kids'[m]? = some ("", objProp "mixins" object []) ∧
        kids'[n]? = some ("", objProp "methods" object []) :=
  have h := C21_toString_sorts_in_the_order_of_the_code verbatim (.list []) unsortedOptions
    [0, 0, 0, 0] [0, 0, 0, 0, 0] "[]" []
    [("", objProp "methods" object []), ("", objProp "name" object []),
     ("", objProp "data" object []), ("", objProp "mixins" object [])]
    (by decide) (by decide) (by decide) (by decide)
  match h with
  | ⟨script', kids', h1, h2, h3, h4⟩ =>
      ⟨script', kids', h1, h2, h3,
        h4 0 7 "mixins" "methods" _ _ (by decide) (by decide) (by decide) (by decide)
          (by decide)⟩

/-- C21 (as stated, refuted). The order is not components before mixins, and a
hook other than `mounted` is not put before `methods`: from
`{ components: {}, mixins: {} }` the sorting makes `{ mixins: {}, components: {} }`,
and it leaves `{ methods: {}, created() {} }` as it is. -/
theorem C21_counterexample :
    sortOptions componentsThenMixins
      = some (exportDefault [objProp "mixins" object [], objProp "components" object []]) ∧
    sortOptions methodsThenCreated = some methodsThenCreated := by
  decide

/-- C22 (amended). On a configuration object whose top-level properties all
have a key, `sortOptions` returns and the property list afterwards is a
permutation of the one before; the properties with an unrecognized key keep
their order; the list starts with the first property of each recognized
option, and every property with an unrecognized key stands behind these. When
no recognized name keys two properties, what follows them is exactly the list
of the properties with an unrecognized key. -/
theorem C22_sortOptions_permutes (script : Node) (obj props : Path) (t : String)
    (a : List (String × Prim)) (kids : List (String × Node))
    (hexport : getDefaultExport script = some obj)
    (hfield : getField script obj "properties" = some props)
    (harr : getAt script props = some (.mk t a kids))
    (hkeys : kids.all (fun lk => (lk.2.kid "key").isSome) = true) :
    ∃ script' kids', sortOptions script = some script' ∧
      getAt script' props = some (.mk t a kids') ∧
      kids'.Perm kids ∧
      kids'.filter (fun lk => !recognized lk) = kids.filter (fun lk => !recognized lk) ∧
      kids'.take (presentOptions kids).length = presentOptions kids ∧
      (∀ lk ∈ presentOptions kids, recognized lk = true) ∧
      (∀ (i : Nat) (lk : String × Node), kids'[i]? = some lk → recognized lk = false →
        (presentOptions kids).length ≤ i) ∧
      ((∀ o ∈ nonHookOptions,
          (kids.filter (fun lk => keyNameEq o lk.2 == some true)).length ≤ 1) →
        kids'.drop (presentOptions kids).length = kids.filter (fun lk => !recognized lk)) := by
  obtain ⟨script', hsort, hget⟩ :=
    sortOptions_spec script obj props t a kids hexport hfield harr hkeys
  have hrest : (withoutOptions nonHookOptions kids).filter (fun lk => !recognized lk)
      = kids.filter (fun lk => !recognized lk) :=
    withoutOptions_filter _ nonHookOptions kids (fun x hx => recognized_false x hx)
  have hfirst : (presentOptions kids).filter (fun lk => !recognized lk) = [] := by
    apply List.filter_eq_nil_iff.mpr
    intro lk hlk
    simp [presentOptions_recognized kids lk hlk]
  refine ⟨script', _, hsort, hget, ?_, ?_, ?_, presentOptions_recognized kids, ?_, ?_⟩
  · exact presentOptions_perm nonHookOptions kids (by decide)
  · rw [List.filter_append, hfirst, hrest, List.nil_append]
  · exact List.take_left _ _
  · intro i lk hi hrec
    rcases Nat.lt_or_ge i (presentOptions kids).length with hlt | hge
    · rw [List.getElem?_append_left hlt] at hi
      have := presentOptions_recognized kids lk (List.getElem?_mem hi)
      rw [hrec] at this
      cases this
    · exact hge
  · intro huniq
    rw [List.drop_left, ← hrest]
    symm
    apply List.filter_eq_self.mpr
    intro x hx
    have hno := withoutOptions_unrecognized nonHookOptions kids huniq x hx
    have : recognized x = false := by
      unfold recognized
      apply List.any_eq_false.mpr
      intro o ho
      simp [hno o ho]
    simp [this]

/-- On `export default { methods: {}, name: {}, data: {}, mixins: {} }` the
sorting makes `mixins`, `data`, `methods`, `name`. -/
theorem C22_witness :
    ∃ script' kids', sortOptions unsortedOptions = some script' ∧
      getAt script' [0, 0, 0, 0, 0] = some (.mk "[]" [] kids') ∧
      kids'.Perm
        [("", objProp "methods" object []), ("", objProp "name" object []),
         ("", objProp "data" object []), ("", objProp "mixins" object [])] ∧
      kids'.take 3
        = [("", objProp "mixins" object []), ("", objProp "data" object []),
           ("", objProp "methods" object [])] ∧
      kids'.drop 3 = [("", objProp "name" object [])] :=
  have h := C22_sortOptions_permutes unsortedOptions [0, 0, 0, 0] [0, 0, 0, 0, 0] "[]" []
    [("", objProp "methods" object []), ("", objProp "name" object []),
     ("", objProp "data" object []), ("", objProp "mixins" object [])]
    (by decide) (by decide) (by decide) (by decide)
  match h with
  | ⟨script', kids', h1, h2, h3, _, h5, _, _, h8⟩ =>
      ⟨script', kids', h1, h2, h3, h5.trans (by decide), (h8 (by decide)).trans (by decide)⟩

/-- C22 (as stated, refuted). From `{ name: {}, data: {}, data: {} }` the
sorting makes `{ data: {}, name: {}, data: {} }`: the property `name`, whose
key is not recognized, stands before a property with the recognized key
`data`. -/
theorem C22_counterexample :
    sortOptions dataTwice
      = some (exportDefault
          [objProp "data" object [], objProp "name" object [], objProp "data" object []]) := by
  decide

/-! ## Theorems: places in a markup tree -/

/-- An item below the top of a tree lies in the items of the top. -/
theorem nodeAt_cons_elim (tree : HNode) (i : Nat) (rest : List Nat) (node : HNode)
    (h : nodeAt tree (i :: rest) = some node) :
    ∃ xs child, tree.items = some xs ∧ xs[i]? = some child ∧ i < xs.length ∧
      nodeAt child rest = some node := by
  simp only [nodeAt] at h
  cases hitems : tree.items with
  | none => simp [hitems] at h
  | some xs =>
      cases hx : xs[i]? with
      | none => simp [hitems, hx] at h
      | some child =>
          simp only [hitems, hx] at h
          have hi : i < xs.length := by
            rcases Nat.lt_or_ge i xs.length with h' | h'
            · exact h'
            · rw [List.getElem?_eq_none h'] at hx
              cases hx
          exact ⟨xs, child, rfl, hx, hi, h⟩

/-- The item at a place that goes on below another place. -/
theorem nodeAt_append :
    ∀ (p q : List Nat) (tree : HNode),
      nodeAt tree (p ++ q) = (nodeAt tree p).bind (fun node => nodeAt node q) := by
  intro p
  induction p with
  | nil => intro q tree; simp [nodeAt]
  | cons i rest ih =>
      intro q tree
      cases hitems : tree.items with
      | none => simp [nodeAt, hitems]
      | some xs =>
          cases hx : xs[i]? with
          | none => simp [nodeAt, hitems, hx]
          | some child =>
              simp only [List.cons_append, nodeAt, hitems, hx]
              exact ih q child

/-- The items below an item that got items. -/
theorem items_setItems (node : HNode) (xs ys : List HNode) (h : node.items = some xs) :
    (node.setItems ys).items = some ys := by
  cases node <;> simp [HNode.items, HNode.setItems] at h ⊢

/-- A change at a place puts the changed item there. -/
theorem updateAt_eq_putAt (f : HNode → Option HNode) :
    ∀ (p : List Nat) (tree node node' : HNode), nodeAt tree p = some node →
      f node = some node' → updateAt f tree p = some (putAt tree p node') := by
  intro p
  induction p with
  | nil =>
      intro tree node node' hat hf
      simp only [nodeAt, Option.some.injEq] at hat
      subst hat
      simpa [updateAt, putAt] using hf
  | cons i rest ih =>
      intro tree node node' hat hf
      obtain ⟨xs, child, hitems, hx, _, hat'⟩ := nodeAt_cons_elim tree i rest node hat
      simp only [updateAt, putAt, hitems, hx, ih child node node' hat' hf, Option.map_some']

/-- The item at a place where an item was put. -/
theorem nodeAt_putAt :
    ∀ (p : List Nat) (tree node new : HNode), nodeAt tree p = some node →
      nodeAt (putAt tree p new) p = some new := by
  intro p
  induction p with
  | nil => intro tree node new _; simp [nodeAt, putAt]
  | cons i rest ih =>
      intro tree node new hat
      obtain ⟨xs, child, hitems, hx, hi, hat'⟩ := nodeAt_cons_elim tree i rest node hat
      simp only [putAt, hitems, hx, nodeAt, items_setItems tree xs _ hitems]
      simp [List.getElem?_set, hi, ih child node new hat']

/-- Putting an item below a place is putting the changed item at the place. -/
theorem putAt_append :
    ∀ (p q : List Nat) (tree node new : HNode), nodeAt tree p = some node →
      putAt tree (p ++ q) new = putAt tree p (putAt node q new) := by
  intro p
  induction p with
  | nil =>
      intro q tree node new hat
      simp only [nodeAt, Option.some.injEq] at hat
      subst hat
      simp [putAt]
  | cons i rest ih =>
      intro q tree node new hat
      obtain ⟨xs, child, hitems, hx, _, hat'⟩ := nodeAt_cons_elim tree i rest node hat
      have hrec : putAt child (rest.append q) new = putAt child rest (putAt node q new) :=
        ih q child node new hat'
      simp only [List.cons_append, putAt, hitems, hx, hrec]

/-- Giving items twice is giving the second ones. -/
theorem setItems_setItems (node : HNode) (ys zs : List HNode) :
    (node.setItems ys).setItems zs = node.setItems zs := by
  cases node <;> simp [HNode.setItems]

/-- Putting twice at a place is putting the second item. -/
theorem putAt_putAt :
    ∀ (p : List Nat) (tree node a b : HNode), nodeAt tree p = some node →
      putAt (putAt tree p a) p b = putAt tree p b := by
  intro p
  induction p with
  | nil => intro tree node a b _; simp [putAt]
  | cons i rest ih =>
      intro tree node a b hat
      obtain ⟨xs, child, hitems, hx, hi, hat'⟩ := nodeAt_cons_elim tree i rest node hat
      have hset : (tree.setItems (xs.set i (putAt child rest a))).items
          = some (xs.set i (putAt child rest a)) := items_setItems tree xs _ hitems
      have hget : (xs.set i (putAt child rest a))[i]? = some (putAt child rest a) := by
        simp [List.getElem?_set, hi]
      simp only [putAt, hitems, hx, hset, hget, setItems_setItems, List.set_set,
        ih child node a b hat']

/-- The item in the content of an element at a place. -/
theorem nodeAt_child (tree : HNode) (p : List Nat) (k : Nat) (tag : Tag)
    (attrs : Option Attrs) (content : List HNode)
    (hat : nodeAt tree p = some (.element tag attrs (some content))) :
    nodeAt tree (p ++ [k]) = content[k]? := by
  rw [nodeAt_append, hat]
  cases hk : content[k]? with
  | none => simp [nodeAt, HNode.items, hk]
  | some child => simp [nodeAt, HNode.items, hk]

/-- The parent of an item in the content of an element. -/
theorem parentOf_child (tree : HNode) (p : List Nat) (k : Nat) (tag : Tag)
    (attrs : Option Attrs) (content : Option (List HNode))
    (hat : nodeAt tree p = some (.element tag attrs content)) :
    parentOf tree (p ++ [k]) = some p := by
  unfold parentOf
  cases hp : p ++ [k] with
  | nil => simp at hp
  | cons i rest =>
      have hdrop : (i :: rest).dropLast = p := by rw [← hp, List.dropLast_concat]
      simp only [hdrop, hat]

/-- The content of the parent of an item in the content of an element. -/
theorem parentContent_child (tree : HNode) (p : List Nat) (k : Nat) (tag : Tag)
    (attrs : Option Attrs) (content : Option (List HNode))
    (hat : nodeAt tree p = some (.element tag attrs content)) :
    parentContent tree (p ++ [k]) = content := by
  unfold parentContent
  rw [parentOf_child tree p k tag attrs content hat]
  simp [hat, HNode.items]

/-- The splice of the content of the parent. -/
theorem spliceAtParent_child (tree : HNode) (p : List Nat) (k shift count : Nat)
    (added : List HNode) (tag : Tag) (attrs : Option Attrs) (content : List HNode)
    (hat : nodeAt tree p = some (.element tag attrs (some content))) :
    spliceAtParent tree (p ++ [k]) shift count added
      = some (putAt tree p (.element tag attrs
          (some (content.take (k + shift) ++ added ++ content.drop (k + shift + count))))) := by
  unfold spliceAtParent
  rw [parentOf_child tree p k tag attrs (some content) hat]
  simp only [List.getLast?_concat]
  exact updateAt_eq_putAt _ p tree _ _ hat rfl

/-! ## Theorems: slot discovery and the copy of a node -/

/-- The parent of the node at a place that ends in an index. -/
theorem parentOf_concat (tree : HNode) (up : List Nat) (i : Nat) :
    parentOf tree (up ++ [i])
      = (match nodeAt tree up with
         | some (.element _ _ _) => some up
         | _ => none) := by
  unfold parentOf
  cases hp : up ++ [i] with
  | nil => simp at hp
  | cons j rest =>
      have hdrop : (j :: rest).dropLast = up := by rw [← hp, List.dropLast_concat]
      simp only [hdrop]

/-- The chain of a node is the node and the chain of its parent. -/
theorem parentChain_concat (tree : HNode) (up : List Nat) (i : Nat) :
    parentChain tree (up ++ [i])
      = (up ++ [i]) ::
          (match parentOf tree (up ++ [i]) with
           | some q => parentChain tree q
           | none => []) := by
  rw [parentOf_concat]
  unfold parentChain
  simp only [List.reverse_append, List.reverse_cons, List.reverse_nil, List.nil_append,
    List.singleton_append, parentChainFrom, List.reverse_reverse]
  cases hup : nodeAt tree up with
  | none => rfl
  | some node => cases node <;> rfl

/-- The loop of `findContainingSlot` returns the first boundary of the chain
when the nodes of the chain have a string as tag. -/
theorem containerFrom_spec (tree : HNode) :
    ∀ rp : List Nat, (parentChainFrom tree rp).all (hasStringTag tree) = true →
      containerFrom tree rp = some ((parentChainFrom tree rp).find? (isBoundary tree)) := by
  intro rp
  induction rp with
  | nil => intro _; rfl
  | cons i up ih =>
      intro htags
      simp only [parentChainFrom, List.all_cons, Bool.and_eq_true] at htags
      obtain ⟨hhead, htail⟩ := htags
      unfold hasStringTag at hhead
      have hrev : (i :: up).reverse = up.reverse ++ [i] := List.reverse_cons _ _
      rw [hrev] at hhead
      cases hnode : nodeAt tree (up.reverse ++ [i]) with
      | none => simp [hnode] at hhead
      | some node =>
          cases node with
          | element tag attrs content =>
              cases tag with
              | name t =>
                  have hb : isBoundary tree (up.reverse ++ [i])
                      = (hasUpper t || carriesSlot attrs) := by
                    simp only [isBoundary, hnode]
                  simp only [containerFrom, parentChainFrom, hrev, hnode, List.find?_cons, hb]
                  cases hasUpper t || carriesSlot attrs with
                  | true => rfl
                  | false =>
                      simp only [Bool.false_eq_true, if_false]
                      cases hup : nodeAt tree up.reverse with
                      | none => rfl
                      | some parent =>
                          cases parent with
                          | element ptag pattrs pcontent =>
                              simp only [hup] at htail
                              exact ih htail
                          | text s => rfl
                          | number n => rfl
                          | empty => rfl
                          | list xs => rfl
              | skip => simp [hnode] at hhead
              | missing => simp [hnode] at hhead
          | text s => simp [hnode] at hhead
          | number n => simp [hnode] at hhead
          | empty => simp [hnode] at hhead
          | list xs => simp [hnode] at hhead

/-- C23 (amended). When every node of the chain node, parent(node), ... is an
element whose tag is a string, `findContainingSlot` returns the nearest node
of the chain whose tag has a capital letter or that carries a slot (a slot
attribute with a truthy value); it returns `undefined` exactly when no node of
the chain is such a boundary. The chain follows the parent links. -/
theorem C23_findContainingSlot_nearest_boundary (tree : HNode) (p : List Nat)
    (htags : (parentChain tree p).all (hasStringTag tree) = true) :
    findContainingSlot tree p = some ((parentChain tree p).find? (isBoundary tree)) ∧
    (findContainingSlot tree p = some none
      ↔ ∀ q ∈ parentChain tree p, isBoundary tree q = false) ∧
    (∀ (up : List Nat) (i : Nat),
      parentChain tree (up ++ [i])
        = (up ++ [i]) ::
            (match parentOf tree (up ++ [i]) with
             | some q => parentChain tree q
             | none => [])) := by
  have hspec : findContainingSlot tree p
      = some ((parentChain tree p).find? (isBoundary tree)) :=
    containerFrom_spec tree p.reverse htags
  refine ⟨hspec, ?_, parentChain_concat tree⟩
  rw [hspec]
  constructor
  · intro h q hq
    have hnone : (parentChain tree p).find? (isBoundary tree) = none := by
      simpa using h
    cases hb : isBoundary tree q with
    | false => rfl
    | true => exact absurd hb (List.find?_eq_none.mp hnone q hq)
  · intro h
    have hnone : (parentChain tree p).find? (isBoundary tree) = none :=
      List.find?_eq_none.mpr (fun q hq => by simp [h q hq])
    rw [hnone]

/-- In `<MyDiv> <span>a</span> <p>b</p> </MyDiv>` the boundary of the node
`span` is the node `MyDiv`. -/
theorem C23_witness : findContainingSlot spanAndP [2, 1, 1] = some (some [2, 1]) :=
  (C23_findContainingSlot_nearest_boundary spanAndP [2, 1, 1] (by decide)).1.trans (by decide)

/-- C23 (as stated, refuted). In `<my-div><span></span></my-div>` the parent of
the node `span` has a hyphenated tag, which denotes a component, and
`findContainingSlot` returns `undefined` for the node. -/
theorem C23_counterexample :
    parentChain hyphenated [0, 0] = [[0, 0], [0]] ∧
    isSpecBoundary hyphenated [0] = true ∧
    findContainingSlot hyphenated [0, 0] = some none := by
  decide

/-- C24 (the code departs from the claim). For a node in the default slot,
`findHostSlot` returns the first node with the tag `slot` of the host,
whatever attributes that node has: in a host whose first slot is
`<slot name="header">` and whose second is `<slot>`, it returns the slot
`header`. -/
theorem C24_findHostSlot_takes_a_named_slot_for_the_default :
    (∀ host : HNode,
      findHostSlot spanAndP [2, 1, 1] host
        = some (filterHAST host (matchesFilter "slot" none)).head?) ∧
    (∀ (attrs : Option Attrs) (content : Option (List HNode)),
      matchesFilter "slot" none (.element (.name "slot") attrs content) = true) ∧
    findHostSlot spanAndP [2, 1, 1] headerSlotFirst = some (some [2, 1, 1]) ∧
    nodeAt headerSlotFirst [2, 1, 1] = some (namedSlot "header") ∧
    nodeAt headerSlotFirst [2, 1, 3] = some defaultSlot := by
  refine ⟨?_, ?_, by decide, rfl, rfl⟩
  · intro host
    have hc : findContainingSlot spanAndP [2, 1] = some (some [2, 1]) := by decide
    have hn : findContainingSlot spanAndP [2, 1, 1] = some (some [2, 1]) := by decide
    unfold findHostSlot
    rw [hn]
    rfl
  · intro attrs content
    simp [matchesFilter]

/-- The value of a key after an assignment to a key. -/
theorem lookup_setField {α : Type} (field key : String) (value : α) :
    ∀ l : List (String × α),
      (setField field value l).lookup key
        = if key == field then some value else l.lookup key := by
  intro l
  induction l with
  | nil =>
      simp only [setField, List.lookup]
      cases hk : key == field <;> simp
  | cons lv rest ih =>
      obtain ⟨l', v⟩ := lv
      simp only [setField]
      cases hl : l' == field with
      | true =>
          have hl' : l' = field := by simpa using hl
          subst hl'
          simp only [if_true, List.lookup]
          cases hk : key == l' <;> simp
      | false =>
          simp only [Bool.false_eq_true, if_false, List.lookup, ih]
          cases hk : key == l' with
          | true =>
              have hk' : key = l' := by simpa using hk
              subst hk'
              simp [hl]
          | false => simp

/-- An assignment to a key that is there keeps the keys. -/
theorem keys_setField {α : Type} (field : String) (value : α) :
    ∀ l : List (String × α), (l.lookup field).isSome = true →
      (setField field value l).map Prod.fst = l.map Prod.fst := by
  intro l
  induction l with
  | nil => intro h; simp at h
  | cons lv rest ih =>
      obtain ⟨l', v⟩ := lv
      intro h
      simp only [setField]
      cases hl : l' == field with
      | true => simp
      | false =>
          have hne : (field == l') = false := by
            cases hf : field == l' with
            | false => rfl
            | true =>
                have h1 : field = l' := by simpa using hf
                subst h1
                simp at hl
          simp only [List.lookup, hne] at h
          simp [ih h]

/-- C29 (amended). The copy that `copyNode` makes of an element has the tag
and the content of the element and an attribute map with the same keys in the
same order; it carries no slot; every attribute other than `slot` keeps its
value; a slot attribute with a truthy value is not taken away but set to
`undefined`, and without such an attribute the map is as it was (an empty slot
attribute stays). -/
theorem C29_copyNode_blanks_the_slot (tag : Tag) (attrs : Option Attrs)
    (content : Option (List HNode)) :
    ∃ attrs', copyNode (.element tag attrs content) = .element tag attrs' content ∧
      slotOf attrs' = none ∧
      attrs'.map (fun obj => obj.map Prod.fst) = attrs.map (fun obj => obj.map Prod.fst) ∧
      (∀ key : String, key ≠ "slot" →
        attrs'.bind (fun obj => obj.lookup key) = attrs.bind (fun obj => obj.lookup key)) ∧
      (carriesSlot attrs = true →
        attrs'.bind (fun obj => obj.lookup "slot") = some AttrVal.other) ∧
      (carriesSlot attrs = false → attrs' = attrs) := by
  refine ⟨clearSlot attrs, rfl, ?_, ?_, ?_, ?_, ?_⟩
  · unfold clearSlot
    cases hc : carriesSlot attrs with
    | false =>
        simp only [Bool.false_eq_true, if_false]
        simpa [carriesSlot] using hc
    | true =>
        simp only [if_true]
        cases attrs with
        | none => rfl
        | some obj =>
            simp [slotOf, lookup_setField, truthy]
  · unfold clearSlot
    cases hc : carriesSlot attrs with
    | false => simp
    | true =>
        simp only [if_true]
        cases attrs with
        | none => rfl
        | some obj =>
            have hsome : (obj.lookup "slot").isSome = true := by
              simp only [carriesSlot, slotOf] at hc
              cases hl : obj.lookup "slot" with
              | none => simp [hl] at hc
              | some v => rfl
            simp [keys_setField "slot" AttrVal.other obj hsome]
  · intro key hkey
    unfold clearSlot
    cases hc : carriesSlot attrs with
    | false => simp
    | true =>
        simp only [if_true]
        cases attrs with
        | none => rfl
        | some obj =>
            have hne : (key == "slot") = false := by simpa using hkey
            simp [lookup_setField, hne]
  · intro hc
    unfold clearSlot
    rw [hc]
    cases attrs with
    | none => simp [carriesSlot, slotOf] at hc
    | some obj => simp [lookup_setField]
  · intro hc
    unfold clearSlot
    rw [hc]
    simp

/-- The copy of `<span slot="my-slot" class="x"></span>` has the attribute map
`{ slot: undefined, class: 'x' }`. -/
theorem C29_witness :
    ∃ attrs', copyNode slottedSpan = .element (.name "span") attrs' none ∧
      slotOf attrs' = none ∧
      attrs'.map (fun obj => obj.map Prod.fst) = some ["slot", "class"] ∧
      attrs'.bind (fun obj => obj.lookup "class") = some (AttrVal.str "x") ∧
      attrs'.bind (fun obj => obj.lookup "slot") = some AttrVal.other :=
  match C29_copyNode_blanks_the_slot (.name "span")
    (some [("slot", .str "my-slot"), ("class", .str "x")]) none with
  | ⟨attrs', h1, h2, h3, h4, h5, _⟩ =>
      ⟨attrs', h1, h2, h3.trans (by decide), (h4 "class" (by decide)).trans (by decide),
        h5 (by decide)⟩

/-- C29 (as stated, refuted). The copy of
`<span slot="my-slot" class="x"></span>` keeps the key `slot` in its attribute
map: the map has two keys, and the copy is rendered as a node with several
attributes, not as `<span class="x"></span>`. The copy of `<span slot="">` is
the node itself, rendered with its slot attribute. -/
theorem C29_counterexample :
    copyNode slottedSpan
      = .element (.name "span") (some [("slot", .other), ("class", .str "x")]) none ∧
    render (copyNode slottedSpan) editorOptions = some "<span\n    class=\"x\"\n></span>" ∧
    render (.element (.name "span") (some [("class", .str "x")]) none) editorOptions
      = some "<span class=\"x\"></span>" ∧
    copyNode emptySlotSpan = emptySlotSpan ∧
    render (copyNode emptySlotSpan) editorOptions = some "<span slot=\"\"></span>" := by
  refine ⟨rfl, by decide, by decide, rfl, by decide⟩

/-! ## Theorems: the moves of a node to a slot of the host -/

/-- The method `findWhitespace` returns the inferred whitespace of a content
list. -/
theorem findWhitespace_some (content : List HNode) :
    findWhitespace (some content) = some (inferredWhitespace content) := by
  unfold findWhitespace inferredWhitespace
  induction content with
  | nil => rfl
  | cons x rest ih =>
      cases hx : isWhitespace x with
      | false =>
          simp only [List.filter_cons, hx, List.find?_cons]
          exact ih
      | true =>
          cases x with
          | text s => simp [List.filter_cons, hx, List.find?_cons]
          | number n => simp [isWhitespace] at hx
          | empty => simp [isWhitespace] at hx
          | list xs => simp [isWhitespace] at hx
          | element t a c => simp [isWhitespace] at hx

/-- A change that throws at a place throws. -/
theorem updateAt_none (f : HNode → Option HNode) :
    ∀ (p : List Nat) (tree node : HNode), nodeAt tree p = some node → f node = none →
      updateAt f tree p = none := by
  intro p
  induction p with
  | nil =>
      intro tree node hat hf
      simp only [nodeAt, Option.some.injEq] at hat
      subst hat
      simpa [updateAt] using hf
  | cons i rest ih =>
      intro tree node hat hf
      obtain ⟨xs, child, hitems, hx, _, hat'⟩ := nodeAt_cons_elim tree i rest node hat
      simp only [updateAt, hitems, hx, ih child node hat' hf, Option.map_none']

/-- The method `insertBefore` on a node in the content of an element. -/
theorem insertBefore_child (tree inserted : HNode) (p : List Nat) (i : Nat) (tag : Tag)
    (attrs : Option Attrs) (content : List HNode)
    (hat : nodeAt tree p = some (.element tag attrs (some content))) :
    insertBefore tree inserted (p ++ [i])
      = some (putAt tree p (.element tag attrs
          (some (content.take i ++ [inserted, .text (inferredWhitespace content)]
            ++ content.drop i)))) := by
  unfold insertBefore
  rw [parentContent_child tree p i tag attrs (some content) hat, findWhitespace_some]
  exact spliceAtParent_child tree p i 0 0 _ tag attrs content hat

/-- The method `insertAfter` on a node in the content of an element. -/
theorem insertAfter_child (tree inserted : HNode) (p : List Nat) (i : Nat) (tag : Tag)
    (attrs : Option Attrs) (content : List HNode)
    (hat : nodeAt tree p = some (.element tag attrs (some content))) :
    insertAfter tree inserted (p ++ [i])
      = some (putAt tree p (.element tag attrs
          (some (content.take (i + 1) ++ [.text (inferredWhitespace content), inserted]
            ++ content.drop (i + 1))))) := by
  unfold insertAfter
  rw [parentContent_child tree p i tag attrs (some content) hat, findWhitespace_some]
  exact spliceAtParent_child tree p i 1 0 _ tag attrs content hat

/-- The method `removeNode` on a node that is the first of its parent or
stands behind a text. -/
theorem removeNode_child (tree : HNode) (p : List Nat) (k : Nat) (ptag tag : Tag)
    (pattrs attrs : Option Attrs) (content : List HNode) (inner : Option (List HNode))
    (hat : nodeAt tree p = some (.element ptag pattrs (some content)))
    (hnode : content[k]? = some (.element tag attrs inner))
    (hprev : k = 0 ∨ ∃ s, content[k - 1]? = some (.text s)) :
    removeNode tree (p ++ [k])
      = some (putAt tree p (.element ptag pattrs (some (excised content k attrs)))) := by
  unfold removeNode
  rw [parentOf_child tree p k ptag pattrs (some content) hat]
  simp only [List.getLast?_concat]
  apply updateAt_eq_putAt _ p tree _ _ hat
  simp only [hnode]
  cases k with
  | zero => simp [excised]
  | succ j =>
      rcases hprev with h0 | ⟨s, hs⟩
      · omega
      · simp only [Nat.add_sub_cancel] at hs
        simp [excised, hs]

/-- The method `removeNode` throws on a node that stands behind an item that
is no text. -/
theorem removeNode_child_none (tree : HNode) (p : List Nat) (k : Nat) (ptag tag : Tag)
    (pattrs attrs : Option Attrs) (content : List HNode) (inner : Option (List HNode))
    (hat : nodeAt tree p = some (.element ptag pattrs (some content)))
    (hnode : content[k]? = some (.element tag attrs inner))
    (hk : 0 < k) (hprev : ∀ s, content[k - 1]? ≠ some (.text s)) :
    removeNode tree (p ++ [k]) = none := by
  unfold removeNode
  rw [parentOf_child tree p k ptag pattrs (some content) hat]
  simp only [List.getLast?_concat]
  apply updateAt_none _ p tree _ hat
  have hne : k ≠ 0 := by omega
  cases hp : content[k - 1]? with
  | none => simp only [hnode, hne, if_false, hp]
  | some x =>
      cases x with
      | text s => exact absurd hp (hprev s)
      | number n => simp only [hnode, hne, if_false, hp]
      | empty => simp only [hnode, hne, if_false, hp]
      | list xs => simp only [hnode, hne, if_false, hp]
      | element t a c => simp only [hnode, hne, if_false, hp]

/-- The tree after `copyNode` has run on a node in the content of an
element. -/
theorem afterCopy_child (tree : HNode) (p : List Nat) (k : Nat) (ptag : Tag)
    (pattrs : Option Attrs) (content : List HNode) (node : HNode)
    (hat : nodeAt tree p = some (.element ptag pattrs (some content)))
    (hnode : content[k]? = some node) :
    afterCopy tree (p ++ [k])
      = some (putAt tree p (.element ptag pattrs (some (content.set k (copyNode node))))) := by
  unfold afterCopy
  have hchild : nodeAt tree (p ++ [k]) = some node := by
    rw [nodeAt_child tree p k ptag pattrs content hat, hnode]
  rw [updateAt_eq_putAt _ (p ++ [k]) tree node (copyNode node) hchild rfl,
    putAt_append p [k] tree _ _ hat]
  simp [putAt, HNode.items, HNode.setItems, hnode]

/-- Excising a node from a content list in which it was replaced. -/
theorem excised_set (content : List HNode) (k : Nat) (node : HNode) (attrs : Option Attrs) :
    excised (content.set k node) k attrs = excised content k attrs := by
  cases k with
  | zero => simp [excised, List.set_set]
  | succ j =>
      have hj : (content.set (j + 1) node)[j]? = content[j]? := by
        rw [List.getElem?_set_ne (by omega)]
      simp only [excised, hj, List.set_set]

/-- The copy and the removal of a node of the source: the node is excised,
with the attribute map that the copy has left. -/
theorem removeNode_afterCopy (src : HNode) (p : List Nat) (k : Nat) (ptag tag : Tag)
    (pattrs attrs : Option Attrs) (content : List HNode) (inner : Option (List HNode))
    (hat : nodeAt src p = some (.element ptag pattrs (some content)))
    (hnode : content[k]? = some (.element tag attrs inner))
    (hprev : k = 0 ∨ ∃ s, content[k - 1]? = some (.text s)) :
    removeNode
        (putAt src p (.element ptag pattrs
          (some (content.set k (copyNode (.element tag attrs inner)))))) (p ++ [k])
      = some (putAt src p (.element ptag pattrs
          (some (excised content k (clearSlot attrs))))) := by
  have hk : k < content.length := by
    rcases Nat.lt_or_ge k content.length with h | h
    · exact h
    · rw [List.getElem?_eq_none h] at hnode
      cases hnode
  have hat1 := nodeAt_putAt p src _
    (.element ptag pattrs (some (content.set k (copyNode (.element tag attrs inner))))) hat
  have hnode1 : (content.set k (copyNode (.element tag attrs inner)))[k]?
      = some (.element tag (clearSlot attrs) inner) := by
    simp [List.getElem?_set, hk, copyNode]
  have hprev1 : k = 0 ∨
      ∃ s, (content.set k (copyNode (.element tag attrs inner)))[k - 1]? = some (.text s) := by
    rcases hprev with h0 | ⟨s, hs⟩
    · exact Or.inl h0
    · rcases Nat.eq_zero_or_pos k with h0 | hpos
      · exact Or.inl h0
      · exact Or.inr ⟨s, by rw [List.getElem?_set_ne (by omega)]; exact hs⟩
  rw [removeNode_child _ p k ptag tag pattrs (clearSlot attrs) _ inner hat1 hnode1 hprev1,
    putAt_putAt p src _ _ _ hat, excised_set]

/-- The copy and the removal of a node of the source throw when the node
stands behind an item that is no text. -/
theorem removeNode_afterCopy_none (src : HNode) (p : List Nat) (k : Nat) (ptag tag : Tag)
    (pattrs attrs : Option Attrs) (content : List HNode) (inner : Option (List HNode))
    (hat : nodeAt src p = some (.element ptag pattrs (some content)))
    (hnode : content[k]? = some (.element tag attrs inner))
    (hpos : 0 < k) (hprev : ∀ s, content[k - 1]? ≠ some (.text s)) :
    removeNode
        (putAt src p (.element ptag pattrs
          (some (content.set k (copyNode (.element tag attrs inner)))))) (p ++ [k])
      = none := by
  have hk : k < content.length := by
    rcases Nat.lt_or_ge k content.length with h | h
    · exact h
    · rw [List.getElem?_eq_none h] at hnode
      cases hnode
  have hat1 := nodeAt_putAt p src _
    (.element ptag pattrs (some (content.set k (copyNode (.element tag attrs inner))))) hat
  have hnode1 : (content.set k (copyNode (.element tag attrs inner)))[k]?
      = some (.element tag (clearSlot attrs) inner) := by
    simp [List.getElem?_set, hk, copyNode]
  apply removeNode_child_none _ p k ptag tag pattrs (clearSlot attrs) _ inner hat1 hnode1 hpos
  intro s
  rw [List.getElem?_set_ne (by omega)]
  exact hprev s

/-- Replacing the element at a position of a list. -/
theorem take_append_drop_eq_set {α : Type} (x : α) :
    ∀ (l : List α) (i : Nat), i < l.length → l.take i ++ [x] ++ l.drop (i + 1) = l.set i x := by
  intro l
  induction l with
  | nil => intro i h; simp at h
  | cons y rest ih =>
      intro i h
      cases i with
      | zero => simp
      | succ i =>
          have := ih i (by simpa using h)
          simp only [List.take_succ_cons, List.cons_append, List.drop_succ_cons, List.set_cons_succ,
            List.cons.injEq, true_and]
          simpa using this

/-- C25 (the code departs from the claim where a node stands behind another
node). For a node of the source whose host slot `findHostSlot` finds in the
content of an element of the host, the node being the item `k` of the content
of its parent: when the node is the first item or stands behind a text,
`pushAboveSlot` puts the copy and the inferred whitespace before the slot and
`pushBelowSlot` the inferred whitespace and the copy behind it, the other
items of that content staying as they are and in their order, and the node is
excised from the source; when the node stands behind an item that is no text,
both operations throw. -/
theorem C25_push_beside_slot (src host : HNode) (sp hp : List Nat) (k i : Nat)
    (st ht tag : Tag) (sa ha attrs : Option Attrs) (sc hc : List HNode)
    (content : Option (List HNode))
    (hslot : findHostSlot src (sp ++ [k]) host = some (some (hp ++ [i])))
    (hhost : nodeAt host hp = some (.element ht ha (some hc)))
    (hsrc : nodeAt src sp = some (.element st sa (some sc)))
    (hnode : sc[k]? = some (.element tag attrs content)) :
    ((k = 0 ∨ ∃ s, sc[k - 1]? = some (.text s)) →
      pushAboveSlot src (sp ++ [k]) host
        = some
            (putAt src sp (.element st sa (some (excised sc k (clearSlot attrs)))),
             putAt host hp (.element ht ha
               (some (hc.take i
                 ++ [.element tag (clearSlot attrs) content, .text (inferredWhitespace hc)]
                 ++ hc.drop i)))) ∧
      pushBelowSlot src (sp ++ [k]) host
        = some
            (putAt src sp (.element st sa (some (excised sc k (clearSlot attrs)))),
             putAt host hp (.element ht ha
               (some (hc.take (i + 1)
                 ++ [.text (inferredWhitespace hc), .element tag (clearSlot attrs) content]
                 ++ hc.drop (i + 1)))))) ∧
    ((0 < k ∧ ∀ s, sc[k - 1]? ≠ some (.text s)) →
      pushAboveSlot src (sp ++ [k]) host = none ∧
      pushBelowSlot src (sp ++ [k]) host = none) := by
  have hchild : nodeAt src (sp ++ [k]) = some (.element tag attrs content) := by
    rw [nodeAt_child src sp k st sa sc hsrc, hnode]
  have hcopy := afterCopy_child src sp k st sa sc _ hsrc hnode
  have habove := insertBefore_child host (copyNode (.element tag attrs content)) hp i ht ha hc hhost
  have hbelow := insertAfter_child host (copyNode (.element tag attrs content)) hp i ht ha hc hhost
  constructor
  · intro hprev
    have hremove := removeNode_afterCopy src sp k st tag sa attrs sc content hsrc hnode hprev
    constructor
    · unfold pushAboveSlot
      simp only [hslot, hchild, habove, hcopy, hremove, Option.map_some']
      rfl
    · unfold pushBelowSlot
      simp only [hslot, hchild, hbelow, hcopy, hremove, Option.map_some']
      rfl
  · intro hprev
    have hremove := removeNode_afterCopy_none src sp k st tag sa attrs sc content hsrc hnode
      hprev.1 hprev.2
    constructor
    · unfold pushAboveSlot
      simp only [hslot, hchild, habove, hcopy, hremove, Option.map_none']
    · unfold pushBelowSlot
      simp only [hslot, hchild, hbelow, hcopy, hremove, Option.map_none']

/-- From `<MyDiv> <span>a</span> <p>b</p> </MyDiv>` the node `span`, which
stands behind a text, is pushed above and below the slot of
`<div> <slot></slot> </div>`; from `<MyDiv><p>a</p><span>b</span></MyDiv>` the
node `span`, which stands behind the node `p`, is not: the operations
throw. -/
theorem C25_witness :
    (pushAboveSlot spanAndP ([2, 1] ++ [1]) oneSlot
        = some
            (putAt spanAndP [2, 1] (.element (.name "MyDiv") none
               (some (excised
                 [.text "\n    ", el "span" [.text "a"], .text "\n    ", el "p" [.text "b"],
                  .text "\n"] 1 (clearSlot none)))),
             putAt oneSlot [2, 1] (.element (.name "div") none
               (some ([HNode.text "\n    ", defaultSlot, .text "\n"].take 1
                 ++ [.element (.name "span") (clearSlot none) (some [.text "a"]),
                     .text (inferredWhitespace [.text "\n    ", defaultSlot, .text "\n"])]
                 ++ [HNode.text "\n    ", defaultSlot, .text "\n"].drop 1)))) ∧
      pushBelowSlot spanAndP ([2, 1] ++ [1]) oneSlot
        = some
            (putAt spanAndP [2, 1] (.element (.name "MyDiv") none
               (some (excised
                 [.text "\n    ", el "span" [.text "a"], .text "\n    ", el "p" [.text "b"],
                  .text "\n"] 1 (clearSlot none)))),
             putAt oneSlot [2, 1] (.element (.name "div") none
               (some ([HNode.text "\n    ", defaultSlot, .text "\n"].take (1 + 1)
                 ++ [.text (inferredWhitespace [.text "\n    ", defaultSlot, .text "\n"]),
                     .element (.name "span") (clearSlot none) (some [.text "a"])]
                 ++ [HNode.text "\n    ", defaultSlot, .text "\n"].drop (1 + 1)))))) ∧
    (pushAboveSlot adjacentNodes ([2, 1] ++ [1]) oneSlot = none ∧
      pushBelowSlot adjacentNodes ([2, 1] ++ [1]) oneSlot = none) :=
  ⟨(C25_push_beside_slot spanAndP oneSlot [2, 1] [2, 1] 1 1 (.name "MyDiv") (.name "div")
      (.name "span") none none none
      [.text "\n    ", el "span" [.text "a"], .text "\n    ", el "p" [.text "b"], .text "\n"]
      [.text "\n    ", defaultSlot, .text "\n"] (some [.text "a"])
      (by decide) rfl rfl rfl).1 (Or.inr ⟨"\n    ", rfl⟩),
   (C25_push_beside_slot adjacentNodes oneSlot [2, 1] [2, 1] 1 1 (.name "MyDiv") (.name "div")
      (.name "span") none none none
      [el "p" [.text "a"], el "span" [.text "b"]]
      [.text "\n    ", defaultSlot, .text "\n"] (some [.text "b"])
      (by decide) rfl rfl rfl).2 ⟨by decide, fun s h => by cases h⟩⟩

/-- C26. For a node of the source with the content `children`, the item `k`
of the content of its parent, whose host slot `findHostSlot` finds as the
item `i` of the content of an element of the host: `pushAroundSlot` returns;
in the host the place of the slot then holds the copy of the node with the
slot node as its only content, the other items staying as they are; in the
source the content of the parent is the former one with the node replaced by
`children`. -/
theorem C26_pushAroundSlot_wraps_the_slot (src host : HNode) (sp hp : List Nat) (k i : Nat)
    (st ht tag : Tag) (sa ha attrs : Option Attrs) (sc hc children : List HNode)
    (slotNode : HNode)
    (hslot : findHostSlot src (sp ++ [k]) host = some (some (hp ++ [i])))
    (hhost : nodeAt host hp = some (.element ht ha (some hc)))
    (hslotNode : hc[i]? = some slotNode)
    (hsrc : nodeAt src sp = some (.element st sa (some sc)))
    (hnode : sc[k]? = some (.element tag attrs (some children))) :
    ∃ src' host', pushAroundSlot src (sp ++ [k]) host = some (src', host') ∧
      src' = putAt src sp (.element st sa (some (sc.take k ++ children ++ sc.drop (k + 1)))) ∧
      host' = putAt host hp (.element ht ha
        (some (hc.set i (.element tag (clearSlot attrs) (some [slotNode]))))) ∧
      nodeAt host' (hp ++ [i]) = some (.element tag (clearSlot attrs) (some [slotNode])) ∧
      nodeAt src' sp
        = some (.element st sa (some (sc.take k ++ children ++ sc.drop (k + 1)))) := by
  have hi : i < hc.length := by
    rcases Nat.lt_or_ge i hc.length with h | h
    · exact h
    · rw [List.getElem?_eq_none h] at hslotNode
      cases hslotNode
  have hchild : nodeAt src (sp ++ [k]) = some (.element tag attrs (some children)) := by
    rw [nodeAt_child src sp k st sa sc hsrc, hnode]
  have hslotAt : nodeAt host (hp ++ [i]) = some slotNode := by
    rw [nodeAt_child host hp i ht ha hc hhost, hslotNode]
  have hreplace : replaceNode host (hp ++ [i]) (.element tag (clearSlot attrs) (some [slotNode]))
      = some (putAt host hp (.element ht ha
          (some (hc.set i (.element tag (clearSlot attrs) (some [slotNode])))))) := by
    unfold replaceNode
    rw [spliceAtParent_child host hp i 0 1 _ ht ha hc hhost]
    simp only [Nat.add_zero, take_append_drop_eq_set _ hc i hi]
  have hsplice := spliceAtParent_child src sp k 0 1 children st sa sc hsrc
  simp only [Nat.add_zero] at hsplice
  refine ⟨_, _, ?_, rfl, rfl, ?_, ?_⟩
  · unfold pushAroundSlot
    simp only [hslot, hchild, hslotAt, hreplace, hsplice, Option.map_some']
  · rw [nodeAt_child _ hp i ht ha _ (nodeAt_putAt hp host _ _ hhost)]
    simp [List.getElem?_set, hi]
  · exact nodeAt_putAt sp src _ _ hsrc

/-- From `<MyDiv> <span>a</span> <p>b</p> </MyDiv>` the node `span` is pushed
around the slot of `<div> <slot></slot> </div>`. -/
theorem C26_witness :
    ∃ src' host', pushAroundSlot spanAndP ([2, 1] ++ [1]) oneSlot = some (src', host') ∧
      nodeAt host' ([2, 1] ++ [1])
        = some (.element (.name "span") (clearSlot none) (some [defaultSlot])) ∧
      nodeAt src' [2, 1]
        = some (.element (.name "MyDiv") none
            (some ([HNode.text "\n    ", el "span" [.text "a"], .text "\n    ",
                el "p" [.text "b"], .text "\n"].take 1
              ++ [.text "a"]
              ++ [HNode.text "\n    ", el "span" [.text "a"], .text "\n    ",
                el "p" [.text "b"], .text "\n"].drop (1 + 1)))) :=
  match C26_pushAroundSlot_wraps_the_slot spanAndP oneSlot [2, 1] [2, 1] 1 1 (.name "MyDiv")
    (.name "div") (.name "span") none none none
    [.text "\n    ", el "span" [.text "a"], .text "\n    ", el "p" [.text "b"], .text "\n"]
    [.text "\n    ", defaultSlot, .text "\n"] [.text "a"] defaultSlot
    (by decide) rfl rfl rfl rfl with
  | ⟨src', host', h1, _, _, h4, h5⟩ => ⟨src', host', h1, h4, h5⟩

/-- C27 (the code departs from the claim where a node stands behind another
node). For a node of the source whose host slot `findHostSlot` finds, the node
being the item `k` of the content of its parent: when the node is the first
item or stands behind a text, `pushIntoSlot` makes the content of the slot its
former content (none is empty) followed by the inferred whitespace with four
spaces, the copy of the node, and the inferred whitespace, and the node is
excised from the source; when the node stands behind an item that is no text,
the operation throws. -/
theorem C27_pushIntoSlot_appends_to_the_slot (src host : HNode) (sp q : List Nat) (k : Nat)
    (st qt tag : Tag) (sa qa attrs : Option Attrs) (sc : List HNode)
    (qc content : Option (List HNode))
    (hslot : findHostSlot src (sp ++ [k]) host = some (some q))
    (hslotNode : nodeAt host q = some (.element qt qa qc))
    (hsrc : nodeAt src sp = some (.element st sa (some sc)))
    (hnode : sc[k]? = some (.element tag attrs content)) :
    ((k = 0 ∨ ∃ s, sc[k - 1]? = some (.text s)) →
      pushIntoSlot src (sp ++ [k]) host
        = some
            (putAt src sp (.element st sa (some (excised sc k (clearSlot attrs)))),
             putAt host q (.element qt qa
               (some (qc.getD []
                 ++ [.text (inferredWhitespace (qc.getD []) ++ "    "),
                     .element tag (clearSlot attrs) content,
                     .text (inferredWhitespace (qc.getD []))]))))) ∧
    ((0 < k ∧ ∀ s, sc[k - 1]? ≠ some (.text s)) →
      pushIntoSlot src (sp ++ [k]) host = none) := by
  have hchild : nodeAt src (sp ++ [k]) = some (.element tag attrs content) := by
    rw [nodeAt_child src sp k st sa sc hsrc, hnode]
  have hcopy := afterCopy_child src sp k st sa sc _ hsrc hnode
  have hinto :
      updateAt
          (fun slotNode =>
            match slotNode with
            | .element tag' attrs' content' =>
                let present := match content' with
                  | none => []
                  | some xs => xs
                (findWhitespace (some present)).map
                  (fun whitespace =>
                    .element tag' attrs'
                      (some (present ++
                        [.text (whitespace ++ "    "), copyNode (.element tag attrs content),
                         .text whitespace])))
            | _ => none)
          host q
        = some (putAt host q (.element qt qa
            (some (qc.getD []
              ++ [.text (inferredWhitespace (qc.getD []) ++ "    "),
                  .element tag (clearSlot attrs) content,
                  .text (inferredWhitespace (qc.getD []))])))) := by
    apply updateAt_eq_putAt _ q host _ _ hslotNode
    cases qc with
    | none => simp [findWhitespace_some, copyNode]
    | some xs => simp [findWhitespace_some, copyNode]
  constructor
  · intro hprev
    have hremove := removeNode_afterCopy src sp k st tag sa attrs sc content hsrc hnode hprev
    unfold pushIntoSlot
    simp only [hslot, hchild, hinto, hcopy, hremove, Option.map_some']
  · intro hprev
    have hremove := removeNode_afterCopy_none src sp k st tag sa attrs sc content hsrc hnode
      hprev.1 hprev.2
    unfold pushIntoSlot
    simp only [hslot, hchild, hinto, hcopy, hremove, Option.map_none']

/-- From `<MyDiv> <span>a</span> <p>b</p> </MyDiv>` the node `span` is pushed
into the slot of `<div> <slot></slot> </div>`; from
`<MyDiv><p>a</p><span>b</span></MyDiv>` it is not: the operation throws. -/
theorem C27_witness :
    pushIntoSlot spanAndP ([2, 1] ++ [1]) oneSlot
        = some
            (putAt spanAndP [2, 1] (.element (.name "MyDiv") none
               (some (excised
                 [.text "\n    ", el "span" [.text "a"], .text "\n    ", el "p" [.text "b"],
                  .text "\n"] 1 (clearSlot none)))),
             putAt oneSlot [2, 1, 1] (.element (.name "slot") none
               (some ((none : Option (List HNode)).getD []
                 ++ [.text (inferredWhitespace ((none : Option (List HNode)).getD []) ++ "    "),
                     .element (.name "span") (clearSlot none) (some [.text "a"]),
                     .text (inferredWhitespace ((none : Option (List HNode)).getD []))])))) ∧
    pushIntoSlot adjacentNodes ([2, 1] ++ [1]) oneSlot = none :=
  ⟨(C27_pushIntoSlot_appends_to_the_slot spanAndP oneSlot [2, 1] [2, 1, 1] 1 (.name "MyDiv")
      (.name "slot") (.name "span") none none none
      [.text "\n    ", el "span" [.text "a"], .text "\n    ", el "p" [.text "b"], .text "\n"]
      none (some [.text "a"]) (by decide) rfl rfl rfl).1 (Or.inr ⟨"\n    ", rfl⟩),
   (C27_pushIntoSlot_appends_to_the_slot adjacentNodes oneSlot [2, 1] [2, 1, 1] 1
      (.name "MyDiv") (.name "slot") (.name "span") none none none
      [el "p" [.text "a"], el "span" [.text "b"]]
      none (some [.text "b"]) (by decide) rfl rfl rfl).2 ⟨by decide, fun s h => by cases h⟩⟩

/-- The index that `lastIndex` gives is the one of the last item that passes
the test. -/
theorem lastIndex_spec (test : HNode → Bool) :
    ∀ (xs : List HNode) (j : Nat), lastIndex test xs = some j →
      (∃ x, xs[j]? = some x ∧ test x = true) ∧
      ∀ (m : Nat) (x : HNode), j < m → xs[m]? = some x → test x = false := by
  intro xs
  induction xs with
  | nil => intro j h; simp [lastIndex] at h
  | cons y rest ih =>
      intro j h
      simp only [lastIndex] at h
      cases hrest : lastIndex test rest with
      | some k =>
          simp only [hrest, Option.some.injEq] at h
          subst h
          obtain ⟨hx, hlater⟩ := ih k hrest
          refine ⟨by simpa using hx, ?_⟩
          intro m x hm hmx
          cases m with
          | zero => omega
          | succ m =>
              simp only [List.getElem?_cons_succ] at hmx
              exact hlater m x (by omega) hmx
      | none =>
          simp only [hrest] at h
          cases hy : test y with
          | false => simp [hy] at h
          | true =>
              simp only [hy, if_true, Option.some.injEq] at h
              subst h
              refine ⟨⟨y, by simp, hy⟩, ?_⟩
              intro m x hm hmx
              cases m with
              | zero => omega
              | succ m =>
                  simp only [List.getElem?_cons_succ] at hmx
                  have hnone : ∀ (zs : List HNode), lastIndex test zs = none →
                      ∀ z ∈ zs, test z = false := by
                    intro zs
                    induction zs with
                    | nil => intro _ z hz; cases hz
                    | cons w ws ihw =>
                        intro hzs z hz
                        simp only [lastIndex] at hzs
                        cases hws : lastIndex test ws with
                        | some k => simp [hws] at hzs
                        | none =>
                            simp only [hws] at hzs
                            cases hw : test w with
                            | true => simp [hw] at hzs
                            | false =>
                                rcases List.mem_cons.mp hz with h1 | h1
                                · rw [h1]; exact hw
                                · exact ihw hws z h1
                  exact hnone rest hrest x (List.getElem?_mem hmx)

/-- C28 (the code departs from the claim where the node lies in a
slot-attributed element). For a node whose containing boundary has a tag with
a capital letter, `pushIntoNewSlot` returns: in the source the node has the
slot attribute and nothing else has changed, and in the host the second item
of the content of the first `template` node has got, behind its last element
child, the inferred whitespace and a new slot node with that name. For a node
whose boundary is a slot-attributed element with a lower-case tag the node is
put behind the boundary without being taken from its place, so that it occurs
twice: the node `p` inside `<template slot="a">`, and the node
`<p slot="old">`, which is its own boundary. -/
theorem C28_pushIntoNewSlot_copies_out_of_a_slot (src host : HNode) (p c template : List Nat)
    (slotName ctag : String) (tag rt : Tag) (attrs ca ra : Option Attrs)
    (content cc : Option (List HNode)) (rc : List HNode) (j : Nat)
    (hcontainer : findContainingSlot src p = some (some c))
    (hctag : nodeAt src c = some (.element (.name ctag) ca cc))
    (hupper : hasUpper ctag = true)
    (hnode : nodeAt src p = some (.element tag attrs content))
    (htemplate : (filterHAST host (matchesFilter "template" none)).head? = some template)
    (hroot : nodeAt host (template ++ [1]) = some (.element rt ra (some rc)))
    (hlast : lastIndex isObject rc = some j) :
    pushIntoNewSlot src p slotName host
      = some
          (putAt src p
             (.element tag (some (setField "slot" (AttrVal.str slotName) (attrs.getD [])))
               content),
           putAt host (template ++ [1]) (.element rt ra
             (some (rc.take (j + 1)
               ++ [.text (inferredWhitespace rc),
                   .element (.name "slot") (some [("name", .str slotName)]) none]
               ++ rc.drop (j + 1))))) ∧
    ((∃ x, rc[j]? = some x ∧ isObject x = true) ∧
      ∀ (m : Nat) (x : HNode), j < m → rc[m]? = some x → isObject x = false) ∧
    (pushIntoNewSlot insideSlotTemplate [2, 1, 1, 0] "b" oneSlot).map Prod.fst
      = some (fileTree "MyDiv"
          [.text "\n    ",
           elWith "template" [("slot", .str "a")] [elWith "p" [("slot", .str "b")] [.text "x"]],
           .text "\n    ",
           elWith "p" [("slot", .str "b")] [.text "x"],
           .text "\n"]) ∧
    (pushIntoNewSlot slottedP [2, 1, 1] "new" oneSlot).map Prod.fst
      = some (fileTree "MyDiv"
          [.text "\n    ",
           elWith "p" [("slot", .str "new")] [.text "x"],
           .text "\n    ",
           elWith "p" [("slot", .str "new")] [.text "x"],
           .text "\n"]) := by
  refine ⟨?_, lastIndex_spec isObject rc j hlast, rfl, rfl⟩
  have hset : updateAt (setSlot slotName) src p
      = some (putAt src p
          (.element tag (some (setField "slot" (AttrVal.str slotName) (attrs.getD []))) content)) := by
    apply updateAt_eq_putAt _ p src _ _ hnode
    cases attrs <;> rfl
  have happend : append host
        (.element (.name "slot") (some [("name", .str slotName)]) none) (template ++ [1])
      = some (putAt host (template ++ [1]) (.element rt ra
          (some (rc.take (j + 1)
            ++ [.text (inferredWhitespace rc),
                .element (.name "slot") (some [("name", .str slotName)]) none]
            ++ rc.drop (j + 1))))) := by
    unfold append
    simp only [hroot, hlast]
    exact insertAfter_child host _ (template ++ [1]) j rt ra rc hroot
  unfold pushIntoNewSlot
  simp only [hcontainer, hctag, hset, hupper, if_true, htemplate, happend, Option.map_some']

/-- In `<MyDiv> <span>a</span> <p>b</p> </MyDiv>` the node `p` gets the slot
`my-slot`, and the host `<div> <slot></slot> </div>` gets the new slot behind
its slot. -/
theorem C28_witness :
    pushIntoNewSlot spanAndP [2, 1, 3] "my-slot" oneSlot
      = some
          (putAt spanAndP [2, 1, 3]
             (.element (.name "p")
               (some (setField "slot" (AttrVal.str "my-slot") ((none : Option Attrs).getD [])))
               (some [.text "b"])),
           putAt oneSlot ([2] ++ [1]) (.element (.name "div") none
             (some ([HNode.text "\n    ", defaultSlot, .text "\n"].take (1 + 1)
               ++ [.text (inferredWhitespace [.text "\n    ", defaultSlot, .text "\n"]),
                   .element (.name "slot") (some [("name", .str "my-slot")]) none]
               ++ [HNode.text "\n    ", defaultSlot, .text "\n"].drop (1 + 1))))) :=
  (C28_pushIntoNewSlot_copies_out_of_a_slot spanAndP oneSlot [2, 1, 3] [2, 1] [2] "my-slot"
    "MyDiv" (.name "p") (.name "div") none none none (some [.text "b"])
    (some [.text "\n    ", el "span" [.text "a"], .text "\n    ", el "p" [.text "b"],
      .text "\n"])
    [.text "\n    ", defaultSlot, .text "\n"] 1
    (by decide) rfl (by decide) rfl (by decide) rfl (by decide)).1

/-! ## Theorems: the extraction of a component -/

/-- A new key among the keys of an object: the entries are the old ones and
the new one. -/
theorem insertKey_perm {α : Type} (key : String) (val : α) :
    ∀ acc : List (String × α), (insertKey key val acc).Perm ((key, val) :: acc)
  | [] => by simp [insertKey]
  | (k, v) :: rest => by
      unfold insertKey
      cases arrayIndex key with
      | none =>
          exact ((insertKey_perm key val rest).cons (k, v)).trans (List.Perm.swap _ _ _)
      | some n =>
          cases arrayIndex k with
          | none => exact List.Perm.refl _
          | some m =>
              by_cases h : n < m
              · simp only [h, if_true]
                exact List.Perm.refl _
              · simp only [h, if_false]
                exact ((insertKey_perm key val rest).cons (k, v)).trans (List.Perm.swap _ _ _)

/-- The value of a key after a new key was put among the keys of an object. -/
theorem lookup_insertKey {α : Type} (key k : String) (val : α) :
    ∀ acc : List (String × α), acc.any (fun kv => kv.1 == key) = false →
      (insertKey key val acc).lookup k = if k == key then some val else acc.lookup k
  | [], _ => by
      simp only [insertKey, List.lookup]
      cases k == key <;> rfl
  | (k0, v0) :: rest, h => by
      simp only [List.any_cons, Bool.or_eq_false_iff] at h
      obtain ⟨h0, hrest⟩ := h
      have hne : k0 ≠ key := by simpa using h0
      have hfront : ((key, val) :: (k0, v0) :: rest).lookup k
          = if k == key then some val else ((k0, v0) :: rest).lookup k := by
        rw [List.lookup_cons]
        cases k == key <;> rfl
      have hlater : ((k0, v0) :: insertKey key val rest).lookup k
          = if k == key then some val else ((k0, v0) :: rest).lookup k := by
        rw [List.lookup_cons, List.lookup_cons, lookup_insertKey key k val rest hrest]
        cases hk0 : k == k0 with
        | false => rfl
        | true =>
            have hk : k = k0 := by simpa using hk0
            have hkk : (k == key) = false := by
              rw [hk]
              simpa using hne
            simp [hkk]
      unfold insertKey
      cases arrayIndex key with
      | none => exact hlater
      | some n =>
          cases arrayIndex k0 with
          | none => exact hfront
          | some m =>
              by_cases hnm : n < m
              · simp only [hnm, if_true]
                exact hfront
              · simp only [hnm, if_false]
                exact hlater

/-- A new value for a key keeps the values of the other keys. -/
theorem lookup_map_other {α : Type} (key k : String) (val : α) (hk : (k == key) = false) :
    ∀ acc : List (String × α),
      (acc.map (fun kv => if kv.1 == key then (kv.1, val) else kv)).lookup k = acc.lookup k
  | [] => rfl
  | (k0, v0) :: rest => by
      simp only [List.map_cons]
      cases hk0 : k0 == key with
      | true =>
          have he : k0 = key := by simpa using hk0
          have hkk : (k == k0) = false := by rw [he]; exact hk
          simp only [if_true, List.lookup_cons, hkk]
          exact lookup_map_other key k val hk rest
      | false =>
          simp only [Bool.false_eq_true, if_false, List.lookup_cons]
          rw [lookup_map_other key k val hk rest]

/-- A new value for a key that is there is the value of the key. -/
theorem lookup_map_same {α : Type} (key : String) (val : α) :
    ∀ acc : List (String × α), acc.any (fun kv => kv.1 == key) = true →
      (acc.map (fun kv => if kv.1 == key then (kv.1, val) else kv)).lookup key = some val
  | [], h => by simp at h
  | (k0, v0) :: rest, h => by
      simp only [List.map_cons]
      cases hk0 : k0 == key with
      | true =>
          have hk : (key == k0) = true := by
            have : k0 = key := by simpa using hk0
            simp [this]
          simp only [if_true, List.lookup_cons, hk]
      | false =>
          have hk : (key == k0) = false := by
            cases hkk : key == k0 with
            | false => rfl
            | true =>
                have : key = k0 := by simpa using hkk
                rw [this] at hk0
                simp at hk0
          simp only [List.any_cons, hk0, Bool.false_or] at h
          simp only [Bool.false_eq_true, if_false, List.lookup_cons, hk]
          exact lookup_map_same key val rest h

/-- The value of a key in `{ ...acc, [key]: val }`. -/
theorem lookup_assignKey {α : Type} (key k : String) (val : α) (acc : List (String × α)) :
    (assignKey acc key val).lookup k = if k == key then some val else acc.lookup k := by
  unfold assignKey
  cases hany : acc.any (fun kv => kv.1 == key) with
  | false =>
      simp only [Bool.false_eq_true, if_false]
      exact lookup_insertKey key k val acc hany
  | true =>
      simp only [if_true]
      cases hk : k == key with
      | false =>
          simp only [Bool.false_eq_true, if_false]
          exact lookup_map_other key k val hk acc
      | true =>
          have : k = key := by simpa using hk
          subst this
          simp only [if_true]
          exact lookup_map_same k val acc hany

/-- The keys of `{ ...acc, [key]: val }` differ from one another when those of
`acc` do. -/
theorem assignKey_nodup {α : Type} (key : String) (val : α) (acc : List (String × α))
    (h : (acc.map Prod.fst).Nodup) : ((assignKey acc key val).map Prod.fst).Nodup := by
  unfold assignKey
  cases hany : acc.any (fun kv => kv.1 == key) with
  | true =>
      simp only [if_true]
      have hkeys : (acc.map (fun kv => if kv.1 == key then (kv.1, val) else kv)).map Prod.fst
          = acc.map Prod.fst := by
        rw [List.map_map]
        apply List.map_congr_left
        intro kv _
        simp only [Function.comp]
        split <;> rfl
      rw [hkeys]
      exact h
  | false =>
      simp only [Bool.false_eq_true, if_false]
      have hperm := (insertKey_perm key val acc).map Prod.fst
      rw [hperm.nodup_iff]
      simp only [List.map_cons, List.nodup_cons]
      refine ⟨?_, h⟩
      intro hmem
      obtain ⟨kv, hkv, he⟩ := List.mem_map.mp hmem
      have := List.any_eq_false.mp hany kv hkv
      simp [he] at this

/-- The object that `mapWithKeys` makes of keys, each with the value `f`
gives it: a key of the list has that value, no other key has one, and the keys
differ from one another. -/
theorem mapWithKeys_lookup {β : Type} (f : String → β) (k : String) :
    ∀ (arr : List String) (acc : List (String × β)),
      (arr.foldl (fun acc value => assignKey acc (value, f value).1 (value, f value).2)
          acc).lookup k
        = if k ∈ arr then some (f k) else acc.lookup k
  | [], acc => by simp
  | x :: rest, acc => by
      rw [List.foldl_cons, mapWithKeys_lookup f k rest, lookup_assignKey]
      by_cases hrest : k ∈ rest
      · simp [hrest]
      · simp only [hrest, if_false, List.mem_cons, or_false]
        cases hk : k == x with
        | false =>
            have hne : k ≠ x := by simpa using hk
            simp [hne]
        | true =>
            have he : k = x := by simpa using hk
            simp [he]

/-- The keys of the object that `mapWithKeys` makes differ from one
another. -/
theorem mapWithKeys_nodup {β : Type} (f : String → β) :
    ∀ (arr : List String) (acc : List (String × β)), (acc.map Prod.fst).Nodup →
      ((arr.foldl (fun acc value => assignKey acc (value, f value).1 (value, f value).2)
          acc).map Prod.fst).Nodup
  | [], acc, h => by simpa using h
  | x :: rest, acc, h => by
      rw [List.foldl_cons]
      exact mapWithKeys_nodup f rest _ (assignKey_nodup _ _ acc h)

/-- The value of a key in the entries of an object whose keys pass a test. -/
theorem lookup_filter_key {α : Type} (q : String → Bool) (k : String) :
    ∀ l : List (String × α),
      (l.filter (fun kv => q kv.1)).lookup k = if q k then l.lookup k else none
  | [] => by simp
  | (k0, v0) :: rest => by
      cases hk0 : k == k0 with
      | true =>
          have he : k = k0 := by simpa using hk0
          subst he
          cases hq : q k with
          | true => simp [List.filter_cons, hq, List.lookup_cons]
          | false =>
              simp only [List.filter_cons, hq, Bool.false_eq_true, if_false]
              rw [lookup_filter_key q k rest]
              simp [hq]
      | false =>
          cases hq0 : q k0 with
          | true =>
              simp only [List.filter_cons, hq0, if_true, List.lookup_cons, hk0]
              exact lookup_filter_key q k rest
          | false =>
              simp only [List.filter_cons, hq0, Bool.false_eq_true, if_false,
                List.lookup_cons, hk0]
              exact lookup_filter_key q k rest

/-- The characters before the first one that fails a test. -/
theorem takeWhile_append_stop {α : Type} (p : α → Bool) (x : α) (hx : p x = false) :
    ∀ (l m : List α), (∀ y ∈ l, p y = true) → (l ++ x :: m).takeWhile p = l
  | [], m, _ => by simp [List.takeWhile_cons, hx]
  | y :: l, m, h => by
      have hy : p y = true := h y (List.mem_cons_self _ _)
      simp only [List.cons_append, List.takeWhile_cons, hy, if_true]
      rw [takeWhile_append_stop p x hx l m (fun z hz => h z (List.mem_cons_of_mem _ hz))]

/-- The name of the component of a path `dir/name.ext`. -/
theorem componentName_path (dir name ext : List Char)
    (hname : '/' ∉ name ∧ '.' ∉ name) (hext : '/' ∉ ext) :
    componentName (String.mk (dir ++ '/' :: (name ++ '.' :: ext))) = String.mk name := by
  unfold componentName afterLast beforeFirst
  have hlast : ((dir ++ '/' :: (name ++ '.' :: ext)).reverse.takeWhile (fun c => c != '/')).reverse
      = name ++ '.' :: ext := by
    have hrev : (dir ++ '/' :: (name ++ '.' :: ext)).reverse
        = (name ++ '.' :: ext).reverse ++ '/' :: dir.reverse := by
      simp
    rw [hrev, takeWhile_append_stop (fun c => c != '/') '/' (by decide) _ _ ?_]
    · simp
    · intro y hy
      have hy' : y ∈ name ++ '.' :: ext := List.mem_reverse.mp hy
      have hne : y ≠ '/' := by
        intro he
        subst he
        rcases List.mem_append.mp hy' with h1 | h1
        · exact hname.1 h1
        · rcases List.mem_cons.mp h1 with h2 | h2
          · cases h2
          · exact hext h2
      simpa using hne
  simp only [hlast]
  rw [takeWhile_append_stop (fun c => c != '.') '.' (by decide) name ext ?_]
  intro y hy
  have hne : y ≠ '.' := fun he => hname.2 (he ▸ hy)
  simpa using hne

/-- A key of an object has a value. -/
theorem lookup_of_mem_keys {α : Type} (k : String) :
    ∀ l : List (String × α), k ∈ l.map Prod.fst → ∃ v, l.lookup k = some v
  | [], h => by simp at h
  | (k0, v0) :: rest, h => by
      cases hk : k == k0 with
      | true => exact ⟨v0, by simp [List.lookup_cons, hk]⟩
      | false =>
          have hne : k ≠ k0 := by simpa using hk
          have hrest : k ∈ rest.map Prod.fst := by
            rcases List.mem_cons.mp h with h1 | h1
            · exact absurd h1 hne
            · exact h1
          obtain ⟨v, hv⟩ := lookup_of_mem_keys k rest hrest
          exact ⟨v, by simp [List.lookup_cons, hk, hv]⟩

/-- C30. For an element with the attribute map `A` (keys that differ from one
another), a path `dir/name.ext` and lifted keys `K` that are keys of `A`, when
the import of the component and the construction of the new component
succeed: `refactorIntoComponent` returns; the node then has the tag `name`,
the attributes of `A` whose key is not in `K`, and its content; the root
element of the new component has the former tag of the node, an attribute map
`lifted` and, between two texts, one slot without name as content. A key of
`K` has in `lifted` the value it has in `A` and no value in the map left on
the node, any other key has in the map left on the node the value it has in
`A` and no value in `lifted`, and in both maps the keys differ from one
another. -/
theorem C30_refactorIntoComponent_partitions_the_attributes (g : ScriptGrammar)
    (cmp : Component) (p : List Nat) (cmpPath : String) (K : List String)
    (dir name ext : List Char) (tag : Tag) (A : Attrs) (content : Option (List HNode))
    (script' newScript : Node)
    (hnode : nodeAt cmp.tree p = some (.element tag (some A) content))
    (hnodup : (A.map Prod.fst).Nodup)
    (hK : ∀ key ∈ K, key ∈ A.map Prod.fst)
    (hpath : cmpPath = String.mk (dir ++ '/' :: (name ++ '.' :: ext)))
    (hname : '/' ∉ name ∧ '.' ∉ name) (hext : '/' ∉ ext)
    (himport : importComponent g cmp.script cmpPath = some script')
    (hnew : constructScript g (newComponentTree none) = some newScript) :
    ∃ lifted : Attrs,
      refactorIntoComponent g cmp p cmpPath K
        = some
            ({ script := script',
               tree := putAt cmp.tree p
                 (.element (.name (String.mk name))
                   (some (A.filter (fun kv => !K.contains kv.1))) content) },
             { script := newScript,
               tree := newComponentTree
                 (some [.text "\n",
                   .element tag (some lifted)
                     (some [.text "\n    ", .element (.name "slot") none none, .text "\n"]),
                   .text "\n"]) }) ∧
      (∀ key : String, lifted.lookup key = if key ∈ K then A.lookup key else none) ∧
      (∀ key : String,
        (A.filter (fun kv => !K.contains kv.1)).lookup key
          = if key ∈ K then none else A.lookup key) ∧
      (lifted.map Prod.fst).Nodup ∧
      ((A.filter (fun kv => !K.contains kv.1)).map Prod.fst).Nodup := by
  have hcmpName : componentName cmpPath = String.mk name := by
    rw [hpath]
    exact componentName_path dir name ext hname hext
  have hobj : ∃ obj : Attrs, (if K.isEmpty then some [] else some A) = some obj ∧
      (K ≠ [] → obj = A) := by
    cases K with
    | nil => exact ⟨[], rfl, fun h => absurd rfl h⟩
    | cons k rest => exact ⟨A, rfl, fun _ => rfl⟩
  obtain ⟨obj, hobjEq, hobjA⟩ := hobj
  refine ⟨mapWithKeys K (fun key => (key, (obj.lookup key).getD AttrVal.other)), ?_, ?_, ?_, ?_, ?_⟩
  · have hupdate := updateAt_eq_putAt
      (fun _ => some (.element (.name (componentName cmpPath))
        (some (A.filter (fun kv => !K.contains kv.1))) content))
      p cmp.tree _ _ hnode rfl
    rw [hcmpName] at hupdate
    unfold refactorIntoComponent
    simp only [hnode, hobjEq, Option.map_some', himport, hnew, hcmpName, hupdate]
    rfl
  · intro key
    have hlookup := mapWithKeys_lookup (fun key => (obj.lookup key).getD AttrVal.other) key K []
    have hlookup' : (mapWithKeys K (fun key => (key, (obj.lookup key).getD AttrVal.other))).lookup key
        = if key ∈ K then some ((obj.lookup key).getD AttrVal.other) else none := hlookup
    rw [hlookup']
    by_cases hmem : key ∈ K
    · have hne : K ≠ [] := fun h => by rw [h] at hmem; cases hmem
      obtain ⟨v, hv⟩ := lookup_of_mem_keys key A (hK key hmem)
      simp [hmem, hobjA hne, hv]
    · simp [hmem]
  · intro key
    rw [lookup_filter_key (fun k => !K.contains k) key A]
    by_cases hmem : key ∈ K
    · simp [hmem]
    · simp [hmem]
  · exact mapWithKeys_nodup (fun key => (obj.lookup key).getD AttrVal.other) K [] (by simp)
  · exact hnodup.sublist ((List.filter_sublist _).map Prod.fst)

/-- From `<div class="my-class" v-if="true">` the attribute `class` is lifted
into the component of the path `src/MyDiv.vue`. -/
theorem C30_witness :
    ∃ lifted : Attrs,
      refactorIntoComponent importGrammar divWithClass [2, 1]
          "src/MyDiv.vue" ["class"]
        = some
            ({ script := importedMyDiv,
               tree := putAt divWithClass.tree [2, 1]
                 (.element (.name (String.mk "MyDiv".data))
                   (some ([("class", AttrVal.str "my-class"), ("v-if", .str "true")].filter
                     (fun kv => !(["class"].contains kv.1))))
                   (some [.text "\n    ", el "span" [.text "text"], .text "\n"])) },
             { script := exportDefault [],
               tree := newComponentTree
                 (some [.text "\n",
                   .element (.name "div") (some lifted)
                     (some [.text "\n    ", .element (.name "slot") none none, .text "\n"]),
                   .text "\n"]) }) ∧
      lifted.lookup "class" = some (AttrVal.str "my-class") ∧
      lifted.lookup "v-if" = none :=
  match C30_refactorIntoComponent_partitions_the_attributes importGrammar divWithClass [2, 1]
    "src/MyDiv.vue" ["class"] "src".data "MyDiv".data "vue".data (.name "div")
    [("class", .str "my-class"), ("v-if", .str "true")]
    (some [.text "\n    ", el "span" [.text "text"], .text "\n"]) importedMyDiv (exportDefault [])
    rfl (by decide) (by decide) (by decide) (by decide) (by decide) (by decide) (by decide) with
  | ⟨lifted, h1, h2, _, _, _⟩ =>
      ⟨lifted, h1, (h2 "class").trans (by decide), (h2 "v-if").trans (by decide)⟩

/-! ## The attributes of a rendered tag -/

theorem escapeQuotesChars_flatMap (cs : List Char) :
    escapeQuotesChars cs = cs.flatMap (fun c => if c = '"' then "&quot;".data else [c]) := by
  induction cs with
  | nil => rfl
  | cons c cs ih =>
      by_cases hc : c = '"'
      · simp only [escapeQuotesChars, hc, if_true, List.flatMap_cons, ih]
        rfl
      · simp only [escapeQuotesChars, hc, if_false, List.flatMap_cons, ih]
        rfl

theorem escapeQuotesChars_no_quote (cs : List Char) : '"' ∉ escapeQuotesChars cs := by
  induction cs with
  | nil => simp [escapeQuotesChars]
  | cons c cs ih =>
      by_cases hc : c = '"'
      · simp only [escapeQuotesChars, hc, if_true, List.mem_cons, not_or]
        exact ⟨by decide, by decide, by decide, by decide, by decide, by decide, ih⟩
      · simp only [escapeQuotesChars, hc, if_false, List.mem_cons, not_or]
        exact ⟨fun h => hc h.symm, ih⟩

theorem join_foldl (l : List String) (acc : String) :
    List.foldl (fun r s => r ++ s) acc l = acc ++ String.join l := by
  induction l generalizing acc with
  | nil => simp [String.join]
  | cons s l ih =>
      simp only [List.foldl_cons, String.join]
      rw [ih, ih ("" ++ s)]
      simp [String.append_assoc]

theorem attrsLoop_join (spacing : String) (obj : Attrs) (attr : String) :
    attrsLoop spacing attr obj = attr ++ String.join (obj.map (attrText spacing)) := by
  induction obj generalizing attr with
  | nil => simp [attrsLoop, String.join]
  | cons kv rest ih =>
      simp only [attrsLoop, List.map_cons, String.join, List.foldl_cons]
      rw [ih, join_foldl]
      simp [String.append_assoc]

/-- C40: for every attribute map, what `attrs` emits is the concatenation of
what it emits per key; a string value `v` gives `key="v1"` where `v1` is `v`
with every double quote replaced by `&quot;` and holds no double quote; the
value `true` gives the bare key, a number is quoted, any other value gives
nothing. -/
theorem C40_attrs_escape_quotes (obj : Attrs) (padding : Nat) (spacing key v : String) (n : Nat) :
    attrText spacing (key, .str v) = spacing ++ key ++ "=\"" ++ escapeQuotes v ++ "\""
    ∧ escapeQuotes v = quotesReplaced v
    ∧ '"' ∉ (escapeQuotes v).data
    ∧ attrText spacing (key, .yes) = spacing ++ key
    ∧ attrText spacing (key, .num n) = spacing ++ key ++ "=\"" ++ toString n ++ "\""
    ∧ attrText spacing (key, .other) = ""
    ∧ attrs obj padding =
        String.join (obj.map
          (attrText (if 1 < obj.length then "\n" ++ spaces (padding + 4) else " ")))
        ++ (if 1 < obj.length then "\n" ++ spaces padding else "") := by
  refine ⟨rfl, ?_, ?_, rfl, rfl, rfl, ?_⟩
  · simp only [escapeQuotes, quotesReplaced, escapeQuotesChars_flatMap]
  · exact escapeQuotesChars_no_quote v.data
  · by_cases h : 1 < obj.length
    · simp [attrs, h, attrsLoop_join, String.append_assoc]
    · simp [attrs, h, attrsLoop_join]

/-! ## The excision of a markup node -/

theorem excised_spec (content : List HNode) (k : Nat) (tag : Tag) (attrs : Option Attrs)
    (inner : Option (List HNode))
    (hnode : content[k]? = some (.element tag attrs inner))
    (hprev : k = 0 ∨ ∃ s, content[k - 1]? = some (.text s)) :
    (excised content k attrs)[k]? = some (.element .skip attrs none)
    ∧ (∀ j, j ≠ k → j + 1 ≠ k → (excised content k attrs)[j]? = content[j]?)
    ∧ (∀ j s, j + 1 = k → content[j]? = some (.text s) →
        (excised content k attrs)[j]? = some (.text (trimRight s))) := by
  have hk : k < content.length := by
    rcases Nat.lt_or_ge k content.length with h | h
    · exact h
    · rw [List.getElem?_eq_none h] at hnode
      cases hnode
  cases k with
  | zero =>
      refine ⟨?_, ?_, ?_⟩
      · simp [excised, List.getElem?_set, hk]
      · intro j hj _
        simp only [excised]
        rw [List.getElem?_set_ne (fun h => hj h.symm)]
      · intro j s hj
        omega
  | succ i =>
      rcases hprev with h0 | ⟨s, hs⟩
      · omega
      · simp only [Nat.add_sub_cancel] at hs
        have hi : i < content.length := by omega
        refine ⟨?_, ?_, ?_⟩
        · simp only [excised, hs]
          rw [List.getElem?_set_ne (by omega)]
          simp [List.getElem?_set, hk]
        · intro j hj hj1
          simp only [excised, hs]
          rw [List.getElem?_set_ne (by omega), List.getElem?_set_ne (fun h => hj h.symm)]
        · intro j s' hj hs'
          have hji : j = i := by omega
          subst hji
          rw [hs] at hs'
          cases hs'
          simp [excised, hs, List.getElem?_set, hi]

/-- C35 (the code departs from the claim where the node stands behind an item
that is no text). For a node that is the item `k` of the content of its
parent: when it is the first item or stands behind a text, `removeNode`
returns; the node then has no tag and no content and renders as the empty
text, the text before it has lost its trailing whitespace, and every other
item of the content is as it was. When the node stands behind an item that is
no text, `removeNode` throws. -/
theorem C35_removeNode_excises (tree : HNode) (p : List Nat) (k : Nat) (ptag tag : Tag)
    (pattrs attrs : Option Attrs) (content : List HNode) (inner : Option (List HNode))
    (hat : nodeAt tree p = some (.element ptag pattrs (some content)))
    (hnode : content[k]? = some (.element tag attrs inner)) :
    ((k = 0 ∨ ∃ s, content[k - 1]? = some (.text s)) →
      removeNode tree (p ++ [k])
        = some (putAt tree p (.element ptag pattrs (some (excised content k attrs))))
      ∧ (excised content k attrs)[k]? = some (.element .skip attrs none)
      ∧ (∀ opts result, htmlNode opts result (.element .skip attrs none) = some result)
      ∧ (∀ j, j ≠ k → j + 1 ≠ k → (excised content k attrs)[j]? = content[j]?)
      ∧ (∀ j s, j + 1 = k → content[j]? = some (.text s) →
          (excised content k attrs)[j]? = some (.text (trimRight s)))) ∧
    ((0 < k ∧ ∀ s, content[k - 1]? ≠ some (.text s)) →
      removeNode tree (p ++ [k]) = none) := by
  constructor
  · intro hprev
    have hspec := excised_spec content k tag attrs inner hnode hprev
    refine ⟨removeNode_child tree p k ptag tag pattrs attrs content inner hat hnode hprev,
      hspec.1, ?_, hspec.2.1, hspec.2.2⟩
    intro opts result
    simp [htmlNode, htmlContent]
  · intro hprev
    exact removeNode_child_none tree p k ptag tag pattrs attrs content inner hat hnode
      hprev.1 hprev.2

theorem C35_witness :
    (removeNode spanAndP ([2, 1] ++ [1])
        = some (putAt spanAndP [2, 1] (.element (.name "MyDiv") none
            (some (excised
              [.text "\n    ", el "span" [.text "a"], .text "\n    ", el "p" [.text "b"],
               .text "\n"] 1 none))))
      ∧ (excised
          [.text "\n    ", el "span" [.text "a"], .text "\n    ", el "p" [.text "b"],
           .text "\n"] 1 none)[1]? = some (.element .skip none none)
      ∧ (∀ opts result, htmlNode opts result (.element .skip none none) = some result)
      ∧ (∀ j, j ≠ 1 → j + 1 ≠ 1 →
          (excised
            [.text "\n    ", el "span" [.text "a"], .text "\n    ", el "p" [.text "b"],
             .text "\n"] 1 none)[j]?
            = [HNode.text "\n    ", el "span" [.text "a"], .text "\n    ", el "p" [.text "b"],
               .text "\n"][j]?)
      ∧ (∀ j s, j + 1 = 1 →
          [HNode.text "\n    ", el "span" [.text "a"], .text "\n    ", el "p" [.text "b"],
           .text "\n"][j]? = some (.text s) →
          (excised
            [.text "\n    ", el "span" [.text "a"], .text "\n    ", el "p" [.text "b"],
             .text "\n"] 1 none)[j]? = some (.text (trimRight s)))) ∧
    removeNode adjacentNodes ([2, 1] ++ [1]) = none :=
  ⟨(C35_removeNode_excises spanAndP [2, 1] 1 (.name "MyDiv") (.name "span") none none
      [.text "\n    ", el "span" [.text "a"], .text "\n    ", el "p" [.text "b"], .text "\n"]
      (some [.text "a"]) rfl rfl).1 (Or.inr ⟨"\n    ", rfl⟩),
   (C35_removeNode_excises adjacentNodes [2, 1] 1 (.name "MyDiv") (.name "span") none none
      [el "p" [.text "a"], el "span" [.text "b"]] (some [.text "b"]) rfl rfl).2
      ⟨by decide, fun s h => by cases h⟩⟩

/-! ## Renaming an entry of an option -/

/-- C37 (the code departs from the claim). On
`methods: { foo() { return { bar: 1 }; }, bar() {} }`, and the same entries
under `computed` and `watch`, and on `data() { return { foo: { bar: 1 }, bar: 2 }; }`,
the rename of `bar` to `baz` changes the key of the object-literal property
`bar` that is nested in the entry `foo`, and the top-level entry `bar` keeps
its key. -/
theorem C37_rename_takes_a_nested_key :
    (renameMethod verbatim (optionFooBar "methods" "bar") (.list []) "bar" "baz").map Prod.fst
      = some (optionFooBar "methods" "baz")
    ∧ (renameComputed verbatim (optionFooBar "computed" "bar") (.list []) "bar" "baz").map Prod.fst
      = some (optionFooBar "computed" "baz")
    ∧ renameWatcher (optionFooBar "watch" "bar") "bar" "baz" = some (optionFooBar "watch" "baz")
    ∧ (renameData verbatim (dataFooBar "bar") (.list []) "bar" "baz").map Prod.fst
      = some (dataFooBar "baz") := by
  refine ⟨?_, ?_, ?_, ?_⟩ <;> decide

theorem renameDestructuredProps_keyless (name newName : String) (l : String) (prop : Node)
    (rest : List (String × Node)) (hkey : prop.kid "key" = none) :
    ∀ pre : List (String × Node),
      renameDestructuredProps name newName (pre ++ (l, prop) :: rest) = none := by
  intro pre
  induction pre with
  | nil => simp [renameDestructuredProps, renameDestructuredProp, hkey]
  | cons x pre ih =>
      obtain ⟨lx, px⟩ := x
      show renameDestructuredProps name newName ((lx, px) :: (pre ++ (l, prop) :: rest)) = none
      simp only [renameDestructuredProps, ih]
      cases renameDestructuredProp name newName px <;> rfl

/-- C38 (the code departs from the claim). The callback of
`renameVariableDestructurings` throws on every declarator `<id> = this` whose
declared `id` has no `properties` (as the identifier of `const self = this`),
and the loop over the properties of a pattern throws when one of them has no
key (as a rest element); so `renameThisAttr` throws on `const self = this;`
and on `const { foo, ...others } = this;`. -/
theorem C38_renameThisAttr_throws_on_other_receiver_declarations :
    (∀ (name newName : String) (a ta : List (String × Prim)) (id : Node),
      id.kid "properties" = none →
      renameDeclaratorCallback name newName
        (.mk "VariableDeclarator" a [("id", id), ("init", .mk "ThisExpression" ta [])]) = none)
    ∧ (∀ (name newName l : String) (prop : Node) (pre rest : List (String × Node)),
      prop.kid "key" = none →
      renameDestructuredProps name newName (pre ++ (l, prop) :: rest) = none)
    ∧ renameThisAttr selfIsThis "foo" "bar" = none
    ∧ renameThisAttr restOfThis "foo" "bar" = none
    ∧ renameThisAttr restOfThis "baz" "bar" = none := by
  refine ⟨?_, ?_, by decide, by decide, by decide⟩
  · intro name newName a ta id hid
    have hdecl : isThisDeclarator
        (.mk "VariableDeclarator" a [("id", id), ("init", .mk "ThisExpression" ta [])])
        = true := by
      simp [isThisDeclarator, Node.type, Node.kid, Node.kids, List.lookup]
    unfold renameDeclaratorCallback
    rw [if_pos hdecl]
    have hkid : (Node.mk "VariableDeclarator" a
        [("id", id), ("init", .mk "ThisExpression" ta [])]).kid "id" = some id := by
      simp [Node.kid, Node.kids, List.lookup]
    simp only [hkid, hid]
  · intro name newName l prop pre rest hkey
    exact renameDestructuredProps_keyless name newName l prop rest hkey pre

theorem C38_witness :
    renameDeclaratorCallback "foo" "bar"
        (.mk "VariableDeclarator" [] [("id", identifier "self"), ("init", .mk "ThisExpression" [] [])])
      = none
    ∧ renameDestructuredProps "foo" "bar"
        ([] ++ ("", .mk "RestElement" [] [("argument", identifier "others")]) :: []) = none :=
  ⟨C38_renameThisAttr_throws_on_other_receiver_declarations.1 "foo" "bar" [] []
      (identifier "self") (by decide),
   C38_renameThisAttr_throws_on_other_receiver_declarations.2.1 "foo" "bar" ""
      (.mk "RestElement" [] [("argument", identifier "others")]) [] [] (by decide)⟩

/-! ## The round trip of an unedited component -/

/-- C34 (the code departs from the claim). The constructor parses the text of
the `script` node with every backslash written twice, whatever the parser. So
for `const s = 'a\nb'; export default {};`, whose literal denotes `a`, a line
break and `b`, the script of the component is the tree of another program,
whose literal denotes `a`, a backslash, `n` and `b`, and `toString()` without
any edit prints that other program, with two backslashes. -/
theorem C34_constructor_doubles_backslashes (g : ScriptGrammar) (attrs : Option Attrs)
    (s : String) :
    constructScript g (.list [.element (.name "script") attrs (some [.text s])])
      = g.parse (backslashesDoubled s)
    ∧ literalGrammar.parse "const s = \x27a\\nb\x27;\nexport default \x7b\x7d;"
      = some (literalProgram "const s = \x27a\\nb\x27;\nexport default \x7b\x7d;" "a\nb")
    ∧ constructScript literalGrammar
        (scriptFile "const s = \x27a\\nb\x27;\nexport default \x7b\x7d;")
      = some (literalProgram "const s = \x27a\\\\nb\x27;\nexport default \x7b\x7d;" "a\\nb")
    ∧ editorToString literalGrammar
        (literalProgram "const s = \x27a\\\\nb\x27;\nexport default \x7b\x7d;" "a\\nb")
        (scriptFile "const s = \x27a\\nb\x27;\nexport default \x7b\x7d;")
      = some "<script>const s = \x27a\\\\nb\x27;\nexport default \x7b\x7d;</script>" := by
  refine ⟨?_, by decide, by decide, by decide⟩
  have h92 : Char.ofNat 92 = '\\' := by decide
  have hfun : (fun c : Char => if c = Char.ofNat 92 then [c, c] else [c])
      = (fun c : Char => if c = '\\' then ['\\', '\\'] else [c]) := by
    funext c
    by_cases hc : c = '\\'
    · subst hc
      rfl
    · rw [h92, if_neg hc, if_neg hc]
  simp only [constructScript, scriptNodes, scriptNodesList, scriptText, collect, String.join,
    backslashesDoubled, hfun]
  have hcollect : collect [some s] = some [s] := rfl
  simp [hcollect]

/-! ## What a failed `updateProp` leaves behind -/

theorem updatePropLoop_eq_outcome (g : ScriptGrammar) :
    ∀ (attrs : List (String × Option String)) (state : UpdateState),
      updatePropLoop g attrs state
        = if (updatePropLoopOutcome g attrs state).2 = true then none
          else some (updatePropLoopOutcome g attrs state).1
  | [], state => by simp [updatePropLoop, updatePropLoopOutcome]
  | attr :: rest, state => by
      unfold updatePropLoop updatePropLoopOutcome
      cases hstep : updatePropStep g state attr with
      | none => simp
      | some state' => exact updatePropLoop_eq_outcome g rest state'

/-- The method `updateProp` returns the script that `updatePropOutcome` leaves
when it does not throw, and throws when `updatePropOutcome` does. -/
theorem updateProp_eq_outcome (g : ScriptGrammar) (script : Node) (name : String)
    (attrs : List (String × Option String)) :
    updateProp g script name attrs
      = if (updatePropOutcome g script name attrs).threw = true then none
        else some (updatePropOutcome g script name attrs).script := by
  unfold updateProp updatePropOutcome
  cases option script "props" with
  | none => rfl
  | some opt =>
      simp only []
      cases opt.node.head? with
      | none => rfl
      | some first =>
          simp only []
          cases getField opt.script first "value" with
          | none => rfl
          | some value =>
              simp only []
              cases getAt opt.script value with
              | none => rfl
              | some valueNode =>
                  simp only []
                  cases (if valueNode.type == "ArrayExpression" then
                           match valueNode.kid "elements" with
                           | none => none
                           | some elements =>
                               (replaceAt opt.script value (propsObject elements.kids)).map
                                 (fun script1 =>
                                   (script1,
                                    opt.node.filter
                                      (fun p => !(value.isPrefixOf p && p != value))))
                         else some (opt.script, opt.node)) with
                  | none => rfl
                  | some sp =>
                      obtain ⟨script1, props⟩ := sp
                      simp only []
                      rw [updatePropLoop_eq_outcome]
                      cases hloop : updatePropLoopOutcome g attrs
                          { script := script1, props := props,
                            prop := find script1 props "Property" (hasKeyNamed name) } with
                      | mk state threw =>
                          cases threw with
                          | true => simp
                          | false =>
                              simp only [Bool.false_eq_true, if_false]
                              cases collect ((find state.script state.props "Property"
                                  (fun _ => true)).map (fun p =>
                                    (getAt state.script p).bind hasEmptyObject)) with
                              | none => rfl
                              | some empty =>
                                  simp only []
                                  split
                                  · cases collect ((find state.script state.props "Property"
                                        (fun _ => true)).map (fun p =>
                                          (getAt state.script p).bind keyLiteral)) with
                                    | none => rfl
                                    | some newProps =>
                                        simp only []
                                        cases state.props.head? with
                                        | none => rfl
                                        | some first' =>
                                            simp only []
                                            cases getField state.script first' "value" with
                                            | none => rfl
                                            | some value' =>
                                                simp only []
                                                cases replaceAt state.script value'
                                                    (arrayExpression newProps) with
                                                | none => rfl
                                                | some script2 => rfl
                                  · rfl

theorem remove_nil (script : Node) : remove script [] = script := by
  unfold remove
  apply pruneNode_id
  intro q _
  rfl

/-- The loop of `updateProp` throws, with the script as it was, when no
property of the name was found and one attribute has a value that is not
`null`. -/
theorem updatePropLoopOutcome_absent (g : ScriptGrammar) :
    ∀ (attrs : List (String × Option String)) (state : UpdateState),
      state.prop = [] → attrs.any (fun kv => kv.2.isSome) = true →
      (updatePropLoopOutcome g attrs state).2 = true ∧
        (updatePropLoopOutcome g attrs state).1.script = state.script
  | [], _, _, h => by simp at h
  | (key, none) :: rest, state, hprop, h => by
      simp only [List.any_cons, Option.isSome_none, Bool.false_or] at h
      unfold updatePropLoopOutcome updatePropStep
      simp only [hprop]
      have ih := updatePropLoopOutcome_absent g rest
        { script := remove state.script (find state.script [] "Property" (hasKeyNamed key)),
          props := relocateAll (find state.script [] "Property" (hasKeyNamed key)) state.props,
          prop := relocateAll (find state.script [] "Property" (hasKeyNamed key)) [] }
        (by simp [find, relocateAll]) h
      refine ⟨ih.1, ?_⟩
      rw [ih.2]
      simp only [find]
      exact remove_nil _
  | (key, some val) :: rest, state, hprop, _ => by
      unfold updatePropLoopOutcome updatePropStep
      simp only [hprop, List.head?_nil]
      cases parseAttrValue g val <;> exact ⟨rfl, rfl⟩

/-- An option that `option(name)` has found, not made, stands in the script as
it was. -/
theorem option_found (script : Node) (name : String) (opt : OptionResult)
    (hopt : option script name = some opt) (hfound : opt.detached = false) :
    opt.script = script := by
  unfold option at hopt
  cases hf : findOption script name with
  | none => simp [hf] at hopt
  | some node =>
      simp only [hf] at hopt
      split at hopt
      · cases he : getDefaultExport script with
        | none => simp [he] at hopt
        | some obj =>
            simp only [he] at hopt
            cases hp : getField script obj "properties" with
            | none => simp [hp] at hopt
            | some props =>
                simp only [hp] at hopt
                cases ha : getAt script props with
                | none => simp [ha] at hopt
                | some arr =>
                    simp only [ha] at hopt
                    cases hpush : pushAt script props (makeOptionProp name) with
                    | none => simp [hpush] at hopt
                    | some script' =>
                        simp only [hpush, Option.map_some', Option.some.injEq] at hopt
                        rw [← hopt] at hfound
                        cases hfound
      · simp only [Option.some.injEq] at hopt
        rw [← hopt]

/-- What `updateProp` leaves when it throws for a name that is absent from
`props`: a list has been replaced by the map of its names, and a value that is
no list is as it was. -/
theorem updatePropOutcome_absent (g : ScriptGrammar) (script : Node) (name : String)
    (attrs : List (String × Option String)) (opt : OptionResult) (base : Path)
    (pa : List (String × Prim)) (k v : Node)
    (h : absentFromProps script name = true)
    (hattrs : attrs.any (fun kv => kv.2.isSome) = true)
    (hopt : option script "props" = some opt) (hnode : opt.node = [base])
    (hshape : getAt opt.script base = some (.mk "Property" pa [("key", k), ("value", v)])) :
    (∀ va a entries, v = .mk "ArrayExpression" va [("elements", .mk "[]" a entries)] →
      replaceAt opt.script base (.mk "Property" pa [("key", k), ("value", propsObject entries)])
        = some (updatePropOutcome g script name attrs).script) ∧
    ((v.type == "ArrayExpression") = false →
      (updatePropOutcome g script name attrs).script = opt.script) := by
  have hvalue : getAt opt.script (base ++ [1]) = some v := by
    rw [getAt_child _ _ _ _ _ 1 hshape]
    rfl
  have hf1 : getField opt.script base "value" = some (base ++ [1]) := by
    rw [getField_of_getAt _ _ _ _ hshape]
    rfl
  unfold absentFromProps at h
  have hkid : (Node.mk "Property" pa [("key", k), ("value", v)]).kid "value" = some v := rfl
  simp only [hopt, hnode, hshape, hkid, Bool.and_eq_true] at h
  obtain ⟨habs, helems, _⟩ := h
  have habs : allKids (fun m => !(m.type == "Property" && hasKeyNamed name m))
      [("key", k), ("value", v)] = true := habs
  constructor
  · intro va a entries hv
    subst hv
    obtain ⟨script1, hrep, hget⟩ := replaceAt_getAt opt.script _ (propsObject entries) _ hvalue
    have hkeep : ([base].filter
        (fun p => !((base ++ [1]).isPrefixOf p && p != base ++ [1]))) = [base] := by
      have hnp : (base ++ [1]).isPrefixOf base = false := by
        cases hb : (base ++ [1]).isPrefixOf base with
        | false => rfl
        | true =>
            have hp := List.isPrefixOf_iff_prefix.mp hb
            have hlen := hp.length_le
            simp at hlen
      simp [hnp]
    obtain ⟨n', hn', hg', hrep'⟩ := replaceAt_append opt.script _ (propsObject entries) base [1]
      script1 hshape hrep
    have hn'' : n' = .mk "Property" pa [("key", k), ("value", propsObject entries)] := by
      simp [replaceAt, modifyAt] at hn'
      exact hn'.symm
    have hfind : find script1 [base] "Property" (hasKeyNamed name) = [] := by
      apply find_nil
      intro c hc sub hsub
      simp only [List.mem_singleton] at hc
      subst hc
      rw [hg'] at hsub
      cases hsub
      rw [hn'']
      simp only [Node.kids]
      have := allKids_set _ [("key", k), ("value", .mk "ArrayExpression" va
        [("elements", .mk "[]" a entries)])] 1 "value" (propsObject entries) habs
        (by
          apply propsObject_absent
          intro lk hlk
          have hke : (Node.mk "ArrayExpression" va [("elements", .mk "[]" a entries)]).kid
              "elements" = some (.mk "[]" a entries) := rfl
          simp only [hke] at helems
          have := (List.all_eq_true.mp helems) lk hlk
          simp only [Bool.and_eq_true, bne_iff_ne] at this
          exact this.2)
      simpa using this
    have hloop := updatePropLoopOutcome_absent g attrs
      { script := script1, props := [base], prop := [] } rfl hattrs
    have hout : (updatePropOutcome g script name attrs).script = script1 := by
      unfold updatePropOutcome
      have hke : (Node.mk "ArrayExpression" va [("elements", .mk "[]" a entries)]).kid
          "elements" = some (.mk "[]" a entries) := rfl
      simp only [hopt, hnode, List.head?_cons, hf1, hvalue, Node.type, beq_self_eq_true, if_true,
        hke, Node.kids, hrep, Option.map_some', hkeep, hfind]
      cases hl : updatePropLoopOutcome g attrs
          { script := script1, props := [base], prop := [] } with
      | mk state threw =>
          rw [hl] at hloop
          simp only at hloop
          rw [hloop.1]
          exact hloop.2
    rw [hout, ← hn'']
    exact hrep'
  · intro htype
    have hfind : find opt.script [base] "Property" (hasKeyNamed name) = [] := by
      apply find_nil
      intro c hc sub hsub
      simp only [List.mem_singleton] at hc
      subst hc
      rw [hshape] at hsub
      cases hsub
      exact habs
    have hloop := updatePropLoopOutcome_absent g attrs
      { script := opt.script, props := [base], prop := [] } rfl hattrs
    unfold updatePropOutcome
    simp only [hopt, hnode, List.head?_cons, hf1, hvalue, htype, Bool.false_eq_true, if_false,
      hfind]
    cases hl : updatePropLoopOutcome g attrs
        { script := opt.script, props := [base], prop := [] } with
    | mk state threw =>
        rw [hl] at hloop
        simp only at hloop
        rw [hloop.1]
        exact hloop.2

/-- C39, amended. For a name that is absent from `props`, the option being a
property with a key and a value that the lookup of the option finds or makes:
`updateProp(name, attrs)` with an attribute whose value is not `null` throws,
and it leaves the script as it was except for the option `props`: a value that
was a list (the empty list of an option just created as well) has been
replaced by the map of its names, each with empty metadata, and a value that
is no list is as it was; an option that was found stands in the script as it
was. -/
theorem C39_failed_updateProp_keeps_the_conversion (g : ScriptGrammar) (script : Node)
    (name : String) (attrs : List (String × Option String)) (opt : OptionResult) (base : Path)
    (pa : List (String × Prim)) (k v : Node)
    (h : absentFromProps script name = true)
    (hattrs : attrs.any (fun kv => kv.2.isSome) = true)
    (hopt : option script "props" = some opt) (hnode : opt.node = [base])
    (hshape : getAt opt.script base = some (.mk "Property" pa [("key", k), ("value", v)])) :
    updateProp g script name attrs = none ∧
    (updatePropOutcome g script name attrs).threw = true ∧
    (∀ va a entries, v = .mk "ArrayExpression" va [("elements", .mk "[]" a entries)] →
      replaceAt opt.script base (.mk "Property" pa [("key", k), ("value", propsObject entries)])
        = some (updatePropOutcome g script name attrs).script) ∧
    ((v.type == "ArrayExpression") = false →
      (updatePropOutcome g script name attrs).script = opt.script) ∧
    (opt.detached = false → opt.script = script) := by
  have hnone := updateProp_absent g script name attrs h hattrs
  have hout := updatePropOutcome_absent g script name attrs opt base pa k v h hattrs hopt hnode
    hshape
  refine ⟨hnone, ?_, hout.1, hout.2, option_found script "props" opt hopt⟩
  rw [updateProp_eq_outcome] at hnone
  cases hthrew : (updatePropOutcome g script name attrs).threw with
  | true => rfl
  | false => simp [hthrew] at hnone

/-- On `export default { props: ['foo'] }`, the failed
`updateProp('bar', { type: 'String' })` leaves `props: { foo: {} }`; on
`export default {}` it leaves `props: {}`; on `props: { foo: { type: String } }`
it leaves the script as it was. -/
theorem C39_witness :
    (updateProp identifierGrammar propsFoo "bar" [("type", some "String")] = none ∧
      (updatePropOutcome identifierGrammar propsFoo "bar" [("type", some "String")]).script
        = exportDefault [objProp "props" (objectExpression [objProp "foo" object []]) []]) ∧
    (updateProp identifierGrammar (exportDefault []) "bar" [("type", some "String")] = none ∧
      (updatePropOutcome identifierGrammar (exportDefault []) "bar"
          [("type", some "String")]).script
        = exportDefault [objProp "props" object []]) ∧
    (updateProp identifierGrammar propsFooTyped "bar" [("type", some "String")] = none ∧
      (updatePropOutcome identifierGrammar propsFooTyped "bar" [("type", some "String")]).script
        = propsFooTyped) :=
  have h1 := C39_failed_updateProp_keeps_the_conversion identifierGrammar propsFoo "bar"
    [("type", some "String")] { script := propsFoo, node := [[0, 0, 0, 0, 0, 0]], detached := false }
    [0, 0, 0, 0, 0, 0] plainAttrs (identifier "props") (arrayExpression [literal (.str "foo")])
    (by decide) (by decide) (by decide) rfl (by decide)
  have h2 := C39_failed_updateProp_keeps_the_conversion identifierGrammar (exportDefault []) "bar"
    [("type", some "String")]
    { script := exportDefault [objProp "props" (arrayExpression []) []],
      node := [[0, 0, 0, 0, 0, 0]], detached := true }
    [0, 0, 0, 0, 0, 0] plainAttrs (identifier "props") (arrayExpression [])
    (by decide) (by decide) (by decide) rfl (by decide)
  have h3 := C39_failed_updateProp_keeps_the_conversion identifierGrammar propsFooTyped "bar"
    [("type", some "String")]
    { script := propsFooTyped, node := [[0, 0, 0, 0, 0, 0]], detached := false }
    [0, 0, 0, 0, 0, 0] plainAttrs (identifier "props")
    (objectExpression [objProp "foo" (objectExpression [objProp "type" (identifier "String") []]) []])
    (by decide) (by decide) (by decide) rfl (by decide)
  ⟨⟨h1.1, Option.some.inj ((h1.2.2.1 [] [] [("", literal (.str "foo"))] rfl).symm.trans
      (by decide))⟩,
   ⟨h2.1, Option.some.inj ((h2.2.2.1 [] [] [] rfl).symm.trans (by decide))⟩,
   ⟨h3.1, h3.2.2.2.1 (by decide)⟩⟩

/-- C39, counterexample. On `export default { props: ['foo'] }` the name `bar`
is absent from `props` and `updateProp('bar', { type: 'String' })` throws; the
script is then `export default { props: { foo: {} } }`, the list converted to
a map. On `export default {}` the same call throws and leaves
`export default { props: {} }`, the option created. -/
theorem C39_counterexample :
    absentFromProps propsFoo "bar" = true ∧
    updatePropOutcome identifierGrammar propsFoo "bar" [("type", some "String")]
      = { script := exportDefault [objProp "props" (objectExpression [objProp "foo" object []]) []],
          threw := true } ∧
    exportDefault [objProp "props" (objectExpression [objProp "foo" object []]) []] ≠ propsFoo ∧
    absentFromProps (exportDefault []) "bar" = true ∧
    updatePropOutcome identifierGrammar (exportDefault []) "bar" [("type", some "String")]
      = { script := exportDefault [objProp "props" object []], threw := true } ∧
    exportDefault [objProp "props" object []] ≠ exportDefault [] := by
  decide

/-! ## The transplant of entries and components -/

/-- C31 (the code departs from the claim). On
`methods: { foo() { return { bar: 1 }; }, bar() {} }`, and the same entries
under `computed` and `watch`, the push of `bar` to the host `export default {}`
moves the entry `bar`, and it takes the property `bar: 1` out of the entry
`foo` as well, which stays in the source as `foo() { return {}; }`. On
`data() { return { foo: { bar: 1 }, bar: 2 }; }` `pushData('bar', host)` leaves
`foo: {}` likewise. On `data() { return { foo: {} }; }` `pushData('foo', host)`
throws: the printed value `{}` is parsed as a statement, which is an empty
block and has no expression. -/
theorem C31_push_takes_nested_entries_along :
    pushMethod (optionFooBar "methods" "bar") (exportDefault []) ["bar"]
      = some
          (exportDefault [objProp "methods" (objectExpression
            [method "foo" [returnStatement (objectExpression [])]]) []],
           exportDefault [objProp "methods" (objectExpression [method "bar" []]) []])
    ∧ pushComputed (optionFooBar "computed" "bar") (exportDefault []) ["bar"]
      = some
          (exportDefault [objProp "computed" (objectExpression
            [method "foo" [returnStatement (objectExpression [])]]) []],
           exportDefault [objProp "computed" (objectExpression [method "bar" []]) []])
    ∧ pushWatcher (optionFooBar "watch" "bar") (exportDefault []) ["bar"]
      = some
          (exportDefault [objProp "watch" (objectExpression
            [method "foo" [returnStatement (objectExpression [])]]) []],
           exportDefault [objProp "watch" (objectExpression [method "bar" []]) []])
    ∧ pushData valueGrammar (dataFooBar "bar") (exportDefault []) ["bar"]
      = some
          (exportDefault [method "data"
            [returnStatement (objectExpression [objProp "foo" (objectExpression []) []])]],
           exportDefault [method "data"
            [returnStatement (objectExpression [objProp "bar" (literal (.num 2)) []])]])
    ∧ pushData valueGrammar dataFooObject (exportDefault []) ["foo"] = none := by
  refine ⟨?_, ?_, ?_, ?_, ?_⟩ <;> decide

/-- C32 (the code departs from the claim). From the source
`import Foo from '@/Bar.vue'; export default { components: { Foo } }`
`pushComponent('Foo', host)` takes the import and the entry, and the host
`export default {}` gets the import of `Bar` and the entry `Bar`: the name is
taken from the file name of the module path. From the source
`import MyDiv from '../src/MyDiv.vue'; ...` the host gets the import of `MyDiv`
from `../@/MyDiv.vue`: the first `src` of the module path is replaced. -/
theorem C32_pushComponent_rebuilds_name_and_path :
    pushComponent importStatementGrammar importedFooFromBar (exportDefault []) "Foo"
      = some
          (exportDefault [],
           programOf [importDeclaration "Bar" "@/Bar.vue"]
             [componentsOption [shorthandEntry "Bar"]])
    ∧ pushComponent importStatementGrammar importedFromSrc (exportDefault []) "MyDiv"
      = some
          (exportDefault [],
           programOf [importDeclaration "MyDiv" "../@/MyDiv.vue"]
             [componentsOption [shorthandEntry "MyDiv"]]) := by
  refine ⟨?_, ?_⟩ <;> decide

/-! ## Lemmas: the removal of one node, and scripts of a known shape -/

/-- The children without the one at a doomed position, when the only doomed
path is that of a child. -/
theorem pruneKids_single (here : Path) :
    ∀ (kids : List (String × Node)) (s i : Nat),
      pruneKids [here ++ [s + i]] here s kids = kids.eraseIdx i
  | [], _, _ => by simp [pruneKids]
  | (l, k) :: rest, s, i => by
      rw [pruneKids]
      cases i with
      | zero =>
          have hc : [here ++ [s + 0]].contains (here ++ [s]) = true := by simp
          rw [if_pos hc]
          have hrest : ∀ (kids : List (String × Node)) (j : Nat),
              pruneKids [here ++ [s]] here (s + 1 + j) kids = kids := by
            intro kids
            induction kids with
            | nil => intro j; simp [pruneKids]
            | cons lk kids ih =>
                intro j
                obtain ⟨l', k'⟩ := lk
                rw [pruneKids]
                have hc' : [here ++ [s]].contains (here ++ [s + 1 + j]) = false := by
                  simp
                  omega
                simp only [hc', Bool.false_eq_true, if_false]
                have he : s + 1 + j + 1 = s + 1 + (j + 1) := by omega
                rw [pruneNode_id, he, ih (j + 1)]
                intro q hq
                cases q with
                | nil => exact absurd rfl hq
                | cons x q => simp
          simpa using hrest rest 0
      | succ i =>
          have hc : [here ++ [s + (i + 1)]].contains (here ++ [s]) = false := by
            simp
          simp only [hc, Bool.false_eq_true, if_false, List.eraseIdx_cons_succ]
          rw [pruneNode_id]
          · have he : s + (i + 1) = s + 1 + i := by omega
            rw [he, pruneKids_single here rest (s + 1) i]
          · intro q hq
            cases q with
            | nil => exact absurd rfl hq
            | cons x q => simp

/-- The removal of the child `i` of the node at the path `parent` leaves the
tree in which that node has the other children, in their order. -/
theorem pruneNode_single :
    ∀ (parent : Path) (root : Node) (here : Path) (t : String) (a : List (String × Prim))
      (kids : List (String × Node)) (i : Nat), getAt root parent = some (.mk t a kids) →
      replaceAt root parent (.mk t a (kids.eraseIdx i))
        = some (pruneNode [here ++ parent ++ [i]] here root)
  | [], root, here, t, a, kids, i, h => by
      rw [getAt_nil] at h
      cases h
      have := pruneKids_single here kids 0 i
      simp only [Nat.zero_add] at this
      simp [replaceAt, modifyAt, pruneNode, this]
  | j :: rest, .mk t0 a0 kids0, here, t, a, kids, i, h => by
      rw [getAt_cons] at h
      cases hk : kids0[j]? with
      | none => simp [hk] at h
      | some lk =>
          obtain ⟨l, k⟩ := lk
          simp only [hk, Option.some_bind] at h
          have hj : j < kids0.length := by
            rcases Nat.lt_or_ge j kids0.length with h' | h'
            · exact h'
            · rw [List.getElem?_eq_none h'] at hk
              cases hk
          have ih := pruneNode_single rest k (here ++ [j]) t a kids i h
          have hpath : here ++ [j] ++ rest ++ [i] = here ++ j :: rest ++ [i] := by simp
          rw [hpath] at ih
          have hundoomed : ∀ m, m < kids0.length →
              [here ++ j :: rest ++ [i]].contains (here ++ [0 + m]) = false := by
            intro m _
            simp
          have hkids : pruneKids [here ++ j :: rest ++ [i]] here 0 kids0
              = kids0.set j (l, pruneNode [here ++ j :: rest ++ [i]] (here ++ [j]) k) := by
            apply List.ext_getElem?
            intro m
            rw [pruneKids_getElem? _ kids0 here 0 hundoomed m, List.getElem?_set]
            by_cases hjm : j = m
            · subst hjm
              simp [hk, hj]
            · simp only [hjm, if_false, Nat.zero_add]
              cases hm : kids0[m]? with
              | none => rfl
              | some lk' =>
                  simp only [Option.map_some', Option.some.injEq]
                  rw [pruneNode_id]
                  intro q _
                  simp
                  intro hc
                  exact absurd hc.symm hjm
          rw [pruneNode, hkids]
          unfold replaceAt at ih ⊢
          rw [modifyAt_cons, hk]
          simp only [Option.some_bind, ih, Option.map_some']

/-- The method `remove` for one path: the child `i` of the node at `parent`
is taken out. -/
theorem remove_single (root : Node) (parent : Path) (t : String) (a : List (String × Prim))
    (kids : List (String × Node)) (i : Nat) (h : getAt root parent = some (.mk t a kids)) :
    replaceAt root parent (.mk t a (kids.eraseIdx i)) = some (remove root [parent ++ [i]]) := by
  have := pruneNode_single parent root [] t a kids i h
  simpa [remove] using this

/-- The default export of a script of the shape `programOf`. -/
theorem getAt_export (stmts props : List Node) :
    getAt (programOf stmts props) [0, 0, stmts.length]
      = some (.mk "ExportDefaultDeclaration" [] [("declaration", objectExpression props)]) := by
  simp [programOf, getAt, array, List.getElem?_append_right]

/-- The properties of the default export of a script of the shape
`programOf`. -/
theorem getAt_properties (stmts props : List Node) :
    getAt (programOf stmts props) [0, 0, stmts.length, 0, 0] = some (array props) := by
  have h := getAt_append [0, 0, stmts.length] [0, 0] (programOf stmts props)
  simp only [List.cons_append, List.nil_append] at h
  rw [h, getAt_export]
  rfl

/-- The replacement of the properties of the default export. -/
theorem replaceAt_properties (stmts props props' : List Node) :
    replaceAt (programOf stmts props) [0, 0, stmts.length, 0, 0] (array props')
      = some (programOf stmts props') := by
  simp [programOf, replaceAt, modifyAt, array, objectExpression, List.getElem?_append_right]

/-- The replacement of the statements of a script. -/
theorem replaceAt_body (stmts stmts' props : List Node) :
    replaceAt (programOf stmts props) [0, 0]
        (array (stmts' ++
          [.mk "ExportDefaultDeclaration" [] [("declaration", objectExpression props)]]))
      = some (programOf stmts' props) := by
  simp [programOf, replaceAt, modifyAt, array]

theorem lacks_append (type : String) (filter : Node → Bool) (l1 l2 : List Node) :
    lacks type filter (l1 ++ l2) = (lacks type filter l1 && lacks type filter l2) := by
  unfold lacks
  rw [List.map_append, allKids_append]

theorem lacks_cons (type : String) (filter : Node → Bool) (n : Node) (l : List Node) :
    lacks type filter (n :: l)
      = (allNodes (fun m => !(m.type == type && filter m)) n && lacks type filter l) := by
  unfold lacks
  rw [List.map_cons, allKids]

theorem findKids_lacks (type : String) (filter : Node → Bool) (nodes : List Node) (here : Path)
    (i : Nat) (h : lacks type filter nodes = true) :
    findKids type filter here i (nodes.map (fun n => ("", n))) = [] :=
  findKids_nil type filter _ here i h

/-- The search in the array of a list of nodes one of which is known. -/
theorem findKids_middle (type : String) (filter : Node → Bool) (pre post : List Node) (x : Node)
    (here : Path) (hpre : lacks type filter pre = true) (hpost : lacks type filter post = true) :
    findKids type filter here 0
        (pre.map (fun n => ("", n)) ++ ("", x) :: post.map (fun n => ("", n)))
      = findFrom type filter (here ++ [pre.length]) x := by
  rw [findKids_append, findKids_lacks type filter pre here 0 hpre,
    findKids, findKids_lacks type filter post here _ hpost]
  simp

/-- The default export is found behind statements that hold none. -/
theorem getDefaultExport_programOf (stmts props : List Node)
    (h : lacks "ExportDefaultDeclaration" (fun _ => true) stmts = true) :
    getDefaultExport (programOf stmts props) = some [0, 0, stmts.length, 0] := by
  have hfind : ∃ more, find (programOf stmts props) [[]] "ExportDefaultDeclaration"
      (fun _ => true) = [0, 0, stmts.length] :: more := by
    have hm := findKids_middle "ExportDefaultDeclaration" (fun _ => true) stmts []
      (.mk "ExportDefaultDeclaration" [] [("declaration", objectExpression props)]) [0, 0] h rfl
    simp only [List.map_nil] at hm
    simp only [programOf, find, findBelow, getAt, Node.kids, findKids, findFrom, array,
      List.map_append, List.map_cons, List.map_nil, List.nil_append, List.cons_append]
    rw [hm, findFrom]
    exact ⟨_, by simp; rfl⟩
  obtain ⟨more, hmore⟩ := hfind
  unfold getDefaultExport
  rw [hmore]
  simp only []
  rw [getField_of_getAt _ _ _ _ (getAt_export stmts props)]
  rfl

theorem getElem?_map_middle (pre post : List Node) (x : Node) :
    (pre.map (fun e => ("", e)) ++ ("", x) :: post.map (fun e => ("", e)))[pre.length]?
      = some ("", x) := by
  have := getElem?_middle (pre.map (fun e => ("", e))) (post.map (fun e => ("", e))) ("", x)
  simpa using this

theorem set_map_middle (pre post : List Node) (x : Node) (y : String × Node) :
    (pre.map (fun e => ("", e)) ++ ("", x) :: post.map (fun e => ("", e))).set pre.length y
      = pre.map (fun e => ("", e)) ++ y :: post.map (fun e => ("", e)) := by
  simp

/-- The property at a position of the default export. -/
theorem getAt_property (stmts pre post : List Node) (x : Node) :
    getAt (programOf stmts (pre ++ x :: post)) [0, 0, stmts.length, 0, 0, pre.length] = some x := by
  have h := getAt_append [0, 0, stmts.length, 0, 0] [pre.length]
    (programOf stmts (pre ++ x :: post))
  simp only [List.cons_append, List.nil_append] at h
  rw [h, getAt_properties]
  simp only [array, Option.some_bind, getAt, List.map_append, List.map_cons,
    getElem?_map_middle]

/-- The replacement of a property of the default export. -/
theorem replaceAt_property (stmts pre post : List Node) (x y : Node) :
    replaceAt (programOf stmts (pre ++ x :: post)) [0, 0, stmts.length, 0, 0, pre.length] y
      = some (programOf stmts (pre ++ y :: post)) := by
  obtain ⟨r, hr, _⟩ := replaceAt_getAt (programOf stmts (pre ++ x :: post)) x y _
    (getAt_property stmts pre post x)
  have hsplit : [0, 0, stmts.length, 0, 0, pre.length]
      = [0, 0, stmts.length, 0, 0] ++ [pre.length] := rfl
  rw [hr]
  rw [hsplit] at hr
  obtain ⟨n', hn', _, hr'⟩ := replaceAt_append _ _ y _ _ r
    (getAt_properties stmts (pre ++ x :: post)) hr
  have hn'' : n' = array (pre ++ y :: post) := by
    simp only [array, replaceAt, modifyAt, List.map_append, List.map_cons,
      getElem?_map_middle, set_map_middle, Option.map_some', Option.some.injEq] at hn'
    rw [← hn']
    simp [array]
  rw [hn'', replaceAt_properties] at hr'
  exact hr'.symm

/-- The lookup of an option finds nothing when no identifier of the
properties has its name. -/
theorem findOption_absent (stmts props : List Node) (name : String)
    (hexport : lacks "ExportDefaultDeclaration" (fun _ => true) stmts = true)
    (h : lacks "Identifier" (isIdentifierNamed name) props = true) :
    findOption (programOf stmts props) name = some [] := by
  unfold findOption findObjProp
  rw [getDefaultExport_programOf stmts props hexport]
  simp only [Option.map_some', Option.some.injEq]
  have hobj : getAt (programOf stmts props) [0, 0, stmts.length, 0]
      = some (objectExpression props) := by
    have h' := getAt_append [0, 0, stmts.length] [0] (programOf stmts props)
    simp only [List.cons_append, List.nil_append] at h'
    rw [h', getAt_export]
    rfl
  rw [find_local _ _ _ _ _ hobj]
  simp only [objectExpression, Node.kids, findKids, findFrom, array]
  rw [findKids_lacks _ _ props _ _ h]
  simp [closest, dedupPaths]

/-- The lookup of the option `components` finds it among the properties when
no other identifier of the properties has that name. -/
theorem findOption_present (stmts pre post entries : List Node)
    (hexport : lacks "ExportDefaultDeclaration" (fun _ => true) stmts = true)
    (h : lacks "Identifier" (isIdentifierNamed "components") (pre ++ entries ++ post) = true) :
    findOption (programOf stmts (pre ++ componentsOption entries :: post)) "components"
      = some [[0, 0, stmts.length, 0, 0, pre.length]] := by
  rw [lacks_append, lacks_append, Bool.and_eq_true, Bool.and_eq_true] at h
  obtain ⟨⟨hpre, hentries⟩, hpost⟩ := h
  unfold findOption findObjProp
  rw [getDefaultExport_programOf stmts _ hexport]
  simp only [Option.map_some', Option.some.injEq]
  have hobj : getAt (programOf stmts (pre ++ componentsOption entries :: post))
      [0, 0, stmts.length, 0] = some (objectExpression (pre ++ componentsOption entries :: post)) := by
    have h' := getAt_append [0, 0, stmts.length] [0]
      (programOf stmts (pre ++ componentsOption entries :: post))
    simp only [List.cons_append, List.nil_append] at h'
    rw [h', getAt_export]
    rfl
  have hinner : findFrom "Identifier" (isIdentifierNamed "components") ([0] ++ [pre.length])
      (componentsOption entries) = [[0, pre.length, 0]] := by
    simp only [componentsOption, objProp, assocIn, property, identifier, objectExpression, array,
      List.foldl_nil, findFrom, findKids, List.nil_append, List.cons_append]
    rw [findKids_lacks _ _ entries _ _ hentries]
    simp [isIdentifierNamed, Node.type, Node.attr, Node.attrs, List.lookup]
  have hfind : find (programOf stmts (pre ++ componentsOption entries :: post))
      [[0, 0, stmts.length, 0]] "Identifier" (isIdentifierNamed "components")
      = [[0, 0, stmts.length, 0, 0, pre.length, 0]] := by
    rw [find_local _ _ _ _ _ hobj]
    simp only [objectExpression, Node.kids, findKids, findFrom, array, List.map_append,
      List.map_cons, List.nil_append, List.cons_append]
    rw [findKids_middle _ _ pre post _ _ hpre hpost, hinner]
    simp
  have hprop := getAt_property stmts pre post (componentsOption entries)
  rw [hfind]
  simp only [closest, List.filterMap_cons, List.filterMap_nil, List.length_cons,
    List.length_nil, closestAux, List.dropLast, hprop]
  simp [componentsOption, objProp, assocIn, property, Node.type, dedupPaths]

/-- The absent option `components` is made behind the properties. -/
theorem option_absent (stmts props : List Node)
    (hexport : lacks "ExportDefaultDeclaration" (fun _ => true) stmts = true)
    (h : lacks "Identifier" (isIdentifierNamed "components") props = true) :
    option (programOf stmts props) "components"
      = some { script := programOf stmts (props ++ [componentsOption []]),
               node := [[0, 0, stmts.length, 0, 0, props.length]], detached := true } := by
  have hobj : getAt (programOf stmts props) [0, 0, stmts.length, 0]
      = some (objectExpression props) := by
    have h' := getAt_append [0, 0, stmts.length] [0] (programOf stmts props)
    simp only [List.cons_append, List.nil_append] at h'
    rw [h', getAt_export]
    rfl
  have hfield : getField (programOf stmts props) [0, 0, stmts.length, 0] "properties"
      = some [0, 0, stmts.length, 0, 0] := by
    rw [getField_of_getAt _ _ _ _ hobj]
    rfl
  obtain ⟨script', hopt, hrep, _⟩ := option_creates (programOf stmts props) "components"
    [0, 0, stmts.length, 0] [0, 0, stmts.length, 0, 0] [] (props.map (fun e => ("", e)))
    (findOption_absent stmts props "components" hexport h)
    (getDefaultExport_programOf stmts props hexport) hfield (getAt_properties stmts props)
  have harr : Node.mk "[]" [] (props.map (fun e => ("", e)) ++ [("", makeOptionProp "components")])
      = array (props ++ [componentsOption []]) := by
    simp [array, makeOptionProp, componentsOption, object]
  rw [harr, replaceAt_properties] at hrep
  rw [hopt, ← Option.some.inj hrep]
  simp

/-- The option `components` that stands among the properties is found. -/
theorem option_present (stmts pre post entries : List Node)
    (hexport : lacks "ExportDefaultDeclaration" (fun _ => true) stmts = true)
    (h : lacks "Identifier" (isIdentifierNamed "components") (pre ++ entries ++ post) = true) :
    option (programOf stmts (pre ++ componentsOption entries :: post)) "components"
      = some { script := programOf stmts (pre ++ componentsOption entries :: post),
               node := [[0, 0, stmts.length, 0, 0, pre.length]], detached := false } := by
  unfold option
  rw [findOption_present stmts pre post entries hexport h]
  simp

/-- The push of an entry onto the option `components` that stands among the
properties. -/
theorem pushEntry_present (stmts pre post entries : List Node) (entry : Node)
    (hexport : lacks "ExportDefaultDeclaration" (fun _ => true) stmts = true)
    (h : lacks "Identifier" (isIdentifierNamed "components") (pre ++ entries ++ post) = true) :
    pushEntry (programOf stmts (pre ++ componentsOption entries :: post)) "components" entry
      = some (programOf stmts (pre ++ componentsOption (entries ++ [entry]) :: post)) := by
  obtain ⟨script', hpush, hrep⟩ := pushEntry_appends _ "components" entry _
    [0, 0, stmts.length, 0, 0, pre.length] plainAttrs [] [] (identifier "components")
    (entries.map (fun e => ("", e)))
    (option_present stmts pre post entries hexport h) rfl
    (by rw [getAt_property]; rfl)
  have hnew : Node.mk "Property" plainAttrs
      [("key", identifier "components"),
       ("value", .mk "ObjectExpression" []
          [("properties", .mk "[]" [] (entries.map (fun e => ("", e)) ++ [("", entry)]))])]
      = componentsOption (entries ++ [entry]) := by
    simp [componentsOption, objProp, assocIn, property, plainAttrs, objectExpression, array]
  simp only [hnew] at hrep
  rw [replaceAt_property] at hrep
  rw [hpush, ← Option.some.inj hrep]

/-- The push of an entry onto the option `components` that was absent. -/
theorem pushEntry_absent (stmts props : List Node) (entry : Node)
    (hexport : lacks "ExportDefaultDeclaration" (fun _ => true) stmts = true)
    (h : lacks "Identifier" (isIdentifierNamed "components") props = true) :
    pushEntry (programOf stmts props) "components" entry
      = some (programOf stmts (props ++ [componentsOption [entry]])) := by
  obtain ⟨script', hpush, hrep⟩ := pushEntry_appends _ "components" entry _
    [0, 0, stmts.length, 0, 0, props.length] plainAttrs [] [] (identifier "components") []
    (option_absent stmts props hexport h) rfl
    (by
      show getAt (programOf stmts (props ++ [componentsOption []])) _ = _
      rw [getAt_property]
      rfl)
  have hnew : Node.mk "Property" plainAttrs
      [("key", identifier "components"),
       ("value", .mk "ObjectExpression" [] [("properties", .mk "[]" [] ([] ++ [("", entry)]))])]
      = componentsOption [entry] := by
    simp [componentsOption, objProp, assocIn, property, plainAttrs, objectExpression, array]
  simp only [hnew] at hrep
  have hrep' : replaceAt (programOf stmts (props ++ componentsOption [] :: []))
      [0, 0, stmts.length, 0, 0, props.length] (componentsOption [entry])
      = some script' := hrep
  rw [replaceAt_property] at hrep'
  rw [hpush, ← Option.some.inj hrep']

/-- The function `addToTop` on a script of the shape `programOf`. -/
theorem addToTop_programOf (stmts props : List Node) (stmt : Node) :
    addToTop (programOf stmts props) stmt = some (programOf (stmt :: stmts) props) := by
  have hfind : ∃ more, find (programOf stmts props) [[]] "Program" (fun _ => true)
      = [0] :: more := by
    simp only [programOf, find, findBelow, getAt, Node.kids, findKids, findFrom,
      List.nil_append]
    exact ⟨_, by simp; rfl⟩
  obtain ⟨more, hmore⟩ := hfind
  have hprogram : getAt (programOf stmts props) [0]
      = some (.mk "Program" []
          [("body", array (stmts ++
            [.mk "ExportDefaultDeclaration" [] [("declaration", objectExpression props)]]))]) :=
    rfl
  have hfield : getField (programOf stmts props) [0] "body" = some [0, 0] := by
    rw [getField_of_getAt _ _ _ _ hprogram]
    rfl
  unfold addToTop
  rw [hmore]
  simp only [hfield]
  simp [programOf, modifyAt, array, Node.type, Node.attrs, Node.kids]

/-- The method `importComponent` on a script without the option
`components`. -/
theorem importComponent_absent (g : ScriptGrammar) (stmts props : List Node) (path : String)
    (stmt : Node)
    (hparse : parse g (importText path) = some stmt)
    (hstmt : allNodes (fun m => !(m.type == "ExportDefaultDeclaration" && true)) stmt = true)
    (hexport : lacks "ExportDefaultDeclaration" (fun _ => true) stmts = true)
    (h : lacks "Identifier" (isIdentifierNamed "components") props = true) :
    importComponent g (programOf stmts props) path
      = some (programOf (stmt :: stmts)
          (props ++ [componentsOption [shorthandEntry (componentName path)]])) := by
  unfold importComponent
  rw [hparse]
  simp only [addToTop_programOf]
  exact pushEntry_absent (stmt :: stmts) props _
    (by rw [lacks_cons, hstmt, hexport]; rfl) h

/-- The method `importComponent` on a script with the option `components`. -/
theorem importComponent_present (g : ScriptGrammar) (stmts pre post entries : List Node)
    (path : String) (stmt : Node)
    (hparse : parse g (importText path) = some stmt)
    (hstmt : allNodes (fun m => !(m.type == "ExportDefaultDeclaration" && true)) stmt = true)
    (hexport : lacks "ExportDefaultDeclaration" (fun _ => true) stmts = true)
    (h : lacks "Identifier" (isIdentifierNamed "components") (pre ++ entries ++ post) = true) :
    importComponent g (programOf stmts (pre ++ componentsOption entries :: post)) path
      = some (programOf (stmt :: stmts)
          (pre ++ componentsOption (entries ++ [shorthandEntry (componentName path)]) :: post)) := by
  unfold importComponent
  rw [hparse]
  simp only [addToTop_programOf]
  exact pushEntry_present (stmt :: stmts) pre post entries _
    (by rw [lacks_cons, hstmt, hexport]; rfl) h

/-- The default imports of a name that `deportComponent` finds in a script
whose first statement is the import of that name and which holds no other. -/
theorem find_import (stmts props : List Node) (name source : String)
    (hstmts : lacks "ImportDefaultSpecifier" (hasLocalNamed name) stmts = true)
    (hprops : lacks "ImportDefaultSpecifier" (hasLocalNamed name) props = true) :
    find (programOf (importDeclaration name source :: stmts) props) [[]]
        "ImportDefaultSpecifier" (hasLocalNamed name)
      = [[0, 0, 0, 0, 0]] := by
  have hexport : findFrom "ImportDefaultSpecifier" (hasLocalNamed name) ([0, 0] ++ [stmts.length + 1])
      (.mk "ExportDefaultDeclaration" [] [("declaration", objectExpression props)]) = [] := by
    simp only [findFrom, findKids, objectExpression, array]
    rw [findKids_lacks _ _ props _ _ hprops]
    simp
  have hrest : findKids "ImportDefaultSpecifier" (hasLocalNamed name) [0, 0] 1
      (stmts.map (fun e => ("", e)) ++
        [("", .mk "ExportDefaultDeclaration" [] [("declaration", objectExpression props)])])
      = [] := by
    rw [findKids_append, findKids_lacks _ _ stmts _ _ hstmts, findKids]
    simp only [List.length_map, List.nil_append, findKids, List.append_nil]
    have he : 1 + stmts.length = stmts.length + 1 := by omega
    rw [he]
    exact hexport
  simp only [programOf, find, findBelow, getAt, Node.kids, findKids, findFrom, array,
    List.map_append, List.map_cons, List.map_nil, List.nil_append, List.cons_append,
    importDeclaration, hrest]
  simp [hasLocalNamed, identifier, Node.kid, Node.kids, Node.attr, Node.attrs, List.lookup,
    literal, findKids]

/-- The method `deportComponent` takes the import statement out of a script
whose first statement it is. -/
theorem remove_import (stmts props : List Node) (name source : String)
    (hstmts : lacks "ImportDefaultSpecifier" (hasLocalNamed name) stmts = true)
    (hprops : lacks "ImportDefaultSpecifier" (hasLocalNamed name) props = true) :
    remove (programOf (importDeclaration name source :: stmts) props)
        (closest (programOf (importDeclaration name source :: stmts) props)
          (find (programOf (importDeclaration name source :: stmts) props) [[]]
            "ImportDefaultSpecifier" (hasLocalNamed name)) "ImportDeclaration")
      = programOf stmts props := by
  rw [find_import stmts props name source hstmts hprops]
  have h4 : getAt (programOf (importDeclaration name source :: stmts) props) [0, 0, 0, 0]
      = some (array [.mk "ImportDefaultSpecifier" [] [("local", identifier name)]]) := by
    simp [programOf, getAt, array, importDeclaration]
  have h3 : getAt (programOf (importDeclaration name source :: stmts) props) [0, 0, 0]
      = some (importDeclaration name source) := by
    simp [programOf, getAt, array, importDeclaration]
  have hclosest : closest (programOf (importDeclaration name source :: stmts) props)
      [[0, 0, 0, 0, 0]] "ImportDeclaration" = [[0, 0, 0]] := by
    simp only [closest, List.filterMap_cons, List.filterMap_nil, List.length_cons,
      List.length_nil, closestAux, List.dropLast, h4, h3]
    simp [array, importDeclaration, Node.type, dedupPaths]
  rw [hclosest]
  have hbody : getAt (programOf (importDeclaration name source :: stmts) props) [0, 0]
      = some (.mk "[]" [] (("", importDeclaration name source) ::
          (stmts ++ [Node.mk "ExportDefaultDeclaration" []
            [("declaration", objectExpression props)]]).map (fun e => ("", e)))) := by
    simp [programOf, getAt, array]
  have hrem := remove_single _ [0, 0] "[]" [] _ 0 hbody
  simp only [List.eraseIdx_cons_zero] at hrem
  have hrep := replaceAt_body (importDeclaration name source :: stmts) stmts props
  simp only [array] at hrep
  rw [hrep] at hrem
  exact (Option.some.inj hrem).symm

theorem eraseIdx_concat {α : Type} (l : List α) (x : α) : (l ++ [x]).eraseIdx l.length = l := by
  induction l with
  | nil => rfl
  | cons y l ih => simp [ih]

/-- The entries of the option `components` at its place among the
properties. -/
theorem getAt_entries (stmts pre post entries : List Node) :
    getAt (programOf stmts (pre ++ componentsOption entries :: post))
        ([0, 0, stmts.length, 0, 0, pre.length] ++ [1, 0])
      = some (array entries) := by
  rw [getAt_append, getAt_property]
  rfl

/-- The replacement of the entries of the option `components`. -/
theorem replaceAt_entries (stmts pre post entries entries' : List Node) :
    replaceAt (programOf stmts (pre ++ componentsOption entries :: post))
        ([0, 0, stmts.length, 0, 0, pre.length] ++ [1, 0]) (array entries')
      = some (programOf stmts (pre ++ componentsOption entries' :: post)) := by
  obtain ⟨r, hr, _⟩ := replaceAt_getAt _ _ (array entries') _
    (getAt_entries stmts pre post entries)
  rw [hr]
  obtain ⟨n', hn', _, hr'⟩ := replaceAt_append _ _ (array entries') _ _ r
    (getAt_property stmts pre post (componentsOption entries)) hr
  have hn'' : n' = componentsOption entries' := by
    simp [componentsOption, objProp, assocIn, property, objectExpression, replaceAt,
      modifyAt] at hn'
    rw [← hn']
    simp [componentsOption, objProp, assocIn, property, objectExpression]
  rw [hn'', replaceAt_property] at hr'
  exact hr'.symm

/-- The shorthand entry of a name holds no identifier of another name. -/
theorem shorthandEntry_lacks (name other : String) (hne : name ≠ other) :
    allNodes (fun m => !(m.type == "Identifier" && isIdentifierNamed other m))
      (shorthandEntry name) = true := by
  simp [shorthandEntry, objProp, assocIn, property, identifier, allNodes, allKids,
    isIdentifierNamed, Node.type, Node.attr, Node.attrs, Node.setAttr, setField, List.lookup, hne]

/-- The method `removeFromOption` for the name of the last entry of the option
`components`, a shorthand entry, when no other property of the option has a
key of that name: the entry is taken out, and the option with it when no
entry is left. -/
theorem removeFromOption_last (stmts pre post entries : List Node) (name : String)
    (hexport : lacks "ExportDefaultDeclaration" (fun _ => true) stmts = true)
    (hoption : lacks "Identifier" (isIdentifierNamed "components") (pre ++ entries ++ post) = true)
    (hname : name ≠ "components")
    (hentry : lacks "Property" (hasKeyNamed name) entries = true)
    (hprops : ∀ e ∈ entries, e.type = "Property") :
    removeFromOption
        (programOf stmts (pre ++ componentsOption (entries ++ [shorthandEntry name]) :: post))
        "components" name
      = some (programOf stmts
          (if entries.isEmpty then pre ++ post else pre ++ componentsOption entries :: post)) := by
  have hoption' : lacks "Identifier" (isIdentifierNamed "components")
      (pre ++ (entries ++ [shorthandEntry name]) ++ post) = true := by
    rw [lacks_append, lacks_append, Bool.and_eq_true, Bool.and_eq_true] at hoption
    rw [lacks_append, lacks_append, lacks_append, lacks_cons,
      shorthandEntry_lacks name "components" hname, hoption.1.1, hoption.1.2, hoption.2]
    rfl
  have hfound : find
      (programOf stmts (pre ++ componentsOption (entries ++ [shorthandEntry name]) :: post))
      [[0, 0, stmts.length, 0, 0, pre.length]] "Property" (hasKeyNamed name)
      = [[0, 0, stmts.length, 0, 0, pre.length] ++ [1, 0] ++ [entries.length]] := by
    rw [find_local _ _ _ _ _ (getAt_property stmts pre post _)]
    have hmid := findKids_middle "Property" (hasKeyNamed name) entries [] (shorthandEntry name)
      [1, 0] hentry rfl
    simp only [List.map_nil] at hmid
    simp only [componentsOption, objProp, assocIn, property, identifier, objectExpression, array,
      List.foldl_nil, Node.kids, findFrom, findKids, List.nil_append, List.cons_append,
      List.map_append, List.map_cons, List.map_nil, hmid]
    simp [shorthandEntry, objProp, assocIn, property, identifier, findFrom, findKids,
      hasKeyNamed, Node.kid, Node.kids, Node.attr, Node.attrs, Node.setAttr, setField,
      Node.type, List.lookup]
  have hremove : remove
      (programOf stmts (pre ++ componentsOption (entries ++ [shorthandEntry name]) :: post))
      [[0, 0, stmts.length, 0, 0, pre.length] ++ [1, 0] ++ [entries.length]]
      = programOf stmts (pre ++ componentsOption entries :: post) := by
    have hrem := remove_single _ _ "[]" [] _ entries.length
      (getAt_entries stmts pre post (entries ++ [shorthandEntry name]))
    have hlen : entries.length = (entries.map (fun e => ("", e))).length := by simp
    rw [List.map_append, List.map_cons, List.map_nil] at hrem
    nth_rewrite 1 [hlen] at hrem
    rw [eraseIdx_concat] at hrem
    have hrep := replaceAt_entries stmts pre post (entries ++ [shorthandEntry name]) entries
    simp only [array] at hrep
    rw [hrep] at hrem
    exact (Option.some.inj hrem).symm
  have hrelocate : relocateAll
      [[0, 0, stmts.length, 0, 0, pre.length] ++ [1, 0] ++ [entries.length]]
      [[0, 0, stmts.length, 0, 0, pre.length]] = [[0, 0, stmts.length, 0, 0, pre.length]] := by
    have := relocate_short
      [[0, 0, stmts.length, 0, 0, pre.length] ++ [1, 0] ++ [entries.length]] 6
      (by simp) [0, 0, stmts.length, 0, 0, pre.length] (by simp)
    simp only [relocateAll, List.filterMap_cons, List.filterMap_nil, this]
  unfold removeFromOption
  rw [option_present stmts pre post _ hexport hoption']
  simp only [hfound, hremove, hrelocate]
  rw [find_local _ _ _ _ _ (getAt_property stmts pre post (componentsOption entries))]
  cases entries with
  | nil =>
      have hrem := remove_single (programOf stmts (pre ++ componentsOption [] :: post))
        [0, 0, stmts.length, 0, 0] "[]" [] _ pre.length
        (getAt_properties stmts (pre ++ componentsOption [] :: post))
      have hlen : pre.length = (pre.map (fun e => ("", e))).length := by simp
      rw [List.map_append, List.map_cons] at hrem
      nth_rewrite 1 [hlen] at hrem
      rw [List.eraseIdx_append_of_length_le (Nat.le_refl _)] at hrem
      simp only [Nat.sub_self, List.eraseIdx_cons_zero] at hrem
      have hrep := replaceAt_properties stmts (pre ++ componentsOption [] :: post) (pre ++ post)
      simp only [array, List.map_append] at hrep
      rw [hrep] at hrem
      simp only [List.cons_append, List.nil_append] at hrem
      have hnone : findKids "Property" (fun _ => true) [] 0 (componentsOption []).kids = [] := by
        simp [componentsOption, objProp, assocIn, property, identifier, objectExpression, array,
          Node.kids, findFrom, findKids]
      simp only [hnone, List.map_nil, List.length_nil, beq_self_eq_true, if_true,
        Bool.false_eq_true, if_false, List.isEmpty_nil, ← Option.some.inj hrem]
  | cons e rest =>
      have he : e.type = "Property" := hprops e (List.mem_cons_self _ _)
      obtain ⟨t, a, kids⟩ := e
      simp only [Node.type] at he
      subst he
      simp [componentsOption, objProp, assocIn, property, identifier, objectExpression, array,
        Node.kids, findFrom, findKids]

/-! ## Import and deport of a component -/

/-- The text of the import statement for a path `src<mid>/<name>.<ext>`. -/
theorem importText_srcPath (mid name ext : List Char)
    (hname : '/' ∉ name ∧ '.' ∉ name) (hext : '/' ∉ ext) :
    importText (srcPath mid name ext)
      = "import " ++ String.mk name ++ " from \x27" ++ aliasedPath mid name ext ++ "\x27;" := by
  have hcmp : componentName (srcPath mid name ext) = String.mk name :=
    componentName_path ('s' :: 'r' :: 'c' :: mid) name ext hname hext
  have hrep : replaceFirst "src".data "@".data (srcPath mid name ext).data
      = (aliasedPath mid name ext).data := by
    simp [srcPath, aliasedPath, replaceFirst]
  unfold importText
  rw [hcmp, hrep]

theorem componentsOption_lacks_import (name : String) (entries : List Node)
    (h : lacks "ImportDefaultSpecifier" (hasLocalNamed name) entries = true) :
    allNodes (fun m => !(m.type == "ImportDefaultSpecifier" && hasLocalNamed name m))
      (componentsOption (entries ++ [shorthandEntry name])) = true := by
  have hshort : allNodes (fun m => !(m.type == "ImportDefaultSpecifier" && hasLocalNamed name m))
      (shorthandEntry name) = true := by
    simp [shorthandEntry, objProp, assocIn, property, identifier, allNodes, allKids, Node.type,
      Node.setAttr]
  have hall : lacks "ImportDefaultSpecifier" (hasLocalNamed name)
      (entries ++ [shorthandEntry name]) = true := by
    rw [lacks_append, lacks_cons, h, hshort]
    rfl
  unfold lacks at hall
  simp only [componentsOption, objProp, assocIn, property, identifier, objectExpression, array,
    allNodes, allKids, List.foldl_nil, hall]
  rfl

/-- The method `deportComponent` after `importComponent`: on a script whose
first statement is the import of the name and whose option `components` ends
with the shorthand entry of the name, both are taken out, and the option with
them when no entry is left. -/
theorem deportComponent_imported (stmts pre post entries : List Node) (name source : String)
    (hname : name ≠ "components")
    (hexport : lacks "ExportDefaultDeclaration" (fun _ => true) stmts = true)
    (himports : lacks "ImportDefaultSpecifier" (hasLocalNamed name)
      (stmts ++ pre ++ entries ++ post) = true)
    (hoption : lacks "Identifier" (isIdentifierNamed "components") (pre ++ entries ++ post) = true)
    (hentry : lacks "Property" (hasKeyNamed name) entries = true)
    (hprops : ∀ e ∈ entries, e.type = "Property") :
    deportComponent
        (programOf (importDeclaration name source :: stmts)
          (pre ++ componentsOption (entries ++ [shorthandEntry name]) :: post)) name
      = some (programOf stmts
          (if entries.isEmpty then pre ++ post else pre ++ componentsOption entries :: post)) := by
  rw [lacks_append, lacks_append, lacks_append, Bool.and_eq_true, Bool.and_eq_true,
    Bool.and_eq_true] at himports
  obtain ⟨⟨⟨h1, h2⟩, h3⟩, h4⟩ := himports
  have hprops2 : lacks "ImportDefaultSpecifier" (hasLocalNamed name)
      (pre ++ componentsOption (entries ++ [shorthandEntry name]) :: post) = true := by
    rw [lacks_append, lacks_cons, h2, componentsOption_lacks_import name entries h3, h4]
    rfl
  unfold deportComponent
  simp only [remove_import stmts _ name source h1 hprops2]
  exact removeFromOption_last stmts pre post entries name hexport hoption hname hentry hprops

/-- C33. For a path `src<mid>/<name>.<ext>` (the name without slash and dot,
the extension without slash, the name not `components`) whose import statement
the parser gives as the import declaration of `<name>` from `@<mid>/<name>.<ext>`,
on a script `<statements> export default { <properties> }` that has no default
export among the statements, no default import of the name, the option
`components` found by its own key, no entry of the name in it yet, and
properties as its entries: the text of the import statement is
`import <name> from '@<mid>/<name>.<ext>';`; `importComponent(path)` returns,
puts the declaration before the first statement and the shorthand entry
`<name>` behind the entries of `components`, making the option behind the
properties when it is absent; `deportComponent(<name>)` on the result returns
and takes out both again, and the option with them when no entry is left. -/
theorem C33_importComponent_then_deportComponent (g : ScriptGrammar)
    (stmts pre post entries : List Node) (mid name ext : List Char)
    (hname : '/' ∉ name ∧ '.' ∉ name) (hext : '/' ∉ ext)
    (hcomponents : String.mk name ≠ "components")
    (hparse : parse g (importText (srcPath mid name ext))
      = some (importDeclaration (String.mk name) (aliasedPath mid name ext)))
    (hexport : lacks "ExportDefaultDeclaration" (fun _ => true) stmts = true)
    (himports : lacks "ImportDefaultSpecifier" (hasLocalNamed (String.mk name))
      (stmts ++ pre ++ entries ++ post) = true)
    (hoption : lacks "Identifier" (isIdentifierNamed "components") (pre ++ entries ++ post) = true)
    (hentry : lacks "Property" (hasKeyNamed (String.mk name)) entries = true)
    (hprops : ∀ e ∈ entries, e.type = "Property") :
    importText (srcPath mid name ext)
      = "import " ++ String.mk name ++ " from \x27" ++ aliasedPath mid name ext ++ "\x27;"
    ∧ importComponent g (programOf stmts (pre ++ componentsOption entries :: post))
        (srcPath mid name ext)
      = some (programOf
          (importDeclaration (String.mk name) (aliasedPath mid name ext) :: stmts)
          (pre ++ componentsOption (entries ++ [shorthandEntry (String.mk name)]) :: post))
    ∧ deportComponent
        (programOf (importDeclaration (String.mk name) (aliasedPath mid name ext) :: stmts)
          (pre ++ componentsOption (entries ++ [shorthandEntry (String.mk name)]) :: post))
        (String.mk name)
      = some (programOf stmts
          (if entries.isEmpty then pre ++ post else pre ++ componentsOption entries :: post))
    ∧ importComponent g (programOf stmts pre) (srcPath mid name ext)
      = some (programOf
          (importDeclaration (String.mk name) (aliasedPath mid name ext) :: stmts)
          (pre ++ [componentsOption [shorthandEntry (String.mk name)]]))
    ∧ deportComponent
        (programOf (importDeclaration (String.mk name) (aliasedPath mid name ext) :: stmts)
          (pre ++ [componentsOption [shorthandEntry (String.mk name)]]))
        (String.mk name)
      = some (programOf stmts pre) := by
  have hcmp : componentName (srcPath mid name ext) = String.mk name :=
    componentName_path ('s' :: 'r' :: 'c' :: mid) name ext hname hext
  have hstmt : allNodes (fun m => !(m.type == "ExportDefaultDeclaration" && true))
      (importDeclaration (String.mk name) (aliasedPath mid name ext)) = true := by
    simp [importDeclaration, identifier, literal, array, allNodes, allKids, Node.type]
  have hsplit := himports
  rw [lacks_append, lacks_append, lacks_append, Bool.and_eq_true, Bool.and_eq_true,
    Bool.and_eq_true] at hsplit
  have hsplit2 := hoption
  rw [lacks_append, lacks_append, Bool.and_eq_true, Bool.and_eq_true] at hsplit2
  refine ⟨importText_srcPath mid name ext hname hext, ?_, ?_, ?_, ?_⟩
  · have := importComponent_present g stmts pre post entries (srcPath mid name ext) _ hparse
      hstmt hexport hoption
    rw [hcmp] at this
    exact this
  · exact deportComponent_imported stmts pre post entries _ _ hcomponents hexport himports
      hoption hentry hprops
  · have := importComponent_absent g stmts pre (srcPath mid name ext) _ hparse hstmt hexport
      hsplit2.1.1
    rw [hcmp] at this
    exact this
  · have := deportComponent_imported stmts pre [] [] (String.mk name)
      (aliasedPath mid name ext) hcomponents hexport
      (by
        rw [lacks_append, lacks_append, lacks_append, hsplit.1.1.1, hsplit.1.1.2]
        rfl)
      (by
        rw [lacks_append, lacks_append, hsplit2.1.1]
        rfl)
      rfl (by simp)
    simpa using this

/-- The repo's test of the import, behind a script that imports and registers
another component: `importComponent('src/components/FooCmp.vue')` and
`deportComponent('FooCmp')` on
`import Bar from '@/Bar.vue'; export default { name: 'x', components: { Bar } }`,
and on `import Bar from '@/Bar.vue'; export default { name: 'x' }`. -/
theorem C33_witness :
    importText (srcPath "/components".data "FooCmp".data "vue".data)
      = "import " ++ String.mk "FooCmp".data ++ " from \x27"
          ++ aliasedPath "/components".data "FooCmp".data "vue".data ++ "\x27;"
    ∧ importComponent importStatementGrammar
        (programOf [importDeclaration "Bar" "@/Bar.vue"]
          ([objProp "name" (literal (.str "x")) []]
            ++ componentsOption [shorthandEntry "Bar"] :: []))
        (srcPath "/components".data "FooCmp".data "vue".data)
      = some (programOf
          (importDeclaration (String.mk "FooCmp".data)
              (aliasedPath "/components".data "FooCmp".data "vue".data)
            :: [importDeclaration "Bar" "@/Bar.vue"])
          ([objProp "name" (literal (.str "x")) []]
            ++ componentsOption
                ([shorthandEntry "Bar"] ++ [shorthandEntry (String.mk "FooCmp".data)]) :: []))
    ∧ deportComponent
        (programOf
          (importDeclaration (String.mk "FooCmp".data)
              (aliasedPath "/components".data "FooCmp".data "vue".data)
            :: [importDeclaration "Bar" "@/Bar.vue"])
          ([objProp "name" (literal (.str "x")) []]
            ++ componentsOption
                ([shorthandEntry "Bar"] ++ [shorthandEntry (String.mk "FooCmp".data)]) :: []))
        (String.mk "FooCmp".data)
      = some (programOf [importDeclaration "Bar" "@/Bar.vue"]
          (if [shorthandEntry "Bar"].isEmpty then [objProp "name" (literal (.str "x")) []] ++ []
           else [objProp "name" (literal (.str "x")) []]
             ++ componentsOption [shorthandEntry "Bar"] :: []))
    ∧ importComponent importStatementGrammar
        (programOf [importDeclaration "Bar" "@/Bar.vue"] [objProp "name" (literal (.str "x")) []])
        (srcPath "/components".data "FooCmp".data "vue".data)
      = some (programOf
          (importDeclaration (String.mk "FooCmp".data)
              (aliasedPath "/components".data "FooCmp".data "vue".data)
            :: [importDeclaration "Bar" "@/Bar.vue"])
          ([objProp "name" (literal (.str "x")) []]
            ++ [componentsOption [shorthandEntry (String.mk "FooCmp".data)]]))
    ∧ deportComponent
        (programOf
          (importDeclaration (String.mk "FooCmp".data)
              (aliasedPath "/components".data "FooCmp".data "vue".data)
            :: [importDeclaration "Bar" "@/Bar.vue"])
          ([objProp "name" (literal (.str "x")) []]
            ++ [componentsOption [shorthandEntry (String.mk "FooCmp".data)]]))
        (String.mk "FooCmp".data)
      = some (programOf [importDeclaration "Bar" "@/Bar.vue"]
          [objProp "name" (literal (.str "x")) []]) :=
  C33_importComponent_then_deportComponent importStatementGrammar
    [importDeclaration "Bar" "@/Bar.vue"] [objProp "name" (literal (.str "x")) []] []
    [shorthandEntry "Bar"] "/components".data "FooCmp".data "vue".data
    (by decide) (by decide) (by decide) (by decide) (by decide) (by decide) (by decide)
    (by decide) (by decide)

/-! ## The parent references after a push -/

/-- On the two files of `linkedFiles` the operations on the node objects leave
the trees that the operations on places leave: the object model adds the
parent references and changes nothing else. -/
theorem linked_agrees_with_places :
    (pushAboveSlotLinked linkedFiles 2 [.node 4]).map
        (fun h => (HNode.list [reify h 10 (.node 0)], HNode.list [reify h 10 (.node 4)]))
      = pushAboveSlot (.list [reify linkedFiles 10 (.node 0)]) [0, 1, 1]
          (.list [reify linkedFiles 10 (.node 4)])
    ∧ (pushBelowSlotLinked linkedFiles 2 [.node 4]).map
        (fun h => (HNode.list [reify h 10 (.node 0)], HNode.list [reify h 10 (.node 4)]))
      = pushBelowSlot (.list [reify linkedFiles 10 (.node 0)]) [0, 1, 1]
          (.list [reify linkedFiles 10 (.node 4)])
    ∧ (pushAroundSlotLinked linkedFiles 2 [.node 4]).map
        (fun h => (HNode.list [reify h 10 (.node 0)], HNode.list [reify h 10 (.node 4)]))
      = pushAroundSlot (.list [reify linkedFiles 10 (.node 0)]) [0, 1, 1]
          (.list [reify linkedFiles 10 (.node 4)])
    ∧ (pushIntoSlotLinked linkedFiles 2 [.node 4]).map
        (fun h => (HNode.list [reify h 10 (.node 0)], HNode.list [reify h 10 (.node 4)]))
      = pushIntoSlot (.list [reify linkedFiles 10 (.node 0)]) [0, 1, 1]
          (.list [reify linkedFiles 10 (.node 4)])
    ∧ (pushIntoNewSlotLinked linkedFiles 2 "named" [.node 4]).map
        (fun h => (HNode.list [reify h 10 (.node 0)], HNode.list [reify h 10 (.node 4)]))
      = pushIntoNewSlot (.list [reify linkedFiles 10 (.node 0)]) [0, 1, 1] "named"
          (.list [reify linkedFiles 10 (.node 4)]) :=
  ⟨rfl, rfl, rfl, rfl, rfl⟩

/-- C36 (the code departs from the claim). In the two files of `linkedFiles`
every node that stands in the content of a node has that node as its parent.
After each of the five operations on the node `span` of the source that no
longer holds. After `pushAboveSlot` the copy (address 7) stands in the content
of the `div` of the host (address 5) and has the parent of the original, the
`MyDiv` of the source (address 1), and its child `b` still has the original as
parent; after `pushAroundSlot` the copy has the `div` as parent, but the slot
that is its content still has the `div` as parent too, and the child `b`, now
in the content of `MyDiv`, still has the emptied `span`; after
`pushIntoNewSlot` the new slot node (address 7) in the content of the `div`
has no parent. -/
theorem C36_push_operations_leave_stale_parents :
    parentsLinked linkedFiles [.node 0, .node 4] = true
    ∧ (pushAboveSlotLinked linkedFiles 2 [.node 4]).map
        (fun h => parentsLinked h [.node 0, .node 4]) = some false
    ∧ (pushBelowSlotLinked linkedFiles 2 [.node 4]).map
        (fun h => parentsLinked h [.node 0, .node 4]) = some false
    ∧ (pushAroundSlotLinked linkedFiles 2 [.node 4]).map
        (fun h => parentsLinked h [.node 0, .node 4]) = some false
    ∧ (pushIntoSlotLinked linkedFiles 2 [.node 4]).map
        (fun h => parentsLinked h [.node 0, .node 4]) = some false
    ∧ (pushIntoNewSlotLinked linkedFiles 2 "named" [.node 4]).map
        (fun h => parentsLinked h [.node 0, .node 4]) = some false
    ∧ (pushAboveSlotLinked linkedFiles 2 [.node 4]).map
        (fun h => ((h[5]?).bind (fun obj => obj.content), (h[7]?).map (fun obj => obj.parent),
          (h[7]?).bind (fun obj => obj.content), (h[3]?).map (fun obj => obj.parent)))
      = some (some [.text "\n    ", .node 7, .text "\n    ", .node 6, .text "\n"],
          some (some 1), some [.node 3], some (some 2))
    ∧ (pushAroundSlotLinked linkedFiles 2 [.node 4]).map
        (fun h => ((h[5]?).bind (fun obj => obj.content), (h[7]?).map (fun obj => obj.parent),
          (h[7]?).bind (fun obj => obj.content), (h[6]?).map (fun obj => obj.parent),
          (h[1]?).bind (fun obj => obj.content), (h[3]?).map (fun obj => obj.parent)))
      = some (some [.text "\n    ", .node 7, .text "\n"], some (some 5), some [.node 6],
          some (some 5), some [.text "\n    ", .node 3, .text "\n"], some (some 2))
    ∧ (pushIntoNewSlotLinked linkedFiles 2 "named" [.node 4]).map
        (fun h => ((h[5]?).bind (fun obj => obj.content), (h[7]?).map (fun obj => obj.parent)))
      = some (some [.text "\n    ", .node 6, .text "\n    ", .node 7, .text "\n"],
          some none) := by
  refine ⟨?_, ?_, ?_, ?_, ?_, ?_, ?_, ?_, ?_⟩ <;> first | decide | rfl

end VueAstEditor
